import Mathlib

/-!
# OpenVDB sparse tree: root node and leaf-level morphology

A shallow embedding of `openvdb/tree/RootNode.h` and `openvdb/tools/Morphology.h`.

* The root table `std::map<Coord, NodeStruct>` is a key-ordered association list.
* The child node type `ChildT` (an `InternalNode`, whose source is not part of the
  embedded files) is a parameter: `ChildOps` lists the member functions the root
  calls, and small `Prop`-valued structures state the contract each proof relies on.
* `DenseChild` is a concrete child (a dense 2x2x2 cube) that satisfies every contract;
  it is used to instantiate the theorems on concrete trees.
-/

set_option linter.unusedSectionVars false
set_option linter.unusedVariables false

namespace OpenVDB

/-! ## Coord and CoordBBox -/

/-- Signed integer triple `openvdb::Coord`. Components are mathematical integers; the
32-bit range is stated explicitly where it matters. -/
structure Coord where
  x : Int
  y : Int
  z : Int
deriving DecidableEq, Repr

namespace Coord

/-- Lexicographic order of `Coord::operator<`, the key order of the root table. -/
def lt (a b : Coord) : Bool :=
  decide (a.x < b.x) || (decide (a.x = b.x) &&
    (decide (a.y < b.y) || (decide (a.y = b.y) && decide (a.z < b.z))))

/-- Componentwise translation, `Coord::offsetBy(dx, dy, dz)`. -/
def offsetBy (c : Coord) (dx dy dz : Int) : Coord := ⟨c.x + dx, c.y + dy, c.z + dz⟩

/-- The test `Coord::lessThan(a, b)`: true when some component of `a` is smaller than
the corresponding component of `b`. -/
def lessThan (a b : Coord) : Bool :=
  decide (a.x < b.x) || decide (a.y < b.y) || decide (a.z < b.z)

/-- Componentwise minimum, `Coord::minComponent`. -/
def minComponent (a b : Coord) : Coord := ⟨min a.x b.x, min a.y b.y, min a.z b.z⟩

end Coord

/-- Inclusive axis-aligned box `CoordBBox(min, max)`. -/
structure CoordBBox where
  min : Coord
  max : Coord
deriving DecidableEq, Repr

namespace CoordBBox

/-- The test `CoordBBox::empty()`: some component of `min` exceeds that of `max`. -/
def empty (b : CoordBBox) : Bool :=
  decide (b.min.x > b.max.x) || decide (b.min.y > b.max.y) || decide (b.min.z > b.max.z)

/-- The test `CoordBBox::isInside(xyz)`: the point lies in the inclusive box. -/
def isInside (b : CoordBBox) (p : Coord) : Bool :=
  decide (b.min.x ≤ p.x) && decide (p.x ≤ b.max.x) &&
  decide (b.min.y ≤ p.y) && decide (p.y ≤ b.max.y) &&
  decide (b.min.z ≤ p.z) && decide (p.z ≤ b.max.z)

end CoordBBox

/-! ## Root table entries -/

/-- The struct `RootNode::Tile`: a constant value and an active flag. -/
structure Tile (V : Type) where
  value : V
  active : Bool
deriving DecidableEq, Repr

/-- The struct `RootNode::NodeStruct`. The C++ struct holds a child pointer and a tile and
is a child entry exactly when the pointer is non-null; every reader tests `isChild` or
`isTile` first, so the entry is embedded as the corresponding sum. -/
inductive NodeStruct (V C : Type) where
  | child (c : C) : NodeStruct V C
  | tile (t : Tile V) : NodeStruct V C

namespace NodeStruct

variable {V C : Type}

/-- The test `NodeStruct::isChild`. -/
def isChild : NodeStruct V C → Bool
  | child _ => true
  | tile _ => false

/-- The test `NodeStruct::isTile`. -/
def isTile : NodeStruct V C → Bool
  | child _ => false
  | tile _ => true

/-- The test `NodeStruct::isTileOff`. -/
def isTileOff : NodeStruct V C → Bool
  | child _ => false
  | tile t => !t.active

/-- The test `NodeStruct::isTileOn`. -/
def isTileOn : NodeStruct V C → Bool
  | child _ => false
  | tile t => t.active

end NodeStruct

/-! ## The ordered table -/

/-- The type `RootNode::MapType`, a `std::map<Coord, NodeStruct>`, as an association list
that the operations below keep sorted by `Coord.lt`. -/
abbrev MapType (V C : Type) := List (Coord × NodeStruct V C)

namespace MapType

variable {V C : Type}

/-- Lookup `mTable.find(key)`; `none` stands for `mTable.end()`. -/
def find : MapType V C → Coord → Option (NodeStruct V C)
  | [], _ => none
  | (k, n) :: rest, key => if k = key then some n else find rest key

/-- Assignment `mTable[key] = n`: replaces the entry of an existing key, otherwise inserts
the entry at its place in the key order. -/
def assign : MapType V C → Coord → NodeStruct V C → MapType V C
  | [], key, n => [(key, n)]
  | (k, m) :: rest, key, n =>
    if k = key then (key, n) :: rest
    else if Coord.lt key k then (key, n) :: (k, m) :: rest
    else (k, m) :: assign rest key n

/-- Assignment of one entry, `mTable[e.first] = e.second`. -/
def assignEntry (t : MapType V C) (e : Coord × NodeStruct V C) : MapType V C :=
  t.assign e.1 e.2

/-- Removal `mTable.erase(key)`. -/
def erase : MapType V C → Coord → MapType V C
  | [], _ => []
  | (k, m) :: rest, key => if k = key then rest else (k, m) :: erase rest key

/-- Insertion `mTable.insert(value_type(key, n))`: a key that is present keeps its
entry. -/
def insert (t : MapType V C) (key : Coord) (n : NodeStruct V C) : MapType V C :=
  match t.find key with
  | some _ => t
  | none => t.assign key n

/-- Invariant of `std::map`: the entries are strictly increasing in the key order. -/
def WF (t : MapType V C) : Prop := t.Pairwise (fun a b => Coord.lt a.1 b.1 = true)

/-- The keys of the table in iteration order. -/
def keys (t : MapType V C) : List Coord := t.map Prod.fst

end MapType

/-! ## Machine integers -/

/-- Two's-complement value of a 32-bit `int` after an addition that may overflow. -/
def wrap32 (a : Int) : Int := (a + 2 ^ 31) % 2 ^ 32 - 2 ^ 31

/-- Coordinates that fit the signed 32-bit type `Int32`. -/
def Coord.inRange (c : Coord) : Prop :=
  (-(2 : Int) ^ 31 ≤ c.x ∧ c.x < 2 ^ 31) ∧ (-(2 : Int) ^ 31 ≤ c.y ∧ c.y < 2 ^ 31) ∧
  (-(2 : Int) ^ 31 ≤ c.z ∧ c.z < 2 ^ 31)

/-! ## The child node type -/

/-- Largest multiple of `2^n` not above `a`: the value of `a & ~((1 << n) - 1)` on
two's-complement integers. -/
def alignDown (a : Int) (n : Nat) : Int := a - a % (2 : Int) ^ n

/-- Member functions of the child node type `ChildT` that the root node calls. The child
type is a template parameter of `RootNode` and its source is not among the embedded
files, so it is taken as a parameter. -/
structure ChildOps (V : Type) where
  /-- The node type `ChildT`. -/
  Child : Type
  /-- The constant `ChildT::TOTAL`: log2 of the side `ChildT::DIM` of a child cube. -/
  TOTAL : Nat
  /-- The constant `ChildT::LEVEL`. -/
  LEVEL : Nat
  /-- The list appended by `ChildT::getNodeLog2Dims`. -/
  log2Dims : List Nat
  /-- Constructor `ChildT(xyz, value, active)`. -/
  make : Coord → V → Bool → Child
  /-- Accessor `getOrigin`. -/
  origin : Child → Coord
  /-- Member `getValue(xyz)`. -/
  getValue : Child → Coord → V
  /-- Member `isValueOn(xyz)`. -/
  isValueOn : Child → Coord → Bool
  /-- Member `setValueOn(xyz, value)`. -/
  setValueOn : Child → Coord → V → Child
  /-- Member `fill(bbox, value, active)`. -/
  fill : Child → CoordBBox → V → Bool → Child
  /-- Member `setValuesOn()`. -/
  setValuesOn : Child → Child

namespace ChildOps

variable {V : Type}

/-- The constant `ChildT::DIM = 1 << TOTAL`. -/
def DIM (ops : ChildOps V) : Int := (2 : Int) ^ ops.TOTAL

end ChildOps

/-- Member functions of the child node type that take a child of another tree, whose
value type may differ (`OtherChildType`). -/
structure TopologyOps {V W : Type} (ops : ChildOps V) (oops : ChildOps W) where
  /-- Constructor `ChildT(other, background, TopologyCopy())`. -/
  topologyCopy : oops.Child → V → ops.Child
  /-- Member `topologyUnion(other)`. -/
  topologyUnion : ops.Child → oops.Child → ops.Child
  /-- Member `hasSameTopology(other)`. -/
  hasSameTopology : ops.Child → oops.Child → Bool

/-- Operations of the value type `ValueType` used by the root node (`math::isApproxEqual`
with the default and with an explicit tolerance, `negative`, `zeroVal`, `operator<`).
Exact equality `math::isExactlyEqual` is the decidable equality of the type. -/
structure ValueOps (V : Type) where
  zeroVal : V
  negative : V → V
  isApproxEqual : V → V → Bool
  isApproxEqualTol : V → V → V → Bool
  lt : V → V → Bool

/-- The pruning functors of `tree/Util.h` applied to a child node. A call `op(child)`
prunes the child in place and reports whether it is now constant; when it is, the functor
holds the tile value and state. The result is the pruned child and the optional tile. -/
structure PruneOps {V : Type} (ops : ChildOps V) where
  /-- The call `TolerancePrune<ValueType>(tolerance)(child)`. -/
  tolerancePrune : V → ops.Child → ops.Child × Option (Tile V)

/-- One item of a serialised stream, as the reader consumes it: a value of the tree's value
type, an `Index`, a coordinate triple or a `bool`; or the first bytes of a value, an `Index`
or a coordinate triple after which the stream ends. An incomplete item is given by what
`std::istream::read` makes of the destination when it stores the bytes that arrived over
its previous contents. A `bool` is one byte and has no incomplete form. -/
inductive Tok (V : Type) where
  | value (v : V) : Tok V
  | index (n : Nat) : Tok V
  | coord (c : Coord) : Tok V
  | bool (b : Bool) : Tok V
  | partValue (f : V → V) : Tok V
  | partIndex (f : Nat → Nat) : Tok V
  | partCoord (f : Coord → Coord) : Tok V

/-- An input stream `std::istream`: the items still to be read, in the order and with the
kinds in which the reader asks for them, and the fail bit. A read that finds a complete item
takes it. A read that finds an incomplete item stores the bytes that arrived in its
destination, reaches the end of the stream and sets the fail bit. A read at the end of the
stream sets the fail bit and leaves its destination as it was, and so does a read that
finds an item of another kind, which the bytes of a stream taken in the order of the reads
never are. No read is attempted once the fail bit is set. -/
structure IStream (V : Type) where
  data : List (Tok V)
  fail : Bool

namespace IStream

variable {V : Type}

/-- Read of one value, `is.read(&x, sizeof(ValueType))`, into a destination holding `old`. -/
def readValue (s : IStream V) (old : V) : V × IStream V :=
  if s.fail = true then (old, s)
  else match s.data with
    | .value v :: rest => (v, ⟨rest, false⟩)
    | .partValue f :: _ => (f old, ⟨[], true⟩)
    | _ => (old, ⟨s.data, true⟩)

/-- Read of one `Index`. -/
def readIndex (s : IStream V) (old : Nat) : Nat × IStream V :=
  if s.fail = true then (old, s)
  else match s.data with
    | .index n :: rest => (n, ⟨rest, false⟩)
    | .partIndex f :: _ => (f old, ⟨[], true⟩)
    | _ => (old, ⟨s.data, true⟩)

/-- Read of three `Int32`. -/
def readCoord (s : IStream V) (old : Coord) : Coord × IStream V :=
  if s.fail = true then (old, s)
  else match s.data with
    | .coord c :: rest => (c, ⟨rest, false⟩)
    | .partCoord f :: _ => (f old, ⟨[], true⟩)
    | _ => (old, ⟨s.data, true⟩)

/-- Read of one `bool`. -/
def readBool (s : IStream V) (old : Bool) : Bool × IStream V :=
  if s.fail = true then (old, s)
  else match s.data with
    | .bool b :: rest => (b, ⟨rest, false⟩)
    | _ => (old, ⟨s.data, true⟩)

end IStream

/-- Stream members of the child node type, for `toHalf = false` and `fromHalf = false`. -/
structure IOOps {V : Type} (ops : ChildOps V) where
  /-- Member `writeTopology(os)`: the items written. -/
  writeTopology : ops.Child → List (Tok V)
  /-- Member `readTopology(is)` on an existing node. -/
  readTopology : ops.Child → IStream V → ops.Child × IStream V
  /-- Member `writeBuffers(os)`: the items written. -/
  writeBuffers : ops.Child → List (Tok V)
  /-- Member `readBuffers(is)` on an existing node. -/
  readBuffers : ops.Child → IStream V → ops.Child × IStream V

/-- Members of the child node type used by `RootNode::signedFloodFill`. -/
structure FloodOps {V : Type} (ops : ChildOps V) where
  /-- Member `signedFloodFill(outside, inside)`. -/
  signedFloodFill : ops.Child → V → V → ops.Child
  /-- Member `getFirstValue()`. -/
  getFirstValue : ops.Child → V
  /-- Member `getLastValue()`. -/
  getLastValue : ops.Child → V

/-- Member `getValueLevel(xyz)` of the child node type: the level of the node that holds
the value of the voxel. -/
structure LevelOps {V : Type} (ops : ChildOps V) where
  getValueLevel : ops.Child → Coord → Nat

/-- Member `merge(other, otherBackground, background)` of the child node type: the child
after the other child was merged into it. -/
structure MergeOps {V : Type} (ops : ChildOps V) where
  merge : ops.Child → ops.Child → V → V → ops.Child

/-- Voxel counting of the child node type: the constant `ChildT::NUM_VOXELS` and the member
`onVoxelCount()`, both of type `Index64`. -/
structure CountOps {V : Type} (ops : ChildOps V) where
  NUM_VOXELS : Nat
  onVoxelCount : ops.Child → Nat

/-- Member `resetBackground(oldBackground, newBackground)` of the child node type. -/
structure BackgroundOps {V : Type} (ops : ChildOps V) where
  resetBackground : ops.Child → V → V → ops.Child

/-- Members of the child node type that write the value or the active state of one voxel
without touching the other. -/
structure StateOps {V : Type} (ops : ChildOps V) where
  /-- Member `setValueOnly(xyz, value)`. -/
  setValueOnly : ops.Child → Coord → V → ops.Child
  /-- Member `setActiveState(xyz, on)`. -/
  setActiveState : ops.Child → Coord → Bool → ops.Child
  /-- Member `setValueOff(xyz)`. -/
  setValueOff : ops.Child → Coord → ops.Child

/-- Constructor `ChildT(other, background, foreground, TopologyCopy())` of the child node
type, from a child of another tree whose value type may differ. -/
structure ForegroundCopyOps {V W : Type} (ops : ChildOps V) (oops : ChildOps W) where
  topologyCopy : oops.Child → V → V → ops.Child

/-- Further members of the child node type that write or probe one voxel. The result of
`probeValue` is the returned state together with the value stored through the reference
argument; the result of `touchLeaf` is the node after the call and the returned leaf
pointer. -/
structure WriteOps {V : Type} (ops : ChildOps V) where
  /-- The type `LeafNodeType*`. -/
  LeafPtr : Type
  /-- Member `probeValue(xyz, value)`. -/
  probeValue : ops.Child → Coord → Bool × V
  /-- Member `setValueOff(xyz, value)`. -/
  setValueOff : ops.Child → Coord → V → ops.Child
  /-- Member `setValueOnMin(xyz, value)`. -/
  setValueOnMin : ops.Child → Coord → V → ops.Child
  /-- Member `setValueOnMax(xyz, value)`. -/
  setValueOnMax : ops.Child → Coord → V → ops.Child
  /-- Member `setValueOnSum(xyz, addend)`. -/
  setValueOnSum : ops.Child → Coord → V → ops.Child
  /-- Member `touchLeaf(xyz)`. -/
  touchLeaf : ops.Child → Coord → ops.Child × LeafPtr
  /-- Member `voxelizeActiveTiles()`. -/
  voxelizeActiveTiles : ops.Child → ops.Child

/-- The accessor type `AccessorT` with its member `insert(xyz, node)`, and the members of
the child node type that take an accessor. Each of them returns its result together with
the accessor after the call. -/
structure CacheOps {V : Type} (ops : ChildOps V) (wops : WriteOps ops) where
  /-- The type `AccessorT`. -/
  Accessor : Type
  /-- Member `AccessorT::insert(xyz, node)`. -/
  insert : Accessor → Coord → ops.Child → Accessor
  /-- Member `getValueAndCache(xyz, acc)`. -/
  getValueAndCache : ops.Child → Coord → Accessor → V × Accessor
  /-- Member `isValueOnAndCache(xyz, acc)`. -/
  isValueOnAndCache : ops.Child → Coord → Accessor → Bool × Accessor
  /-- Member `probeValueAndCache(xyz, value, acc)`. -/
  probeValueAndCache : ops.Child → Coord → Accessor → (Bool × V) × Accessor
  /-- Member `getValueLevelAndCache(xyz, acc)`. -/
  getValueLevelAndCache : ops.Child → Coord → Accessor → Nat × Accessor
  /-- Member `setValueAndCache(xyz, value, acc)`. -/
  setValueAndCache : ops.Child → Coord → V → Accessor → ops.Child × Accessor
  /-- Member `setValueOnlyAndCache(xyz, value, acc)`. -/
  setValueOnlyAndCache : ops.Child → Coord → V → Accessor → ops.Child × Accessor
  /-- Member `setValueOffAndCache(xyz, value, acc)`. -/
  setValueOffAndCache : ops.Child → Coord → V → Accessor → ops.Child × Accessor
  /-- Member `setValueOnSumAndCache(xyz, addend, acc)`. -/
  setValueOnSumAndCache : ops.Child → Coord → V → Accessor → ops.Child × Accessor
  /-- Member `setActiveStateAndCache(xyz, on, acc)`. -/
  setActiveStateAndCache : ops.Child → Coord → Bool → Accessor → ops.Child × Accessor
  /-- Member `touchLeafAndCache(xyz, acc)`. -/
  touchLeafAndCache : ops.Child → Coord → Accessor → (ops.Child × wops.LeafPtr) × Accessor

/-- The functor `InactivePrune<ValueType>(bg)` of `tree/Util.h` applied to a child node: the
child as the functor leaves it and, when the functor reports a constant node, the tile it
holds. -/
structure InactivePruneOps {V : Type} (ops : ChildOps V) where
  inactivePrune : V → ops.Child → ops.Child × Option (Tile V)

/-- Members of the child node type used by `combine`. The functor takes the value and the
active state of the two operands and gives the value and the active state of the result
(spec 4.6). `combineChild` is the node after `child.combine(otherChild, op)`. -/
structure CombineOps {V : Type} (ops : ChildOps V) where
  /-- Member `combine(value, valueIsActive, op)`. -/
  combineTile : ops.Child → V → Bool → (V → Bool → V → Bool → V × Bool) → ops.Child
  /-- Member `combine(other, op)`. -/
  combineChild : ops.Child → ops.Child → (V → Bool → V → Bool → V × Bool) → ops.Child
  /-- Member `prune()`, with the default tolerance. -/
  prune : ops.Child → ops.Child

/-- Leaf bookkeeping of the child node type: the null pointer of type `LeafNodeType*` and
the members `probeLeaf(xyz)` and `leafCount()`, the latter of type `Index32`. -/
structure LeafOps {V : Type} (ops : ChildOps V) (wops : WriteOps ops) where
  /-- The pointer `NULL`. -/
  null : wops.LeafPtr
  /-- Member `probeLeaf(xyz)`. -/
  probeLeaf : ops.Child → Coord → wops.LeafPtr
  /-- Member `leafCount()`. -/
  leafCount : ops.Child → Nat

/-- The box `CoordBBox::createCube(min, dim)`: the cube of side `dim` whose smallest corner
is `min`. -/
def CoordBBox.createCube (min : Coord) (dim : Int) : CoordBBox :=
  ⟨min, min.offsetBy (dim - 1) (dim - 1) (dim - 1)⟩

/-- One step of `visitActiveBBox` at a node: the functor is called with a box at the level
of the node (`op.operator()<LEVEL>(bbox)`), or the visit goes on inside a child
(`child.visitActiveBBox(op)`). -/
inductive VisitCall (C : Type) where
  | box : CoordBBox → VisitCall C
  | descend : C → VisitCall C

/-- Errors thrown by the root node. -/
inductive Error where
  | typeError : Error
deriving DecidableEq, Repr

/-- The key function `RootNode::coordToKey`: `xyz & ~(ChildType::DIM - 1)`. -/
def coordToKey {V : Type} (ops : ChildOps V) (xyz : Coord) : Coord :=
  ⟨alignDown xyz.x ops.TOTAL, alignDown xyz.y ops.TOTAL, alignDown xyz.z ops.TOTAL⟩

/-! ## The root node -/

/-- The class `RootNode<ChildT>`: the table and the background value. -/
structure RootNode (V : Type) (ops : ChildOps V) where
  mTable : MapType V ops.Child
  mBackground : V

namespace RootNode

variable {V : Type} [DecidableEq V] {ops : ChildOps V}

/-- Constructor `RootNode(background)`: an empty table. -/
def new (ops : ChildOps V) (background : V) : RootNode V ops := ⟨[], background⟩

/-- Lookup `findCoord(xyz)`. -/
def findCoord (r : RootNode V ops) (xyz : Coord) : Option (NodeStruct V ops.Child) :=
  r.mTable.find (coordToKey ops xyz)

/-- Member `RootNode::getValue`. -/
def getValue (r : RootNode V ops) (xyz : Coord) : V :=
  match r.findCoord xyz with
  | none => r.mBackground
  | some (.tile t) => t.value
  | some (.child c) => ops.getValue c xyz

/-- Member `RootNode::isValueOn`. -/
def isValueOn (r : RootNode V ops) (xyz : Coord) : Bool :=
  match r.findCoord xyz with
  | none => false
  | some (.tile t) => t.active
  | some (.child c) => ops.isValueOn c xyz

/-- Member `RootNode::setValueOn`. A child reached through the table is updated in place,
which is the assignment of the updated child to its key. -/
def setValueOn (r : RootNode V ops) (xyz : Coord) (value : V) : RootNode V ops :=
  let key := coordToKey ops xyz
  match r.mTable.find key with
  | none =>
    let child := ops.make xyz r.mBackground false
    ⟨r.mTable.assign key (.child (ops.setValueOn child xyz value)), r.mBackground⟩
  | some (.child c) =>
    ⟨r.mTable.assign key (.child (ops.setValueOn c xyz value)), r.mBackground⟩
  | some (.tile t) =>
    if t.active = false ∨ t.value ≠ value then
      let child := ops.make xyz t.value t.active
      ⟨r.mTable.assign key (.child (ops.setValueOn child xyz value)), r.mBackground⟩
    else r

/-- Lookup-or-insert `findOrAddCoord(xyz)`: inserts an inactive background tile when the
key is absent; the returned iterator is represented by its key. -/
def findOrAddCoord (r : RootNode V ops) (xyz : Coord) : RootNode V ops × Coord :=
  let key := coordToKey ops xyz
  (⟨r.mTable.insert key (.tile ⟨r.mBackground, false⟩), r.mBackground⟩, key)

/-- Body of the innermost loop of `RootNode::fill` at the voxel `xyz`; returns the new
root and the value left in the local `tileMax`. -/
def fillBody (r : RootNode V ops) (bbox : CoordBBox) (value : V) (active : Bool)
    (xyz : Coord) : RootNode V ops × Coord :=
  let tileMin := coordToKey ops xyz
  let tileMax := tileMin.offsetBy (ops.DIM - 1) (ops.DIM - 1) (ops.DIM - 1)
  if xyz ≠ tileMin ∨ Coord.lessThan bbox.max tileMax = true then
    let sub : CoordBBox := ⟨xyz, Coord.minComponent bbox.max tileMax⟩
    match r.mTable.find tileMin with
    | none =>
      let child := ops.make xyz r.mBackground false
      (⟨r.mTable.assign tileMin (.child (ops.fill child sub value active)), r.mBackground⟩,
        tileMax)
    | some (.tile t) =>
      let child := ops.make xyz t.value t.active
      (⟨r.mTable.assign tileMin (.child (ops.fill child sub value active)), r.mBackground⟩,
        tileMax)
    | some (.child c) =>
      (⟨r.mTable.assign tileMin (.child (ops.fill c sub value active)), r.mBackground⟩,
        tileMax)
  else
    let it := r.findOrAddCoord tileMin
    (⟨it.1.mTable.assign it.2 (.tile ⟨value, active⟩), it.1.mBackground⟩, tileMax)

/-- The loop `for (int z = ...; z <= bbox.max().z(); z = tileMax.z() + 1)` of
`RootNode::fill`, started at `z` with the state (root, tileMax); the `int` increment wraps
modulo 2^32. `none` means the fuel ran out before the loop condition failed. -/
def fillLoopZ (bbox : CoordBBox) (value : V) (active : Bool) (x y : Int) :
    Nat → Int → RootNode V ops × Coord → Option (RootNode V ops × Coord)
  | 0, z, st => if z ≤ bbox.max.z then none else some st
  | fuel + 1, z, st =>
    if z ≤ bbox.max.z then
      let st1 := fillBody st.1 bbox value active ⟨x, y, z⟩
      fillLoopZ bbox value active x y fuel (wrap32 (st1.2.z + 1)) st1
    else some st

/-- The loop over `y` of `RootNode::fill`; each iteration runs the `z` loop from
`bbox.min().z()`. -/
def fillLoopY (bbox : CoordBBox) (value : V) (active : Bool) (fuelZ : Nat) (x : Int) :
    Nat → Int → RootNode V ops × Coord → Option (RootNode V ops × Coord)
  | 0, y, st => if y ≤ bbox.max.y then none else some st
  | fuel + 1, y, st =>
    if y ≤ bbox.max.y then
      match fillLoopZ bbox value active x y fuelZ bbox.min.z st with
      | none => none
      | some st1 => fillLoopY bbox value active fuelZ x fuel (wrap32 (st1.2.y + 1)) st1
    else some st

/-- The loop over `x` of `RootNode::fill`; each iteration runs the `y` loop from
`bbox.min().y()`. -/
def fillLoopX (bbox : CoordBBox) (value : V) (active : Bool) (fuelZ : Nat) :
    Nat → Int → RootNode V ops × Coord → Option (RootNode V ops × Coord)
  | 0, x, st => if x ≤ bbox.max.x then none else some st
  | fuel + 1, x, st =>
    if x ≤ bbox.max.x then
      match fillLoopY bbox value active fuelZ x fuelZ bbox.min.y st with
      | none => none
      | some st1 => fillLoopX bbox value active fuelZ fuel (wrap32 (st1.2.x + 1)) st1
    else some st

/-- The entry that one iteration of `RootNode::fill` at the voxel `xyz` leaves at the key of
`xyz`, given the entry `old` found there: the tile `(value, active)` when the rest of the
box encloses the whole cube, otherwise the existing child, or a child built from the old
tile or from the inactive background, filled over the clipped box. -/
def fillEntry (ops : ChildOps V) (bg : V) (bbox : CoordBBox) (value : V) (active : Bool)
    (old : Option (NodeStruct V ops.Child)) (xyz : Coord) : NodeStruct V ops.Child :=
  let tileMin := coordToKey ops xyz
  let tileMax := tileMin.offsetBy (ops.DIM - 1) (ops.DIM - 1) (ops.DIM - 1)
  if xyz ≠ tileMin ∨ Coord.lessThan bbox.max tileMax = true then
    let sub : CoordBBox := ⟨xyz, Coord.minComponent bbox.max tileMax⟩
    match old with
    | none => .child (ops.fill (ops.make xyz bg false) sub value active)
    | some (.tile t) => .child (ops.fill (ops.make xyz t.value t.active) sub value active)
    | some (.child c) => .child (ops.fill c sub value active)
  else .tile ⟨value, active⟩

/-- Member `RootNode::fill`, with `fuel` bounding the iterations of each of the three
loops; `none` means a loop did not finish within the fuel. -/
def fill (r : RootNode V ops) (bbox : CoordBBox) (value : V) (active : Bool) (fuel : Nat) :
    Option (RootNode V ops) :=
  if bbox.empty = true then some r
  else (fillLoopX bbox value active fuel fuel bbox.min.x (r, ⟨0, 0, 0⟩)).map Prod.fst

/-- Member `RootNode::isBackgroundTile`: an inactive tile whose value is approximately the
background. -/
def isBackgroundTile (vops : ValueOps V) (r : RootNode V ops) (e : NodeStruct V ops.Child) :
    Bool :=
  match e with
  | .child _ => false
  | .tile t => !t.active && vops.isApproxEqual t.value r.mBackground

/-- Member `RootNode::numBackgroundTiles`. -/
def numBackgroundTiles (vops : ValueOps V) (r : RootNode V ops) : Nat :=
  (r.mTable.filter (fun i => r.isBackgroundTile vops i.2)).length

/-- Member `RootNode::eraseBackgroundTiles`: the keys of the background tiles are collected
in iteration order, then erased one by one; returns the new root and the number of
collected keys. -/
def eraseBackgroundTiles (vops : ValueOps V) (r : RootNode V ops) : RootNode V ops × Nat :=
  let keysToErase := (r.mTable.filter (fun i => r.isBackgroundTile vops i.2)).map Prod.fst
  (⟨keysToErase.foldl MapType.erase r.mTable, r.mBackground⟩, keysToErase.length)

/-- One iteration of the loop of `RootNode::pruneOp`: a child for which the functor
reports a constant node is replaced by the tile held by the functor; otherwise the entry
keeps the child as the functor left it. -/
def pruneEntry (op : ops.Child → ops.Child × Option (Tile V))
    (i : Coord × NodeStruct V ops.Child) : Coord × NodeStruct V ops.Child :=
  match i.2 with
  | .tile t => (i.1, .tile t)
  | .child c =>
    match op c with
    | (c1, none) => (i.1, .child c1)
    | (_, some t) => (i.1, .tile t)

/-- Member `RootNode::pruneOp`: the loop over the table, then `eraseBackgroundTiles`. -/
def pruneOp (vops : ValueOps V) (op : ops.Child → ops.Child × Option (Tile V))
    (r : RootNode V ops) : RootNode V ops :=
  (eraseBackgroundTiles vops ⟨r.mTable.map (pruneEntry op), r.mBackground⟩).1

/-- Member `RootNode::prune(tolerance)`. -/
def prune (vops : ValueOps V) (pops : PruneOps ops) (r : RootNode V ops) (tolerance : V) :
    RootNode V ops :=
  pruneOp vops (pops.tolerancePrune tolerance) r

/-- Static member `RootNode::getNodeLog2Dims`: 0 for the root, then the child levels. -/
def getNodeLog2Dims (ops : ChildOps V) : List Nat := 0 :: ops.log2Dims

/-- Static member `RootNode::hasSameConfiguration`. -/
def hasSameConfiguration {W : Type} (ops : ChildOps V) (oops : ChildOps W) : Bool :=
  decide (getNodeLog2Dims ops = getNodeLog2Dims oops)

/-- Static member `RootNode::enforceSameConfiguration`: throws `TypeError` when the
dimension lists differ. -/
def enforceSameConfiguration {W : Type} (ops : ChildOps V) (oops : ChildOps W) :
    Except Error Unit :=
  if getNodeLog2Dims ops ≠ getNodeLog2Dims oops then .error .typeError else .ok ()

/-- Member `RootNode::getTileCount`; the counter is a 32-bit `Index`. -/
def getTileCount (r : RootNode V ops) : Nat :=
  (r.mTable.filter (fun i => i.2.isTile)).length % 2 ^ 32

/-- Member `RootNode::getChildCount`; the counter is a 32-bit `Index`. -/
def getChildCount (r : RootNode V ops) : Nat :=
  (r.mTable.filter (fun i => i.2.isChild)).length % 2 ^ 32

/-- Items written for one tile by the first loop of `writeTopology`. -/
def writeTile (i : Coord × NodeStruct V ops.Child) : List (Tok V) :=
  match i.2 with
  | .child _ => []
  | .tile t => [.coord i.1, .value t.value, .bool t.active]

/-- Items written for one child by the second loop of `writeTopology`. -/
def writeChild (iops : IOOps ops) (i : Coord × NodeStruct V ops.Child) : List (Tok V) :=
  match i.2 with
  | .tile _ => []
  | .child c => .coord i.1 :: iops.writeTopology c

/-- Member `RootNode::writeTopology` with `toHalf = false`: the items written and the
returned flag. -/
def writeTopology (iops : IOOps ops) (r : RootNode V ops) : List (Tok V) × Bool :=
  let header : List (Tok V) :=
    [.value r.mBackground, .index r.getTileCount, .index r.getChildCount]
  if r.getTileCount = 0 ∧ r.getChildCount = 0 then (header, false)
  else (header ++ (r.mTable.map writeTile).flatten ++ (r.mTable.map (writeChild iops)).flatten, true)

/-- Member `RootNode::writeBuffers` with `toHalf = false`. -/
def writeBuffers (iops : IOOps ops) (r : RootNode V ops) : List (Tok V) :=
  (r.mTable.map (fun i =>
    match i.2 with
    | .child c => iops.writeBuffers c
    | .tile _ => [])).flatten

/-- State of the loops of `readTopology`: the table, the stream and the locals `vec`,
`value` and `active`. -/
structure ReadState (V : Type) (ops : ChildOps V) where
  table : MapType V ops.Child
  is : IStream V
  vec : Coord
  value : V
  active : Bool

/-- The loop `for (Index n = 0; n < numTiles; ++n)` of `readTopology`. -/
def readTiles : Nat → ReadState V ops → ReadState V ops
  | 0, st => st
  | n + 1, st =>
    let r1 := st.is.readCoord st.vec
    let r2 := r1.2.readValue st.value
    let r3 := r2.2.readBool st.active
    readTiles n ⟨st.table.assign r1.1 (.tile ⟨r2.1, r3.1⟩), r3.2, r1.1, r2.1, r3.1⟩

/-- The loop `for (Index n = 0; n < numChildren; ++n)` of `readTopology`. -/
def readChildren (iops : IOOps ops) (bg : V) : Nat → ReadState V ops → ReadState V ops
  | 0, st => st
  | n + 1, st =>
    let r1 := st.is.readCoord st.vec
    let child := iops.readTopology (ops.make r1.1 bg false) r1.2
    readChildren iops bg n ⟨st.table.assign r1.1 (.child child.1), child.2, r1.1, st.value,
      st.active⟩

/-- Member `RootNode::readTopology` for a stream in the current format, with
`fromHalf = false`. The locals `vec`, `value` and `active` are uninitialised in the source;
their initial contents are the argument `junk`. Returns the root, the stream and the
returned flag. -/
def readTopology (iops : IOOps ops) (r : RootNode V ops) (is : IStream V)
    (junk : Coord × V × Bool) : RootNode V ops × IStream V × Bool :=
  let b := is.readValue r.mBackground
  let nt := b.2.readIndex 0
  let nc := nt.2.readIndex 0
  if nt.1 = 0 ∧ nc.1 = 0 then (⟨[], b.1⟩, nc.2, false)
  else
    let st1 := readTiles nt.1 (⟨[], nc.2, junk.1, junk.2.1, junk.2.2⟩ : ReadState V ops)
    let st2 := readChildren iops b.1 nc.1 st1
    (⟨st2.table, b.1⟩, st2.is, true)

/-- The loop of `RootNode::readBuffers` over the entries of the table. -/
def readBuffersLoop (iops : IOOps ops) :
    MapType V ops.Child → IStream V → MapType V ops.Child × IStream V
  | [], is => ([], is)
  | (k, .tile t) :: rest, is =>
    let out := readBuffersLoop iops rest is
    ((k, .tile t) :: out.1, out.2)
  | (k, .child c) :: rest, is =>
    let c1 := iops.readBuffers c is
    let out := readBuffersLoop iops rest c1.2
    ((k, .child c1.1) :: out.1, out.2)

/-- Member `RootNode::readBuffers` with `fromHalf = false`. -/
def readBuffers (iops : IOOps ops) (r : RootNode V ops) (is : IStream V) :
    RootNode V ops × IStream V :=
  let out := readBuffersLoop iops r.mTable is
  (⟨out.1, r.mBackground⟩, out.2)

/-- One iteration of the first loop of `RootNode::hasSameTopology`, on the copy of the other
table; `none` stands for `return false`. -/
def sameTopologyStep {W : Type} {oops : ChildOps W} (vops : ValueOps V)
    (tops : TopologyOps ops oops) (r : RootNode V ops) (other : RootNode W oops)
    (copy : Option (MapType W oops.Child)) (i : Coord × NodeStruct V ops.Child) :
    Option (MapType W oops.Child) :=
  match copy with
  | none => none
  | some cp =>
    if r.isBackgroundTile vops i.2 = true then some cp
    else
      match other.mTable.find i.1, i.2 with
      | none, _ => none
      | some (.tile _), .child _ => none
      | some (.child oc), .child c =>
        if tops.hasSameTopology c oc = true then some (cp.erase i.1) else none
      | some (.child _), .tile _ => none
      | some (.tile ot), .tile t => if t.active ≠ ot.active then none else some (cp.erase i.1)

/-- Member `RootNode::hasSameTopology`. -/
def hasSameTopology {W : Type} {oops : ChildOps W} (vops : ValueOps V) (wops : ValueOps W)
    (tops : TopologyOps ops oops) (r : RootNode V ops) (other : RootNode W oops) : Bool :=
  if hasSameConfiguration ops oops = false then false
  else
    match r.mTable.foldl (sameTopologyStep vops tops r other) (some other.mTable) with
    | none => false
    | some cp => cp.all (fun i => other.isBackgroundTile wops i.2)

/-- One iteration of the loop of `RootNode::topologyUnion` over the entries of the other
table. -/
def topologyUnionStep {W : Type} {oops : ChildOps W} (tops : TopologyOps ops oops)
    (r : RootNode V ops) (i : Coord × NodeStruct W oops.Child) : RootNode V ops :=
  match i.2 with
  | .child oc =>
    match r.mTable.find i.1 with
    | none =>
      ⟨r.mTable.assign i.1 (.child (tops.topologyCopy oc r.mBackground)), r.mBackground⟩
    | some (.child c) =>
      ⟨r.mTable.assign i.1 (.child (tops.topologyUnion c oc)), r.mBackground⟩
    | some (.tile t) =>
      let child := tops.topologyCopy oc t.value
      let child1 := if t.active = true then ops.setValuesOn child else child
      ⟨r.mTable.assign i.1 (.child child1), r.mBackground⟩
  | .tile ot =>
    if ot.active = true then
      match r.mTable.find i.1 with
      | none => ⟨r.mTable.assign i.1 (.tile ⟨r.mBackground, true⟩), r.mBackground⟩
      | some (.child c) => ⟨r.mTable.assign i.1 (.child (ops.setValuesOn c)), r.mBackground⟩
      | some (.tile t) =>
        if t.active = false then ⟨r.mTable.assign i.1 (.tile ⟨t.value, true⟩), r.mBackground⟩
        else r
    else r

/-- Member `RootNode::topologyUnion`: the configuration check, then the loop over the
entries of the other table in key order. -/
def topologyUnion {W : Type} {oops : ChildOps W} (tops : TopologyOps ops oops)
    (r : RootNode V ops) (other : RootNode W oops) : Except Error (RootNode V ops) :=
  match enforceSameConfiguration ops oops with
  | .error e => .error e
  | .ok _ => .ok (other.mTable.foldl (topologyUnionStep tops) r)

/-- Member `RootNode::clear`, that is `clearTable`: the children are deleted and the table
is emptied. -/
def clear (r : RootNode V ops) : RootNode V ops := ⟨[], r.mBackground⟩

/-- Member `RootNode::getTableSize`; the result is a 32-bit `Index`. -/
def getTableSize (r : RootNode V ops) : Nat := r.mTable.length % 2 ^ 32

/-- Member `RootNode::empty`: the table holds background tiles only. -/
def empty (vops : ValueOps V) (r : RootNode V ops) : Bool :=
  decide (r.mTable.length = r.numBackgroundTiles vops)

/-- Member `RootNode::onVoxelCount`; the sum is a 64-bit `Index64`. -/
def onVoxelCount (cops : CountOps ops) (r : RootNode V ops) : Nat :=
  r.mTable.foldl (fun sum i =>
    match i.2 with
    | .child c => (sum + cops.onVoxelCount c) % 2 ^ 64
    | .tile t => if t.active = true then (sum + cops.NUM_VOXELS) % 2 ^ 64 else sum) 0

/-- One iteration of the loop of `RootNode::merge` over the entries of the other table:
a child of the other tree is stolen into an absent key or over a tile, or merged into the
child that is there; a tile of the other tree is copied into an absent key only. -/
def mergeStep (mops : MergeOps ops) (otherBackground : V) (r : RootNode V ops)
    (i : Coord × NodeStruct V ops.Child) : RootNode V ops :=
  match i.2 with
  | .child oc =>
    match r.mTable.find i.1 with
    | none => ⟨r.mTable.assign i.1 (.child oc), r.mBackground⟩
    | some (.tile _) => ⟨r.mTable.assign i.1 (.child oc), r.mBackground⟩
    | some (.child c) =>
      ⟨r.mTable.assign i.1 (.child (mops.merge c oc otherBackground r.mBackground)),
        r.mBackground⟩
  | .tile ot =>
    match r.mTable.find i.1 with
    | none => ⟨r.mTable.assign i.1 (.tile ot), r.mBackground⟩
    | some _ => r

/-- Member `RootNode::merge(other)`: the loop over the entries of the other table, then
`other.clear()`. The result is this root and the other root after the call. -/
def merge (mops : MergeOps ops) (r other : RootNode V ops) : RootNode V ops × RootNode V ops :=
  (other.mTable.foldl (mergeStep mops other.mBackground) r, other.clear)

/-- Body of the loop of `RootNode::setBackground` for one tile: active tiles are skipped;
an inactive tile whose value is approximately the old background takes the new one, and
otherwise one whose value is approximately the negative of the old background takes the
negative of the new one. -/
def setBackgroundTile (vops : ValueOps V) (old background : V) (t : Tile V) : Tile V :=
  if t.active = true then t
  else if vops.isApproxEqual t.value old = true then ⟨background, t.active⟩
  else if vops.isApproxEqual t.value (vops.negative old) = true then
    ⟨vops.negative background, t.active⟩
  else t

/-- Member `RootNode::setBackground`. -/
def setBackground (vops : ValueOps V) (bops : BackgroundOps ops) (r : RootNode V ops)
    (background : V) : RootNode V ops :=
  if background = r.mBackground then r
  else
    ⟨r.mTable.map fun i =>
      match i.2 with
      | .child c => (i.1, .child (bops.resetBackground c r.mBackground background))
      | .tile t => (i.1, .tile (setBackgroundTile vops r.mBackground background t)),
     background⟩

/-- Member `RootNode::setValueOnly`. The constructor `ChildT(xyz, mBackground)` builds an
inactive node. -/
def setValueOnly (sops : StateOps ops) (r : RootNode V ops) (xyz : Coord) (value : V) :
    RootNode V ops :=
  let key := coordToKey ops xyz
  match r.mTable.find key with
  | none =>
    let child := ops.make xyz r.mBackground false
    ⟨r.mTable.assign key (.child (sops.setValueOnly child xyz value)), r.mBackground⟩
  | some (.child c) =>
    ⟨r.mTable.assign key (.child (sops.setValueOnly c xyz value)), r.mBackground⟩
  | some (.tile t) =>
    if t.value ≠ value then
      let child := ops.make xyz t.value t.active
      ⟨r.mTable.assign key (.child (sops.setValueOnly child xyz value)), r.mBackground⟩
    else r

/-- Member `RootNode::setActiveState`. -/
def setActiveState (sops : StateOps ops) (r : RootNode V ops) (xyz : Coord) (flag : Bool) :
    RootNode V ops :=
  let key := coordToKey ops xyz
  match r.mTable.find key with
  | none =>
    if flag = true then
      let child := ops.make xyz r.mBackground false
      ⟨r.mTable.assign key (.child (sops.setActiveState child xyz flag)), r.mBackground⟩
    else r
  | some (.child c) =>
    ⟨r.mTable.assign key (.child (sops.setActiveState c xyz flag)), r.mBackground⟩
  | some (.tile t) =>
    if flag ≠ t.active then
      let child := ops.make xyz t.value (!flag)
      ⟨r.mTable.assign key (.child (sops.setActiveState child xyz flag)), r.mBackground⟩
    else r

/-- Member `RootNode::setValueOff(xyz)`, the overload without a value. -/
def setValueOff (sops : StateOps ops) (r : RootNode V ops) (xyz : Coord) : RootNode V ops :=
  let key := coordToKey ops xyz
  match r.mTable.find key with
  | none => r
  | some (.child c) => ⟨r.mTable.assign key (.child (sops.setValueOff c xyz)), r.mBackground⟩
  | some (.tile t) =>
    if t.active = true then
      let child := ops.make xyz t.value true
      ⟨r.mTable.assign key (.child (sops.setValueOff child xyz)), r.mBackground⟩
    else r

/-- The entry that the topology-copy constructor stores for one entry of the other table:
the foreground tile for an active tile, the background tile for an inactive tile, and the
topology copy of a child. -/
def topologyCopyEntry {W : Type} {oops : ChildOps W} (fcops : ForegroundCopyOps ops oops)
    (backgd foregd : V) (i : Coord × NodeStruct W oops.Child) :
    Coord × NodeStruct V ops.Child :=
  match i.2 with
  | .tile t => (i.1, .tile (if t.active = true then ⟨foregd, true⟩ else ⟨backgd, false⟩))
  | .child c => (i.1, .child (fcops.topologyCopy c backgd foregd))

/-- Constructor `RootNode(other, background, foreground, TopologyCopy())`: the
configuration check, then one assignment `mTable[i->first] = ...` per entry of the other
table. -/
def topologyCopy {W : Type} {oops : ChildOps W} (fcops : ForegroundCopyOps ops oops)
    (other : RootNode W oops) (backgd foregd : V) : Except Error (RootNode V ops) :=
  match enforceSameConfiguration ops oops with
  | .error e => .error e
  | .ok _ =>
    .ok ⟨(other.mTable.map (topologyCopyEntry fcops backgd foregd)).foldl
      MapType.assignEntry [], backgd⟩

/-- The call `this->topologyUnion(other)` as a step on this root: the root after the call
and the exception that left it, if any. `enforceSameConfiguration` throws before the loop
has touched the table. -/
def topologyUnionInPlace {W : Type} {oops : ChildOps W} (tops : TopologyOps ops oops)
    (r : RootNode V ops) (other : RootNode W oops) : RootNode V ops × Option Error :=
  match enforceSameConfiguration ops oops with
  | .error e => (r, some e)
  | .ok _ => (other.mTable.foldl (topologyUnionStep tops) r, none)

/-- The constant `RootNode::LEVEL = 1 + ChildType::LEVEL`. -/
def LEVEL (ops : ChildOps V) : Nat := 1 + ops.LEVEL

/-- Member `RootNode::getValueDepth`. -/
def getValueDepth (lops : LevelOps ops) (r : RootNode V ops) (xyz : Coord) : Int :=
  match r.findCoord xyz with
  | none => -1
  | some (.tile _) => 0
  | some (.child c) => (LEVEL ops : Int) - (lops.getValueLevel c xyz : Int)

/-- Member `RootNode::probeValue`: the returned state and the value stored in `value`. -/
def probeValue (wops : WriteOps ops) (r : RootNode V ops) (xyz : Coord) : Bool × V :=
  match r.findCoord xyz with
  | none => (false, r.mBackground)
  | some (.child c) => wops.probeValue c xyz
  | some (.tile t) => (t.active, t.value)

/-- Member `RootNode::setValueOff(xyz, value)`, the overload with a value. -/
def setValueOffValue (wops : WriteOps ops) (r : RootNode V ops) (xyz : Coord) (value : V) :
    RootNode V ops :=
  let key := coordToKey ops xyz
  match r.mTable.find key with
  | none =>
    if r.mBackground ≠ value then
      let child := ops.make xyz r.mBackground false
      ⟨r.mTable.assign key (.child (wops.setValueOff child xyz value)), r.mBackground⟩
    else r
  | some (.child c) =>
    ⟨r.mTable.assign key (.child (wops.setValueOff c xyz value)), r.mBackground⟩
  | some (.tile t) =>
    if t.active = true ∨ t.value ≠ value then
      let child := ops.make xyz t.value t.active
      ⟨r.mTable.assign key (.child (wops.setValueOff child xyz value)), r.mBackground⟩
    else r

/-- Member `RootNode::setValueOnMin`; `value < tile` is the test `getTile(iter).value > value`. -/
def setValueOnMin (vops : ValueOps V) (wops : WriteOps ops) (r : RootNode V ops) (xyz : Coord)
    (value : V) : RootNode V ops :=
  let key := coordToKey ops xyz
  match r.mTable.find key with
  | none =>
    let child := ops.make xyz r.mBackground false
    ⟨r.mTable.assign key (.child (wops.setValueOnMin child xyz value)), r.mBackground⟩
  | some (.child c) =>
    ⟨r.mTable.assign key (.child (wops.setValueOnMin c xyz value)), r.mBackground⟩
  | some (.tile t) =>
    if t.active = false ∨ vops.lt value t.value = true then
      let child := ops.make xyz t.value t.active
      ⟨r.mTable.assign key (.child (wops.setValueOnMin child xyz value)), r.mBackground⟩
    else r

/-- Member `RootNode::setValueOnMax`. -/
def setValueOnMax (vops : ValueOps V) (wops : WriteOps ops) (r : RootNode V ops) (xyz : Coord)
    (value : V) : RootNode V ops :=
  let key := coordToKey ops xyz
  match r.mTable.find key with
  | none =>
    let child := ops.make xyz r.mBackground false
    ⟨r.mTable.assign key (.child (wops.setValueOnMax child xyz value)), r.mBackground⟩
  | some (.child c) =>
    ⟨r.mTable.assign key (.child (wops.setValueOnMax c xyz value)), r.mBackground⟩
  | some (.tile t) =>
    if t.active = false ∨ vops.lt t.value value = true then
      let child := ops.make xyz t.value t.active
      ⟨r.mTable.assign key (.child (wops.setValueOnMax child xyz value)), r.mBackground⟩
    else r

/-- Member `RootNode::setValueOnSum`; `isZero` is `math::isZero` of the value type. -/
def setValueOnSum (wops : WriteOps ops) (isZero : V → Bool) (r : RootNode V ops) (xyz : Coord)
    (addend : V) : RootNode V ops :=
  let key := coordToKey ops xyz
  match r.mTable.find key with
  | none =>
    let child := ops.make xyz r.mBackground false
    ⟨r.mTable.assign key (.child (wops.setValueOnSum child xyz addend)), r.mBackground⟩
  | some (.child c) =>
    ⟨r.mTable.assign key (.child (wops.setValueOnSum c xyz addend)), r.mBackground⟩
  | some (.tile t) =>
    if t.active = false ∨ isZero addend = false then
      let child := ops.make xyz t.value t.active
      ⟨r.mTable.assign key (.child (wops.setValueOnSum child xyz addend)), r.mBackground⟩
    else r

/-- Member `RootNode::touchLeaf`: the root after the call and the returned leaf pointer. -/
def touchLeaf (wops : WriteOps ops) (r : RootNode V ops) (xyz : Coord) :
    RootNode V ops × wops.LeafPtr :=
  let key := coordToKey ops xyz
  let child : ops.Child :=
    match r.mTable.find key with
    | none => ops.make xyz r.mBackground false
    | some (.child c) => c
    | some (.tile t) => ops.make xyz t.value t.active
  let u := wops.touchLeaf child xyz
  (⟨r.mTable.assign key (.child u.1), r.mBackground⟩, u.2)

section Cache

variable {wops : WriteOps ops}

/-- Member `RootNode::getValueAndCache`. -/
def getValueAndCache (cops : CacheOps ops wops) (r : RootNode V ops) (xyz : Coord)
    (acc : cops.Accessor) : V × cops.Accessor :=
  match r.findCoord xyz with
  | none => (r.mBackground, acc)
  | some (.child c) => cops.getValueAndCache c xyz (cops.insert acc xyz c)
  | some (.tile t) => (t.value, acc)

/-- Member `RootNode::isValueOnAndCache`. -/
def isValueOnAndCache (cops : CacheOps ops wops) (r : RootNode V ops) (xyz : Coord)
    (acc : cops.Accessor) : Bool × cops.Accessor :=
  match r.findCoord xyz with
  | none => (false, acc)
  | some (.tile t) => (t.active, acc)
  | some (.child c) => cops.isValueOnAndCache c xyz (cops.insert acc xyz c)

/-- Member `RootNode::probeValueAndCache`. -/
def probeValueAndCache (cops : CacheOps ops wops) (r : RootNode V ops) (xyz : Coord)
    (acc : cops.Accessor) : (Bool × V) × cops.Accessor :=
  match r.findCoord xyz with
  | none => ((false, r.mBackground), acc)
  | some (.child c) => cops.probeValueAndCache c xyz (cops.insert acc xyz c)
  | some (.tile t) => ((t.active, t.value), acc)

/-- Member `RootNode::getValueDepthAndCache`. -/
def getValueDepthAndCache (cops : CacheOps ops wops) (r : RootNode V ops) (xyz : Coord)
    (acc : cops.Accessor) : Int × cops.Accessor :=
  match r.findCoord xyz with
  | none => (-1, acc)
  | some (.tile _) => (0, acc)
  | some (.child c) =>
    let u := cops.getValueLevelAndCache c xyz (cops.insert acc xyz c)
    ((LEVEL ops : Int) - (u.1 : Int), u.2)

/-- Member `RootNode::setValueAndCache`. -/
def setValueAndCache (cops : CacheOps ops wops) (r : RootNode V ops) (xyz : Coord)
    (value : V) (acc : cops.Accessor) : RootNode V ops × cops.Accessor :=
  let key := coordToKey ops xyz
  match r.mTable.find key with
  | none =>
    let child := ops.make xyz r.mBackground false
    let u := cops.setValueAndCache child xyz value (cops.insert acc xyz child)
    (⟨r.mTable.assign key (.child u.1), r.mBackground⟩, u.2)
  | some (.child c) =>
    let u := cops.setValueAndCache c xyz value (cops.insert acc xyz c)
    (⟨r.mTable.assign key (.child u.1), r.mBackground⟩, u.2)
  | some (.tile t) =>
    if t.active = false ∨ t.value ≠ value then
      let child := ops.make xyz t.value t.active
      let u := cops.setValueAndCache child xyz value (cops.insert acc xyz child)
      (⟨r.mTable.assign key (.child u.1), r.mBackground⟩, u.2)
    else (r, acc)

/-- Member `RootNode::setValueOnlyAndCache`. -/
def setValueOnlyAndCache (cops : CacheOps ops wops) (r : RootNode V ops) (xyz : Coord)
    (value : V) (acc : cops.Accessor) : RootNode V ops × cops.Accessor :=
  let key := coordToKey ops xyz
  match r.mTable.find key with
  | none =>
    let child := ops.make xyz r.mBackground false
    let u := cops.setValueOnlyAndCache child xyz value (cops.insert acc xyz child)
    (⟨r.mTable.assign key (.child u.1), r.mBackground⟩, u.2)
  | some (.child c) =>
    let u := cops.setValueOnlyAndCache c xyz value (cops.insert acc xyz c)
    (⟨r.mTable.assign key (.child u.1), r.mBackground⟩, u.2)
  | some (.tile t) =>
    if t.value ≠ value then
      let child := ops.make xyz t.value t.active
      let u := cops.setValueOnlyAndCache child xyz value (cops.insert acc xyz child)
      (⟨r.mTable.assign key (.child u.1), r.mBackground⟩, u.2)
    else (r, acc)

/-- Member `RootNode::setValueOffAndCache`. -/
def setValueOffAndCache (cops : CacheOps ops wops) (r : RootNode V ops) (xyz : Coord)
    (value : V) (acc : cops.Accessor) : RootNode V ops × cops.Accessor :=
  let key := coordToKey ops xyz
  match r.mTable.find key with
  | none =>
    if r.mBackground ≠ value then
      let child := ops.make xyz r.mBackground false
      let u := cops.setValueOffAndCache child xyz value (cops.insert acc xyz child)
      (⟨r.mTable.assign key (.child u.1), r.mBackground⟩, u.2)
    else (r, acc)
  | some (.child c) =>
    let u := cops.setValueOffAndCache c xyz value (cops.insert acc xyz c)
    (⟨r.mTable.assign key (.child u.1), r.mBackground⟩, u.2)
  | some (.tile t) =>
    if t.active = true ∨ t.value ≠ value then
      let child := ops.make xyz t.value t.active
      let u := cops.setValueOffAndCache child xyz value (cops.insert acc xyz child)
      (⟨r.mTable.assign key (.child u.1), r.mBackground⟩, u.2)
    else (r, acc)

/-- Member `RootNode::setValueOnSumAndCache`. -/
def setValueOnSumAndCache (cops : CacheOps ops wops) (isZero : V → Bool) (r : RootNode V ops)
    (xyz : Coord) (addend : V) (acc : cops.Accessor) : RootNode V ops × cops.Accessor :=
  let key := coordToKey ops xyz
  match r.mTable.find key with
  | none =>
    let child := ops.make xyz r.mBackground false
    let u := cops.setValueOnSumAndCache child xyz addend (cops.insert acc xyz child)
    (⟨r.mTable.assign key (.child u.1), r.mBackground⟩, u.2)
  | some (.child c) =>
    let u := cops.setValueOnSumAndCache c xyz addend (cops.insert acc xyz c)
    (⟨r.mTable.assign key (.child u.1), r.mBackground⟩, u.2)
  | some (.tile t) =>
    if t.active = false ∨ isZero addend = false then
      let child := ops.make xyz t.value t.active
      let u := cops.setValueOnSumAndCache child xyz addend (cops.insert acc xyz child)
      (⟨r.mTable.assign key (.child u.1), r.mBackground⟩, u.2)
    else (r, acc)

/-- Member `RootNode::setActiveStateAndCache`. -/
def setActiveStateAndCache (cops : CacheOps ops wops) (r : RootNode V ops) (xyz : Coord)
    (flag : Bool) (acc : cops.Accessor) : RootNode V ops × cops.Accessor :=
  let key := coordToKey ops xyz
  match r.mTable.find key with
  | none =>
    if flag = true then
      let child := ops.make xyz r.mBackground false
      let u := cops.setActiveStateAndCache child xyz flag (cops.insert acc xyz child)
      (⟨r.mTable.assign key (.child u.1), r.mBackground⟩, u.2)
    else (r, acc)
  | some (.child c) =>
    let u := cops.setActiveStateAndCache c xyz flag (cops.insert acc xyz c)
    (⟨r.mTable.assign key (.child u.1), r.mBackground⟩, u.2)
  | some (.tile t) =>
    if flag ≠ t.active then
      let child := ops.make xyz t.value (!flag)
      let u := cops.setActiveStateAndCache child xyz flag (cops.insert acc xyz child)
      (⟨r.mTable.assign key (.child u.1), r.mBackground⟩, u.2)
    else (r, acc)

/-- Member `RootNode::touchLeafAndCache`: the root after the call, the returned leaf
pointer and the accessor. -/
def touchLeafAndCache (cops : CacheOps ops wops) (r : RootNode V ops) (xyz : Coord)
    (acc : cops.Accessor) : (RootNode V ops × wops.LeafPtr) × cops.Accessor :=
  let key := coordToKey ops xyz
  let child : ops.Child :=
    match r.mTable.find key with
    | none => ops.make xyz r.mBackground false
    | some (.child c) => c
    | some (.tile t) => ops.make xyz t.value t.active
  let u := cops.touchLeafAndCache child xyz (cops.insert acc xyz child)
  ((⟨r.mTable.assign key (.child u.1.1), r.mBackground⟩, u.1.2), u.2)

end Cache

/-- Member `RootNode::expand`: the root after the call and the returned flag, true when
the key did not already exist. -/
def expand (r : RootNode V ops) (xyz : Coord) : RootNode V ops × Bool :=
  let key := coordToKey ops xyz
  (⟨r.mTable.insert key (.tile ⟨r.mBackground, false⟩), r.mBackground⟩,
    (r.mTable.find key).isNone)

/-- Member `RootNode::pruneInactive(bg)`. -/
def pruneInactive (vops : ValueOps V) (ipops : InactivePruneOps ops) (r : RootNode V ops)
    (bg : V) : RootNode V ops :=
  pruneOp vops (ipops.inactivePrune bg) r

/-- Member `RootNode::voxelizeActiveTiles`: inactive tiles are skipped, an active tile
becomes a child built at its key, and every child is voxelized. -/
def voxelizeActiveTiles (wops : WriteOps ops) (r : RootNode V ops) : RootNode V ops :=
  ⟨r.mTable.map fun i =>
      match i.2 with
      | .tile t =>
        if t.active = false then i
        else (i.1, .child (wops.voxelizeActiveTiles (ops.make i.1 t.value true)))
      | .child c => (i.1, .child (wops.voxelizeActiveTiles c)),
    r.mBackground⟩

/-- Insertion into a `std::set<Coord>`, kept in the key order. -/
def insertKey : List Coord → Coord → List Coord
  | [], key => [key]
  | k :: rest, key =>
    if k = key then k :: rest
    else if Coord.lt key k then key :: k :: rest
    else k :: insertKey rest key

/-- Member `RootNode::insertKeys`. -/
def insertKeys (r : RootNode V ops) (keys : List Coord) : List Coord :=
  r.mTable.keys.foldl insertKey keys

/-- State of the loop of `RootNode::combine`: this root, the other root, and the active
states last stored in the `CombineArgs` object, which is reused from one call of the
functor to the next. -/
structure CombineState (V : Type) (ops : ChildOps V) where
  self : RootNode V ops
  other : RootNode V ops
  aIsActive : Bool
  bIsActive : Bool

/-- Body of the loop of `RootNode::combine` for one key of the key set. `findOrAddCoord`
puts an entry at the key in both tables, so the last case is not reached. The functor with
swapped operands is `SwappedCombineOp`; a stolen child leaves the tile `Tile()` behind. -/
def combineStep (vops : ValueOps V) (cbops : CombineOps ops)
    (op : V → Bool → V → Bool → V × Bool) (prune : Bool) (st : CombineState V ops)
    (i : Coord) : CombineState V ops :=
  let it := st.self.findOrAddCoord i
  let oit := st.other.findOrAddCoord i
  let pruned : ops.Child → ops.Child := fun c => if prune = true then cbops.prune c else c
  match it.1.mTable.find it.2, oit.1.mTable.find oit.2 with
  | some (.tile t), some (.tile ot) =>
    let res := op t.value t.active ot.value ot.active
    ⟨⟨it.1.mTable.assign it.2 (.tile ⟨res.1, res.2⟩), it.1.mBackground⟩, oit.1, t.active,
      ot.active⟩
  | some (.child c), some (.tile ot) =>
    ⟨⟨it.1.mTable.assign it.2 (.child (pruned (cbops.combineTile c ot.value ot.active op))),
        it.1.mBackground⟩, oit.1, st.aIsActive, st.bIsActive⟩
  | some (.tile t), some (.child oc) =>
    let child := cbops.combineTile oc t.value t.active (fun a aOn b bOn => op b bOn a aOn)
    ⟨⟨it.1.mTable.assign it.2 (.child (pruned child)), it.1.mBackground⟩,
      ⟨oit.1.mTable.assign oit.2 (.tile ⟨vops.zeroVal, false⟩), oit.1.mBackground⟩,
      st.aIsActive, st.bIsActive⟩
  | some (.child c), some (.child oc) =>
    ⟨⟨it.1.mTable.assign it.2 (.child (pruned (cbops.combineChild c oc op))),
        it.1.mBackground⟩, oit.1, st.aIsActive, st.bIsActive⟩
  | _, _ => ⟨it.1, oit.1, st.aIsActive, st.bIsActive⟩

/-- Member `RootNode::combine(other, op, prune)`: the loop over the union of the key sets,
the combination of the backgrounds, and `other.clear()`. The result is this root and the
other root after the call. -/
def combine (vops : ValueOps V) (cbops : CombineOps ops) (r other : RootNode V ops)
    (op : V → Bool → V → Bool → V × Bool) (prune : Bool) : RootNode V ops × RootNode V ops :=
  let keys := other.insertKeys (r.insertKeys [])
  let st := keys.foldl (combineStep vops cbops op prune) ⟨r, other, false, false⟩
  (⟨st.self.mTable, (op st.self.mBackground st.aIsActive st.other.mBackground st.bIsActive).1⟩,
    st.other.clear)

/-- Member `RootNode::probeLeaf`: `NULL` when the key has no entry or holds a tile. -/
def probeLeaf {wops : WriteOps ops} (lfops : LeafOps ops wops) (r : RootNode V ops)
    (xyz : Coord) : wops.LeafPtr :=
  match r.findCoord xyz with
  | none => lfops.null
  | some (.tile _) => lfops.null
  | some (.child c) => lfops.probeLeaf c xyz

/-- Member `RootNode::leafCount`: the `Index32` sum of the leaf counts of the children. -/
def leafCount {wops : WriteOps ops} (lfops : LeafOps ops wops) (r : RootNode V ops) : Nat :=
  r.mTable.foldl (fun sum i =>
    match i.2 with
    | .child c => (sum + lfops.leafCount c) % 2 ^ 32
    | .tile _ => sum) 0

/-- Member `RootNode::getMinIndex`: the key of the first entry of the table, (0,0,0) for an
empty table. -/
def getMinIndex (r : RootNode V ops) : Coord :=
  match r.mTable.head? with
  | none => ⟨0, 0, 0⟩
  | some i => i.1

/-- Member `RootNode::getMaxIndex`: the key of the last entry of the table plus
`Coord(ChildT::DIM - 1)`, in `Int32` arithmetic; (0,0,0) for an empty table. -/
def getMaxIndex (r : RootNode V ops) : Coord :=
  match r.mTable.getLast? with
  | none => ⟨0, 0, 0⟩
  | some i =>
    ⟨wrap32 (i.1.x + (ops.DIM - 1)), wrap32 (i.1.y + (ops.DIM - 1)),
      wrap32 (i.1.z + (ops.DIM - 1))⟩

/-- Member `RootNode::getIndexRange`: the box stored in `bbox`. -/
def getIndexRange (r : RootNode V ops) : CoordBBox := ⟨r.getMinIndex, r.getMaxIndex⟩

/-- Body of the loop of `RootNode::visitActiveBBox` for one table entry: nothing for an
inactive tile, the visit of the child when the entry is a child and the functor descends,
the cube of the entry otherwise. -/
def visitEntry (ops : ChildOps V) (descent : Bool) (i : Coord × NodeStruct V ops.Child) :
    Option (VisitCall ops.Child) :=
  if i.2.isTileOff = true then none
  else
    match i.2 with
    | .child c =>
      if descent = true then some (.descend c)
      else some (.box (CoordBBox.createCube i.1 ops.DIM))
    | .tile _ => some (.box (CoordBBox.createCube i.1 ops.DIM))

/-- Member `RootNode::visitActiveBBox`, as the sequence of steps it takes at the root;
`descent` is the answer of the functor's `descent<LEVEL>()`. -/
def visitActiveBBox (descent : Bool) (r : RootNode V ops) : List (VisitCall ops.Child) :=
  r.mTable.filterMap (visitEntry ops descent)

/-- The index range header of the legacy format as `readTopology` recomputes it: the
per-axis offsets, the per-axis log2 table sizes `log2Dim[0..2]`, the recomputed corners of
the range and the table size. -/
structure LegacyHeader where
  offset : Coord
  log2DimX : Nat
  log2DimY : Nat
  log2DimZ : Nat
  rangeMin : Coord
  rangeMax : Coord
  tableSize : Nat
deriving DecidableEq, Repr

/-- The function `util::FindHighestOn` on a 32-bit value: the index of its highest set bit,
0 when no bit is set. -/
def findHighestOn (v : Nat) : Nat :=
  (List.range 32).foldl (fun acc b => if v.testBit b then b else acc) 0

/-- One axis of the header loop of the legacy branch of `RootNode::readTopology`:
`offset = rangeMin >> TOTAL`, `rangeMin = offset << TOTAL`,
`log2Dim = 1 + FindHighestOn((rangeMax >> TOTAL) - offset)` and
`rangeMax = (((1 << log2Dim) + offset) << TOTAL) - 1`, in `Int32` arithmetic. The result is
the offset, the log2 size and the two recomputed bounds. -/
def legacyAxis (ops : ChildOps V) (rangeMin rangeMax : Int) : Int × Nat × Int × Int :=
  let offset := rangeMin / 2 ^ ops.TOTAL
  let log2Dim := 1 + findHighestOn ((wrap32 (rangeMax / 2 ^ ops.TOTAL - offset)) % 2 ^ 32).toNat
  (offset, log2Dim, wrap32 (offset * 2 ^ ops.TOTAL),
    wrap32 (wrap32 (wrap32 (2 ^ log2Dim + offset) * 2 ^ ops.TOTAL) - 1))

/-- The header loop of the legacy branch of `RootNode::readTopology` over the three axes,
with `tableSize = 1U << (log2Dim[0] + log2Dim[1] + log2Dim[2])`. -/
def legacyHeader (ops : ChildOps V) (rangeMin rangeMax : Coord) : LegacyHeader :=
  let ax := legacyAxis ops rangeMin.x rangeMax.x
  let ay := legacyAxis ops rangeMin.y rangeMax.y
  let az := legacyAxis ops rangeMin.z rangeMax.z
  ⟨⟨ax.1, ay.1, az.1⟩, ax.2.1, ay.2.1, az.2.1, ⟨ax.2.2.1, ay.2.2.1, az.2.2.1⟩,
    ⟨ax.2.2.2, ay.2.2.2, az.2.2.2⟩, 2 ^ (ax.2.1 + ay.2.1 + az.2.1) % 2 ^ 32⟩

/-- The origin that the legacy branch of `RootNode::readTopology` computes for the table
slot `i`: with `log2Dim[3] = log2Dim[1] + log2Dim[2]`,
`origin[0] = (n >> log2Dim[3]) + offset[0]`, then `n &= (1U << log2Dim[3]) - 1`,
`origin[1] = (n >> log2Dim[2]) + offset[1]`,
`origin[2] = (n & ((1U << log2Dim[2]) - 1)) + offset[1]`, and `origin <<= TOTAL`. -/
def legacyOrigin (ops : ChildOps V) (h : LegacyHeader) (i : Nat) : Coord :=
  let log2Dim3 := h.log2DimY + h.log2DimZ
  let o0 := wrap32 ((i / 2 ^ log2Dim3 : Nat) + h.offset.x)
  let n := i % 2 ^ log2Dim3
  let o1 := wrap32 ((n / 2 ^ h.log2DimZ : Nat) + h.offset.y)
  let o2 := wrap32 ((n % 2 ^ h.log2DimZ : Nat) + h.offset.y)
  ⟨wrap32 (o0 * 2 ^ ops.TOTAL), wrap32 (o1 * 2 ^ ops.TOTAL), wrap32 (o2 * 2 ^ ops.TOTAL)⟩

/-- The decoding `offset2coord(i)` in the words of the specification: slot `i` is split
into its x, y and z digits, each digit is moved by the offset of its own axis, and the
result is shifted left by `TOTAL`. -/
def offset2coord (ops : ChildOps V) (h : LegacyHeader) (i : Nat) : Coord :=
  ⟨wrap32 (wrap32 ((i / 2 ^ (h.log2DimY + h.log2DimZ) : Nat) + h.offset.x) * 2 ^ ops.TOTAL),
    wrap32 (wrap32 ((i % 2 ^ (h.log2DimY + h.log2DimZ) / 2 ^ h.log2DimZ : Nat) + h.offset.y)
      * 2 ^ ops.TOTAL),
    wrap32 (wrap32 ((i % 2 ^ h.log2DimZ : Nat) + h.offset.z) * 2 ^ ops.TOTAL)⟩

/-- First loop of `RootNode::signedFloodFill`: every child is flood-filled, tiles are
skipped. -/
def floodChildren (fops : FloodOps ops) (outside inside : V) (t : MapType V ops.Child) :
    MapType V ops.Child :=
  t.map fun i =>
    match i.2 with
    | .tile tl => (i.1, .tile tl)
    | .child c => (i.1, .child (fops.signedFloodFill c outside inside))

/-- The set `nodeKeys` built by the first loop of `RootNode::signedFloodFill`: the keys of
the children. A `std::set<Coord>` iterates in the key order, which is the order of the
table. -/
def nodeKeys (t : MapType V ops.Child) : List Coord :=
  (t.filter fun i => i.2.isChild).map Prod.fst

/-- Innermost loop of `RootNode::signedFloodFill`,
`for (c = *a + Coord(0,0,DIM); c[2] != (*b)[2]; c[2] += DIM) mTable[c] = insideTile`,
entered with the first `c`; `none` when the fuel runs out. -/
def gapLoop (ops : ChildOps V) (inside : V) (bz : Int) :
    Nat → Coord → MapType V ops.Child → Option (MapType V ops.Child)
  | 0, _, _ => none
  | fuel + 1, c, t =>
    if c.z = bz then some t
    else gapLoop ops inside bz fuel ⟨c.x, c.y, wrap32 (c.z + ops.DIM)⟩
      (t.assign c (.tile ⟨inside, false⟩))

/-- Body of the z-scanline loop of `RootNode::signedFloodFill` for the neighbouring node
keys `a` and `b`. The keys come from `nodeKeys`, so both entries are children; the last
case is not reached. -/
def scanPair (vops : ValueOps V) (fops : FloodOps ops) (inside : V) (fuel : Nat)
    (a b : Coord) (t : MapType V ops.Child) : Option (MapType V ops.Child) :=
  let d : Coord := ⟨wrap32 (b.x - a.x), wrap32 (b.y - a.y), wrap32 (b.z - a.z)⟩
  if d.x ≠ 0 ∨ d.y ≠ 0 ∨ d.z = wrap32 ops.DIM then some t
  else
    match t.find a, t.find b with
    | some (.child ca), some (.child cb) =>
      if (!vops.lt (fops.getLastValue ca) vops.zeroVal
          || !vops.lt (fops.getFirstValue cb) vops.zeroVal) = true then some t
      else gapLoop ops inside b.z fuel ⟨a.x, a.y, wrap32 (a.z + wrap32 ops.DIM)⟩ t
    | _, _ => some t

/-- The z-scanline loop of `RootNode::signedFloodFill` over the pairs of neighbouring
node keys, `for (a = b++; b != e; ++a, ++b)`. -/
def scanPairs (vops : ValueOps V) (fops : FloodOps ops) (inside : V) (fuel : Nat) :
    List Coord → MapType V ops.Child → Option (MapType V ops.Child)
  | a :: b :: rest, t =>
    match scanPair vops fops inside fuel a b t with
    | none => none
    | some t1 => scanPairs vops fops inside fuel (b :: rest) t1
  | _, t => some t

/-- Member `RootNode::signedFloodFill(outside, inside)`; `none` when the fuel of an inner
loop runs out. -/
def signedFloodFill (vops : ValueOps V) (fops : FloodOps ops) (r : RootNode V ops)
    (outside inside : V) (fuel : Nat) : Option (RootNode V ops) :=
  let t1 := floodChildren fops outside inside r.mTable
  match scanPairs vops fops inside fuel (nodeKeys t1) t1 with
  | none => none
  | some t2 => some ⟨t2, outside⟩

end RootNode

/-- The entry that `merge` leaves at a key, from the entry `eb` of the other table and the
entry `ea` of this table at that key. -/
def mergedEntry {V : Type} {ops : ChildOps V} (mops : MergeOps ops) (otherBackground bg : V)
    (eb ea : Option (NodeStruct V ops.Child)) : Option (NodeStruct V ops.Child) :=
  match eb with
  | none => ea
  | some (.child oc) =>
    match ea with
    | none => some (.child oc)
    | some (.tile _) => some (.child oc)
    | some (.child c) => some (.child (mops.merge c oc otherBackground bg))
  | some (.tile ot) =>
    match ea with
    | none => some (.tile ot)
    | some e => some e

/-- Every key of the table is aligned to the side of a child cube,
`k == k & ~(Child::DIM - 1)` componentwise. -/
def KeysAligned {V W C : Type} (ops : ChildOps V) (t : MapType W C) : Prop :=
  ∀ e ∈ t, coordToKey ops e.1 = e.1

/-- The table of `r1` comes from that of `r` by an operation at the coordinate `p`: its keys
are aligned, and every entry was in `r` or has the key `coordToKey(p)`. -/
def KeyStep {V : Type} {ops : ChildOps V} (r r1 : RootNode V ops) (p : Coord) : Prop :=
  KeysAligned ops r1.mTable ∧ ∀ e ∈ r1.mTable, e ∈ r.mTable ∨ e.1 = coordToKey ops p

/-- The keys `a` and `b` are neighbours among the keys of the children of the table: both
hold a child, `a` comes before `b` in the key order, and no key between them holds a
child. -/
def adjacentChildKeys {V : Type} {ops : ChildOps V} (t : MapType V ops.Child)
    (a b : Coord) : Prop :=
  (∃ ca, t.find a = some (.child ca)) ∧ (∃ cb, t.find b = some (.child cb)) ∧
  Coord.lt a b = true ∧
  ∀ k c, t.find k = some (.child c) → ¬ (Coord.lt a k = true ∧ Coord.lt k b = true)

/-- The key `k` lies on the z-scanline strictly between the keys `a` and `b` and is
aligned: one of the keys visited by the innermost loop of `signedFloodFill` for the pair. -/
def inGap {V : Type} (ops : ChildOps V) (a b k : Coord) : Prop :=
  k.x = a.x ∧ k.y = a.y ∧ a.z < k.z ∧ k.z < b.z ∧ alignDown k.z ops.TOTAL = k.z

/-- The pair of node keys `a`, `b` passes the tests of the z-scanline loop of
`signedFloodFill` on the table `t`: same `x` and `y`, not one child side apart, and the
facing values of the two children negative. -/
def scanFires {V : Type} {ops : ChildOps V} (vops : ValueOps V) (fops : FloodOps ops)
    (t : MapType V ops.Child) (a b : Coord) : Prop :=
  a.x = b.x ∧ a.y = b.y ∧ b.z - a.z ≠ ops.DIM ∧
  ∃ ca cb, t.find a = some (.child ca) ∧ t.find b = some (.child cb) ∧
    vops.lt (fops.getLastValue ca) vops.zeroVal = true ∧
    vops.lt (fops.getFirstValue cb) vops.zeroVal = true

/-- The key `k` is an aligned z-step strictly between two children of the root `r` whose
keys are neighbours among the child keys, differ only in `z` and by more than one child
side, and whose facing values, the last value of the first child and the first value of
the second after both were flood-filled, are below zero. -/
def scanInserts {V : Type} {ops : ChildOps V} (vops : ValueOps V) (fops : FloodOps ops)
    (outside inside : V) (r : RootNode V ops) (k : Coord) : Prop :=
  ∃ a b ca cb, adjacentChildKeys r.mTable a b ∧
    r.mTable.find a = some (.child ca) ∧ r.mTable.find b = some (.child cb) ∧
    a.x = b.x ∧ a.y = b.y ∧ b.z - a.z > ops.DIM ∧
    vops.lt (fops.getLastValue (fops.signedFloodFill ca outside inside)) vops.zeroVal = true ∧
    vops.lt (fops.getFirstValue (fops.signedFloodFill cb outside inside)) vops.zeroVal = true ∧
    inGap ops a b k

/-- Value read at `p` through the root entry `e` found at the key of `p`. -/
def entryValue {V : Type} (ops : ChildOps V) (bg : V) (e : Option (NodeStruct V ops.Child))
    (p : Coord) : V :=
  match e with
  | none => bg
  | some (.tile t) => t.value
  | some (.child c) => ops.getValue c p

/-- Active state read at `p` through the root entry `e` found at the key of `p`. -/
def entryActive {V : Type} (ops : ChildOps V) (e : Option (NodeStruct V ops.Child))
    (p : Coord) : Bool :=
  match e with
  | none => false
  | some (.tile t) => t.active
  | some (.child c) => ops.isValueOn c p

/-- The cube of side `d` at `k` lies inside the box. -/
def CoordBBox.cubeInside (b : CoordBBox) (k : Coord) (d : Int) : Prop :=
  (b.min.x ≤ k.x ∧ k.x + d - 1 ≤ b.max.x) ∧ (b.min.y ≤ k.y ∧ k.y + d - 1 ≤ b.max.y) ∧
  (b.min.z ≤ k.z ∧ k.z + d - 1 ≤ b.max.z)

/-- The cube of side `d` at `k` has a voxel in the box. -/
def CoordBBox.cubeMeets (b : CoordBBox) (k : Coord) (d : Int) : Prop :=
  (k.x ≤ b.max.x ∧ b.min.x < k.x + d) ∧ (k.y ≤ b.max.y ∧ b.min.y < k.y + d) ∧
  (k.z ≤ b.max.z ∧ b.min.z < k.z + d)

/-- First voxel of the cube at `k` that `RootNode::fill` visits: the larger of the box
minimum and the cube origin, per component. -/
def CoordBBox.firstIn (b : CoordBBox) (k : Coord) : Coord :=
  ⟨Max.max b.min.x k.x, Max.max b.min.y k.y, Max.max b.min.z k.z⟩

/-- The child into which `RootNode::fill` forwards the request for a cube that the box
covers only in part: the existing child, or a new child built at `xyz` from the old tile
or from the inactive background. -/
def fillChild {V : Type} (ops : ChildOps V) (bg : V) (old : Option (NodeStruct V ops.Child))
    (xyz : Coord) : ops.Child :=
  match old with
  | none => ops.make xyz bg false
  | some (.tile t) => ops.make xyz t.value t.active
  | some (.child c) => c

/-- The table that `readTopology` builds from what `writeTopology` emitted for the table
`t`, when `tail` follows in the stream: tiles as they are, and in place of each child the
node obtained by reading its topology into a fresh node. -/
def topoTable {V : Type} {ops : ChildOps V} (iops : IOOps ops) (bg : V) :
    MapType V ops.Child → List (Tok V) → MapType V ops.Child
  | [], _ => []
  | (k, .tile t) :: rest, tail => (k, .tile t) :: topoTable iops bg rest tail
  | (k, .child c) :: rest, tail =>
    (k, .child (iops.readTopology (ops.make k bg false)
      ⟨iops.writeTopology c ++ ((rest.map (RootNode.writeChild iops)).flatten ++ tail),
        false⟩).1) :: topoTable iops bg rest tail

/-- The aligned coordinate `k` is the origin of a cube of side `2^n` that meets the
non-empty range `lo..hi` (one axis). -/
def visitsAxis (n : Nat) (lo hi k : Int) : Prop :=
  lo ≤ hi ∧ alignDown k n = k ∧ alignDown lo n ≤ k ∧ k ≤ hi

/-! ## Contracts of the child node type -/

/-- Point-access contract of the child node (spec 4.3: point access returns the tile
value or recurses; a child built from a tile carries the tile value and state). Every
clause speaks about coordinates of one child cube. -/
structure PointLaws {V : Type} (ops : ChildOps V) : Prop where
  getValue_make : ∀ xyz v a p, coordToKey ops p = coordToKey ops xyz →
    ops.getValue (ops.make xyz v a) p = v
  isValueOn_make : ∀ xyz v a p, coordToKey ops p = coordToKey ops xyz →
    ops.isValueOn (ops.make xyz v a) p = a
  getValue_setValueOn : ∀ c p v q, coordToKey ops q = coordToKey ops p →
    ops.getValue (ops.setValueOn c p v) q = if q = p then v else ops.getValue c q
  isValueOn_setValueOn : ∀ c p v q, coordToKey ops q = coordToKey ops p →
    ops.isValueOn (ops.setValueOn c p v) q = if q = p then true else ops.isValueOn c q

/-- Contract of the single-voxel writes of the child node (spec 4.2: `set_active_state(i,
on)`, and 4.4: `set_value_only` preserves the active state): `setValueOnly` changes the
value of the voxel and no state, `setActiveState` and `setValueOff` change the state of the
voxel and no value. Every clause speaks about coordinates of one child cube. -/
structure StateLaws {V : Type} (ops : ChildOps V) (sops : StateOps ops) : Prop where
  getValue_setValueOnly : ∀ c p v q, coordToKey ops q = coordToKey ops p →
    ops.getValue (sops.setValueOnly c p v) q = if q = p then v else ops.getValue c q
  isValueOn_setValueOnly : ∀ c p v q, coordToKey ops q = coordToKey ops p →
    ops.isValueOn (sops.setValueOnly c p v) q = ops.isValueOn c q
  getValue_setActiveState : ∀ c p flag q, coordToKey ops q = coordToKey ops p →
    ops.getValue (sops.setActiveState c p flag) q = ops.getValue c q
  isValueOn_setActiveState : ∀ c p flag q, coordToKey ops q = coordToKey ops p →
    ops.isValueOn (sops.setActiveState c p flag) q =
      if q = p then flag else ops.isValueOn c q
  getValue_setValueOff : ∀ c p q, coordToKey ops q = coordToKey ops p →
    ops.getValue (sops.setValueOff c p) q = ops.getValue c q
  isValueOn_setValueOff : ∀ c p q, coordToKey ops q = coordToKey ops p →
    ops.isValueOn (sops.setValueOff c p) q = if q = p then false else ops.isValueOn c q

/-- Contract of `fill` on a child (spec 4.2 and 4.3: the box is clipped to the node's cube
and every voxel of the clipped region is assigned), stated for the voxels of the cube at
the child's origin, together with the origin bookkeeping of the constructor. -/
structure FillLaws {V : Type} (ops : ChildOps V) : Prop where
  origin_make : ∀ xyz v a, ops.origin (ops.make xyz v a) = coordToKey ops xyz
  origin_fill : ∀ c bbox v a, ops.origin (ops.fill c bbox v a) = ops.origin c
  getValue_fill : ∀ c bbox v a p, coordToKey ops p = ops.origin c →
    ops.getValue (ops.fill c bbox v a) p =
      if bbox.isInside p = true then v else ops.getValue c p
  isValueOn_fill : ∀ c bbox v a p, coordToKey ops p = ops.origin c →
    ops.isValueOn (ops.fill c bbox v a) p =
      if bbox.isInside p = true then a else ops.isValueOn c p

/-- Contract of the topology operations of the child node (doc comments of
`RootNode::topologyUnion` and of the topology-copy constructors): a topology copy has the
active states of the other node and the given background as every value; a topology
union activates what is active in the other node and `setValuesOn` activates everything,
both without touching values. -/
structure TopologyLaws {V W : Type} (ops : ChildOps V) (oops : ChildOps W)
    (tops : TopologyOps ops oops) : Prop where
  isValueOn_topologyCopy : ∀ oc bg p,
    ops.isValueOn (tops.topologyCopy oc bg) p = oops.isValueOn oc p
  getValue_topologyCopy : ∀ oc bg p, ops.getValue (tops.topologyCopy oc bg) p = bg
  isValueOn_topologyUnion : ∀ c oc p,
    ops.isValueOn (tops.topologyUnion c oc) p = (ops.isValueOn c p || oops.isValueOn oc p)
  getValue_topologyUnion : ∀ c oc p,
    ops.getValue (tops.topologyUnion c oc) p = ops.getValue c p
  isValueOn_setValuesOn : ∀ c p, ops.isValueOn (ops.setValuesOn c) p = true
  getValue_setValuesOn : ∀ c p, ops.getValue (ops.setValuesOn c) p = ops.getValue c p

/-- Contract of the topology-copy constructor with a foreground value (doc comment of the
constructor in `RootNode.h`): the active states of the other node, the foreground value
where it is active and the background value elsewhere. -/
structure ForegroundCopyLaws {V W : Type} (ops : ChildOps V) (oops : ChildOps W)
    (fcops : ForegroundCopyOps ops oops) : Prop where
  isValueOn_topologyCopy : ∀ oc bg fg p,
    ops.isValueOn (fcops.topologyCopy oc bg fg) p = oops.isValueOn oc p
  getValue_topologyCopy : ∀ oc bg fg p,
    ops.getValue (fcops.topologyCopy oc bg fg) p =
      if oops.isValueOn oc p = true then fg else bg

/-- Contract of the caching members of the child node type: each returns what the plain
member returns and leaves the node as the plain member leaves it. -/
structure CacheLaws {V : Type} {ops : ChildOps V} (sops : StateOps ops) (lops : LevelOps ops)
    (wops : WriteOps ops) (cops : CacheOps ops wops) : Prop where
  getValue : ∀ c xyz acc, (cops.getValueAndCache c xyz acc).1 = ops.getValue c xyz
  isValueOn : ∀ c xyz acc, (cops.isValueOnAndCache c xyz acc).1 = ops.isValueOn c xyz
  probeValue : ∀ c xyz acc, (cops.probeValueAndCache c xyz acc).1 = wops.probeValue c xyz
  getValueLevel : ∀ c xyz acc,
    (cops.getValueLevelAndCache c xyz acc).1 = lops.getValueLevel c xyz
  setValue : ∀ c xyz v acc, (cops.setValueAndCache c xyz v acc).1 = ops.setValueOn c xyz v
  setValueOnly : ∀ c xyz v acc,
    (cops.setValueOnlyAndCache c xyz v acc).1 = sops.setValueOnly c xyz v
  setValueOff : ∀ c xyz v acc,
    (cops.setValueOffAndCache c xyz v acc).1 = wops.setValueOff c xyz v
  setValueOnSum : ∀ c xyz v acc,
    (cops.setValueOnSumAndCache c xyz v acc).1 = wops.setValueOnSum c xyz v
  setActiveState : ∀ c xyz flag acc,
    (cops.setActiveStateAndCache c xyz flag acc).1 = sops.setActiveState c xyz flag
  touchLeaf : ∀ c xyz acc, (cops.touchLeafAndCache c xyz acc).1 = wops.touchLeaf c xyz

/-- Contract of the functor `InactivePrune` on a child node (spec 4.8: `prune_inactive(v)`
collapses any subtree whose voxels are all inactive to the tile `(v, inactive)`): a child
without an active voxel is reported constant with the inactive tile of the functor's value;
a child with an active voxel is not, and the child the functor leaves has the same active
states and the same values at the active voxels. Every clause speaks about the coordinates
of the cube of the child. -/
structure InactivePruneLaws {V : Type} (ops : ChildOps V) (ipops : InactivePruneOps ops) :
    Prop where
  collapse : ∀ bg c, (∀ p, coordToKey ops p = ops.origin c → ops.isValueOn c p = false) →
    (ipops.inactivePrune bg c).2 = some ⟨bg, false⟩
  keep : ∀ bg c p0, coordToKey ops p0 = ops.origin c → ops.isValueOn c p0 = true →
    (ipops.inactivePrune bg c).2 = none ∧
    ∀ p, coordToKey ops p = ops.origin c →
      ops.isValueOn (ipops.inactivePrune bg c).1 p = ops.isValueOn c p ∧
      (ops.isValueOn c p = true →
        ops.getValue (ipops.inactivePrune bg c).1 p = ops.getValue c p)

/-- Contract of `touchLeaf` on a child (doc comment of `RootNode::touchLeaf`: return the
leaf node that contains the voxel; if no such node exists, create one, but preserve the
values and active states of all voxels): the returned pointer is not null and is what
`probeLeaf` finds afterwards, the voxel is held at level 0 afterwards, no value and no
state of the cube changes, and a child that was just built from one value has exactly one
leaf after the call. -/
structure TouchLaws {V : Type} (ops : ChildOps V) (wops : WriteOps ops) (lops : LevelOps ops)
    (lfops : LeafOps ops wops) : Prop where
  ne_null : ∀ c p, (wops.touchLeaf c p).2 ≠ lfops.null
  probe_touch : ∀ c p, lfops.probeLeaf (wops.touchLeaf c p).1 p = (wops.touchLeaf c p).2
  level_touch : ∀ c p, lops.getValueLevel (wops.touchLeaf c p).1 p = 0
  getValue_touch : ∀ c p q, coordToKey ops q = coordToKey ops p →
    ops.getValue (wops.touchLeaf c p).1 q = ops.getValue c q
  isValueOn_touch : ∀ c p q, coordToKey ops q = coordToKey ops p →
    ops.isValueOn (wops.touchLeaf c p).1 q = ops.isValueOn c q
  leafCount_touch_make : ∀ p v a, lfops.leafCount (wops.touchLeaf (ops.make p v a) p).1 = 1

/-- Contract of pruning a child (spec 4.8, bottom-up collapse): a child that the functor
has pruned and found not constant is left unchanged, and still not constant, by another
call with the same tolerance. -/
structure PruneLaws {V : Type} (ops : ChildOps V) (pops : PruneOps ops) : Prop where
  tolerancePrune_again : ∀ tol c c1, pops.tolerancePrune tol c = (c1, none) →
    pops.tolerancePrune tol c1 = (c1, none)

/-- Contract of the stream members of the child node (spec section 6 and law L6): what
`writeTopology` and `writeBuffers` emit for a node is read back, by `readTopology` into a
fresh node at the same origin and then by `readBuffers`, as an equal node, and each read
consumes exactly the items of its node. -/
structure IOLaws {V : Type} (ops : ChildOps V) (iops : IOOps ops) : Prop where
  readTopology_write : ∀ c bg rest,
    (iops.readTopology (ops.make (ops.origin c) bg false)
      ⟨iops.writeTopology c ++ rest, false⟩).2 = ⟨rest, false⟩
  readBuffers_write : ∀ c bg rest rest1,
    iops.readBuffers (iops.readTopology (ops.make (ops.origin c) bg false)
      ⟨iops.writeTopology c ++ rest, false⟩).1 ⟨iops.writeBuffers c ++ rest1, false⟩
      = (c, ⟨rest1, false⟩)

/-- Contract of comparing a child with itself: a node has its own topology. -/
def SameTopologyLaw {V : Type} {ops : ChildOps V} (tops : TopologyOps ops ops) : Prop :=
  ∀ c, tops.hasSameTopology c c = true

/-- The side of a child cube is fixed by the per-level log2 dimensions:
`TOTAL` is their sum. -/
def ConfigLaw {V : Type} (ops : ChildOps V) : Prop := ops.TOTAL = ops.log2Dims.sum

/-- Representation invariant of the root table: every child sits at the key of its own
origin. -/
def RootNode.ChildrenAtOrigin {V : Type} {ops : ChildOps V} (r : RootNode V ops) : Prop :=
  ∀ k c, r.mTable.find k = some (.child c) → ops.origin c = k

/-! ## A concrete child node -/

/-- Modelled from the spec: the child node type is absent from the embedded sources, so
this is the smallest node that fits spec section 3: a dense cube of side 2 holding one
value and one active bit per voxel, with its aligned origin. The voxel of a coordinate is
addressed by the low bit of each component; the node stores the index `cell` of its cube,
so its origin `2 * cell` is aligned by construction. -/
structure DenseChild (V : Type) where
  cell : Coord
  vox : Bool → Bool → Bool → V × Bool

namespace DenseChild

variable {V : Type}

/-- Low bit of a coordinate component: the offset of the component inside the cube. -/
def bit (a : Int) : Bool := decide (a % 2 = 1)

/-- Accessor `getOrigin`: the minimum corner of the cube. -/
def origin (c : DenseChild V) : Coord := ⟨2 * c.cell.x, 2 * c.cell.y, 2 * c.cell.z⟩

/-- Constructor of a constant node at the cube containing the coordinate. -/
def make (xyz : Coord) (v : V) (a : Bool) : DenseChild V :=
  ⟨⟨xyz.x / 2, xyz.y / 2, xyz.z / 2⟩, fun _ _ _ => (v, a)⟩

/-- Value of the voxel addressed by the coordinate. -/
def getValue (c : DenseChild V) (p : Coord) : V := (c.vox (bit p.x) (bit p.y) (bit p.z)).1

/-- Active bit of the voxel addressed by the coordinate. -/
def isValueOn (c : DenseChild V) (p : Coord) : Bool :=
  (c.vox (bit p.x) (bit p.y) (bit p.z)).2

/-- Overwrite of the voxel addressed by the coordinate. -/
def setVoxel (c : DenseChild V) (p : Coord) (e : V × Bool) : DenseChild V :=
  ⟨c.cell, fun i j k =>
    if i = bit p.x ∧ j = bit p.y ∧ k = bit p.z then e else c.vox i j k⟩

/-- Member `setValueOn`: store the value and mark the voxel active. -/
def setValueOn (c : DenseChild V) (p : Coord) (v : V) : DenseChild V := c.setVoxel p (v, true)

/-- Global coordinate of the voxel with the given offsets. -/
def voxelCoord (c : DenseChild V) (i j k : Bool) : Coord :=
  ⟨c.origin.x + (if i then 1 else 0), c.origin.y + (if j then 1 else 0),
   c.origin.z + (if k then 1 else 0)⟩

/-- Member `fill`: assign every voxel of the cube that lies inside the box. -/
def fill (c : DenseChild V) (bbox : CoordBBox) (v : V) (a : Bool) : DenseChild V :=
  ⟨c.cell, fun i j k => if bbox.isInside (c.voxelCoord i j k) = true then (v, a) else c.vox i j k⟩

/-- Member `setValuesOn`: mark every voxel active. -/
def setValuesOn (c : DenseChild V) : DenseChild V :=
  ⟨c.cell, fun i j k => ((c.vox i j k).1, true)⟩

/-- Topology-copy constructor: the active bits of the other node, every value `bg`. -/
def topologyCopy {W : Type} (o : DenseChild W) (bg : V) : DenseChild V :=
  ⟨o.cell, fun i j k => (bg, (o.vox i j k).2)⟩

/-- Member `topologyUnion`: OR the active bits of the other node into this one. -/
def topologyUnion {W : Type} (c : DenseChild V) (o : DenseChild W) : DenseChild V :=
  ⟨c.cell, fun i j k => ((c.vox i j k).1, (c.vox i j k).2 || (o.vox i j k).2)⟩

/-- The eight voxels of a dense cube. -/
def voxels (c : DenseChild V) : List (V × Bool) :=
  [c.vox false false false, c.vox false false true, c.vox false true false,
   c.vox false true true, c.vox true false false, c.vox true false true,
   c.vox true true false, c.vox true true true]

/-- Member `hasSameTopology`: equal active bits at the eight voxels. -/
def hasSameTopology {W : Type} (c : DenseChild V) (o : DenseChild W) : Bool :=
  [false, true].all fun i => [false, true].all fun j => [false, true].all fun k =>
    (c.vox i j k).2 == (o.vox i j k).2

/-- Member `writeTopology`: the eight active bits. -/
def writeTopology (c : DenseChild V) : List (Tok V) :=
  c.voxels.map fun e => Tok.bool e.2

/-- Member `writeBuffers`: the eight values. -/
def writeBuffers (c : DenseChild V) : List (Tok V) :=
  c.voxels.map fun e => Tok.value e.1

/-- Linear offset of a voxel: z varies fastest. -/
def offset (i j k : Bool) : Nat :=
  (if i then 4 else 0) + (if j then 2 else 0) + (if k then 1 else 0)

/-- The first eight items of a stream, when they are all `bool` items. -/
def takeBools : Nat → List (Tok V) → Option (List Bool × List (Tok V))
  | 0, l => some ([], l)
  | n + 1, .bool b :: rest => (takeBools n rest).map fun r => (b :: r.1, r.2)
  | _ + 1, _ => none

/-- The first eight items of a stream, when they are all value items. -/
def takeValues : Nat → List (Tok V) → Option (List V × List (Tok V))
  | 0, l => some ([], l)
  | n + 1, .value v :: rest => (takeValues n rest).map fun r => (v :: r.1, r.2)
  | _ + 1, _ => none

/-- Member `readTopology`: read the eight active bits. -/
def readTopology (c : DenseChild V) (s : IStream V) : DenseChild V × IStream V :=
  if s.fail = true then (c, s)
  else match takeBools 8 s.data with
    | none => (c, ⟨s.data, true⟩)
    | some (bs, rest) =>
      (⟨c.cell, fun i j k => ((c.vox i j k).1, bs.getD (offset i j k) false)⟩, ⟨rest, false⟩)

/-- Member `readBuffers`: read the eight values. -/
def readBuffers (c : DenseChild V) (s : IStream V) : DenseChild V × IStream V :=
  if s.fail = true then (c, s)
  else match takeValues 8 s.data with
    | none => (c, ⟨s.data, true⟩)
    | some (vs, rest) =>
      (⟨c.cell, fun i j k => (vs.getD (offset i j k) (c.vox i j k).1, (c.vox i j k).2)⟩,
        ⟨rest, false⟩)

end DenseChild

/-- The dense cube as a child node type. -/
def denseOps (V : Type) : ChildOps V where
  Child := DenseChild V
  TOTAL := 1
  LEVEL := 0
  log2Dims := [1]
  make := DenseChild.make
  origin := DenseChild.origin
  getValue := DenseChild.getValue
  isValueOn := DenseChild.isValueOn
  setValueOn := DenseChild.setValueOn
  fill := DenseChild.fill
  setValuesOn := DenseChild.setValuesOn

/-- The tolerance functor on a dense cube: nothing below to prune; the cube is constant when
all voxels have the state of the first and values within the tolerance of the first. -/
def DenseChild.tolerancePrune {V : Type} (vops : ValueOps V) (tol : V) (c : DenseChild V) :
    DenseChild V × Option (Tile V) :=
  let first := c.vox false false false
  if c.voxels.all (fun e => e.2 == first.2 && vops.isApproxEqualTol e.1 first.1 tol) then
    (c, some ⟨first.1, first.2⟩)
  else (c, none)

/-- Pruning functors on dense cubes. -/
def densePruneOps {V : Type} (vops : ValueOps V) : PruneOps (denseOps V) where
  tolerancePrune := DenseChild.tolerancePrune vops

/-- Integer values: approximate equality is equality within the tolerance. -/
def intOps : ValueOps Int where
  zeroVal := 0
  negative := fun a => -a
  isApproxEqual := fun a b => decide (a = b)
  isApproxEqualTol := fun a b tol => decide ((a - b).natAbs ≤ tol.natAbs)
  lt := fun a b => decide (a < b)

/-- Topology operations between dense cubes of two value types. -/
def denseTopologyOps (V W : Type) : TopologyOps (denseOps V) (denseOps W) where
  topologyCopy := DenseChild.topologyCopy
  topologyUnion := DenseChild.topologyUnion
  hasSameTopology := DenseChild.hasSameTopology

/-- Stream members of dense cubes. -/
def denseIOOps (V : Type) : IOOps (denseOps V) where
  writeTopology := DenseChild.writeTopology
  readTopology := DenseChild.readTopology
  writeBuffers := DenseChild.writeBuffers
  readBuffers := DenseChild.readBuffers

/-! ## The standard node types

The node types `LeafNode` and `InternalNode` are absent from the embedded sources. They are
modelled from sections 4.2 and 4.3 of the specification, as far as the root node calls
them, to build the standard four-level tree. -/

/-- The aligned origin of the cube of log2 side `n` that contains a coordinate. -/
def Coord.align (n : Nat) (p : Coord) : Coord :=
  ⟨alignDown p.x n, alignDown p.y n, alignDown p.z n⟩

/-- The offsets of a coordinate inside its cube of log2 side `n`, `xyz & (DIM - 1)`. -/
def Coord.offset (n : Nat) (p : Coord) : Coord :=
  ⟨p.x % (2 : Int) ^ n, p.y % (2 : Int) ^ n, p.z % (2 : Int) ^ n⟩

/-- Modelled from the spec: `LeafNode` (section 4.2), a dense cube of voxels, each with a
value and an active bit, addressed by the offsets of the coordinate. -/
structure LeafNode (V : Type) where
  origin : Coord
  vox : Coord → V × Bool

/-- Modelled from the spec: the members of `LeafNode<T, N>` that the root node calls
(section 4.2: point access, `fill` assigns every voxel of the clipped region). -/
def leafOps (V : Type) (N : Nat) : ChildOps V where
  Child := LeafNode V
  TOTAL := N
  LEVEL := 0
  log2Dims := [N]
  make := fun xyz v a => ⟨xyz.align N, fun _ => (v, a)⟩
  origin := fun c => c.origin
  getValue := fun c p => (c.vox (p.offset N)).1
  isValueOn := fun c p => (c.vox (p.offset N)).2
  setValueOn := fun c p v => ⟨c.origin, fun o => if o = p.offset N then (v, true) else c.vox o⟩
  fill := fun c bbox v a =>
    ⟨c.origin, fun o =>
      if bbox.isInside (c.origin.offsetBy o.x o.y o.z) = true then (v, a) else c.vox o⟩
  setValuesOn := fun c => ⟨c.origin, fun o => ((c.vox o).1, true)⟩

/-- Modelled from the spec: `LeafNode::getValueLevel`, the level of a leaf. -/
def leafLevelOps (V : Type) (N : Nat) : LevelOps (leafOps V N) where
  getValueLevel := fun _ _ => 0

/-- Modelled from the spec: `InternalNode` (section 4.3), a cube of slots, each holding a
child node or a tile, addressed by the aligned origin of the slot. -/
structure InternalNode (V C : Type) where
  origin : Coord
  slot : Coord → C ⊕ (V × Bool)

/-- Modelled from the spec: the members of `InternalNode<ChildT, N>` that the root node
calls (section 4.3: point access recurses into a child slot or returns the tile;
`set_value_on` refines a tile slot to a child initialised from the tile and delegates;
`fill` assigns a tile to every slot whose cube lies in the box and, for a slot covered in
part, refines if needed and recurses). -/
def internalOps {V : Type} (N : Nat) (cops : ChildOps V) : ChildOps V where
  Child := InternalNode V cops.Child
  TOTAL := N + cops.TOTAL
  LEVEL := cops.LEVEL + 1
  log2Dims := N :: cops.log2Dims
  make := fun xyz v a => ⟨xyz.align (N + cops.TOTAL), fun _ => .inr (v, a)⟩
  origin := fun n => n.origin
  getValue := fun n p =>
    match n.slot (p.align cops.TOTAL) with
    | .inl c => cops.getValue c p
    | .inr t => t.1
  isValueOn := fun n p =>
    match n.slot (p.align cops.TOTAL) with
    | .inl c => cops.isValueOn c p
    | .inr t => t.2
  setValueOn := fun n p v =>
    let c := match n.slot (p.align cops.TOTAL) with
      | .inl c => c
      | .inr t => cops.make p t.1 t.2
    ⟨n.origin, fun k => if k = p.align cops.TOTAL then .inl (cops.setValueOn c p v) else n.slot k⟩
  fill := fun n bbox v a =>
    ⟨n.origin, fun k =>
      if (bbox.min.x ≤ k.x ∧ k.x + cops.DIM - 1 ≤ bbox.max.x) ∧
          (bbox.min.y ≤ k.y ∧ k.y + cops.DIM - 1 ≤ bbox.max.y) ∧
          (bbox.min.z ≤ k.z ∧ k.z + cops.DIM - 1 ≤ bbox.max.z) then .inr (v, a)
      else if (k.x ≤ bbox.max.x ∧ bbox.min.x < k.x + cops.DIM) ∧
          (k.y ≤ bbox.max.y ∧ bbox.min.y < k.y + cops.DIM) ∧
          (k.z ≤ bbox.max.z ∧ bbox.min.z < k.z + cops.DIM) then
        .inl (cops.fill (match n.slot k with
          | .inl c => c
          | .inr t => cops.make k t.1 t.2) bbox v a)
      else n.slot k⟩
  setValuesOn := fun n =>
    ⟨n.origin, fun k =>
      match n.slot k with
      | .inl c => .inl (cops.setValuesOn c)
      | .inr t => .inr (t.1, true)⟩

/-- Modelled from the spec: `InternalNode::getValueLevel`, the level of the child that
holds the value, or the level of this node when the slot is a tile. -/
def internalLevelOps {V : Type} (N : Nat) {cops : ChildOps V} (lops : LevelOps cops) :
    LevelOps (internalOps N cops) where
  getValueLevel := fun n p =>
    match n.slot (p.align cops.TOTAL) with
    | .inl c => lops.getValueLevel c p
    | .inr _ => cops.LEVEL + 1

/-- The child type of the root of the standard tree,
`InternalNode<InternalNode<LeafNode<T, 3>, 4>, 5>`. -/
def stdOps (V : Type) : ChildOps V := internalOps 5 (internalOps 4 (leafOps V 3))

/-- The member `getValueLevel` of the standard child type. -/
def stdLevelOps (V : Type) : LevelOps (stdOps V) :=
  internalLevelOps 5 (internalLevelOps 4 (leafLevelOps V 3))

/-! ## Concrete trees -/

/-- A root with background 5 holding an active tile 7 at key (0,0,0), an inactive tile 9
at key (2,0,0) and a child at key (4,0,0) whose voxel (5,0,0) is active with value 1. -/
def sampleRoot : RootNode Int (denseOps Int) :=
  ⟨[(⟨0, 0, 0⟩, .tile ⟨7, true⟩), (⟨2, 0, 0⟩, .tile ⟨9, false⟩),
    (⟨4, 0, 0⟩, .child (DenseChild.setValueOn (DenseChild.make ⟨4, 0, 0⟩ 5 false) ⟨5, 0, 0⟩ 1))],
   5⟩

/-- A boolean mask tree: a child with the single active voxel (1,1,1) at key (0,0,0),
active tiles at keys (2,0,0) and (4,0,0), and a child with the active voxel (6,0,1) at key
(6,0,0). -/
def sampleMask : RootNode Bool (denseOps Bool) :=
  ⟨[(⟨0, 0, 0⟩, .child (DenseChild.setValueOn (DenseChild.make ⟨0, 0, 0⟩ false false)
      ⟨1, 1, 1⟩ true)),
    (⟨2, 0, 0⟩, .tile ⟨true, true⟩), (⟨4, 0, 0⟩, .tile ⟨true, true⟩),
    (⟨6, 0, 0⟩, .child (DenseChild.setValueOn (DenseChild.make ⟨6, 0, 0⟩ false false)
      ⟨6, 0, 1⟩ true))],
   false⟩

/-- Scan of the voxels of a dense cube in storage order: an active voxel keeps its value and
sets the running sign, an inactive voxel takes the inside value when the running sign is
negative and the outside value otherwise. -/
def DenseChild.floodList {V : Type} (vops : ValueOps V) (outside inside : V) :
    Bool → List (V × Bool) → List (V × Bool)
  | _, [] => []
  | neg, (v, a) :: rest =>
    if a = true then (v, true) :: floodList vops outside inside (vops.lt v vops.zeroVal) rest
    else ((if neg = true then inside else outside), false)
      :: floodList vops outside inside neg rest

/-- Modelled from the spec: a dense cube asked to signed-flood-fill with the given outside
and inside values (the node types are absent from the embedded sources). The running sign
starts as the sign of the first active voxel, or of the first voxel when none is active. -/
def DenseChild.signedFloodFill {V : Type} (vops : ValueOps V) (c : DenseChild V)
    (outside inside : V) : DenseChild V :=
  let first : Bool :=
    match c.voxels.find? (fun e => e.2) with
    | some e => vops.lt e.1 vops.zeroVal
    | none => vops.lt (c.vox false false false).1 vops.zeroVal
  let l := DenseChild.floodList vops outside inside first c.voxels
  ⟨c.cell, fun i j k => l.getD (4 * i.toNat + 2 * j.toNat + k.toNat) (c.vox i j k)⟩

/-- Flood-fill members of the dense cube: the first and the last value are those of the
first and of the last voxel in storage order. -/
def denseFloodOps {V : Type} (vops : ValueOps V) : FloodOps (denseOps V) where
  signedFloodFill := DenseChild.signedFloodFill vops
  getFirstValue := fun c => (c.vox false false false).1
  getLastValue := fun c => (c.vox true true true).1

/-- Modelled from the spec: the merge of a dense cube with another one (the node types are
absent from the embedded sources). A voxel that is inactive here and active in the other
cube takes the value of the other cube and becomes active. -/
def DenseChild.merge {V : Type} (c o : DenseChild V) : DenseChild V :=
  ⟨c.cell, fun i j k =>
    if (c.vox i j k).2 = false ∧ (o.vox i j k).2 = true then (o.vox i j k) else c.vox i j k⟩

/-- Merge member of the dense cube. -/
def denseMergeOps (V : Type) : MergeOps (denseOps V) where
  merge := fun c o _ _ => DenseChild.merge c o

/-- Voxel counting of the dense cube: eight voxels. -/
def denseCountOps (V : Type) : CountOps (denseOps V) where
  NUM_VOXELS := 8
  onVoxelCount := fun c => (c.voxels.filter fun e => e.2).length

/-- Modelled from the spec: `resetBackground` on a dense cube (the node types are absent from
the embedded sources): "inactive tiles/voxels whose value equals ±old background become
±new background (approximate equality); active values untouched". -/
def DenseChild.resetBackground {V : Type} (vops : ValueOps V) (c : DenseChild V)
    (old background : V) : DenseChild V :=
  ⟨c.cell, fun i j k =>
    if (c.vox i j k).2 = true then c.vox i j k
    else if vops.isApproxEqual (c.vox i j k).1 old = true then (background, false)
    else if vops.isApproxEqual (c.vox i j k).1 (vops.negative old) = true then
      (vops.negative background, false)
    else c.vox i j k⟩

/-- Background member of the dense cube. -/
def denseBackgroundOps {V : Type} (vops : ValueOps V) : BackgroundOps (denseOps V) where
  resetBackground := DenseChild.resetBackground vops

/-- Single-voxel writes of the dense cube: `setValueOnly` keeps the active bit of the
voxel, `setActiveState` and `setValueOff` keep its value. -/
def denseStateOps (V : Type) : StateOps (denseOps V) where
  setValueOnly := fun c p v =>
    c.setVoxel p (v, (c.vox (DenseChild.bit p.x) (DenseChild.bit p.y) (DenseChild.bit p.z)).2)
  setActiveState := fun c p flag =>
    c.setVoxel p ((c.vox (DenseChild.bit p.x) (DenseChild.bit p.y) (DenseChild.bit p.z)).1, flag)
  setValueOff := fun c p =>
    c.setVoxel p
      ((c.vox (DenseChild.bit p.x) (DenseChild.bit p.y) (DenseChild.bit p.z)).1, false)

/-- Topology copy of a dense cube with a foreground value: the active bits of the other cube,
the foreground value on active voxels and the background value on the others. -/
def denseForegroundCopyOps (V W : Type) : ForegroundCopyOps (denseOps V) (denseOps W) where
  topologyCopy := fun o bg fg =>
    ⟨o.cell, fun i j k => if (o.vox i j k).2 = true then (fg, true) else (bg, false)⟩

/-- Topology operations between a dense cube and a node of the standard tree. The two
configurations differ, so the root node never reaches these members; they build the cube
from the origin of the other node alone. -/
def mixedTopologyOps (V W : Type) : TopologyOps (denseOps V) (stdOps W) where
  topologyCopy := fun o bg => DenseChild.make o.origin bg false
  topologyUnion := fun c _ => c
  hasSameTopology := fun _ _ => false

/-- The remaining voxel members on a dense cube of integers, which is a leaf: the leaf
pointer returned by `touchLeaf` is the cube itself, named by its origin, and there is no
tile to voxelize. -/
def denseWriteOps : WriteOps (denseOps Int) where
  LeafPtr := Coord
  probeValue := fun c p => (c.isValueOn p, c.getValue p)
  setValueOff := fun c p v => c.setVoxel p (v, false)
  setValueOnMin := fun c p v => c.setVoxel p (min (c.getValue p) v, true)
  setValueOnMax := fun c p v => c.setVoxel p (max (c.getValue p) v, true)
  setValueOnSum := fun c p v => c.setVoxel p (c.getValue p + v, true)
  touchLeaf := fun c _ => (c, c.origin)
  voxelizeActiveTiles := fun c => c

/-- An accessor that records the coordinates it was handed; on a dense cube, which has no
node below it, the caching members do what the plain members do. -/
def denseCacheOps : CacheOps (denseOps Int) denseWriteOps where
  Accessor := List Coord
  insert := fun acc xyz _ => xyz :: acc
  getValueAndCache := fun c p acc => (c.getValue p, acc)
  isValueOnAndCache := fun c p acc => (c.isValueOn p, acc)
  probeValueAndCache := fun c p acc => ((c.isValueOn p, c.getValue p), acc)
  getValueLevelAndCache := fun _ _ acc => (0, acc)
  setValueAndCache := fun c p v acc => (c.setValueOn p v, acc)
  setValueOnlyAndCache := fun c p v acc => ((denseStateOps Int).setValueOnly c p v, acc)
  setValueOffAndCache := fun c p v acc => (c.setVoxel p (v, false), acc)
  setValueOnSumAndCache := fun c p v acc => (c.setVoxel p (c.getValue p + v, true), acc)
  setActiveStateAndCache := fun c p flag acc =>
    ((denseStateOps Int).setActiveState c p flag, acc)
  touchLeafAndCache := fun c _ acc => ((c, c.origin), acc)

/-- The functor `InactivePrune` on a dense cube: nothing below to prune; the cube is
constant when none of its voxels is active, and the functor then holds the inactive tile of
its value. -/
def denseInactivePruneOps (V : Type) : InactivePruneOps (denseOps V) where
  inactivePrune := fun bg c =>
    if c.voxels.all (fun e => !e.2) then (c, some ⟨bg, false⟩) else (c, none)

/-- Combination on dense cubes, voxel by voxel; a leaf has nothing to prune. -/
def denseCombineOps (V : Type) : CombineOps (denseOps V) where
  combineTile := fun c v flag op =>
    ⟨c.cell, fun i j k => op (c.vox i j k).1 (c.vox i j k).2 v flag⟩
  combineChild := fun c o op =>
    ⟨c.cell, fun i j k => op (c.vox i j k).1 (c.vox i j k).2 (o.vox i j k).1 (o.vox i j k).2⟩
  prune := fun c => c

/-- The single-voxel members of the dense cube with a leaf pointer that may be null: the
cube is its own leaf, named by its origin, and `none` is the null pointer. -/
def densePtrOps : WriteOps (denseOps Int) where
  LeafPtr := Option Coord
  probeValue := fun c p => (c.isValueOn p, c.getValue p)
  setValueOff := fun c p v => c.setVoxel p (v, false)
  setValueOnMin := fun c p v => c.setVoxel p (min (c.getValue p) v, true)
  setValueOnMax := fun c p v => c.setVoxel p (max (c.getValue p) v, true)
  setValueOnSum := fun c p v => c.setVoxel p (c.getValue p + v, true)
  touchLeaf := fun c _ => (c, some c.origin)
  voxelizeActiveTiles := fun c => c

/-- Leaf bookkeeping of the dense cube, which is one leaf. -/
def denseLeafOps : LeafOps (denseOps Int) densePtrOps where
  null := none
  probeLeaf := fun c _ => some c.origin
  leafCount := fun _ => 1

/-- A dense cube is a leaf: every value it holds is at level 0. -/
def denseLevelOps (V : Type) : LevelOps (denseOps V) where
  getValueLevel := fun _ _ => 0

/-- Modelled from the spec: a value type with a tolerance ("T must provide zero,
approximate-equality, negation"), as `math::isApproxEqual` is for the floating-point value
types; the header `Math.h` is absent from the embedded sources. The integers count units of
the tolerance, so two values are approximately equal when they differ by at most one
unit. -/
def fixedOps : ValueOps Int where
  zeroVal := 0
  negative := fun a => -a
  isApproxEqual := fun a b => decide ((a - b).natAbs ≤ 1)
  isApproxEqualTol := fun a b tol => decide ((a - b).natAbs ≤ tol.natAbs)
  lt := fun a b => decide (a < b)

/-- A root of background 5 with an inactive background tile at key (0,0,0), the inactive
tile of value 9 at key (2,0,0) and an active tile of the background value at key
(4,0,0). -/
def sampleTiles : RootNode Int (denseOps Int) :=
  ⟨[(⟨0, 0, 0⟩, .tile ⟨5, false⟩), (⟨2, 0, 0⟩, .tile ⟨9, false⟩),
    (⟨4, 0, 0⟩, .tile ⟨5, true⟩)], 5⟩

/-- A root of background 2 with two children of active voxels of value -1 at the keys
(0,0,0) and (0,0,6), and the active tile of value 7 at key (0,0,2) between them. -/
def sampleScan : RootNode Int (denseOps Int) :=
  ⟨[(⟨0, 0, 0⟩, .child (DenseChild.make ⟨0, 0, 0⟩ (-1) true)),
    (⟨0, 0, 2⟩, .tile ⟨7, true⟩),
    (⟨0, 0, 6⟩, .child (DenseChild.make ⟨0, 0, 6⟩ (-1) true))], 2⟩

/-- A root of background 5 to be merged into `sampleRoot`: a child at key (0,0,0), where
`sampleRoot` has a tile; the active tile of value 3 at key (2,0,0), where `sampleRoot` has
a tile; a child at key (4,0,0), where `sampleRoot` has a child; and the active tile of
value 4 at key (6,0,0) and a child at key (8,0,0), both absent from `sampleRoot`. -/
def sampleDonor : RootNode Int (denseOps Int) :=
  ⟨[(⟨0, 0, 0⟩, .child (DenseChild.setValueOn (DenseChild.make ⟨0, 0, 0⟩ 5 false) ⟨1, 0, 0⟩ 2)),
    (⟨2, 0, 0⟩, .tile ⟨3, true⟩),
    (⟨4, 0, 0⟩, .child (DenseChild.setValueOn (DenseChild.make ⟨4, 0, 0⟩ 5 false) ⟨4, 1, 0⟩ 6)),
    (⟨6, 0, 0⟩, .tile ⟨4, true⟩),
    (⟨8, 0, 0⟩, .child (DenseChild.make ⟨8, 0, 0⟩ 8 true))], 5⟩

/-- A root of background 5 with the inactive tiles of value 5, -5 and 9 at the keys
(0,0,0), (2,0,0) and (6,0,0) and the active tile of value 5 at key (4,0,0). -/
def sampleSigned : RootNode Int (denseOps Int) :=
  ⟨[(⟨0, 0, 0⟩, .tile ⟨5, false⟩), (⟨2, 0, 0⟩, .tile ⟨-5, false⟩),
    (⟨4, 0, 0⟩, .tile ⟨5, true⟩), (⟨6, 0, 0⟩, .tile ⟨9, false⟩)], 5⟩

/-- A root of background 5 whose only entry is a background tile: the inactive tile of
value 5 at key (0,0,0). -/
def backgroundTileRoot : RootNode Int (denseOps Int) :=
  ⟨[(⟨0, 0, 0⟩, .tile ⟨5, false⟩)], 5⟩

/-- A root of background 5 whose only entry is the inactive tile of value 7 at key
(0,0,0), which is not a background tile. -/
def inactiveTileRoot : RootNode Int (denseOps Int) :=
  ⟨[(⟨0, 0, 0⟩, .tile ⟨7, false⟩)], 5⟩

/-- A root of background 0 whose only entry is the inactive tile of value 1 at key
(0,0,0). -/
def nearTile : RootNode Int (denseOps Int) :=
  ⟨[(⟨0, 0, 0⟩, .tile ⟨1, false⟩)], 0⟩

/-- A root with background 0 and two active tiles, at the keys (0,2,0) and (2,0,0). -/
def sampleRange : RootNode Int (denseOps Int) :=
  ⟨[(⟨0, 2, 0⟩, .tile ⟨1, true⟩), (⟨2, 0, 0⟩, .tile ⟨1, true⟩)], 0⟩

/-- A root of background 2 with two children of active voxels of value -1 at the keys
(0,0,0) and (0,0,4), two child sides apart, and nothing between them. -/
def sampleGap : RootNode Int (denseOps Int) :=
  ⟨[(⟨0, 0, 0⟩, .child (DenseChild.make ⟨0, 0, 0⟩ (-1) true)),
    (⟨0, 0, 4⟩, .child (DenseChild.make ⟨0, 0, 4⟩ (-1) true))], 2⟩

/-! ## Leaf-level view of a tree and `Morphology`

Coordinates are mathematical integers here: the `Int32` overflow of `offsetBy` for a leaf
that touches the end of the coordinate range is not represented. -/

namespace Morphology

/-- Modelled from the spec: `LeafNode` (section 3) is absent from the embedded sources. A leaf
of log2 dimension `N` holds an active mask read and written one word at a time (word
`(x << N) | y` covers the z-row of `(x, y)`, bit `z` being the voxel) and a dense value
buffer addressed by the linear voxel offset. -/
structure Leaf (V : Type) where
  mask : Nat → Nat
  buffer : Nat → V

/-- Modelled from the spec: the tree as `Morphology` reaches it through `ValueAccessor` and
`LeafManager`, which are absent from the embedded sources. At the granularity of leaf
cubes a tree is the list of its leaf nodes, keyed by origin, and for every other leaf-sized
cube the value and active state of the tile or background that covers it (spec section 3,
voxel lookup semantics). -/
structure LeafTree (V : Type) where
  leaves : List (Coord × Leaf V)
  tile : Coord → V × Bool

variable {V : Type}

/-- The constant `LEAF_DIM = 1 << LEAF_LOG2DIM`. -/
def DIM (N : Nat) : Nat := 2 ^ N

/-- Origin of the leaf cube that contains a coordinate, `xyz & ~(DIM - 1)`. -/
def leafKey (N : Nat) (p : Coord) : Coord :=
  ⟨alignDown p.x N, alignDown p.y N, alignDown p.z N⟩

/-- Offset of a coordinate component inside its leaf, `a & (DIM - 1)`. -/
def offsetIn (N : Nat) (a : Int) : Nat := (a % (2 : Int) ^ N).toNat

/-- Index of the mask word that holds the z-row of a coordinate, `(x << N) | y`. -/
def wordIndex (N : Nat) (p : Coord) : Nat := offsetIn N p.x * DIM N + offsetIn N p.y

/-- Linear offset of a coordinate in the value buffer. -/
def voxelOffset (N : Nat) (p : Coord) : Nat := wordIndex N p * DIM N + offsetIn N p.z

/-- The leaf stored at an origin, if any. -/
def findLeaf : List (Coord × Leaf V) → Coord → Option (Leaf V)
  | [], _ => none
  | (k, l) :: rest, o => if k = o then some l else findLeaf rest o

/-- In-place update of the leaf stored at an origin. -/
def modifyLeaf : List (Coord × Leaf V) → Coord → (Leaf V → Leaf V) → List (Coord × Leaf V)
  | [], _, _ => []
  | (k, l) :: rest, o, f => (k, if k = o then f l else l) :: modifyLeaf rest o f

/-- Modelled from the spec: accessor `probeLeaf(xyz)`, the leaf that contains `xyz`, as its
origin; `none` is `NULL`. -/
def probeLeaf (N : Nat) (t : LeafTree V) (xyz : Coord) : Option Coord :=
  match findLeaf t.leaves (leafKey N xyz) with
  | some _ => some (leafKey N xyz)
  | none => none

/-- Modelled from the spec: accessor `isValueOn(xyz)`, the mask bit of the voxel, or the
state of the covering tile. -/
def isValueOn (N : Nat) (t : LeafTree V) (xyz : Coord) : Bool :=
  match findLeaf t.leaves (leafKey N xyz) with
  | some l => (l.mask (wordIndex N xyz)).testBit (offsetIn N xyz.z)
  | none => (t.tile (leafKey N xyz)).2

/-- Modelled from the spec: accessor `getValue(xyz)`, the buffer entry of the voxel, or the
value of the covering tile. -/
def getValue (N : Nat) (t : LeafTree V) (xyz : Coord) : V :=
  match findLeaf t.leaves (leafKey N xyz) with
  | some l => l.buffer (voxelOffset N xyz)
  | none => (t.tile (leafKey N xyz)).1

/-- Modelled from the spec: accessor `touchLeaf(xyz)`, the leaf that contains `xyz`, created
when missing with the value and active state of what covered its cube. Returns the tree and
the leaf origin. -/
def touchLeaf (N : Nat) (t : LeafTree V) (xyz : Coord) : LeafTree V × Coord :=
  match findLeaf t.leaves (leafKey N xyz) with
  | some _ => (t, leafKey N xyz)
  | none =>
    let cover := t.tile (leafKey N xyz)
    let fresh : Leaf V := ⟨fun _ => if cover.2 = true then 2 ^ DIM N - 1 else 0, fun _ => cover.1⟩
    (⟨t.leaves ++ [(leafKey N xyz, fresh)], t.tile⟩, leafKey N xyz)

/-- The statement `leaf.getValueMask().getWord<Word>(idx) |= w` on the leaf at `o`; the
result is stored in a `Word` of `DIM` bits. -/
def orWord (N : Nat) (t : LeafTree V) (o : Coord) (idx : Int) (w : Nat) : LeafTree V :=
  ⟨modifyLeaf t.leaves o fun l =>
      ⟨fun i => if i = idx.toNat then (l.mask i ||| w) % 2 ^ DIM N else l.mask i, l.buffer⟩,
    t.tile⟩

/-- The struct `Morphology::Neighbor`: the cached neighbour leaf (as its origin), the flag
`init` and the flag `isOn`. -/
structure Neighbor where
  leaf : Option Coord
  init : Bool
  isOn : Bool

/-- Member `Neighbor::clear`. -/
def Neighbor.clear (nb : Neighbor) : Neighbor := ⟨nb.leaf, true, nb.isOn⟩

/-- Member `Neighbor::scatter<DX, DY, DZ>(acc, xyz, indx, oldWord)`. -/
def scatter (N : Nat) (dx dy dz : Int) (t : LeafTree V) (nb : Neighbor) (xyz : Coord)
    (indx : Int) (oldWord : Nat) : LeafTree V × Neighbor :=
  let st : LeafTree V × Neighbor :=
    if nb.init = true then
      let orig := xyz.offsetBy (dx * DIM N) (dy * DIM N) (dz * DIM N)
      match probeLeaf N t orig with
      | some l => (t, ⟨some l, false, nb.isOn⟩)
      | none =>
        if isValueOn N t orig = false then
          let r := touchLeaf N t orig
          (r.1, ⟨some r.2, false, nb.isOn⟩)
        else (t, ⟨none, false, nb.isOn⟩)
    else (t, nb)
  let shift : Int := ((DIM N : Int) - 1) * (dy + dx * DIM N)
  match st.2.leaf with
  | some l => (orWord N st.1 l (indx - shift) oldWord, st.2)
  | none => st

/-- State of a pass of `Morphology`: the tree and the array `NN[6]`. -/
structure MState (V : Type) where
  tree : LeafTree V
  NN : Nat → Neighbor

/-- A call `NN[i].scatter<DX, DY, DZ>(mAcc, origin, n, w)`. -/
def scatterAt (N : Nat) (i : Nat) (dx dy dz : Int) (s : MState V) (origin : Coord)
    (indx : Int) (w : Nat) : MState V :=
  let r := scatter N dx dy dz s.tree (s.NN i) origin indx w
  ⟨r.1, fun j => if j = i then r.2 else s.NN j⟩

/-- Block "dilate current leaf or neighbor in negative x-direction" of `dilateVoxels`. -/
def dilateNegX (N : Nat) (origin : Coord) (n : Int) (oldWord : Nat) (x : Nat) (s : MState V) :
    MState V :=
  if 0 < x then ⟨orWord N s.tree origin (n - DIM N) oldWord, s.NN⟩
  else scatterAt N 0 (-1) 0 0 s origin n oldWord

/-- Block "dilate current leaf or neighbor in positive x-direction" of `dilateVoxels`. -/
def dilatePosX (N : Nat) (origin : Coord) (n : Int) (oldWord : Nat) (x : Nat) (s : MState V) :
    MState V :=
  if x < DIM N - 1 then ⟨orWord N s.tree origin (n + DIM N) oldWord, s.NN⟩
  else scatterAt N 1 1 0 0 s origin n oldWord

/-- Block "dilate current leaf or neighbor in negative y-direction" of `dilateVoxels`. -/
def dilateNegY (N : Nat) (origin : Coord) (n : Int) (oldWord : Nat) (y : Nat) (s : MState V) :
    MState V :=
  if 0 < y then ⟨orWord N s.tree origin (n - 1) oldWord, s.NN⟩
  else scatterAt N 2 0 (-1) 0 s origin n oldWord

/-- Block "dilate current leaf or neighbor in positive y-direction" of `dilateVoxels`. -/
def dilatePosY (N : Nat) (origin : Coord) (n : Int) (oldWord : Nat) (y : Nat) (s : MState V) :
    MState V :=
  if y < DIM N - 1 then ⟨orWord N s.tree origin (n + 1) oldWord, s.NN⟩
  else scatterAt N 3 0 1 0 s origin n oldWord

/-- Block "dilate the current leaf node in the z direction": the row ORed with itself
shifted right and left by one bit. -/
def dilateZ (N : Nat) (origin : Coord) (n : Int) (oldWord : Nat) (s : MState V) : MState V :=
  ⟨orWord N s.tree origin n ((oldWord >>> 1) ||| (oldWord <<< 1)), s.NN⟩

/-- Block "dilate neighbor in negative z-direction": `Word w = oldWord << (LEAF_DIM-1)`. -/
def dilateNegZ (N : Nat) (origin : Coord) (n : Int) (oldWord : Nat) (s : MState V) : MState V :=
  let w := (oldWord <<< (DIM N - 1)) % 2 ^ DIM N
  if w ≠ 0 then scatterAt N 4 0 0 (-1) s origin n w else s

/-- Block "dilate neighbor in positive z-direction": `Word w = oldWord >> (LEAF_DIM-1)`. -/
def dilatePosZ (N : Nat) (origin : Coord) (n : Int) (oldWord : Nat) (s : MState V) : MState V :=
  let w := oldWord >>> (DIM N - 1)
  if w ≠ 0 then scatterAt N 5 0 0 1 s origin n w else s

/-- Body of the loops over `x` and `y` of `Morphology::dilateVoxels` for the leaf at
`origin` whose saved mask is `oldMask`: the seven blocks in source order, skipped when the
saved row is empty. -/
def dilateRow (N : Nat) (origin : Coord) (oldMask : Nat → Nat) (s : MState V) (x y : Nat) :
    MState V :=
  let n : Int := (x : Int) * DIM N + y
  let oldWord := oldMask n.toNat
  if oldWord = 0 then s
  else
    dilatePosZ N origin n oldWord (dilateNegZ N origin n oldWord (dilateZ N origin n oldWord
      (dilatePosY N origin n oldWord y (dilateNegY N origin n oldWord y
        (dilatePosX N origin n oldWord x (dilateNegX N origin n oldWord x s))))))

/-- Body of the loop over the leaves of `Morphology::dilateVoxels`: the loops over `x` and
`y`, then `NN[i].clear()` for the six neighbours. -/
def dilateLeaf (N : Nat) (s : MState V) (leaf : Coord × (Nat → Nat)) : MState V :=
  let s1 := (List.range (DIM N)).foldl
    (fun s x => (List.range (DIM N)).foldl (fun s y => dilateRow N leaf.1 leaf.2 s x y) s) s
  ⟨s1.tree, fun i => (s1.NN i).clear⟩

/-- Member `Morphology::dilateVoxels()`, one pass. The manager lists the leaves of the tree;
their masks are saved, every listed leaf is processed, and the leaf array is rebuilt from
the tree. -/
def dilateVoxels (N : Nat) (t : LeafTree V) : LeafTree V :=
  let savedMasks := t.leaves.map fun e => (e.1, e.2.mask)
  (savedMasks.foldl (dilateLeaf N) ⟨t, fun _ => ⟨none, true, false⟩⟩).tree

/-- Member `Morphology::dilateVoxels(count)`, reached from `dilateVoxels(tree, count)`. -/
def dilateVoxelsCount (N : Nat) (t : LeafTree V) : Nat → LeafTree V
  | 0 => t
  | count + 1 => dilateVoxelsCount N (dilateVoxels N t) count

/-- The six face neighbours of a voxel. -/
def faceNeighbors (p : Coord) : List Coord :=
  [p.offsetBy (-1) 0 0, p.offsetBy 1 0 0, p.offsetBy 0 (-1) 0, p.offsetBy 0 1 0,
   p.offsetBy 0 0 (-1), p.offsetBy 0 0 1]

/-- Invariants of a tree seen at leaf granularity: one leaf per origin, origins aligned to
the leaf side, and mask words of `DIM` bits. -/
structure LeafTree.WF (N : Nat) (t : LeafTree V) : Prop where
  nodup : (t.leaves.map Prod.fst).Nodup
  aligned : ∀ e ∈ t.leaves, leafKey N e.1 = e.1
  words : ∀ e ∈ t.leaves, ∀ i, e.2.mask i < 2 ^ DIM N

/-- The tree `t1` reads the same value as `t` at every coordinate and is active wherever `t`
is active. -/
def Preserves (N : Nat) (t t1 : LeafTree V) : Prop :=
  (∀ p, getValue N t1 p = getValue N t p) ∧
  (∀ p, isValueOn N t p = true → isValueOn N t1 p = true)

/-- The tree has a leaf node at the origin `k`. -/
def hasLeaf (t : LeafTree V) (k : Coord) : Bool := (findLeaf t.leaves k).isSome

/-- Offsets `(DX, DY, DZ)` of the template arguments used with `NN[i]`. -/
def nbDir : Nat → Coord
  | 0 => ⟨-1, 0, 0⟩
  | 1 => ⟨1, 0, 0⟩
  | 2 => ⟨0, -1, 0⟩
  | 3 => ⟨0, 1, 0⟩
  | 4 => ⟨0, 0, -1⟩
  | _ => ⟨0, 0, 1⟩

/-- Origin of the neighbour leaf cached in `NN[i]` while the leaf at `o` is processed. -/
def nbKey (N : Nat) (o : Coord) (i : Nat) : Coord :=
  o.offsetBy ((nbDir i).x * DIM N) ((nbDir i).y * DIM N) ((nbDir i).z * DIM N)

/-- Invariant of the state while the leaf at `o` of the tree `t0` is processed: tiles are
those of `t0`, the leaves of `t0` are still there, and a neighbour entry that has been
initialised holds the neighbour leaf, which exists. -/
structure RowInv (N : Nat) (t0 : LeafTree V) (o : Coord) (s : MState V) : Prop where
  tile : s.tree.tile = t0.tile
  leaves : ∀ k, hasLeaf t0 k = true → hasLeaf s.tree k = true
  cache : ∀ i, (s.NN i).init = false →
    (s.NN i).leaf = some (nbKey N o i) ∧ hasLeaf s.tree (nbKey N o i) = true

/-- A tree of leaf log2 dimension 3 and background 0 whose only leaf, at the origin, has the
single active voxel (0,0,0) with value 1. -/
def singleVoxel : LeafTree Int :=
  ⟨[(⟨0, 0, 0⟩, ⟨fun i => if i = 0 then 1 else 0, fun i => if i = 0 then 1 else 0⟩)],
   fun _ => (0, false)⟩

/-- Member `Neighbor::gather<DX, DY, DZ>(acc, xyz, indx)`: on first use the neighbour leaf
is looked up and, when there is none, the active state of what covers its cube is kept in
`isOn`; the result is the mask word `indx - N` of the neighbour leaf, or the word `ON` or
`OFF`. The leaf pointer is kept as the origin of the leaf, whose mask is read in the tree
(the tree is not written during the pass). -/
def gather (N : Nat) (dx dy dz : Int) (t : LeafTree V) (nb : Neighbor) (xyz : Coord)
    (indx : Int) : Nat × Neighbor :=
  let nb1 : Neighbor :=
    if nb.init = true then
      let orig := xyz.offsetBy (dx * DIM N) (dy * DIM N) (dz * DIM N)
      match probeLeaf N t orig with
      | some l => ⟨some l, false, false⟩
      | none => ⟨none, false, isValueOn N t orig⟩
    else nb
  let shift : Int := ((DIM N : Int) - 1) * (dy + dx * DIM N)
  match nb1.leaf with
  | some l =>
    ((match findLeaf t.leaves l with
      | some lf => lf.mask (indx - shift).toNat
      | none => 0), nb1)
  | none => (if nb1.isOn = true then 2 ^ DIM N - 1 else 0, nb1)

/-- State of the loops of `Morphology::erodeVoxels` while one leaf is processed: the saved
mask `newMask` of the leaf, which is the one written, and the array `NN[6]`. -/
structure EState where
  newMask : Nat → Nat
  NN : Nat → Neighbor

/-- A call `NN[i].gather<DX, DY, DZ>(mAcc, origin, n)`. -/
def gatherAt (N : Nat) (i : Nat) (dx dy dz : Int) (t : LeafTree V) (s : EState)
    (origin : Coord) (indx : Int) : Nat × EState :=
  let r := gather N dx dy dz t (s.NN i) origin indx
  (r.1, ⟨s.newMask, fun j => if j = i then r.2 else s.NN j⟩)

/-- The statement `w &= m` on the word `w = newMask.getWord<Word>(n)`; the result is stored
in a `Word` of `DIM` bits. -/
def andWord (N : Nat) (s : EState) (n : Int) (m : Nat) : EState :=
  ⟨fun i => if i = n.toNat then (s.newMask i &&& m) % 2 ^ DIM N else s.newMask i, s.NN⟩

/-- Block "erode in two z directions" of `erodeVoxels`:
`w &= (w<<1 | (NN[4].gather<0,0,-1>(..) >> (DIM-1))) & (w>>1 | (NN[5].gather<0,0,1>(..) << (DIM-1)))`. -/
def erodeZ (N : Nat) (t : LeafTree V) (origin : Coord) (n : Int) (s : EState) : EState :=
  let w := s.newMask n.toNat
  let g4 := gatherAt N 4 0 0 (-1) t s origin n
  let g5 := gatherAt N 5 0 0 1 t g4.2 origin n
  andWord N g5.2 n (((w <<< 1) ||| (g4.1 >>> (DIM N - 1))) &&&
    ((w >>> 1) ||| (g5.1 <<< (DIM N - 1))))

/-- Block "negative x-direction" of `erodeVoxels`:
`w &= (x == 0) ? NN[0].gather<-1,0,0>(..) : leaf.getValueMask().getWord<Word>(n-LEAF_DIM)`. -/
def erodeNegX (N : Nat) (t : LeafTree V) (origin : Coord) (leafMask : Nat → Nat) (n : Int)
    (x : Nat) (s : EState) : EState :=
  if x = 0 then
    let g := gatherAt N 0 (-1) 0 0 t s origin n
    andWord N g.2 n g.1
  else andWord N s n (leafMask (n - DIM N).toNat)

/-- Block "positive x-direction" of `erodeVoxels`. -/
def erodePosX (N : Nat) (t : LeafTree V) (origin : Coord) (leafMask : Nat → Nat) (n : Int)
    (x : Nat) (s : EState) : EState :=
  if x = DIM N - 1 then
    let g := gatherAt N 1 1 0 0 t s origin n
    andWord N g.2 n g.1
  else andWord N s n (leafMask (n + DIM N).toNat)

/-- Block "negative y-direction" of `erodeVoxels`. -/
def erodeNegY (N : Nat) (t : LeafTree V) (origin : Coord) (leafMask : Nat → Nat) (n : Int)
    (y : Nat) (s : EState) : EState :=
  if y = 0 then
    let g := gatherAt N 2 0 (-1) 0 t s origin n
    andWord N g.2 n g.1
  else andWord N s n (leafMask (n - 1).toNat)

/-- Block "positive y-direction" of `erodeVoxels`. -/
def erodePosY (N : Nat) (t : LeafTree V) (origin : Coord) (leafMask : Nat → Nat) (n : Int)
    (y : Nat) (s : EState) : EState :=
  if y = DIM N - 1 then
    let g := gatherAt N 3 0 1 0 t s origin n
    andWord N g.2 n g.1
  else andWord N s n (leafMask (n + 1).toNat)

/-- Body of the loops over `x` and `y` of `Morphology::erodeVoxels` for the leaf at
`origin` whose mask in the tree is `leafMask`: the five statements in source order, skipped
when the saved row is empty. -/
def erodeRow (N : Nat) (t : LeafTree V) (origin : Coord) (leafMask : Nat → Nat) (s : EState)
    (x y : Nat) : EState :=
  let n : Int := (x : Int) * DIM N + y
  if s.newMask n.toNat = 0 then s
  else
    erodePosY N t origin leafMask n y (erodeNegY N t origin leafMask n y
      (erodePosX N t origin leafMask n x (erodeNegX N t origin leafMask n x
        (erodeZ N t origin n s))))

/-- Body of the loop over the leaves of `Morphology::erodeVoxels`: the saved mask of the
leaf is eroded row by row, then `NN[i].clear()` for the six neighbours. -/
def erodeLeaf (N : Nat) (t : LeafTree V) (NN : Nat → Neighbor) (leaf : Coord × Leaf V) :
    EState :=
  let s1 := (List.range (DIM N)).foldl
    (fun s x => (List.range (DIM N)).foldl
      (fun s y => erodeRow N t leaf.1 leaf.2.mask s x y) s)
    (⟨leaf.2.mask, NN⟩ : EState)
  ⟨s1.newMask, fun i => (s1.NN i).clear⟩

/-- The loop over the leaves of `Morphology::erodeVoxels`: the saved masks after the loop,
in the order of the leaf array, and the array `NN[6]`. -/
def erodeLoop (N : Nat) (t : LeafTree V) :
    List (Coord × Leaf V) → List (Nat → Nat) × (Nat → Neighbor) →
      List (Nat → Nat) × (Nat → Neighbor)
  | [], acc => acc
  | leaf :: rest, acc =>
    let s := erodeLeaf N t acc.2 leaf
    erodeLoop N t rest (acc.1 ++ [s.newMask], s.NN)

/-- The part of `Morphology::erodeVoxels()` that precedes the pruning: the masks of the
leaves are saved, the saved masks are eroded, and the loop
`mManager->leaf(i).setValueMask(savedMasks[i])` stores them in the leaves. -/
def erodeMasks (N : Nat) (t : LeafTree V) : LeafTree V :=
  let savedMasks := (erodeLoop N t t.leaves ([], fun _ => ⟨none, true, false⟩)).1
  ⟨List.zipWith (fun e m => (e.1, (⟨m, e.2.buffer⟩ : Leaf V))) t.leaves savedMasks, t.tile⟩

/-- Modelled from the spec: the comparison `value < 0` and the negation of the value type,
which `pruneLevelSet` uses to keep the sign of a collapsed leaf (`Math.h` is absent from
the embedded sources). -/
structure SignOps (V : Type) where
  isNegative : V → Bool
  negative : V → V

/-- Modelled from the spec: every voxel of the leaf is inactive. -/
def Leaf.isInactive (N : Nat) (l : Leaf V) : Bool :=
  (List.range (DIM N * DIM N)).all fun i => l.mask i == 0

/-- Modelled from the spec: the values of the leaf have a uniform sign. -/
def Leaf.signUniform (N : Nat) (sops : SignOps V) (l : Leaf V) : Bool :=
  (List.range (DIM N * DIM N * DIM N)).all fun i =>
    sops.isNegative (l.buffer i) == sops.isNegative (l.buffer 0)

/-- Modelled from the spec: `Tree::pruneLevelSet` (section 4.8) is absent from the embedded
sources. At the granularity of leaf cubes: every leaf in which every voxel is inactive and
the sign of the values is uniform is collapsed to an inactive tile of value `background`
or `-background`, the sign being preserved. The erasure of background tiles at the root
that follows does not change what covers a leaf cube. -/
def pruneLevelSet (N : Nat) (sops : SignOps V) (background : V) (t : LeafTree V) :
    LeafTree V :=
  ⟨t.leaves.filter fun e => !(e.2.isInactive N && e.2.signUniform N sops),
   fun k =>
    match findLeaf t.leaves k with
    | some l =>
      if (l.isInactive N && l.signUniform N sops) = true then
        (if sops.isNegative (l.buffer 0) = true then sops.negative background
          else background, false)
      else t.tile k
    | none => t.tile k⟩

/-- Member `Morphology::erodeVoxels()`, one pass: the erosion of the saved masks, their
copy into the leaves, `pruneLevelSet` on the tree, and the rebuilding of the leaf array
from the tree. The background of the tree is the argument `background`. -/
def erodeVoxels (N : Nat) (sops : SignOps V) (background : V) (t : LeafTree V) : LeafTree V :=
  pruneLevelSet N sops background (erodeMasks N t)

/-- Member `Morphology::erodeVoxels(count)`, reached from `erodeVoxels(tree, count)`. -/
def erodeVoxelsCount (N : Nat) (sops : SignOps V) (background : V) (t : LeafTree V) :
    Nat → LeafTree V
  | 0 => t
  | count + 1 => erodeVoxelsCount N sops background (erodeVoxels N sops background t) count

/-- Sign test and negation of the integers. -/
def intSign : SignOps Int := ⟨fun v => decide (v < 0), fun v => -v⟩

/-- Invariant of the state while the leaf at `o` of the tree `t` is eroded: a neighbour
entry that has been initialised holds the result of `probeLeaf` for the neighbour cube and,
when there is no leaf, the active state of what covers the cube. -/
structure EInv (N : Nat) (t : LeafTree V) (o : Coord) (s : EState) : Prop where
  cache : ∀ i, (s.NN i).init = false →
    (s.NN i).leaf = probeLeaf N t (nbKey N o i) ∧
    ((s.NN i).leaf = none → (s.NN i).isOn = isValueOn N t (nbKey N o i))

/-- Effect of one statement of the row `n` of `erodeVoxels` that takes the state `s` to
`s1`: the cache invariant is kept, the other rows are not written, and bit `c` of the row
is cleared unless the voxel `P c` is active in the tree. -/
def RowStep (N : Nat) (t : LeafTree V) (o : Coord) (n : Nat) (P : Nat → Coord)
    (s s1 : EState) : Prop :=
  EInv N t o s1 ∧ (∀ i, i ≠ n → s1.newMask i = s.newMask i) ∧ s1.newMask n < 2 ^ DIM N ∧
  ∀ c, c < DIM N → (s1.newMask n).testBit c = ((s.newMask n).testBit c && isValueOn N t (P c))

/-- The mask `m` is the six-neighbourhood erosion of the leaf `e` of the tree `t`: its words
have `DIM` bits, and a voxel of the leaf is set in `m` exactly when it is active in `t`
together with its six face neighbours. -/
def MaskSpec (N : Nat) (t : LeafTree V) (e : Coord × Leaf V) (m : Nat → Nat) : Prop :=
  (∀ i, m i < 2 ^ DIM N) ∧
  ∀ x y c, x < DIM N → y < DIM N → c < DIM N →
    ((m (x * DIM N + y)).testBit c = true ↔
      (isValueOn N t ⟨e.1.x + x, e.1.y + y, e.1.z + c⟩ = true ∧
        ∀ p ∈ faceNeighbors ⟨e.1.x + x, e.1.y + y, e.1.z + c⟩, isValueOn N t p = true))

/-- The constant `N = (LEAF_DIM - 1) * (DY + DX * LEAF_DIM)` of `Neighbor::scatter` and
`Neighbor::gather`. -/
def neighborShift (N : Nat) (dx dy : Int) : Int := ((DIM N : Int) - 1) * (dy + dx * DIM N)

/-- The row index `n` of the loops
`for (x = 0; ..) for (y = 0, n = (x << LEAF_LOG2DIM); ..; ++y, ++n)`. -/
def rowIndex (N : Nat) (x y : Nat) : Int := ((x <<< N : Nat) : Int) + y

/-- The mask words that `dilateVoxels` and `erodeVoxels` address while they process the row
`(x, y)` of a leaf, each with the mask it belongs to: `none` is the mask of the current leaf
or its saved copy, `some i` is the mask of the leaf of `NN[i]`. In source order: the row
itself, the negative and the positive x direction, the negative and the positive y
direction, and the two z directions. -/
def rowAccesses (N : Nat) (x y : Nat) : List (Option Nat × Int) :=
  [(none, rowIndex N x y),
    if 0 < x then (none, rowIndex N x y - DIM N)
    else (some 0, rowIndex N x y - neighborShift N (-1) 0),
    if x < DIM N - 1 then (none, rowIndex N x y + DIM N)
    else (some 1, rowIndex N x y - neighborShift N 1 0),
    if 0 < y then (none, rowIndex N x y - 1)
    else (some 2, rowIndex N x y - neighborShift N 0 (-1)),
    if y < DIM N - 1 then (none, rowIndex N x y + 1)
    else (some 3, rowIndex N x y - neighborShift N 0 1),
    (some 4, rowIndex N x y - neighborShift N 0 0),
    (some 5, rowIndex N x y - neighborShift N 0 0)]

end Morphology

/-! # Theorems -/

/-! ## The key order -/

theorem Coord.lt_irrefl (a : Coord) : Coord.lt a a = false := by
  simp [Coord.lt]

theorem Coord.lt_trans {a b c : Coord} (h1 : Coord.lt a b = true) (h2 : Coord.lt b c = true) :
    Coord.lt a c = true := by
  simp only [Coord.lt, Bool.or_eq_true, Bool.and_eq_true, decide_eq_true_eq] at *
  omega

theorem Coord.lt_total {a b : Coord} (h : a ≠ b) : Coord.lt a b = true ∨ Coord.lt b a = true := by
  have hne : a.x ≠ b.x ∨ a.y ≠ b.y ∨ a.z ≠ b.z := by
    by_contra hc
    push_neg at hc
    apply h
    cases a; cases b
    simp only [Coord.mk.injEq]
    exact hc
  simp only [Coord.lt, Bool.or_eq_true, Bool.and_eq_true, decide_eq_true_eq]
  omega

theorem Coord.lt_asymm {a b : Coord} (h : Coord.lt a b = true) : Coord.lt b a = false := by
  rw [Bool.eq_false_iff]
  intro h2
  have := Coord.lt_trans h h2
  rw [Coord.lt_irrefl] at this
  exact Bool.false_ne_true this

/-! ## Table lemmas -/

namespace MapType

variable {V C : Type}

theorem find_assign_self (t : MapType V C) (k : Coord) (n : NodeStruct V C) :
    (t.assign k n).find k = some n := by
  induction t with
  | nil => simp [assign, find]
  | cons hd tl ih =>
    obtain ⟨k', m⟩ := hd
    by_cases h1 : k' = k
    · simp [assign, find, h1]
    · by_cases h2 : Coord.lt k k' = true
      · simp [assign, find, h1, h2]
      · simp [assign, find, h1, h2, ih]

theorem find_assign_other (t : MapType V C) (k q : Coord) (n : NodeStruct V C)
    (h : k ≠ q) : (t.assign k n).find q = t.find q := by
  induction t with
  | nil => simp [assign, find, h]
  | cons hd tl ih =>
    obtain ⟨k', m⟩ := hd
    by_cases h1 : k' = k
    · subst h1
      simp [assign, find, h]
    · by_cases h2 : Coord.lt k k' = true
      · simp [assign, find, h1, h2, h]
      · by_cases h3 : k' = q
        · subst h3
          simp [assign, find, h1, h2]
        · simp [assign, find, h1, h2, h3, ih]

theorem assign_assign (t : MapType V C) (k : Coord) (n m : NodeStruct V C) :
    (t.assign k n).assign k m = t.assign k m := by
  induction t with
  | nil => simp [assign]
  | cons hd tl ih =>
    obtain ⟨k', e⟩ := hd
    by_cases h1 : k' = k
    · simp [assign, h1]
    · by_cases h2 : Coord.lt k k' = true
      · simp [assign, h1, h2]
      · simp [assign, h1, h2, ih]

theorem insert_assign (t : MapType V C) (k : Coord) (n m : NodeStruct V C) :
    (t.insert k n).assign k m = t.assign k m := by
  unfold insert
  cases h : t.find k with
  | none => simp only [assign_assign]
  | some e => rfl

theorem find_eq_none_of_forall (t : MapType V C) (k : Coord)
    (h : ∀ e ∈ t, e.1 ≠ k) : t.find k = none := by
  induction t with
  | nil => rfl
  | cons hd tl ih =>
    obtain ⟨k', m⟩ := hd
    have h1 : k' ≠ k := h (k', m) (List.mem_cons_self _ _)
    simp only [find, h1, if_false]
    exact ih (fun e he => h e (List.mem_cons_of_mem _ he))

theorem WF_tail {hd : Coord × NodeStruct V C} {tl : MapType V C} (h : WF (hd :: tl)) :
    WF tl ∧ find tl hd.1 = none := by
  unfold WF at h
  rw [List.pairwise_cons] at h
  refine ⟨h.2, find_eq_none_of_forall tl hd.1 ?_⟩
  intro e he heq
  have := h.1 e he
  rw [heq] at this
  simp [Coord.lt] at this

theorem WF_head_ne {hd : Coord × NodeStruct V C} {tl : MapType V C} (h : WF (hd :: tl)) :
    ∀ e ∈ tl, e.1 ≠ hd.1 := by
  unfold WF at h
  rw [List.pairwise_cons] at h
  intro e he heq
  have := h.1 e he
  rw [heq] at this
  simp [Coord.lt] at this

theorem foldl_erase_cons_of_ne (hd : Coord × NodeStruct V C) :
    ∀ (keys : List Coord) (tl : MapType V C), (∀ k ∈ keys, k ≠ hd.1) →
      keys.foldl erase (hd :: tl) = hd :: keys.foldl erase tl := by
  intro keys
  induction keys with
  | nil => intro tl _; rfl
  | cons k ks ih =>
    intro tl h
    have hk : hd.1 ≠ k := fun e => h k (List.mem_cons_self _ _) e.symm
    simp only [List.foldl_cons]
    have : erase (hd :: tl) k = hd :: erase tl k := by
      obtain ⟨k0, e0⟩ := hd
      simp only [erase]
      simp only at hk
      simp only [hk, if_false]
    rw [this]
    exact ih (erase tl k) (fun k' hk' => h k' (List.mem_cons_of_mem _ hk'))

/-- Erasing, key by key, the entries selected by a predicate from a table with distinct keys
leaves exactly the other entries. -/
theorem foldl_erase_filter (P : Coord × NodeStruct V C → Bool) :
    ∀ t : MapType V C, WF t →
      ((t.filter P).map Prod.fst).foldl erase t = t.filter (fun i => !P i) := by
  intro t
  induction t with
  | nil => intro _; rfl
  | cons hd tl ih =>
    intro hwf
    have hne := WF_head_ne hwf
    have hwf2 := (WF_tail hwf).1
    cases hP : P hd with
    | true =>
      simp only [List.filter_cons, hP, if_true, List.map_cons, List.foldl_cons,
        Bool.not_true, Bool.false_eq_true, if_false]
      have : erase (hd :: tl) hd.1 = tl := by
        obtain ⟨k0, e0⟩ := hd
        simp only [erase, if_true]
      rw [this]
      exact ih hwf2
    | false =>
      simp only [List.filter_cons, hP, Bool.false_eq_true, if_false, Bool.not_false, if_true]
      rw [foldl_erase_cons_of_ne hd _ tl, ih hwf2]
      intro k hk
      rw [List.mem_map] at hk
      obtain ⟨e, he, rfl⟩ := hk
      exact hne e (List.mem_of_mem_filter he)

theorem WF_map_of_key (f : Coord × NodeStruct V C → Coord × NodeStruct V C)
    (hf : ∀ i, (f i).1 = i.1) {t : MapType V C} (h : WF t) : WF (t.map f) := by
  unfold WF at *
  rw [List.pairwise_map]
  exact h.imp (fun {a b} hab => by rw [hf a, hf b]; exact hab)

theorem WF_filter (P : Coord × NodeStruct V C → Bool) {t : MapType V C} (h : WF t) :
    WF (t.filter P) :=
  List.Pairwise.filter P h

theorem mem_assign {t : MapType V C} {k : Coord} {n : NodeStruct V C}
    {e : Coord × NodeStruct V C} (h : e ∈ t.assign k n) : e = (k, n) ∨ e ∈ t := by
  induction t with
  | nil =>
    simp only [assign, List.mem_singleton] at h
    exact Or.inl h
  | cons hd tl ih =>
    obtain ⟨k', m⟩ := hd
    by_cases h1 : k' = k
    · simp only [assign, h1, if_true, List.mem_cons] at h
      rcases h with h | h
      · exact Or.inl h
      · exact Or.inr (List.mem_cons_of_mem _ h)
    · by_cases h2 : Coord.lt k k' = true
      · simp only [assign, h1, h2, if_true, if_false, List.mem_cons] at h
        rcases h with h | h | h
        · exact Or.inl h
        · exact Or.inr (h ▸ List.mem_cons_self _ _)
        · exact Or.inr (List.mem_cons_of_mem _ h)
      · simp only [assign, h1, h2, if_false, Bool.false_eq_true, List.mem_cons] at h
        rcases h with h | h
        · exact Or.inr (h ▸ List.mem_cons_self _ _)
        · rcases ih h with h | h
          · exact Or.inl h
          · exact Or.inr (List.mem_cons_of_mem _ h)

theorem WF_assign {t : MapType V C} (h : WF t) (k : Coord) (n : NodeStruct V C) :
    WF (t.assign k n) := by
  induction t with
  | nil => simp [assign, WF]
  | cons hd tl ih =>
    obtain ⟨k', m⟩ := hd
    have hp := h
    unfold WF at hp
    rw [List.pairwise_cons] at hp
    by_cases h1 : k' = k
    · subst h1
      simp only [assign, if_true]
      unfold WF
      rw [List.pairwise_cons]
      exact ⟨hp.1, hp.2⟩
    · by_cases h2 : Coord.lt k k' = true
      · simp only [assign, h1, h2, if_true, if_false]
        unfold WF
        rw [List.pairwise_cons]
        refine ⟨?_, h⟩
        intro e he
        rcases List.mem_cons.1 he with he | he
        · rw [he]; exact h2
        · exact Coord.lt_trans h2 (hp.1 e he)
      · simp only [assign, h1, h2, if_false, Bool.false_eq_true]
        unfold WF
        rw [List.pairwise_cons]
        refine ⟨?_, ih hp.2⟩
        intro e he
        rcases mem_assign he with he | he
        · rw [he]
          rcases Coord.lt_total h1 with h3 | h3
          · exact h3
          · exact absurd h3 h2
        · exact hp.1 e he

theorem find_of_lt_head {hd : Coord × NodeStruct V C} {tl : MapType V C} (h : WF (hd :: tl))
    {k : Coord} (hk : Coord.lt k hd.1 = true) : find (hd :: tl) k = none := by
  apply find_eq_none_of_forall
  intro e he heq
  unfold WF at h
  rw [List.pairwise_cons] at h
  rcases List.mem_cons.1 he with he | he
  · rw [he] at heq
    rw [heq, Coord.lt_irrefl] at hk
    exact Bool.false_ne_true hk
  · have h2 := Coord.lt_trans hk (h.1 e he)
    rw [heq, Coord.lt_irrefl] at h2
    exact Bool.false_ne_true h2

/-- Two tables with strictly increasing keys that answer every lookup alike are equal. -/
theorem ext_of_find : ∀ {a b : MapType V C}, WF a → WF b →
    (∀ k, find a k = find b k) → a = b := by
  intro a
  induction a with
  | nil =>
    intro b _ _ h
    cases b with
    | nil => rfl
    | cons hd tl =>
      have := h hd.1
      simp [find] at this
  | cons hd tl ih =>
    intro b ha hb h
    cases b with
    | nil =>
      have := h hd.1
      simp [find] at this
    | cons hd2 tl2 =>
      obtain ⟨k1, e1⟩ := hd
      obtain ⟨k2, e2⟩ := hd2
      have hk : k1 = k2 := by
        by_contra hne
        rcases Coord.lt_total hne with h1 | h1
        · have h2 := h k1
          rw [find_of_lt_head hb h1] at h2
          simp [find] at h2
        · have h2 := h k2
          rw [find_of_lt_head ha h1] at h2
          simp [find] at h2
      subst hk
      have he : e1 = e2 := by
        have h2 := h k1
        simp only [find, if_true, Option.some.injEq] at h2
        exact h2
      subst he
      congr 1
      apply ih (WF_tail ha).1 (WF_tail hb).1
      intro k
      by_cases hkk : k1 = k
      · subst hkk
        rw [(WF_tail ha).2, (WF_tail hb).2]
      · have h2 := h k
        simp only [find, hkk, if_false] at h2
        exact h2

/-- Lookup after a run of assignments with distinct keys. -/
theorem find_foldl_assign (k : Coord) :
    ∀ (l : List (Coord × NodeStruct V C)) (s : MapType V C), WF l →
      find (l.foldl assignEntry s) k =
        (match find l k with
         | some e => some e
         | none => find s k) := by
  intro l
  induction l with
  | nil => intro s _; rfl
  | cons hd tl ih =>
    intro s hwf
    obtain ⟨k1, e1⟩ := hd
    simp only [List.foldl_cons, assignEntry]
    rw [ih _ (WF_tail hwf).1]
    by_cases hk : k1 = k
    · subst hk
      have := (WF_tail hwf).2
      simp only at this
      simp only [this, find, if_true, find_assign_self]
    · simp only [find, hk, if_false, find_assign_other _ _ _ _ hk]

theorem find_append (a b : MapType V C) (k : Coord) :
    find (a ++ b) k = (match find a k with
      | some e => some e
      | none => find b k) := by
  induction a with
  | nil => rfl
  | cons hd tl ih =>
    obtain ⟨k1, e1⟩ := hd
    by_cases hk : k1 = k
    · simp only [List.cons_append, find, hk, if_true]
    · simp only [List.cons_append, find, hk, if_false]
      exact ih

theorem find_filter (P : Coord × NodeStruct V C → Bool) :
    ∀ {t : MapType V C}, WF t → ∀ k,
      find (t.filter P) k = (match find t k with
        | some e => if P (k, e) = true then some e else none
        | none => none) := by
  intro t
  induction t with
  | nil => intro _ _; rfl
  | cons hd tl ih =>
    intro hwf k
    obtain ⟨k1, e1⟩ := hd
    have hnone := (WF_tail hwf).2
    simp only at hnone
    by_cases hk : k1 = k
    · subst hk
      cases hP : P (k1, e1) with
      | true => simp only [List.filter_cons, hP, if_true, find]
      | false =>
        simp only [List.filter_cons, hP, Bool.false_eq_true, if_false, find, if_true]
        rw [ih (WF_tail hwf).1, hnone]
    · cases hP : P (k1, e1) with
      | true =>
        simp only [List.filter_cons, hP, if_true, find, hk, if_false]
        exact ih (WF_tail hwf).1 k
      | false =>
        simp only [List.filter_cons, hP, Bool.false_eq_true, if_false, find, hk]
        exact ih (WF_tail hwf).1 k

theorem find_of_mem : ∀ {t : MapType V C}, WF t → ∀ {k : Coord} {e : NodeStruct V C},
    (k, e) ∈ t → find t k = some e := by
  intro t
  induction t with
  | nil => intro _ k e h; cases h
  | cons hd tl ih =>
    intro hwf k e h
    obtain ⟨k1, e1⟩ := hd
    rcases List.mem_cons.1 h with h | h
    · simp only [Prod.mk.injEq] at h
      simp only [find, h.1, h.2, if_true]
    · have hne : k1 ≠ k := fun heq => WF_head_ne hwf (k, e) h heq.symm
      simp only [find, hne, if_false]
      exact ih (WF_tail hwf).1 h

theorem length_filter_tile_child (t : MapType V C) :
    (t.filter (fun i => i.2.isTile)).length + (t.filter (fun i => i.2.isChild)).length
      = t.length := by
  induction t with
  | nil => rfl
  | cons hd tl ih =>
    obtain ⟨k, e⟩ := hd
    cases e with
    | child c =>
      rw [List.filter_cons_of_neg (by simp [NodeStruct.isTile]),
        List.filter_cons_of_pos (by rfl)]
      simp only [List.length_cons]
      omega
    | tile tt =>
      rw [List.filter_cons_of_pos (by rfl),
        List.filter_cons_of_neg (by simp [NodeStruct.isChild])]
      simp only [List.length_cons]
      omega

end MapType

/-! ## Alignment arithmetic -/

theorem two_pow_pos_int (n : Nat) : (0 : Int) < (2 : Int) ^ n := by positivity

theorem alignDown_le (a : Int) (n : Nat) : alignDown a n ≤ a := by
  have := Int.emod_nonneg a (ne_of_gt (two_pow_pos_int n))
  unfold alignDown; omega

theorem lt_alignDown_add (a : Int) (n : Nat) : a < alignDown a n + (2 : Int) ^ n := by
  have := Int.emod_lt_of_pos a (two_pow_pos_int n)
  unfold alignDown; omega

theorem alignDown_emod (a : Int) (n : Nat) : alignDown a n % (2 : Int) ^ n = 0 := by
  unfold alignDown
  rw [Int.sub_emod, Int.emod_emod_of_dvd _ (dvd_refl _), sub_self, Int.zero_emod]

theorem alignDown_eq_of_bounds {a k : Int} {n : Nat} (hk : k % (2 : Int) ^ n = 0)
    (h1 : k ≤ a) (h2 : a < k + (2 : Int) ^ n) : alignDown a n = k := by
  unfold alignDown
  have hD := two_pow_pos_int n
  have : a % (2 : Int) ^ n = a - k := by
    have h3 : a = (a - k) + k := by ring
    conv_lhs => rw [h3]
    rw [Int.add_emod, hk, add_zero, Int.emod_emod_of_dvd _ (dvd_refl _)]
    exact Int.emod_eq_of_lt (by omega) (by omega)
  omega

theorem emod_of_alignDown_eq {k : Int} {n : Nat} (h : alignDown k n = k) :
    k % (2 : Int) ^ n = 0 := by
  rw [← h]; exact alignDown_emod k n

theorem alignDown_idem (a : Int) (n : Nat) : alignDown (alignDown a n) n = alignDown a n :=
  alignDown_eq_of_bounds (alignDown_emod a n) le_rfl (by have := two_pow_pos_int n; omega)

theorem alignDown_add_dim {k : Int} {n : Nat} (h : alignDown k n = k) :
    alignDown (k + (2 : Int) ^ n) n = k + (2 : Int) ^ n := by
  apply alignDown_eq_of_bounds _ le_rfl (by have := two_pow_pos_int n; omega)
  rw [Int.add_emod, emod_of_alignDown_eq h, Int.emod_self]; rfl

/-- Two distinct aligned coordinates are at least one cube side apart. -/
theorem aligned_gap {j k : Int} {n : Nat} (hj : alignDown j n = j) (hk : alignDown k n = k)
    (h : j < k) : j + (2 : Int) ^ n ≤ k := by
  by_contra hc
  have := alignDown_eq_of_bounds (emod_of_alignDown_eq hj) (le_of_lt h) (by omega : k < j + 2 ^ n)
  omega

/-- The aligned origin of the cube that contains `a`. -/
theorem alignDown_eq_iff {a k : Int} {n : Nat} (hk : alignDown k n = k) :
    alignDown a n = k ↔ k ≤ a ∧ a < k + (2 : Int) ^ n := by
  constructor
  · intro h
    have h1 := alignDown_le a n
    have h2 := lt_alignDown_add a n
    omega
  · rintro ⟨h1, h2⟩
    exact alignDown_eq_of_bounds (emod_of_alignDown_eq hk) h1 h2

theorem alignDown_mono {a b : Int} (n : Nat) (h : a ≤ b) : alignDown a n ≤ alignDown b n := by
  by_contra hc
  have h1 := alignDown_le a n
  have h2 := lt_alignDown_add b n
  have h3 := aligned_gap (alignDown_idem b n) (alignDown_idem a n) (by omega)
  omega

theorem wrap32_eq {a : Int} (h1 : -(2 : Int) ^ 31 ≤ a) (h2 : a < 2 ^ 31) : wrap32 a = a := by
  unfold wrap32
  omega

theorem visitsAxis_first {n : Nat} {y hi : Int} (h : y ≤ hi) :
    visitsAxis n y hi (alignDown y n) :=
  ⟨h, alignDown_idem y n, le_rfl, le_trans (alignDown_le y n) h⟩

theorem visitsAxis_next {n : Nat} {y hi k : Int}
    (h : visitsAxis n (alignDown y n + (2 : Int) ^ n) hi k) :
    visitsAxis n y hi k ∧ k ≠ alignDown y n ∧ max (alignDown y n + (2 : Int) ^ n) k = k ∧
      max y k = k := by
  obtain ⟨h1, h2, h3, h4⟩ := h
  rw [alignDown_add_dim (alignDown_idem y n)] at h3
  have hD := two_pow_pos_int n
  have := lt_alignDown_add y n
  have := alignDown_le y n
  exact ⟨⟨by omega, h2, by omega, h4⟩, by omega, by omega, by omega⟩

theorem visitsAxis_cases {n : Nat} {y hi k : Int} (h : visitsAxis n y hi k) :
    k = alignDown y n ∨ visitsAxis n (alignDown y n + (2 : Int) ^ n) hi k := by
  obtain ⟨h1, h2, h3, h4⟩ := h
  by_cases hk : k = alignDown y n
  · exact Or.inl hk
  · right
    have hgap := aligned_gap (alignDown_idem y n) h2 (by omega)
    refine ⟨by omega, h2, ?_, h4⟩
    rw [alignDown_add_dim (alignDown_idem y n)]
    exact hgap

theorem max_alignDown (y : Int) (n : Nat) : max y (alignDown y n) = y := by
  have := alignDown_le y n
  omega

theorem visitsAxis_iff {n : Nat} {lo hi k : Int} (hk : alignDown k n = k) (h : lo ≤ hi) :
    visitsAxis n lo hi k ↔ k ≤ hi ∧ lo < k + (2 : Int) ^ n := by
  have h1 := alignDown_le lo n
  have h2 := lt_alignDown_add lo n
  constructor
  · rintro ⟨_, _, h3, h4⟩
    exact ⟨h4, by omega⟩
  · rintro ⟨h3, h4⟩
    refine ⟨h, hk, ?_, h3⟩
    by_contra hc
    have := aligned_gap hk (alignDown_idem lo n) (by omega)
    omega

theorem aligned_components {V : Type} {ops : ChildOps V} {k : Coord}
    (h : coordToKey ops k = k) :
    alignDown k.x ops.TOTAL = k.x ∧ alignDown k.y ops.TOTAL = k.y ∧
      alignDown k.z ops.TOTAL = k.z := by
  cases k with
  | mk kx ky kz =>
    simp only [coordToKey, Coord.mk.injEq] at h
    exact h

theorem coordToKey_idem {V : Type} (ops : ChildOps V) (p : Coord) :
    coordToKey ops (coordToKey ops p) = coordToKey ops p := by
  simp only [coordToKey, alignDown_idem]

/-! ## The dense child satisfies the contracts -/

theorem alignDown_one_eq {a b : Int} (h : alignDown a 1 = alignDown b 1)
    (hb : DenseChild.bit a = DenseChild.bit b) : a = b := by
  simp only [alignDown, DenseChild.bit, pow_one, decide_eq_decide] at h hb
  omega

theorem dense_same_voxel {V : Type} {p q : Coord}
    (h : coordToKey (denseOps V) q = coordToKey (denseOps V) p) :
    (DenseChild.bit q.x = DenseChild.bit p.x ∧ DenseChild.bit q.y = DenseChild.bit p.y ∧
      DenseChild.bit q.z = DenseChild.bit p.z) ↔ q = p := by
  constructor
  · rintro ⟨hx, hy, hz⟩
    simp only [coordToKey, denseOps, Coord.mk.injEq] at h
    obtain ⟨kx, ky, kz⟩ := h
    cases p; cases q
    simp only [Coord.mk.injEq]
    exact ⟨alignDown_one_eq kx hx, alignDown_one_eq ky hy, alignDown_one_eq kz hz⟩
  · rintro rfl
    exact ⟨rfl, rfl, rfl⟩

theorem densePointLaws (V : Type) : PointLaws (denseOps V) where
  getValue_make := by
    intro xyz v a p _
    rfl
  isValueOn_make := by
    intro xyz v a p _
    rfl
  getValue_setValueOn := by
    intro c p v q h
    have hv := dense_same_voxel h
    show (DenseChild.setValueOn c p v).getValue q = _
    simp only [DenseChild.setValueOn, DenseChild.setVoxel, DenseChild.getValue, hv]
    split <;> rfl
  isValueOn_setValueOn := by
    intro c p v q h
    have hv := dense_same_voxel h
    show (DenseChild.setValueOn c p v).isValueOn q = _
    simp only [DenseChild.setValueOn, DenseChild.setVoxel, DenseChild.isValueOn, hv]
    split <;> rfl

theorem dense_voxelCoord {V : Type} {c : DenseChild V} {p : Coord}
    (h : coordToKey (denseOps V) p = c.origin) :
    c.voxelCoord (DenseChild.bit p.x) (DenseChild.bit p.y) (DenseChild.bit p.z) = p := by
  cases p with
  | mk px py pz =>
    cases c with
    | mk o vox =>
      cases o with
      | mk ox oy oz =>
        simp only [coordToKey, denseOps, alignDown, pow_one, DenseChild.origin,
          Coord.mk.injEq] at h
        have h1 := h.1
        have h2 := h.2.1
        have h3 := h.2.2
        simp only [DenseChild.voxelCoord, DenseChild.origin, DenseChild.bit, Coord.mk.injEq,
          decide_eq_true_eq]
        refine ⟨?_, ?_, ?_⟩ <;> split <;> omega

theorem denseFillLaws (V : Type) : FillLaws (denseOps V) where
  origin_make := by
    intro xyz v a
    show (DenseChild.make xyz v a).origin = coordToKey (denseOps V) xyz
    simp only [DenseChild.make, DenseChild.origin, coordToKey, denseOps, alignDown, pow_one,
      Coord.mk.injEq]
    refine ⟨?_, ?_, ?_⟩ <;> omega
  origin_fill := by
    intro c bbox v a
    rfl
  getValue_fill := by
    intro c bbox v a p h
    show (DenseChild.fill c bbox v a).getValue p = _
    simp only [DenseChild.fill, DenseChild.getValue, dense_voxelCoord h]
    split <;> rfl
  isValueOn_fill := by
    intro c bbox v a p h
    show (DenseChild.fill c bbox v a).isValueOn p = _
    simp only [DenseChild.fill, DenseChild.isValueOn, dense_voxelCoord h]
    split <;> rfl

theorem denseTopologyLaws (V W : Type) :
    TopologyLaws (denseOps V) (denseOps W) (denseTopologyOps V W) where
  isValueOn_topologyCopy := fun _ _ _ => rfl
  getValue_topologyCopy := fun _ _ _ => rfl
  isValueOn_topologyUnion := fun _ _ _ => rfl
  getValue_topologyUnion := fun _ _ _ => rfl
  isValueOn_setValuesOn := fun _ _ => rfl
  getValue_setValuesOn := fun _ _ => rfl

theorem denseConfigLaw (V : Type) : ConfigLaw (denseOps V) := rfl

theorem sampleMask_WF : sampleMask.mTable.WF := by
  unfold MapType.WF sampleMask
  simp only [List.pairwise_cons, List.mem_cons, forall_eq_or_imp]
  decide

theorem densePruneLaws {V : Type} (vops : ValueOps V) :
    PruneLaws (denseOps V) (densePruneOps vops) where
  tolerancePrune_again := by
    intro tol c c1 h
    have h2 : DenseChild.tolerancePrune vops tol c = (c1, none) := h
    show DenseChild.tolerancePrune vops tol c1 = (c1, none)
    by_cases hc : (c.voxels.all (fun e => e.2 == (c.vox false false false).2 &&
        vops.isApproxEqualTol e.1 (c.vox false false false).1 tol)) = true
    · simp [DenseChild.tolerancePrune, hc] at h2
    · simp only [DenseChild.tolerancePrune, hc, Bool.false_eq_true, if_false, Prod.mk.injEq,
        and_true] at h2
      subst h2
      simp only [DenseChild.tolerancePrune, hc, Bool.false_eq_true, if_false]

theorem denseIOLaws (V : Type) : IOLaws (denseOps V) (denseIOOps V) where
  readTopology_write := by
    intro c bg rest
    show (DenseChild.readTopology (DenseChild.make (DenseChild.origin c) bg false)
      ⟨DenseChild.writeTopology c ++ rest, false⟩).2 = ⟨rest, false⟩
    simp [DenseChild.readTopology, DenseChild.writeTopology, DenseChild.voxels,
      DenseChild.takeBools]
  readBuffers_write := by
    intro c bg rest rest1
    show DenseChild.readBuffers (DenseChild.readTopology
      (DenseChild.make (DenseChild.origin c) bg false)
      ⟨DenseChild.writeTopology c ++ rest, false⟩).1
      ⟨DenseChild.writeBuffers c ++ rest1, false⟩ = (c, ⟨rest1, false⟩)
    obtain ⟨⟨cx, cy, cz⟩, vox⟩ := c
    simp only [DenseChild.readTopology, DenseChild.writeTopology, DenseChild.voxels,
      DenseChild.takeBools, DenseChild.readBuffers, DenseChild.writeBuffers,
      DenseChild.takeValues, DenseChild.make, DenseChild.origin, List.map_cons, List.map_nil,
      List.cons_append, List.nil_append, Option.map_some', Bool.false_eq_true, if_false,
      Prod.mk.injEq, and_true, DenseChild.mk.injEq, Coord.mk.injEq]
    refine ⟨⟨⟨by omega, by omega, by omega⟩, ?_⟩, rfl⟩
    funext i j k
    cases i <;> cases j <;> cases k <;> rfl

theorem denseSameTopologyLaw (V : Type) : SameTopologyLaw (denseTopologyOps V V) := by
  intro c
  show DenseChild.hasSameTopology c c = true
  simp [DenseChild.hasSameTopology]

theorem sampleRoot_WF : sampleRoot.mTable.WF := by
  unfold MapType.WF sampleRoot
  simp only [List.pairwise_cons, List.mem_cons, forall_eq_or_imp]
  decide

theorem sampleRoot_childrenAtOrigin : sampleRoot.ChildrenAtOrigin := by
  intro k c h
  simp only [sampleRoot, MapType.find] at h
  split at h
  · simp at h
  · split at h
    · simp at h
    · split at h
      · rename_i hk
        simp only [Option.some.injEq, NodeStruct.child.injEq] at h
        rw [← h, ← hk]
        rfl
      · simp at h

/-! ## Point writes and reads at the root -/

namespace RootNode

variable {V : Type} [DecidableEq V] {ops : ChildOps V}

theorem setValueOn_of_none {r : RootNode V ops} {p : Coord} (v : V)
    (h : r.mTable.find (coordToKey ops p) = none) :
    r.setValueOn p v = ⟨r.mTable.assign (coordToKey ops p)
      (.child (ops.setValueOn (ops.make p r.mBackground false) p v)), r.mBackground⟩ := by
  simp only [setValueOn, h]

theorem setValueOn_of_child {r : RootNode V ops} {p : Coord} (v : V) {c : ops.Child}
    (h : r.mTable.find (coordToKey ops p) = some (.child c)) :
    r.setValueOn p v =
      ⟨r.mTable.assign (coordToKey ops p) (.child (ops.setValueOn c p v)), r.mBackground⟩ := by
  simp only [setValueOn, h]

theorem setValueOn_of_tile_split {r : RootNode V ops} {p : Coord} {v : V} {t : Tile V}
    (h : r.mTable.find (coordToKey ops p) = some (.tile t))
    (hc : t.active = false ∨ t.value ≠ v) :
    r.setValueOn p v = ⟨r.mTable.assign (coordToKey ops p)
      (.child (ops.setValueOn (ops.make p t.value t.active) p v)), r.mBackground⟩ := by
  simp only [setValueOn, h, hc, if_true]

theorem setValueOn_of_tile_same {r : RootNode V ops} {p : Coord} {v : V} {t : Tile V}
    (h : r.mTable.find (coordToKey ops p) = some (.tile t))
    (hc : ¬ (t.active = false ∨ t.value ≠ v)) :
    r.setValueOn p v = r := by
  simp only [setValueOn, h, hc, if_false]

/-- Reading a coordinate whose key was just assigned a child. -/
theorem getValue_assign_child (t : MapType V ops.Child) (bg : V) (p q : Coord)
    (c : ops.Child) (h : coordToKey ops q = coordToKey ops p) :
    (⟨t.assign (coordToKey ops p) (.child c), bg⟩ : RootNode V ops).getValue q
      = ops.getValue c q ∧
    (⟨t.assign (coordToKey ops p) (.child c), bg⟩ : RootNode V ops).isValueOn q
      = ops.isValueOn c q := by
  simp only [getValue, isValueOn, findCoord, h, MapType.find_assign_self, and_self]

/-- Reading a coordinate whose key differs from the key that was just assigned. -/
theorem getValue_assign_other (r : RootNode V ops) (k q : Coord)
    (n : NodeStruct V ops.Child) (h : k ≠ coordToKey ops q) :
    (⟨r.mTable.assign k n, r.mBackground⟩ : RootNode V ops).getValue q = r.getValue q ∧
    (⟨r.mTable.assign k n, r.mBackground⟩ : RootNode V ops).isValueOn q
      = r.isValueOn q := by
  simp only [getValue, isValueOn, findCoord, MapType.find_assign_other _ _ _ _ h, and_self]

/-- C1 (read-after-write): after `setValueOn(p, v)` the root returns `v` at `p` and `p` is
active, whatever the root entry of `p` was before (absent, inactive tile, active tile with
an equal or a different value, or child). -/
theorem setValueOn_read_after_write (laws : PointLaws ops) (r : RootNode V ops)
    (p : Coord) (v : V) :
    (r.setValueOn p v).getValue p = v ∧ (r.setValueOn p v).isValueOn p = true := by
  cases hf : r.mTable.find (coordToKey ops p) with
  | none =>
    rw [setValueOn_of_none v hf]
    obtain ⟨h1, h2⟩ := getValue_assign_child r.mTable r.mBackground p p
      (ops.setValueOn (ops.make p r.mBackground false) p v) rfl
    rw [h1, h2, laws.getValue_setValueOn _ _ _ _ rfl, laws.isValueOn_setValueOn _ _ _ _ rfl]
    simp
  | some n =>
    cases n with
    | child c =>
      rw [setValueOn_of_child v hf]
      obtain ⟨h1, h2⟩ := getValue_assign_child r.mTable r.mBackground p p
        (ops.setValueOn c p v) rfl
      rw [h1, h2, laws.getValue_setValueOn _ _ _ _ rfl, laws.isValueOn_setValueOn _ _ _ _ rfl]
      simp
    | tile t =>
      by_cases hc : t.active = false ∨ t.value ≠ v
      · rw [setValueOn_of_tile_split hf hc]
        obtain ⟨h1, h2⟩ := getValue_assign_child r.mTable r.mBackground p p
          (ops.setValueOn (ops.make p t.value t.active) p v) rfl
        rw [h1, h2, laws.getValue_setValueOn _ _ _ _ rfl,
          laws.isValueOn_setValueOn _ _ _ _ rfl]
        simp
      · rw [setValueOn_of_tile_same hf hc]
        simp only [getValue, isValueOn, findCoord, hf]
        push_neg at hc
        simp only [ne_eq, Bool.not_eq_false] at hc
        exact ⟨hc.2, hc.1⟩

/-- Instance of C1 on a concrete tree: writing 10 at (5,10,20) into an empty tree with
background 5. -/
theorem setValueOn_read_after_write_witness :
    PointLaws (denseOps Int) ∧
    (((RootNode.new (denseOps Int) 5).setValueOn ⟨5, 10, 20⟩ 10).getValue ⟨5, 10, 20⟩ = 10 ∧
     ((RootNode.new (denseOps Int) 5).setValueOn ⟨5, 10, 20⟩ 10).isValueOn ⟨5, 10, 20⟩ = true) :=
  ⟨densePointLaws Int, setValueOn_read_after_write (densePointLaws Int) _ _ _⟩

/-- C2 (lookup semantics): `getValue(p)` is the background when the table has no entry at
`coordToKey(p)`, the tile value when the entry is a tile (active or not) and the child's
`getValue(p)` when it is a child; a freshly constructed `RootNode(bg)` returns `bg` at
every coordinate and `isValueOn` is false everywhere. -/
theorem getValue_lookup (r : RootNode V ops) (p : Coord) :
    (r.mTable.find (coordToKey ops p) = none → r.getValue p = r.mBackground) ∧
    (∀ t, r.mTable.find (coordToKey ops p) = some (.tile t) → r.getValue p = t.value) ∧
    (∀ c, r.mTable.find (coordToKey ops p) = some (.child c) →
      r.getValue p = ops.getValue c p) ∧
    (∀ bg : V, (RootNode.new ops bg).getValue p = bg ∧
      (RootNode.new ops bg).isValueOn p = false) := by
  refine ⟨?_, ?_, ?_, ?_⟩
  · intro h
    simp only [getValue, findCoord, h]
  · intro t h
    simp only [getValue, findCoord, h]
  · intro c h
    simp only [getValue, findCoord, h]
  · intro bg
    simp only [getValue, isValueOn, findCoord, RootNode.new, MapType.find, and_self]

/-- Instance of C2 on `sampleRoot`: a missing key reads the background 5, the inactive
tile at key (2,0,0) reads 9, and the child at key (4,0,0) is asked for its own value. -/
theorem getValue_lookup_witness :
    sampleRoot.getValue ⟨9, 9, 9⟩ = 5 ∧ sampleRoot.getValue ⟨3, 1, 0⟩ = 9 ∧
    sampleRoot.getValue ⟨5, 0, 0⟩ = DenseChild.getValue
      (DenseChild.setValueOn (DenseChild.make ⟨4, 0, 0⟩ 5 false) ⟨5, 0, 0⟩ 1) ⟨5, 0, 0⟩ :=
  ⟨(getValue_lookup sampleRoot ⟨9, 9, 9⟩).1 rfl,
   (getValue_lookup sampleRoot ⟨3, 1, 0⟩).2.1 ⟨9, false⟩ rfl,
   (getValue_lookup sampleRoot ⟨5, 0, 0⟩).2.2.1
     (DenseChild.setValueOn (DenseChild.make ⟨4, 0, 0⟩ 5 false) ⟨5, 0, 0⟩ 1) rfl⟩

/-- The entry stored at the key of `p` after `setValueOn(p, v)` when the key was absent or
held a tile that had to be split. -/
theorem setValueOn_entry (r : RootNode V ops) (p : Coord) (v : V) :
    (r.mTable.find (coordToKey ops p) = none →
      (r.setValueOn p v).mTable.find (coordToKey ops p) =
        some (.child (ops.setValueOn (ops.make p r.mBackground false) p v))) ∧
    (∀ t, r.mTable.find (coordToKey ops p) = some (.tile t) →
      (t.active = false ∨ t.value ≠ v) →
      (r.setValueOn p v).mTable.find (coordToKey ops p) =
        some (.child (ops.setValueOn (ops.make p t.value t.active) p v))) := by
  refine ⟨?_, ?_⟩
  · intro h
    rw [setValueOn_of_none v h, MapType.find_assign_self]
  · intro t h hc
    rw [setValueOn_of_tile_split h hc, MapType.find_assign_self]

/-- C3 (frame of a point write): for `p ≠ q`, `setValueOn(p, v)` leaves `getValue(q)` and
`isValueOn(q)` unchanged. When the entry of `p` was a tile that is replaced, the new entry
is the child built from the tile value and active state (then written at `p`), so every
other voxel of the cube reads the tile; when the entry was absent the new child is built
from the inactive background. -/
theorem setValueOn_frame (laws : PointLaws ops) (r : RootNode V ops) (p q : Coord) (v : V)
    (hpq : p ≠ q) :
    ((r.setValueOn p v).getValue q = r.getValue q ∧
      (r.setValueOn p v).isValueOn q = r.isValueOn q) ∧
    (r.mTable.find (coordToKey ops p) = none →
      (r.setValueOn p v).mTable.find (coordToKey ops p) =
        some (.child (ops.setValueOn (ops.make p r.mBackground false) p v)) ∧
      (coordToKey ops q = coordToKey ops p →
        (r.setValueOn p v).getValue q = r.mBackground ∧
        (r.setValueOn p v).isValueOn q = false)) ∧
    (∀ t, r.mTable.find (coordToKey ops p) = some (.tile t) →
      (t.active = false ∨ t.value ≠ v) →
      (r.setValueOn p v).mTable.find (coordToKey ops p) =
        some (.child (ops.setValueOn (ops.make p t.value t.active) p v)) ∧
      (coordToKey ops q = coordToKey ops p →
        (r.setValueOn p v).getValue q = t.value ∧
        (r.setValueOn p v).isValueOn q = t.active)) := by
  have hqp : q ≠ p := fun h => hpq h.symm
  have main : (r.setValueOn p v).getValue q = r.getValue q ∧
      (r.setValueOn p v).isValueOn q = r.isValueOn q := by
    by_cases hk : coordToKey ops q = coordToKey ops p
    · cases hf : r.mTable.find (coordToKey ops p) with
      | none =>
        rw [setValueOn_of_none v hf]
        obtain ⟨h1, h2⟩ := getValue_assign_child r.mTable r.mBackground p q
          (ops.setValueOn (ops.make p r.mBackground false) p v) hk
        rw [h1, h2, laws.getValue_setValueOn _ _ _ _ hk, laws.isValueOn_setValueOn _ _ _ _ hk,
          laws.getValue_make _ _ _ _ hk, laws.isValueOn_make _ _ _ _ hk]
        simp only [hqp, if_false, getValue, isValueOn, findCoord, hk, hf, and_self]
      | some n =>
        cases n with
        | child c =>
          rw [setValueOn_of_child v hf]
          obtain ⟨h1, h2⟩ := getValue_assign_child r.mTable r.mBackground p q
            (ops.setValueOn c p v) hk
          rw [h1, h2, laws.getValue_setValueOn _ _ _ _ hk,
            laws.isValueOn_setValueOn _ _ _ _ hk]
          simp only [hqp, if_false, getValue, isValueOn, findCoord, hk, hf, and_self]
        | tile t =>
          by_cases hc : t.active = false ∨ t.value ≠ v
          · rw [setValueOn_of_tile_split hf hc]
            obtain ⟨h1, h2⟩ := getValue_assign_child r.mTable r.mBackground p q
              (ops.setValueOn (ops.make p t.value t.active) p v) hk
            rw [h1, h2, laws.getValue_setValueOn _ _ _ _ hk,
              laws.isValueOn_setValueOn _ _ _ _ hk,
              laws.getValue_make _ _ _ _ hk, laws.isValueOn_make _ _ _ _ hk]
            simp only [hqp, if_false, getValue, isValueOn, findCoord, hk, hf, and_self]
          · rw [setValueOn_of_tile_same hf hc]
            exact ⟨rfl, rfl⟩
    · have hk2 : coordToKey ops p ≠ coordToKey ops q := fun h => hk h.symm
      cases hf : r.mTable.find (coordToKey ops p) with
      | none =>
        rw [setValueOn_of_none v hf]
        exact getValue_assign_other r _ q _ hk2
      | some n =>
        cases n with
        | child c =>
          rw [setValueOn_of_child v hf]
          exact getValue_assign_other r _ q _ hk2
        | tile t =>
          by_cases hc : t.active = false ∨ t.value ≠ v
          · rw [setValueOn_of_tile_split hf hc]
            exact getValue_assign_other r _ q _ hk2
          · rw [setValueOn_of_tile_same hf hc]
            exact ⟨rfl, rfl⟩
  refine ⟨main, ?_, ?_⟩
  · intro hf
    refine ⟨(setValueOn_entry r p v).1 hf, ?_⟩
    intro hk
    rw [main.1, main.2]
    simp only [getValue, isValueOn, findCoord, hk, hf, and_self]
  · intro t hf hc
    refine ⟨(setValueOn_entry r p v).2 t hf hc, ?_⟩
    intro hk
    rw [main.1, main.2]
    simp only [getValue, isValueOn, findCoord, hk, hf, and_self]

/-- Instance of C3 on `sampleRoot`: writing 1 at (2,0,0) splits the inactive tile 9 of key
(2,0,0); the voxel (3,1,0) of the same cube still reads the inactive 9. -/
theorem setValueOn_frame_witness :
    PointLaws (denseOps Int) ∧ (⟨2, 0, 0⟩ : Coord) ≠ ⟨3, 1, 0⟩ ∧
    (sampleRoot.setValueOn ⟨2, 0, 0⟩ 1).getValue ⟨3, 1, 0⟩ = sampleRoot.getValue ⟨3, 1, 0⟩ ∧
    (sampleRoot.setValueOn ⟨2, 0, 0⟩ 1).isValueOn ⟨3, 1, 0⟩ = sampleRoot.isValueOn ⟨3, 1, 0⟩ :=
  ⟨densePointLaws Int, by decide,
   (setValueOn_frame (densePointLaws Int) sampleRoot ⟨2, 0, 0⟩ ⟨3, 1, 0⟩ 1 (by decide)).1⟩

/-! ## Fill -/

theorem fillBody_eq (r : RootNode V ops) (bbox : CoordBBox) (v : V) (a : Bool) (xyz : Coord) :
    fillBody r bbox v a xyz =
      (⟨r.mTable.assign (coordToKey ops xyz)
          (fillEntry ops r.mBackground bbox v a (r.mTable.find (coordToKey ops xyz)) xyz),
        r.mBackground⟩,
       (coordToKey ops xyz).offsetBy (ops.DIM - 1) (ops.DIM - 1) (ops.DIM - 1)) := by
  unfold fillBody fillEntry
  by_cases hc : xyz ≠ coordToKey ops xyz ∨
      Coord.lessThan bbox.max
        ((coordToKey ops xyz).offsetBy (ops.DIM - 1) (ops.DIM - 1) (ops.DIM - 1)) = true
  · simp only [hc, if_true]
    cases hf : r.mTable.find (coordToKey ops xyz) with
    | none => rfl
    | some e =>
      cases e with
      | child c => rfl
      | tile t => rfl
  · simp only [hc, if_false, findOrAddCoord, coordToKey_idem, MapType.insert_assign]

/-- Effect of the `z` loop of `fill` started at `z`: it finishes within the fuel, keeps the
background, leaves the `x` and `y` components of the last cube in `tileMax`, and rewrites
exactly the entries of the cubes of the column through `(x, y)` that meet `z..max.z`. -/
theorem fillLoopZ_spec (bbox : CoordBBox) (v : V) (a : Bool) (x y : Int)
    (hmax : bbox.max.z < 2 ^ 31 - ops.DIM) (fuel : Nat) :
    ∀ (z : Int) (st : RootNode V ops × Coord),
      (bbox.max.z - z + 1).toNat ≤ fuel → -(2 : Int) ^ 31 ≤ z →
      ∃ st1, fillLoopZ bbox v a x y fuel z st = some st1 ∧
        st1.1.mBackground = st.1.mBackground ∧
        (z ≤ bbox.max.z → st1.2.x = alignDown x ops.TOTAL + ops.DIM - 1 ∧
          st1.2.y = alignDown y ops.TOTAL + ops.DIM - 1) ∧
        (¬ z ≤ bbox.max.z → st1 = st) ∧
        ∀ k : Coord,
          ((k.x = alignDown x ops.TOTAL ∧ k.y = alignDown y ops.TOTAL ∧
              visitsAxis ops.TOTAL z bbox.max.z k.z) →
            st1.1.mTable.find k =
              some (fillEntry ops st.1.mBackground bbox v a (st.1.mTable.find k)
                ⟨x, y, max z k.z⟩)) ∧
          (¬ (k.x = alignDown x ops.TOTAL ∧ k.y = alignDown y ops.TOTAL ∧
              visitsAxis ops.TOTAL z bbox.max.z k.z) →
            st1.1.mTable.find k = st.1.mTable.find k) := by
  have hD : (0 : Int) < ops.DIM := two_pow_pos_int _
  induction fuel with
  | zero =>
    intro z st hf hz
    have hzm : ¬ z ≤ bbox.max.z := by omega
    refine ⟨st, by simp only [fillLoopZ, hzm, if_false], rfl, fun h => absurd h hzm,
      fun _ => rfl, fun k => ⟨fun h => absurd h.2.2.1 hzm, fun _ => rfl⟩⟩
  | succ fuel ih =>
    intro z st hf hz
    by_cases hzm : z ≤ bbox.max.z
    · have haz := alignDown_le z ops.TOTAL
      have haz2 : z < alignDown z ops.TOTAL + ops.DIM := lt_alignDown_add z ops.TOTAL
      have hnext : wrap32 ((fillBody st.1 bbox v a ⟨x, y, z⟩).2.z + 1)
          = alignDown z ops.TOTAL + ops.DIM := by
        rw [fillBody_eq]
        simp only [Coord.offsetBy, coordToKey]
        rw [wrap32_eq (by omega) (by omega)]
        ring
      obtain ⟨st1, h1, hbg, htm, hsame, hk⟩ := ih (alignDown z ops.TOTAL + ops.DIM)
        (fillBody st.1 bbox v a ⟨x, y, z⟩) (by omega) (by omega)
      have hbody := fillBody_eq st.1 bbox v a ⟨x, y, z⟩
      refine ⟨st1, ?_, ?_, ?_, fun h => absurd hzm h, ?_⟩
      · simp only [fillLoopZ, hzm, if_true, hnext, h1]
      · rw [hbg, hbody]
      · intro _
        by_cases hz2 : alignDown z ops.TOTAL + ops.DIM ≤ bbox.max.z
        · exact htm hz2
        · rw [hsame hz2, hbody]
          simp only [Coord.offsetBy, coordToKey]
          constructor <;> ring
      · intro k
        have hkey : coordToKey ops ⟨x, y, z⟩
            = ⟨alignDown x ops.TOTAL, alignDown y ops.TOTAL, alignDown z ops.TOTAL⟩ := rfl
        obtain ⟨hk1, hk2⟩ := hk k
        have hal : alignDown (alignDown z ops.TOTAL + ops.DIM) ops.TOTAL
            = alignDown z ops.TOTAL + ops.DIM := alignDown_add_dim (alignDown_idem z _)
        by_cases hvis : k.x = alignDown x ops.TOTAL ∧ k.y = alignDown y ops.TOTAL ∧
            visitsAxis ops.TOTAL z bbox.max.z k.z
        · refine ⟨fun _ => ?_, fun h => absurd hvis h⟩
          obtain ⟨hx, hy, _, hka, hkz, hkm⟩ := hvis
          by_cases hfirst : k.z = alignDown z ops.TOTAL
          · -- the cube visited by this iteration
            have hkk : k = coordToKey ops ⟨x, y, z⟩ := by
              cases k; simp only [hkey, Coord.mk.injEq]; exact ⟨hx, hy, hfirst⟩
            have hnot : ¬ (k.x = alignDown x ops.TOTAL ∧ k.y = alignDown y ops.TOTAL ∧
                visitsAxis ops.TOTAL (alignDown z ops.TOTAL + ops.DIM) bbox.max.z k.z) := by
              rintro ⟨_, _, _, _, h3, _⟩
              rw [hal] at h3
              omega
            rw [hk2 hnot, hbody]
            simp only []
            rw [hkk, MapType.find_assign_self]
            have hmaxz : max z (coordToKey ops ⟨x, y, z⟩).z = z := by
              simp only [hkey]; omega
            rw [hmaxz]
          · -- a later cube of the column
            have hgap := aligned_gap (alignDown_idem z ops.TOTAL) hka (by omega)
            have hyes : k.x = alignDown x ops.TOTAL ∧ k.y = alignDown y ops.TOTAL ∧
                visitsAxis ops.TOTAL (alignDown z ops.TOTAL + ops.DIM) bbox.max.z k.z := by
              refine ⟨hx, hy, ?_, hka, ?_, hkm⟩
              · have : ops.DIM = (2 : Int) ^ ops.TOTAL := rfl
                omega
              · rw [hal]
                have : ops.DIM = (2 : Int) ^ ops.TOTAL := rfl
                omega
            rw [hk1 hyes, hbody]
            simp only []
            have hne : coordToKey ops ⟨x, y, z⟩ ≠ k := by
              intro h
              apply hfirst
              rw [← h]
              rfl
            rw [MapType.find_assign_other _ _ _ _ hne]
            have hD2 : ops.DIM = (2 : Int) ^ ops.TOTAL := rfl
            have h1 : max (alignDown z ops.TOTAL + ops.DIM) k.z = k.z := by omega
            have h2 : max z k.z = k.z := by omega
            rw [h1, h2]
        · refine ⟨fun h => absurd h hvis, fun _ => ?_⟩
          have hnot : ¬ (k.x = alignDown x ops.TOTAL ∧ k.y = alignDown y ops.TOTAL ∧
              visitsAxis ops.TOTAL (alignDown z ops.TOTAL + ops.DIM) bbox.max.z k.z) := by
            rintro ⟨hx, hy, h1, h2, h3, h4⟩
            apply hvis
            refine ⟨hx, hy, hzm, h2, ?_, h4⟩
            rw [hal] at h3
            omega
          rw [hk2 hnot, hbody]
          simp only []
          have hne : coordToKey ops ⟨x, y, z⟩ ≠ k := by
            intro h
            apply hvis
            rw [← h]
            exact ⟨rfl, rfl, hzm, alignDown_idem z _, le_rfl, by simp only [hkey]; omega⟩
          rw [MapType.find_assign_other _ _ _ _ hne]
    · refine ⟨st, by simp only [fillLoopZ, hzm, if_false], rfl, fun h => absurd h hzm,
        fun _ => rfl, fun k => ⟨fun h => absurd h.2.2.1 hzm, fun _ => rfl⟩⟩

/-- Effect of the `y` loop of `fill` started at `y`: it rewrites exactly the entries of the
cubes of the slab through `x` that meet `y..max.y` and `min.z..max.z`. -/
theorem fillLoopY_spec (bbox : CoordBBox) (v : V) (a : Bool) (x : Int)
    (hmaxz : bbox.max.z < 2 ^ 31 - ops.DIM) (hmaxy : bbox.max.y < 2 ^ 31 - ops.DIM)
    (hminz : -(2 : Int) ^ 31 ≤ bbox.min.z) (hz : bbox.min.z ≤ bbox.max.z)
    (fuelZ : Nat) (hfz : (bbox.max.z - bbox.min.z + 1).toNat ≤ fuelZ) (fuel : Nat) :
    ∀ (y : Int) (st : RootNode V ops × Coord),
      (bbox.max.y - y + 1).toNat ≤ fuel → -(2 : Int) ^ 31 ≤ y →
      ∃ st1, fillLoopY bbox v a fuelZ x fuel y st = some st1 ∧
        st1.1.mBackground = st.1.mBackground ∧
        (y ≤ bbox.max.y → st1.2.x = alignDown x ops.TOTAL + ops.DIM - 1) ∧
        (¬ y ≤ bbox.max.y → st1 = st) ∧
        ∀ k : Coord,
          ((k.x = alignDown x ops.TOTAL ∧ visitsAxis ops.TOTAL y bbox.max.y k.y ∧
              visitsAxis ops.TOTAL bbox.min.z bbox.max.z k.z) →
            st1.1.mTable.find k =
              some (fillEntry ops st.1.mBackground bbox v a (st.1.mTable.find k)
                ⟨x, max y k.y, max bbox.min.z k.z⟩)) ∧
          (¬ (k.x = alignDown x ops.TOTAL ∧ visitsAxis ops.TOTAL y bbox.max.y k.y ∧
              visitsAxis ops.TOTAL bbox.min.z bbox.max.z k.z) →
            st1.1.mTable.find k = st.1.mTable.find k) := by
  have hD : (0 : Int) < ops.DIM := two_pow_pos_int _
  have hD2 : ops.DIM = (2 : Int) ^ ops.TOTAL := rfl
  induction fuel with
  | zero =>
    intro y st hf hy
    have hym : ¬ y ≤ bbox.max.y := by omega
    refine ⟨st, by simp only [fillLoopY, hym, if_false], rfl, fun h => absurd h hym,
      fun _ => rfl, fun k => ⟨fun h => absurd h.2.1.1 hym, fun _ => rfl⟩⟩
  | succ fuel ih =>
    intro y st hf hy
    by_cases hym : y ≤ bbox.max.y
    · have hay := alignDown_le y ops.TOTAL
      have hay2 : y < alignDown y ops.TOTAL + ops.DIM := lt_alignDown_add y ops.TOTAL
      obtain ⟨st0, h0, hbg0, htm0, _, hk0⟩ :=
        fillLoopZ_spec bbox v a x y hmaxz fuelZ bbox.min.z st hfz hminz
      obtain ⟨htx, hty⟩ := htm0 hz
      have hnext : wrap32 (st0.2.y + 1) = alignDown y ops.TOTAL + ops.DIM := by
        rw [hty, wrap32_eq (by omega) (by omega)]
        ring
      obtain ⟨st1, h1, hbg, htm, hsame, hk⟩ :=
        ih (alignDown y ops.TOTAL + ops.DIM) st0 (by omega) (by omega)
      refine ⟨st1, ?_, ?_, ?_, fun h => absurd hym h, ?_⟩
      · simp only [fillLoopY, hym, if_true, h0, hnext, h1]
      · rw [hbg, hbg0]
      · intro _
        by_cases hy2 : alignDown y ops.TOTAL + ops.DIM ≤ bbox.max.y
        · exact htm hy2
        · rw [hsame hy2, htx]
      · intro k
        obtain ⟨hk1, hk2⟩ := hk k
        obtain ⟨hz1, hz2⟩ := hk0 k
        by_cases hvis : k.x = alignDown x ops.TOTAL ∧ visitsAxis ops.TOTAL y bbox.max.y k.y ∧
            visitsAxis ops.TOTAL bbox.min.z bbox.max.z k.z
        · refine ⟨fun _ => ?_, fun h => absurd hvis h⟩
          obtain ⟨hx, hvy, hvz⟩ := hvis
          rcases visitsAxis_cases hvy with hfirst | hlater
          · have hnot : ¬ (k.x = alignDown x ops.TOTAL ∧
                visitsAxis ops.TOTAL (alignDown y ops.TOTAL + ops.DIM) bbox.max.y k.y ∧
                visitsAxis ops.TOTAL bbox.min.z bbox.max.z k.z) := by
              rintro ⟨_, h3, _⟩
              exact (visitsAxis_next h3).2.1 hfirst
            rw [hk2 hnot, hz1 ⟨hx, hfirst, hvz⟩, hfirst, max_alignDown]
          · obtain ⟨_, hne, hm1, hm2⟩ := visitsAxis_next hlater
            have hnotz : ¬ (k.x = alignDown x ops.TOTAL ∧ k.y = alignDown y ops.TOTAL ∧
                visitsAxis ops.TOTAL bbox.min.z bbox.max.z k.z) := fun h => hne h.2.1
            rw [hk1 ⟨hx, hlater, hvz⟩, hz2 hnotz, hbg0, hD2, hm1, hm2]
        · refine ⟨fun h => absurd h hvis, fun _ => ?_⟩
          have hnot : ¬ (k.x = alignDown x ops.TOTAL ∧
              visitsAxis ops.TOTAL (alignDown y ops.TOTAL + ops.DIM) bbox.max.y k.y ∧
              visitsAxis ops.TOTAL bbox.min.z bbox.max.z k.z) := by
            rintro ⟨hx, h3, h4⟩
            exact hvis ⟨hx, (visitsAxis_next h3).1, h4⟩
          have hnotz : ¬ (k.x = alignDown x ops.TOTAL ∧ k.y = alignDown y ops.TOTAL ∧
              visitsAxis ops.TOTAL bbox.min.z bbox.max.z k.z) := by
            rintro ⟨hx, h3, h4⟩
            exact hvis ⟨hx, h3 ▸ visitsAxis_first hym, h4⟩
          rw [hk2 hnot, hz2 hnotz]
    · refine ⟨st, by simp only [fillLoopY, hym, if_false], rfl, fun h => absurd h hym,
        fun _ => rfl, fun k => ⟨fun h => absurd h.2.1.1 hym, fun _ => rfl⟩⟩

/-- Effect of the `x` loop of `fill` started at `x`: it rewrites exactly the entries of the
cubes that meet `x..max.x`, `min.y..max.y` and `min.z..max.z`. -/
theorem fillLoopX_spec (bbox : CoordBBox) (v : V) (a : Bool)
    (hmaxz : bbox.max.z < 2 ^ 31 - ops.DIM) (hmaxy : bbox.max.y < 2 ^ 31 - ops.DIM)
    (hmaxx : bbox.max.x < 2 ^ 31 - ops.DIM)
    (hminz : -(2 : Int) ^ 31 ≤ bbox.min.z) (hz : bbox.min.z ≤ bbox.max.z)
    (hminy : -(2 : Int) ^ 31 ≤ bbox.min.y) (hy : bbox.min.y ≤ bbox.max.y)
    (fuelZ : Nat) (hfz : (bbox.max.z - bbox.min.z + 1).toNat ≤ fuelZ)
    (hfy : (bbox.max.y - bbox.min.y + 1).toNat ≤ fuelZ) (fuel : Nat) :
    ∀ (x : Int) (st : RootNode V ops × Coord),
      (bbox.max.x - x + 1).toNat ≤ fuel → -(2 : Int) ^ 31 ≤ x →
      ∃ st1, fillLoopX bbox v a fuelZ fuel x st = some st1 ∧
        st1.1.mBackground = st.1.mBackground ∧
        (¬ x ≤ bbox.max.x → st1 = st) ∧
        ∀ k : Coord,
          ((visitsAxis ops.TOTAL x bbox.max.x k.x ∧
              visitsAxis ops.TOTAL bbox.min.y bbox.max.y k.y ∧
              visitsAxis ops.TOTAL bbox.min.z bbox.max.z k.z) →
            st1.1.mTable.find k =
              some (fillEntry ops st.1.mBackground bbox v a (st.1.mTable.find k)
                ⟨max x k.x, max bbox.min.y k.y, max bbox.min.z k.z⟩)) ∧
          (¬ (visitsAxis ops.TOTAL x bbox.max.x k.x ∧
              visitsAxis ops.TOTAL bbox.min.y bbox.max.y k.y ∧
              visitsAxis ops.TOTAL bbox.min.z bbox.max.z k.z) →
            st1.1.mTable.find k = st.1.mTable.find k) := by
  have hD : (0 : Int) < ops.DIM := two_pow_pos_int _
  have hD2 : ops.DIM = (2 : Int) ^ ops.TOTAL := rfl
  induction fuel with
  | zero =>
    intro x st hf hx
    have hxm : ¬ x ≤ bbox.max.x := by omega
    refine ⟨st, by simp only [fillLoopX, hxm, if_false], rfl, fun _ => rfl,
      fun k => ⟨fun h => absurd h.1.1 hxm, fun _ => rfl⟩⟩
  | succ fuel ih =>
    intro x st hf hx
    by_cases hxm : x ≤ bbox.max.x
    · have hax := alignDown_le x ops.TOTAL
      have hax2 : x < alignDown x ops.TOTAL + ops.DIM := lt_alignDown_add x ops.TOTAL
      obtain ⟨st0, h0, hbg0, htm0, _, hk0⟩ :=
        fillLoopY_spec bbox v a x hmaxz hmaxy hminz hz fuelZ hfz fuelZ bbox.min.y st hfy hminy
      have htx := htm0 hy
      have hnext : wrap32 (st0.2.x + 1) = alignDown x ops.TOTAL + ops.DIM := by
        rw [htx, wrap32_eq (by omega) (by omega)]
        ring
      obtain ⟨st1, h1, hbg, hsame, hk⟩ :=
        ih (alignDown x ops.TOTAL + ops.DIM) st0 (by omega) (by omega)
      refine ⟨st1, ?_, ?_, fun h => absurd hxm h, ?_⟩
      · simp only [fillLoopX, hxm, if_true, h0, hnext, h1]
      · rw [hbg, hbg0]
      · intro k
        obtain ⟨hk1, hk2⟩ := hk k
        obtain ⟨hy1, hy2⟩ := hk0 k
        by_cases hvis : visitsAxis ops.TOTAL x bbox.max.x k.x ∧
            visitsAxis ops.TOTAL bbox.min.y bbox.max.y k.y ∧
            visitsAxis ops.TOTAL bbox.min.z bbox.max.z k.z
        · refine ⟨fun _ => ?_, fun h => absurd hvis h⟩
          obtain ⟨hvx, hvy, hvz⟩ := hvis
          rcases visitsAxis_cases hvx with hfirst | hlater
          · have hnot : ¬ (visitsAxis ops.TOTAL (alignDown x ops.TOTAL + ops.DIM) bbox.max.x k.x ∧
                visitsAxis ops.TOTAL bbox.min.y bbox.max.y k.y ∧
                visitsAxis ops.TOTAL bbox.min.z bbox.max.z k.z) := by
              rintro ⟨h3, _, _⟩
              exact (visitsAxis_next h3).2.1 hfirst
            rw [hk2 hnot, hy1 ⟨hfirst, hvy, hvz⟩, hfirst, max_alignDown]
          · obtain ⟨_, hne, hm1, hm2⟩ := visitsAxis_next hlater
            have hnoty : ¬ (k.x = alignDown x ops.TOTAL ∧
                visitsAxis ops.TOTAL bbox.min.y bbox.max.y k.y ∧
                visitsAxis ops.TOTAL bbox.min.z bbox.max.z k.z) := fun h => hne h.1
            rw [hk1 ⟨hlater, hvy, hvz⟩, hy2 hnoty, hbg0, hD2, hm1, hm2]
        · refine ⟨fun h => absurd h hvis, fun _ => ?_⟩
          have hnot : ¬ (visitsAxis ops.TOTAL (alignDown x ops.TOTAL + ops.DIM) bbox.max.x k.x ∧
              visitsAxis ops.TOTAL bbox.min.y bbox.max.y k.y ∧
              visitsAxis ops.TOTAL bbox.min.z bbox.max.z k.z) := by
            rintro ⟨h3, h4, h5⟩
            exact hvis ⟨(visitsAxis_next h3).1, h4, h5⟩
          have hnoty : ¬ (k.x = alignDown x ops.TOTAL ∧
              visitsAxis ops.TOTAL bbox.min.y bbox.max.y k.y ∧
              visitsAxis ops.TOTAL bbox.min.z bbox.max.z k.z) := by
            rintro ⟨h3, h4, h5⟩
            exact hvis ⟨h3 ▸ visitsAxis_first hxm, h4, h5⟩
          rw [hk2 hnot, hy2 hnoty]
    · refine ⟨st, by simp only [fillLoopX, hxm, if_false], rfl, fun _ => rfl,
        fun k => ⟨fun h => absurd h.1.1 hxm, fun _ => rfl⟩⟩

theorem getValue_eq_entryValue (r : RootNode V ops) (p : Coord) :
    r.getValue p = entryValue ops r.mBackground (r.mTable.find (coordToKey ops p)) p := by
  unfold getValue entryValue findCoord
  rfl

theorem isValueOn_eq_entryActive (r : RootNode V ops) (p : Coord) :
    r.isValueOn p = entryActive ops (r.mTable.find (coordToKey ops p)) p := by
  unfold isValueOn entryActive findCoord
  rfl

/-- Reading through the entry left by one `fill` iteration. -/
theorem fillEntry_read (pl : PointLaws ops) (fl : FillLaws ops) (bg : V) (bbox : CoordBBox)
    (v : V) (a : Bool) (old : Option (NodeStruct V ops.Child)) (p first : Coord)
    (hkey : coordToKey ops first = coordToKey ops p)
    (hold : ∀ c, old = some (.child c) → ops.origin c = coordToKey ops p)
    (hsub : (⟨first, Coord.minComponent bbox.max
        ((coordToKey ops first).offsetBy (ops.DIM - 1) (ops.DIM - 1) (ops.DIM - 1))⟩ :
          CoordBBox).isInside p = bbox.isInside p)
    (hfull : ¬ (first ≠ coordToKey ops first ∨ Coord.lessThan bbox.max
        ((coordToKey ops first).offsetBy (ops.DIM - 1) (ops.DIM - 1) (ops.DIM - 1)) = true) →
          bbox.isInside p = true) :
    entryValue ops bg (some (fillEntry ops bg bbox v a old first)) p
      = (if bbox.isInside p = true then v else entryValue ops bg old p) ∧
    entryActive ops (some (fillEntry ops bg bbox v a old first)) p
      = (if bbox.isInside p = true then a else entryActive ops old p) := by
  unfold fillEntry
  by_cases hc : first ≠ coordToKey ops first ∨ Coord.lessThan bbox.max
        ((coordToKey ops first).offsetBy (ops.DIM - 1) (ops.DIM - 1) (ops.DIM - 1)) = true
  · simp only [hc, if_true]
    cases old with
    | none =>
      simp only [entryValue, entryActive]
      rw [fl.getValue_fill _ _ _ _ _ (by rw [fl.origin_make, hkey]),
        fl.isValueOn_fill _ _ _ _ _ (by rw [fl.origin_make, hkey]), hsub,
        pl.getValue_make _ _ _ _ hkey.symm, pl.isValueOn_make _ _ _ _ hkey.symm]
      exact ⟨rfl, rfl⟩
    | some e =>
      cases e with
      | tile t =>
        simp only [entryValue, entryActive]
        rw [fl.getValue_fill _ _ _ _ _ (by rw [fl.origin_make, hkey]),
          fl.isValueOn_fill _ _ _ _ _ (by rw [fl.origin_make, hkey]), hsub,
          pl.getValue_make _ _ _ _ hkey.symm, pl.isValueOn_make _ _ _ _ hkey.symm]
        exact ⟨rfl, rfl⟩
      | child c =>
        simp only [entryValue, entryActive]
        rw [fl.getValue_fill _ _ _ _ _ (hold c rfl).symm,
          fl.isValueOn_fill _ _ _ _ _ (hold c rfl).symm, hsub]
        exact ⟨rfl, rfl⟩
  · simp only [hc, if_false, entryValue, entryActive, hfull hc, if_true, and_self]

/-- The table after `RootNode::fill`: with enough fuel the three loops finish, the
background is kept, and exactly the entries of the cubes that meet the box are rewritten,
each by the single iteration that visits it. -/
theorem fill_table (r : RootNode V ops) (bbox : CoordBBox) (v : V) (a : Bool)
    (hne : bbox.empty = false) (hmin : bbox.min.inRange)
    (hmax : bbox.max.x < 2 ^ 31 - ops.DIM ∧ bbox.max.y < 2 ^ 31 - ops.DIM ∧
      bbox.max.z < 2 ^ 31 - ops.DIM)
    (fuel : Nat)
    (hfuel : (bbox.max.x - bbox.min.x + 1).toNat ≤ fuel ∧
      (bbox.max.y - bbox.min.y + 1).toNat ≤ fuel ∧ (bbox.max.z - bbox.min.z + 1).toNat ≤ fuel) :
    ∃ r1, r.fill bbox v a fuel = some r1 ∧ r1.mBackground = r.mBackground ∧
      ∀ k : Coord,
        ((visitsAxis ops.TOTAL bbox.min.x bbox.max.x k.x ∧
            visitsAxis ops.TOTAL bbox.min.y bbox.max.y k.y ∧
            visitsAxis ops.TOTAL bbox.min.z bbox.max.z k.z) →
          r1.mTable.find k =
            some (fillEntry ops r.mBackground bbox v a (r.mTable.find k) (bbox.firstIn k))) ∧
        (¬ (visitsAxis ops.TOTAL bbox.min.x bbox.max.x k.x ∧
            visitsAxis ops.TOTAL bbox.min.y bbox.max.y k.y ∧
            visitsAxis ops.TOTAL bbox.min.z bbox.max.z k.z) →
          r1.mTable.find k = r.mTable.find k) := by
  simp only [CoordBBox.empty, Bool.or_eq_false_iff, decide_eq_false_iff_not, not_lt,
    gt_iff_lt] at hne
  obtain ⟨⟨hx, hy⟩, hz⟩ := hne
  obtain ⟨⟨hminx, _⟩, ⟨hminy, _⟩, ⟨hminz, _⟩⟩ := hmin
  obtain ⟨st1, h1, hbg, _, hk⟩ := fillLoopX_spec bbox v a hmax.2.2 hmax.2.1 hmax.1 hminz hz
    hminy hy fuel hfuel.2.2 hfuel.2.1 fuel bbox.min.x (r, ⟨0, 0, 0⟩) hfuel.1 hminx
  refine ⟨st1.1, ?_, hbg, hk⟩
  have hemp : bbox.empty = false := by
    simp only [CoordBBox.empty, Bool.or_eq_false_iff, decide_eq_false_iff_not, not_lt,
      gt_iff_lt]
    exact ⟨⟨hx, hy⟩, hz⟩
  simp only [fill, hemp, h1, Option.map_some', Bool.false_eq_true, if_false]

/-- C4 (fill postcondition): for a non-empty box whose corners fit `Int32` and whose max
corner components are all below `2^31 - DIM`, `fill(bbox, v, a)` finishes; afterwards every
coordinate inside the box reads `v` with active state `a` and every coordinate outside
reads what it read before; a root cube wholly inside the box ends as the tile `(v, a)` and
a cube covered in part ends as a child (the previous child, or one built from the previous
tile, or from the inactive background when the key was absent) filled over the clipped
box. The root is well formed: every child sits at the key of its origin. -/
theorem fill_postcondition (pl : PointLaws ops) (fl : FillLaws ops) (r : RootNode V ops)
    (hwf : r.ChildrenAtOrigin) (bbox : CoordBBox) (v : V) (a : Bool)
    (hne : bbox.empty = false) (hmin : bbox.min.inRange)
    (hmax : bbox.max.x < 2 ^ 31 - ops.DIM ∧ bbox.max.y < 2 ^ 31 - ops.DIM ∧
      bbox.max.z < 2 ^ 31 - ops.DIM)
    (fuel : Nat)
    (hfuel : (bbox.max.x - bbox.min.x + 1).toNat ≤ fuel ∧
      (bbox.max.y - bbox.min.y + 1).toNat ≤ fuel ∧ (bbox.max.z - bbox.min.z + 1).toNat ≤ fuel) :
    ∃ r1, r.fill bbox v a fuel = some r1 ∧
      (∀ p, r1.getValue p = if bbox.isInside p = true then v else r.getValue p) ∧
      (∀ p, r1.isValueOn p = if bbox.isInside p = true then a else r.isValueOn p) ∧
      (∀ k, coordToKey ops k = k → bbox.cubeInside k ops.DIM →
        r1.mTable.find k = some (.tile ⟨v, a⟩)) ∧
      (∀ k, coordToKey ops k = k → bbox.cubeMeets k ops.DIM → ¬ bbox.cubeInside k ops.DIM →
        r1.mTable.find k = some (.child (ops.fill
          (fillChild ops r.mBackground (r.mTable.find k) (bbox.firstIn k))
          ⟨bbox.firstIn k, Coord.minComponent bbox.max
            (k.offsetBy (ops.DIM - 1) (ops.DIM - 1) (ops.DIM - 1))⟩ v a))) := by
  obtain ⟨r1, hfill, hbg, hk⟩ := fill_table r bbox v a hne hmin hmax fuel hfuel
  have hD : (0 : Int) < ops.DIM := two_pow_pos_int _
  have hD2 : ops.DIM = (2 : Int) ^ ops.TOTAL := rfl
  have hne2 := hne
  simp only [CoordBBox.empty, Bool.or_eq_false_iff, decide_eq_false_iff_not, not_lt,
    gt_iff_lt] at hne2
  obtain ⟨⟨hx, hy⟩, hz⟩ := hne2
  -- the first voxel visited in a cube that meets the box lies in that cube
  have hfirstKey : ∀ k, coordToKey ops k = k → bbox.cubeMeets k ops.DIM →
      coordToKey ops (bbox.firstIn k) = k := by
    intro k hal hm
    obtain ⟨⟨_, m1⟩, ⟨_, m2⟩, ⟨_, m3⟩⟩ := hm
    obtain ⟨a1, a2, a3⟩ := aligned_components hal
    cases k with
    | mk kx ky kz =>
      simp only [coordToKey, CoordBBox.firstIn, Coord.mk.injEq] at *
      exact ⟨(alignDown_eq_iff a1).2 ⟨by omega, by omega⟩,
        (alignDown_eq_iff a2).2 ⟨by omega, by omega⟩,
        (alignDown_eq_iff a3).2 ⟨by omega, by omega⟩⟩
  have hvis : ∀ k, coordToKey ops k = k → bbox.cubeMeets k ops.DIM →
      (visitsAxis ops.TOTAL bbox.min.x bbox.max.x k.x ∧
        visitsAxis ops.TOTAL bbox.min.y bbox.max.y k.y ∧
        visitsAxis ops.TOTAL bbox.min.z bbox.max.z k.z) := by
    intro k hal hm
    obtain ⟨a1, a2, a3⟩ := aligned_components hal
    obtain ⟨⟨m1, m1b⟩, ⟨m2, m2b⟩, ⟨m3, m3b⟩⟩ := hm
    exact ⟨(visitsAxis_iff a1 hx).2 ⟨m1, m1b⟩, (visitsAxis_iff a2 hy).2 ⟨m2, m2b⟩,
      (visitsAxis_iff a3 hz).2 ⟨m3, m3b⟩⟩
  have hread : ∀ p, entryValue ops r1.mBackground (r1.mTable.find (coordToKey ops p)) p
        = (if bbox.isInside p = true then v
            else entryValue ops r.mBackground (r.mTable.find (coordToKey ops p)) p) ∧
      entryActive ops (r1.mTable.find (coordToKey ops p)) p
        = (if bbox.isInside p = true then a
            else entryActive ops (r.mTable.find (coordToKey ops p)) p) := by
    intro p
    have hal := coordToKey_idem ops p
    have hpx1 := alignDown_le p.x ops.TOTAL
    have hpx2 := lt_alignDown_add p.x ops.TOTAL
    have hpy1 := alignDown_le p.y ops.TOTAL
    have hpy2 := lt_alignDown_add p.y ops.TOTAL
    have hpz1 := alignDown_le p.z ops.TOTAL
    have hpz2 := lt_alignDown_add p.z ops.TOTAL
    by_cases hm : bbox.cubeMeets (coordToKey ops p) ops.DIM
    · rw [(hk (coordToKey ops p)).1 (hvis _ hal hm), hbg]
      have hfk := hfirstKey _ hal hm
      obtain ⟨⟨m1, m1b⟩, ⟨m2, m2b⟩, ⟨m3, m3b⟩⟩ := hm
      simp only [coordToKey] at m1 m1b m2 m2b m3 m3b
      apply fillEntry_read pl fl r.mBackground bbox v a _ p _ hfk
      · intro c hc
        exact hwf _ c hc
      · rw [hfk]
        simp only [CoordBBox.isInside, CoordBBox.firstIn, Coord.minComponent, Coord.offsetBy,
          coordToKey]
        rw [Bool.eq_iff_iff]
        simp only [Bool.and_eq_true, decide_eq_true_eq]
        constructor
        · rintro ⟨⟨⟨⟨⟨h1, h2⟩, h3⟩, h4⟩, h5⟩, h6⟩
          refine ⟨⟨⟨⟨⟨?_, ?_⟩, ?_⟩, ?_⟩, ?_⟩, ?_⟩ <;> omega
        · rintro ⟨⟨⟨⟨⟨h1, h2⟩, h3⟩, h4⟩, h5⟩, h6⟩
          refine ⟨⟨⟨⟨⟨?_, ?_⟩, ?_⟩, ?_⟩, ?_⟩, ?_⟩ <;> omega
      · intro hc
        rw [hfk] at hc
        push_neg at hc
        obtain ⟨hc1, hc2⟩ := hc
        simp only [CoordBBox.firstIn, coordToKey, Coord.mk.injEq] at hc1
        simp only [Coord.lessThan, Coord.offsetBy, coordToKey, Bool.or_eq_true,
          decide_eq_true_eq, not_or, not_lt, Bool.not_eq_true, Bool.or_eq_false_iff,
          decide_eq_false_iff_not] at hc2
        simp only [CoordBBox.isInside, Bool.and_eq_true, decide_eq_true_eq]
        obtain ⟨c1, c2, c3⟩ := hc1
        obtain ⟨⟨d1, d2⟩, d3⟩ := hc2
        refine ⟨⟨⟨⟨⟨?_, ?_⟩, ?_⟩, ?_⟩, ?_⟩, ?_⟩ <;> omega
    · have hnv : ¬ (visitsAxis ops.TOTAL bbox.min.x bbox.max.x (coordToKey ops p).x ∧
          visitsAxis ops.TOTAL bbox.min.y bbox.max.y (coordToKey ops p).y ∧
          visitsAxis ops.TOTAL bbox.min.z bbox.max.z (coordToKey ops p).z) := by
        rintro ⟨v1, v2, v3⟩
        apply hm
        obtain ⟨a1, a2, a3⟩ := aligned_components hal
        exact ⟨(visitsAxis_iff a1 hx).1 v1, (visitsAxis_iff a2 hy).1 v2,
          (visitsAxis_iff a3 hz).1 v3⟩
      have hout : bbox.isInside p = false := by
        rw [Bool.eq_false_iff]
        intro hin
        apply hm
        simp only [CoordBBox.isInside, Bool.and_eq_true, decide_eq_true_eq] at hin
        obtain ⟨⟨⟨⟨⟨h1, h2⟩, h3⟩, h4⟩, h5⟩, h6⟩ := hin
        simp only [CoordBBox.cubeMeets, coordToKey]
        refine ⟨⟨?_, ?_⟩, ⟨?_, ?_⟩, ⟨?_, ?_⟩⟩ <;> omega
      rw [(hk (coordToKey ops p)).2 hnv, hbg, hout]
      simp only [Bool.false_eq_true, if_false, and_self]
  refine ⟨r1, hfill, fun p => ?_, fun p => ?_, ?_, ?_⟩
  · rw [getValue_eq_entryValue, getValue_eq_entryValue]
    exact (hread p).1
  · rw [isValueOn_eq_entryActive, isValueOn_eq_entryActive]
    exact (hread p).2
  · intro k hal hin
    have hm : bbox.cubeMeets k ops.DIM := by
      obtain ⟨⟨h1, h2⟩, ⟨h3, h4⟩, ⟨h5, h6⟩⟩ := hin
      refine ⟨⟨?_, ?_⟩, ⟨?_, ?_⟩, ⟨?_, ?_⟩⟩ <;> omega
    rw [(hk k).1 (hvis k hal hm)]
    have hfk := hfirstKey k hal hm
    have hfirst : bbox.firstIn k = k := by
      obtain ⟨⟨h1, h2⟩, ⟨h3, h4⟩, ⟨h5, h6⟩⟩ := hin
      cases k with
      | mk kx ky kz =>
        simp only [CoordBBox.firstIn, Coord.mk.injEq] at *
        refine ⟨?_, ?_, ?_⟩ <;> omega
    have hnc : ¬ (bbox.firstIn k ≠ coordToKey ops (bbox.firstIn k) ∨
        Coord.lessThan bbox.max ((coordToKey ops (bbox.firstIn k)).offsetBy (ops.DIM - 1)
          (ops.DIM - 1) (ops.DIM - 1)) = true) := by
      rw [hfirst, hal]
      obtain ⟨⟨h1, h2⟩, ⟨h3, h4⟩, ⟨h5, h6⟩⟩ := hin
      simp only [ne_eq, not_true_eq_false, false_or, Coord.lessThan, Coord.offsetBy,
        Bool.or_eq_true, decide_eq_true_eq, not_or, not_lt]
      refine ⟨⟨?_, ?_⟩, ?_⟩ <;> omega
    simp only [fillEntry, hnc, if_false]
  · intro k hal hm hnin
    rw [(hk k).1 (hvis k hal hm)]
    have hfk := hfirstKey k hal hm
    have hc : bbox.firstIn k ≠ coordToKey ops (bbox.firstIn k) ∨
        Coord.lessThan bbox.max ((coordToKey ops (bbox.firstIn k)).offsetBy (ops.DIM - 1)
          (ops.DIM - 1) (ops.DIM - 1)) = true := by
      by_contra hcon
      push_neg at hcon
      obtain ⟨hc1, hc2⟩ := hcon
      rw [hfk] at hc1 hc2
      apply hnin
      simp only [Coord.lessThan, Coord.offsetBy, Bool.or_eq_true,
        decide_eq_true_eq, not_or, not_lt, Bool.not_eq_true, Bool.or_eq_false_iff,
        decide_eq_false_iff_not] at hc2
      obtain ⟨⟨d1, d2⟩, d3⟩ := hc2
      have e1 : max bbox.min.x k.x = k.x := congrArg Coord.x hc1
      have e2 : max bbox.min.y k.y = k.y := congrArg Coord.y hc1
      have e3 : max bbox.min.z k.z = k.z := congrArg Coord.z hc1
      refine ⟨⟨?_, ?_⟩, ⟨?_, ?_⟩, ⟨?_, ?_⟩⟩ <;> omega
    rw [hfk] at hc
    simp only [fillEntry, hfk, hc, if_true]
    cases r.mTable.find k with
    | none => rfl
    | some e =>
      cases e with
      | tile t => rfl
      | child c => rfl

/-- Instance of C4 on `sampleRoot`: filling the box (1,0,0)..(4,1,2) with the active
value 42 finishes within ten iterations per loop and has the stated effect. -/
theorem fill_postcondition_witness :
    ∃ r1, sampleRoot.fill ⟨⟨1, 0, 0⟩, ⟨4, 1, 2⟩⟩ 42 true 10 = some r1 ∧
      (∀ p, r1.getValue p =
        if (⟨⟨1, 0, 0⟩, ⟨4, 1, 2⟩⟩ : CoordBBox).isInside p = true then 42
        else sampleRoot.getValue p) ∧
      (∀ p, r1.isValueOn p =
        if (⟨⟨1, 0, 0⟩, ⟨4, 1, 2⟩⟩ : CoordBBox).isInside p = true then true
        else sampleRoot.isValueOn p) :=
  have h := fill_postcondition (densePointLaws Int) (denseFillLaws Int) sampleRoot
    sampleRoot_childrenAtOrigin ⟨⟨1, 0, 0⟩, ⟨4, 1, 2⟩⟩ 42 true rfl
    (by simp only [Coord.inRange]; decide)
    (by simp only [ChildOps.DIM, denseOps]; decide) 10 (by decide)
  h.imp fun _ hr => ⟨hr.1, hr.2.1, hr.2.2.1⟩

/-! ## Topology union -/

theorem getValue_of_find {r : RootNode V ops} {p : Coord} {e : Option (NodeStruct V ops.Child)}
    (h : r.mTable.find (coordToKey ops p) = e) :
    r.getValue p = entryValue ops r.mBackground e p ∧ r.isValueOn p = entryActive ops e p := by
  rw [getValue_eq_entryValue, isValueOn_eq_entryActive, h]
  exact ⟨rfl, rfl⟩

/-- Effect of one iteration of `topologyUnion` on what is read at `p`. -/
theorem topologyUnionStep_read {W : Type} {oops : ChildOps W} {tops : TopologyOps ops oops}
    (tl : TopologyLaws ops oops tops) (r : RootNode V ops)
    (i : Coord × NodeStruct W oops.Child) (p : Coord) :
    (topologyUnionStep tops r i).mBackground = r.mBackground ∧
    (topologyUnionStep tops r i).getValue p = r.getValue p ∧
    (topologyUnionStep tops r i).isValueOn p =
      (r.isValueOn p || (decide (coordToKey ops p = i.1) && entryActive oops (some i.2) p)) := by
  obtain ⟨k, e⟩ := i
  by_cases hk : coordToKey ops p = k
  · subst hk
    simp only [decide_True, Bool.true_and]
    cases e with
    | child oc =>
      cases hf : r.mTable.find (coordToKey ops p) with
      | none =>
        obtain ⟨h1, h2⟩ := getValue_of_find hf
        simp only [topologyUnionStep, hf]
        obtain ⟨g1, g2⟩ := getValue_assign_child r.mTable r.mBackground p p
          (tops.topologyCopy oc r.mBackground) rfl
        rw [g1, g2, h1, h2, tl.getValue_topologyCopy, tl.isValueOn_topologyCopy]
        simp [entryValue, entryActive]
      | some n =>
        cases n with
        | child c =>
          obtain ⟨h1, h2⟩ := getValue_of_find hf
          simp only [topologyUnionStep, hf]
          obtain ⟨g1, g2⟩ := getValue_assign_child r.mTable r.mBackground p p
            (tops.topologyUnion c oc) rfl
          rw [g1, g2, h1, h2, tl.getValue_topologyUnion, tl.isValueOn_topologyUnion]
          simp [entryValue, entryActive]
        | tile t =>
          obtain ⟨h1, h2⟩ := getValue_of_find hf
          simp only [topologyUnionStep, hf]
          obtain ⟨g1, g2⟩ := getValue_assign_child r.mTable r.mBackground p p
            (if t.active = true then ops.setValuesOn (tops.topologyCopy oc t.value)
              else tops.topologyCopy oc t.value) rfl
          rw [g1, g2, h1, h2]
          cases hta : t.active with
          | true =>
            simp [entryValue, entryActive, hta, tl.getValue_setValuesOn,
              tl.isValueOn_setValuesOn, tl.getValue_topologyCopy]
          | false =>
            simp [entryValue, entryActive, hta, tl.getValue_topologyCopy,
              tl.isValueOn_topologyCopy]
    | tile ot =>
      cases hoa : ot.active with
      | false =>
        simp [topologyUnionStep, hoa, entryActive]
      | true =>
        cases hf : r.mTable.find (coordToKey ops p) with
        | none =>
          obtain ⟨h1, h2⟩ := getValue_of_find hf
          simp only [topologyUnionStep, hf, hoa, if_true]
          simp [getValue, isValueOn, findCoord, MapType.find_assign_self, hf, entryActive, hoa]
        | some n =>
          cases n with
          | child c =>
            obtain ⟨h1, h2⟩ := getValue_of_find hf
            simp only [topologyUnionStep, hf, hoa, if_true]
            obtain ⟨g1, g2⟩ := getValue_assign_child r.mTable r.mBackground p p
              (ops.setValuesOn c) rfl
            rw [g1, g2, h1, h2, tl.getValue_setValuesOn, tl.isValueOn_setValuesOn]
            simp [entryValue, entryActive, hoa]
          | tile t =>
            cases hta : t.active with
            | true =>
              simp [topologyUnionStep, hf, hoa, hta, getValue, isValueOn, findCoord,
                entryActive]
            | false =>
              simp [topologyUnionStep, hf, hoa, hta, getValue, isValueOn, findCoord,
                MapType.find_assign_self, entryActive]
  · have hk2 : k ≠ coordToKey ops p := fun h => hk h.symm
    simp only [hk, decide_False, Bool.false_and, Bool.or_false]
    cases e with
    | child oc =>
      cases hf : r.mTable.find k with
      | none =>
        simp only [topologyUnionStep, hf]
        exact ⟨trivial, getValue_assign_other r k p _ hk2⟩
      | some n =>
        cases n with
        | child c =>
          simp only [topologyUnionStep, hf]
          exact ⟨trivial, getValue_assign_other r k p _ hk2⟩
        | tile t =>
          simp only [topologyUnionStep, hf]
          exact ⟨trivial, getValue_assign_other r k p _ hk2⟩
    | tile ot =>
      cases hoa : ot.active with
      | false =>
        simp [topologyUnionStep, hoa]
      | true =>
        cases hf : r.mTable.find k with
        | none =>
          simp only [topologyUnionStep, hf, hoa, if_true]
          exact ⟨trivial, getValue_assign_other r k p _ hk2⟩
        | some n =>
          cases n with
          | child c =>
            simp only [topologyUnionStep, hf, hoa, if_true]
            exact ⟨trivial, getValue_assign_other r k p _ hk2⟩
          | tile t =>
            cases hta : t.active with
            | true =>
              simp [topologyUnionStep, hf, hoa, hta]
            | false =>
              simp only [topologyUnionStep, hf, hoa, hta, if_true]
              exact ⟨trivial, getValue_assign_other r k p _ hk2⟩

/-- Effect of the whole loop of `topologyUnion` over a table with distinct keys. -/
theorem topologyUnion_fold {W : Type} {oops : ChildOps W} {tops : TopologyOps ops oops}
    (tl : TopologyLaws ops oops tops) (p : Coord) :
    ∀ (L : MapType W oops.Child) (r : RootNode V ops), L.WF →
      (L.foldl (topologyUnionStep tops) r).mBackground = r.mBackground ∧
      (L.foldl (topologyUnionStep tops) r).getValue p = r.getValue p ∧
      (L.foldl (topologyUnionStep tops) r).isValueOn p =
        (r.isValueOn p || entryActive oops (L.find (coordToKey ops p)) p) := by
  intro L
  induction L with
  | nil =>
    intro r _
    simp [entryActive, MapType.find]
  | cons hd tl2 ih =>
    intro r hwf
    obtain ⟨hwf2, hnone⟩ := MapType.WF_tail hwf
    obtain ⟨h1, h2, h3⟩ := ih (topologyUnionStep tops r hd) hwf2
    obtain ⟨s1, s2, s3⟩ := topologyUnionStep_read tl r hd p
    simp only [List.foldl_cons]
    refine ⟨h1.trans s1, h2.trans s2, ?_⟩
    rw [h3, s3]
    obtain ⟨k, e⟩ := hd
    by_cases hk : k = coordToKey ops p
    · subst hk
      simp only [MapType.find, if_true, decide_True, Bool.true_and]
      simp only at hnone
      rw [hnone]
      simp [entryActive]
    · have hk2 : ¬ coordToKey ops p = k := fun h => hk h.symm
      simp only [MapType.find, hk, if_false, hk2, decide_False, Bool.false_and, Bool.or_false]

/-- Trees of the same configuration have child cubes of the same side. -/
theorem coordToKey_of_sameConfiguration {W : Type} {oops : ChildOps W}
    (cA : ConfigLaw ops) (cB : ConfigLaw oops)
    (h : hasSameConfiguration ops oops = true) (p : Coord) :
    coordToKey oops p = coordToKey ops p := by
  simp only [hasSameConfiguration, getNodeLog2Dims, decide_eq_true_eq, List.cons.injEq,
    true_and] at h
  have : oops.TOTAL = ops.TOTAL := by rw [cA, cB, h]
  simp only [coordToKey, this]

theorem topologyUnion_ok {W : Type} {oops : ChildOps W} (tops : TopologyOps ops oops)
    (A : RootNode V ops) (B : RootNode W oops) (h : hasSameConfiguration ops oops = true) :
    topologyUnion tops A B = .ok (B.mTable.foldl (topologyUnionStep tops) A) := by
  simp only [hasSameConfiguration, decide_eq_true_eq] at h
  simp only [topologyUnion, enforceSameConfiguration, h, ne_eq, not_true_eq_false, if_false]

/-- C5 (topology union is the union of the active sets): for roots `A`, `B` of the same
configuration, `A.topologyUnion(B)` succeeds and afterwards `A.isValueOn(p)` is
`A_before.isValueOn(p) || B.isValueOn(p)` at every coordinate; in particular nothing that
was active in `A` or in `B` is inactive afterwards. -/
theorem topologyUnion_isValueOn {W : Type} {oops : ChildOps W} {tops : TopologyOps ops oops}
    (tl : TopologyLaws ops oops tops) (cA : ConfigLaw ops) (cB : ConfigLaw oops)
    (A : RootNode V ops) (B : RootNode W oops) (hB : B.mTable.WF)
    (hcfg : hasSameConfiguration ops oops = true) :
    ∃ A1, topologyUnion tops A B = .ok A1 ∧
      (∀ p, A1.isValueOn p = (A.isValueOn p || B.isValueOn p)) ∧
      (∀ p, (A.isValueOn p = true ∨ B.isValueOn p = true) → A1.isValueOn p = true) := by
  refine ⟨_, topologyUnion_ok tops A B hcfg, ?_⟩
  have main : ∀ p, (B.mTable.foldl (topologyUnionStep tops) A).isValueOn p
      = (A.isValueOn p || B.isValueOn p) := by
    intro p
    have hBp : B.isValueOn p = entryActive oops (B.mTable.find (coordToKey oops p)) p := rfl
    rw [(topologyUnion_fold tl p B.mTable A hB).2.2, hBp,
      coordToKey_of_sameConfiguration cA cB hcfg]
  refine ⟨main, ?_⟩
  intro p h
  rw [main p]
  rcases h with h | h <;> simp [h]

/-- C6 (topology union changes no value): for roots `A`, `B` of the same configuration,
`A.topologyUnion(B)` succeeds, `A.getValue(p)` is the same before and after at every
coordinate, and the background of `A` is unchanged. The other root is a read-only
argument. -/
theorem topologyUnion_getValue {W : Type} {oops : ChildOps W} {tops : TopologyOps ops oops}
    (tl : TopologyLaws ops oops tops)
    (A : RootNode V ops) (B : RootNode W oops) (hB : B.mTable.WF)
    (hcfg : hasSameConfiguration ops oops = true) :
    ∃ A1, topologyUnion tops A B = .ok A1 ∧
      (∀ p, A1.getValue p = A.getValue p) ∧ A1.mBackground = A.mBackground := by
  refine ⟨_, topologyUnion_ok tops A B hcfg, ?_, ?_⟩
  · intro p
    exact (topologyUnion_fold tl p B.mTable A hB).2.1
  · exact (topologyUnion_fold tl ⟨0, 0, 0⟩ B.mTable A hB).1

/-- Instance of C5: the union of `sampleMask` (a boolean tree) into `sampleRoot`. -/
theorem topologyUnion_isValueOn_witness :
    ∃ A1, topologyUnion (denseTopologyOps Int Bool) sampleRoot sampleMask = .ok A1 ∧
      (∀ p, A1.isValueOn p = (sampleRoot.isValueOn p || sampleMask.isValueOn p)) :=
  (topologyUnion_isValueOn (denseTopologyLaws Int Bool) (denseConfigLaw Int)
    (denseConfigLaw Bool) sampleRoot sampleMask sampleMask_WF rfl).imp
    fun _ h => ⟨h.1, h.2.1⟩

/-- Instance of C6: the union of `sampleMask` into `sampleRoot` changes no value. -/
theorem topologyUnion_getValue_witness :
    ∃ A1, topologyUnion (denseTopologyOps Int Bool) sampleRoot sampleMask = .ok A1 ∧
      (∀ p, A1.getValue p = sampleRoot.getValue p) ∧ A1.mBackground = 5 :=
  topologyUnion_getValue (denseTopologyLaws Int Bool) sampleRoot sampleMask sampleMask_WF rfl

/-! ## Pruning -/

/-- On a table with distinct keys `eraseBackgroundTiles` keeps exactly the entries that are
not background tiles. -/
theorem eraseBackgroundTiles_table (vops : ValueOps V) (r : RootNode V ops)
    (h : r.mTable.WF) :
    (r.eraseBackgroundTiles vops).1 =
      ⟨r.mTable.filter (fun i => !r.isBackgroundTile vops i.2), r.mBackground⟩ := by
  simp only [eraseBackgroundTiles]
  rw [MapType.foldl_erase_filter (fun i => r.isBackgroundTile vops i.2) r.mTable h]

theorem isBackgroundTile_congr (vops : ValueOps V) (r r1 : RootNode V ops)
    (h : r1.mBackground = r.mBackground) (e : NodeStruct V ops.Child) :
    r1.isBackgroundTile vops e = r.isBackgroundTile vops e := by
  cases e with
  | child c => rfl
  | tile t => simp only [isBackgroundTile, h]

theorem pruneOp_table (vops : ValueOps V) (op : ops.Child → ops.Child × Option (Tile V))
    (r : RootNode V ops) (h : r.mTable.WF) :
    pruneOp vops op r =
      ⟨(r.mTable.map (pruneEntry op)).filter (fun i => !r.isBackgroundTile vops i.2),
        r.mBackground⟩ := by
  unfold pruneOp
  rw [eraseBackgroundTiles_table vops _
    (MapType.WF_map_of_key (pruneEntry op) (fun i => by
      unfold pruneEntry
      cases i.2 with
      | tile t => rfl
      | child c =>
        simp only
        split <;> rfl) h)]
  simp only [RootNode.mk.injEq, and_true]
  apply List.filter_congr
  intro i _
  exact congrArg _ (isBackgroundTile_congr vops r _ rfl i.2)

theorem pruneEntry_idem (op : ops.Child → ops.Child × Option (Tile V))
    (hop : ∀ c c1, op c = (c1, none) → op c1 = (c1, none))
    (i : Coord × NodeStruct V ops.Child) :
    pruneEntry op (pruneEntry op i) = pruneEntry op i := by
  obtain ⟨k, e⟩ := i
  cases e with
  | tile t => rfl
  | child c =>
    cases hc : op c with
    | mk c1 res =>
      cases res with
      | none =>
        have h1 : pruneEntry op (k, .child c) = (k, .child c1) := by
          simp only [pruneEntry, hc]
        rw [h1]
        simp only [pruneEntry, hop c c1 hc]
      | some t =>
        have h1 : pruneEntry op (k, .child c) = (k, .tile t) := by
          simp only [pruneEntry, hc]
        rw [h1]
        rfl

/-- C10 (prune is idempotent): for every tree (its table a `std::map`, so with strictly
increasing keys) and every tolerance, pruning twice leaves exactly the root that pruning
once leaves: the same table, entry by entry, and the same background. -/
theorem prune_idempotent (vops : ValueOps V) (pops : PruneOps ops) (pl : PruneLaws ops pops)
    (r : RootNode V ops) (hwf : r.mTable.WF) (tol : V) :
    prune vops pops (prune vops pops r tol) tol = prune vops pops r tol := by
  unfold prune
  have hkey : ∀ i : Coord × NodeStruct V ops.Child,
      (pruneEntry (pops.tolerancePrune tol) i).1 = i.1 := by
    intro i
    unfold pruneEntry
    cases i.2 with
    | tile t => rfl
    | child c =>
      simp only
      split <;> rfl
  rw [pruneOp_table vops _ r hwf]
  rw [pruneOp_table vops _ _
    (MapType.WF_filter _ (MapType.WF_map_of_key _ hkey hwf))]
  simp only [RootNode.mk.injEq, and_true]
  have hfix : ∀ i ∈ (r.mTable.map (pruneEntry (pops.tolerancePrune tol))).filter
      (fun i => !r.isBackgroundTile vops i.2), pruneEntry (pops.tolerancePrune tol) i = i := by
    intro i hi
    obtain ⟨j, _, rfl⟩ := List.mem_map.1 (List.mem_of_mem_filter hi)
    exact pruneEntry_idem _ (pl.tolerancePrune_again tol) j
  have hmap : ((r.mTable.map (pruneEntry (pops.tolerancePrune tol))).filter
      (fun i => !r.isBackgroundTile vops i.2)).map (pruneEntry (pops.tolerancePrune tol))
      = (r.mTable.map (pruneEntry (pops.tolerancePrune tol))).filter
        (fun i => !r.isBackgroundTile vops i.2) := by
    conv_rhs => rw [← List.map_id ((r.mTable.map (pruneEntry (pops.tolerancePrune tol))).filter
      (fun i => !r.isBackgroundTile vops i.2))]
    exact List.map_congr_left hfix
  rw [hmap, List.filter_eq_self]
  intro i hi
  have hq := List.of_mem_filter hi
  rw [← hq]
  exact congrArg _ (isBackgroundTile_congr vops r _ rfl i.2)

/-- Instance of C10 on `sampleRoot` with tolerance 0. -/
theorem prune_idempotent_witness :
    PruneLaws (denseOps Int) (densePruneOps intOps) ∧ sampleRoot.mTable.WF ∧
    prune intOps (densePruneOps intOps) (prune intOps (densePruneOps intOps) sampleRoot 0) 0
      = prune intOps (densePruneOps intOps) sampleRoot 0 :=
  ⟨densePruneLaws intOps, sampleRoot_WF,
   prune_idempotent intOps (densePruneOps intOps) (densePruneLaws intOps) sampleRoot
     sampleRoot_WF 0⟩

/-! ## Topology stream round trip -/

theorem readTiles_spec (tail : List (Tok V)) :
    ∀ (t s : MapType V ops.Child) (vec : Coord) (value : V) (active : Bool),
      (readTiles (t.filter (fun i => i.2.isTile)).length
          (⟨s, ⟨(t.map writeTile).flatten ++ tail, false⟩, vec, value, active⟩ :
            ReadState V ops)).table
        = (t.filter (fun i => i.2.isTile)).foldl MapType.assignEntry s ∧
      (readTiles (t.filter (fun i => i.2.isTile)).length
          (⟨s, ⟨(t.map writeTile).flatten ++ tail, false⟩, vec, value, active⟩ :
            ReadState V ops)).is = ⟨tail, false⟩ := by
  intro t
  induction t with
  | nil =>
    intro s vec value active
    exact ⟨rfl, rfl⟩
  | cons hd tl ih =>
    intro s vec value active
    obtain ⟨k, e⟩ := hd
    cases e with
    | child c =>
      simp only [List.filter_cons, NodeStruct.isTile, Bool.false_eq_true, if_false,
        List.map_cons, writeTile, List.flatten_cons, List.nil_append]
      exact ih s vec value active
    | tile tt =>
      simp only [List.filter_cons, NodeStruct.isTile, if_true, List.length_cons,
        List.map_cons, writeTile, List.flatten_cons, List.cons_append, List.nil_append,
        List.foldl_cons, readTiles, IStream.readCoord, IStream.readValue, IStream.readBool,
        Bool.false_eq_true, if_false]
      exact ih (s.assign k (.tile tt)) k tt.value tt.active

theorem readChildren_spec (iops : IOOps ops) (io : IOLaws ops iops) (bg : V)
    (tail : List (Tok V)) :
    ∀ (t s : MapType V ops.Child) (vec : Coord) (value : V) (active : Bool),
      (∀ k c, (k, NodeStruct.child c) ∈ t → ops.origin c = k) →
      (readChildren iops bg (t.filter (fun i => i.2.isChild)).length
          (⟨s, ⟨(t.map (writeChild iops)).flatten ++ tail, false⟩, vec, value, active⟩ :
            ReadState V ops)).table
        = ((topoTable iops bg t tail).filter (fun i => i.2.isChild)).foldl
            MapType.assignEntry s ∧
      (readChildren iops bg (t.filter (fun i => i.2.isChild)).length
          (⟨s, ⟨(t.map (writeChild iops)).flatten ++ tail, false⟩, vec, value, active⟩ :
            ReadState V ops)).is = ⟨tail, false⟩ := by
  intro t
  induction t with
  | nil =>
    intro s vec value active _
    exact ⟨rfl, rfl⟩
  | cons hd tl ih =>
    intro s vec value active horig
    obtain ⟨k, e⟩ := hd
    have horig2 : ∀ k c, (k, NodeStruct.child c) ∈ tl → ops.origin c = k :=
      fun k c h => horig k c (List.mem_cons_of_mem _ h)
    cases e with
    | tile tt =>
      simp only [List.filter_cons, NodeStruct.isChild, Bool.false_eq_true, if_false,
        List.map_cons, writeChild, List.flatten_cons, List.nil_append, topoTable]
      exact ih s vec value active horig2
    | child c =>
      have hk : ops.origin c = k := horig k c (List.mem_cons_self _ _)
      have hstream := io.readTopology_write c bg
        ((tl.map (writeChild iops)).flatten ++ tail)
      rw [hk] at hstream
      simp only [List.filter_cons, NodeStruct.isChild, if_true, List.length_cons,
        List.map_cons, writeChild, List.flatten_cons, List.cons_append, List.append_assoc,
        topoTable, List.foldl_cons, readChildren, IStream.readCoord,
        Bool.false_eq_true, if_false, hstream]
      exact ih _ k value active horig2

theorem topoTable_keys (iops : IOOps ops) (bg : V) (tail : List (Tok V)) :
    ∀ t : MapType V ops.Child, (topoTable iops bg t tail).map Prod.fst = t.map Prod.fst := by
  intro t
  induction t with
  | nil => rfl
  | cons hd tl ih =>
    obtain ⟨k, e⟩ := hd
    cases e with
    | tile tt => simp only [topoTable, List.map_cons, ih]
    | child c => simp only [topoTable, List.map_cons, ih]

theorem topoTable_tiles (iops : IOOps ops) (bg : V) (tail : List (Tok V)) :
    ∀ t : MapType V ops.Child,
      (topoTable iops bg t tail).filter (fun i => i.2.isTile)
        = t.filter (fun i => i.2.isTile) := by
  intro t
  induction t with
  | nil => rfl
  | cons hd tl ih =>
    obtain ⟨k, e⟩ := hd
    cases e with
    | tile tt =>
      rw [topoTable, List.filter_cons_of_pos (by rfl), List.filter_cons_of_pos (by rfl), ih]
    | child c =>
      rw [topoTable, List.filter_cons_of_neg (by simp [NodeStruct.isTile]),
        List.filter_cons_of_neg (by simp [NodeStruct.isTile]), ih]

theorem WF_iff_keys (t : MapType V ops.Child) :
    t.WF ↔ (t.map Prod.fst).Pairwise (fun a b => Coord.lt a b = true) := by
  unfold MapType.WF
  rw [List.pairwise_map]

theorem topoTable_WF (iops : IOOps ops) (bg : V) (tail : List (Tok V))
    {t : MapType V ops.Child} (h : t.WF) : (topoTable iops bg t tail).WF := by
  rw [WF_iff_keys, topoTable_keys]
  exact (WF_iff_keys t).1 h

theorem WF_foldl_assign :
    ∀ (l : List (Coord × NodeStruct V ops.Child)) (s : MapType V ops.Child), s.WF →
      (l.foldl MapType.assignEntry s).WF := by
  intro l
  induction l with
  | nil => intro s h; exact h
  | cons hd tl ih =>
    intro s h
    exact ih _ (MapType.WF_assign h hd.1 hd.2)

/-- Inserting first the tiles and then the children of a table with strictly increasing
keys into an empty table rebuilds the table. -/
theorem foldl_assign_tiles_children {t : MapType V ops.Child} (h : t.WF) :
    (t.filter (fun i => i.2.isChild)).foldl MapType.assignEntry
      ((t.filter (fun i => i.2.isTile)).foldl MapType.assignEntry []) = t := by
  apply MapType.ext_of_find
  · apply WF_foldl_assign
    apply WF_foldl_assign
    exact List.Pairwise.nil
  · exact h
  · intro k
    rw [MapType.find_foldl_assign k _ _ (MapType.WF_filter _ h),
      MapType.find_foldl_assign k _ _ (MapType.WF_filter _ h),
      MapType.find_filter _ h, MapType.find_filter _ h]
    cases hf : t.find k with
    | none => rfl
    | some e =>
      cases e with
      | tile tt => simp [NodeStruct.isChild, NodeStruct.isTile]
      | child c => simp [NodeStruct.isChild, NodeStruct.isTile]

theorem readBuffersLoop_spec (iops : IOOps ops) (io : IOLaws ops iops) (bg : V)
    (tail rest : List (Tok V)) :
    ∀ t : MapType V ops.Child, (∀ k c, (k, NodeStruct.child c) ∈ t → ops.origin c = k) →
      readBuffersLoop iops (topoTable iops bg t tail)
        ⟨(t.map (fun i => match i.2 with
            | .child c => iops.writeBuffers c
            | .tile _ => [])).flatten ++ rest, false⟩ = (t, ⟨rest, false⟩) := by
  intro t
  induction t with
  | nil => intro _; rfl
  | cons hd tl ih =>
    intro horig
    obtain ⟨k, e⟩ := hd
    have horig2 : ∀ k c, (k, NodeStruct.child c) ∈ tl → ops.origin c = k :=
      fun k c h => horig k c (List.mem_cons_of_mem _ h)
    cases e with
    | tile tt =>
      simp only [topoTable, readBuffersLoop, List.map_cons, List.flatten_cons,
        List.nil_append, ih horig2]
    | child c =>
      have hk : ops.origin c = k := horig k c (List.mem_cons_self _ _)
      have hbuf := io.readBuffers_write c bg ((tl.map (writeChild iops)).flatten ++ tail)
        ((tl.map (fun i => match i.2 with
            | .child c => iops.writeBuffers c
            | .tile _ => [])).flatten ++ rest)
      rw [hk] at hbuf
      simp only [topoTable, readBuffersLoop, List.map_cons, List.flatten_cons,
        List.append_assoc, hbuf, ih horig2]

/-- Reading what `writeTopology` wrote: the root holds the written background and the
table `topoTable`, the stream is left at the items that followed, and the flag is the one
`writeTopology` returned. -/
theorem readTopology_writeTopology (iops : IOOps ops) (io : IOLaws ops iops)
    (r : RootNode V ops) (hwf : r.mTable.WF) (horig : r.ChildrenAtOrigin)
    (hlen : r.mTable.length < 2 ^ 32) (other : RootNode V ops) (junk : Coord × V × Bool)
    (tail : List (Tok V)) :
    readTopology iops other ⟨(writeTopology iops r).1 ++ tail, false⟩ junk
      = (⟨topoTable iops r.mBackground r.mTable tail, r.mBackground⟩, ⟨tail, false⟩,
          (writeTopology iops r).2) := by
  have hsum := MapType.length_filter_tile_child r.mTable
  have hnt : r.getTileCount = (r.mTable.filter (fun i => i.2.isTile)).length := by
    unfold getTileCount
    exact Nat.mod_eq_of_lt (by omega)
  have hnc : r.getChildCount = (r.mTable.filter (fun i => i.2.isChild)).length := by
    unfold getChildCount
    exact Nat.mod_eq_of_lt (by omega)
  have horig2 : ∀ k c, (k, NodeStruct.child c) ∈ r.mTable → ops.origin c = k :=
    fun k c h => horig k c (MapType.find_of_mem hwf h)
  by_cases hz : r.getTileCount = 0 ∧ r.getChildCount = 0
  · have hnil : r.mTable = [] := by
      apply List.eq_nil_of_length_eq_zero
      omega
    simp only [writeTopology, hz, and_self, if_true, readTopology, List.cons_append,
      List.nil_append, IStream.readValue, IStream.readIndex, Bool.false_eq_true, if_false,
      hnil, topoTable]
  · simp only [writeTopology, hz, if_false, readTopology, List.cons_append,
      List.nil_append, IStream.readValue, IStream.readIndex, Bool.false_eq_true,
      List.append_assoc]
    obtain ⟨ht1, ht2⟩ := readTiles_spec
      ((r.mTable.map (writeChild iops)).flatten ++ tail) r.mTable [] junk.1 junk.2.1 junk.2.2
    rw [← hnt] at ht1 ht2
    generalize hst1 : readTiles r.getTileCount
      (⟨[], ⟨(r.mTable.map writeTile).flatten
        ++ ((r.mTable.map (writeChild iops)).flatten ++ tail), false⟩,
        junk.1, junk.2.1, junk.2.2⟩ : ReadState V ops) = st1 at ht1 ht2
    obtain ⟨tb, is1, vec1, val1, act1⟩ := st1
    simp only at ht1 ht2
    subst ht1 ht2
    obtain ⟨hc1, hc2⟩ := readChildren_spec iops io r.mBackground tail r.mTable
      ((r.mTable.filter (fun i => i.2.isTile)).foldl MapType.assignEntry [])
      vec1 val1 act1 horig2
    rw [← hnc] at hc1 hc2
    rw [hc1, hc2]
    have hT := foldl_assign_tiles_children (topoTable_WF iops r.mBackground tail hwf)
    rw [topoTable_tiles] at hT
    rw [hT]

/-- Reading the buffers that `writeBuffers` wrote into the root that `readTopology` built
gives back the written root. -/
theorem readBuffers_writeBuffers (iops : IOOps ops) (io : IOLaws ops iops)
    (r : RootNode V ops) (hwf : r.mTable.WF) (horig : r.ChildrenAtOrigin)
    (tail rest : List (Tok V)) :
    readBuffers iops ⟨topoTable iops r.mBackground r.mTable tail, r.mBackground⟩
      ⟨writeBuffers iops r ++ rest, false⟩ = (r, ⟨rest, false⟩) := by
  have horig2 : ∀ k c, (k, NodeStruct.child c) ∈ r.mTable → ops.origin c = k :=
    fun k c h => horig k c (MapType.find_of_mem hwf h)
  simp only [readBuffers, writeBuffers,
    readBuffersLoop_spec iops io r.mBackground tail rest r.mTable horig2]

/-- The first loop of `hasSameTopology` of a root against itself erases from the copy the
keys of the entries that are not background tiles. -/
theorem sameTopology_fold_self (vops : ValueOps V) (tops : TopologyOps ops ops)
    (hst : SameTopologyLaw tops) (r : RootNode V ops) (hwf : r.mTable.WF) :
    ∀ (l : MapType V ops.Child) (cp : MapType V ops.Child), (∀ e ∈ l, e ∈ r.mTable) →
      l.foldl (sameTopologyStep vops tops r r) (some cp)
        = some (((l.filter (fun i => !r.isBackgroundTile vops i.2)).map Prod.fst).foldl
            MapType.erase cp) := by
  intro l
  induction l with
  | nil => intro cp _; rfl
  | cons hd tl ih =>
    intro cp hmem
    obtain ⟨k, e⟩ := hd
    have hf : r.mTable.find k = some e :=
      MapType.find_of_mem hwf (hmem (k, e) (List.mem_cons_self _ _))
    have hmem2 : ∀ e ∈ tl, e ∈ r.mTable := fun e he => hmem e (List.mem_cons_of_mem _ he)
    simp only [List.foldl_cons]
    cases hbg : r.isBackgroundTile vops e with
    | true =>
      have hstep : sameTopologyStep vops tops r r (some cp) (k, e) = some cp := by
        simp only [sameTopologyStep, hbg, if_true]
      rw [hstep, ih cp hmem2, List.filter_cons_of_neg (by simp [hbg])]
    | false =>
      have hstep : sameTopologyStep vops tops r r (some cp) (k, e) = some (cp.erase k) := by
        cases e with
        | child c =>
          simp only [sameTopologyStep, hbg, Bool.false_eq_true, if_false, hf, hst c, if_true]
        | tile tt =>
          simp only [sameTopologyStep, hbg, Bool.false_eq_true, if_false, hf, ne_eq,
            not_true_eq_false]
      rw [hstep, ih _ hmem2, List.filter_cons_of_pos (by simp [hbg])]
      rfl

/-- A root with strictly increasing keys has its own topology. -/
theorem hasSameTopology_self (vops : ValueOps V) (tops : TopologyOps ops ops)
    (hst : SameTopologyLaw tops) (r : RootNode V ops) (hwf : r.mTable.WF) :
    hasSameTopology vops vops tops r r = true := by
  have hcfg : hasSameConfiguration ops ops = true := by
    simp only [hasSameConfiguration, decide_True]
  simp only [hasSameTopology, hcfg, Bool.true_eq_false, if_false]
  rw [sameTopology_fold_self vops tops hst r hwf r.mTable r.mTable (fun e he => he),
    MapType.foldl_erase_filter (fun i => !r.isBackgroundTile vops i.2) r.mTable hwf]
  simp only [List.all_filter, List.all_eq_true]
  intro i _
  cases r.isBackgroundTile vops i.2 <;> rfl

/-- C9 (topology stream round trip): for a root `r` (a `std::map` table of fewer than 2^32
entries, every child at the key of its origin) written in the current format with
`toHalf == false`, feeding the items of `writeTopology` followed by those of `writeBuffers`
to `readTopology` and then `readBuffers` on any other root, whatever its background and
contents, yields exactly `r`: the same background and the same table, entry by entry. The
stream is consumed up to the items that followed, `getValue` and `isValueOn` agree with `r`
at every coordinate, and `hasSameTopology` holds in both directions. -/
theorem topology_roundtrip (iops : IOOps ops) (io : IOLaws ops iops) (vops : ValueOps V)
    (tops : TopologyOps ops ops) (hst : SameTopologyLaw tops)
    (r : RootNode V ops) (hwf : r.mTable.WF) (horig : r.ChildrenAtOrigin)
    (hlen : r.mTable.length < 2 ^ 32) (other : RootNode V ops) (junk : Coord × V × Bool)
    (rest : List (Tok V)) :
    ∃ r1 s1 r2,
      readTopology iops other
        ⟨(writeTopology iops r).1 ++ (writeBuffers iops r ++ rest), false⟩ junk
        = (r1, s1, (writeTopology iops r).2) ∧
      readBuffers iops r1 s1 = (r2, ⟨rest, false⟩) ∧
      r2 = r ∧
      (∀ p, r2.getValue p = r.getValue p ∧ r2.isValueOn p = r.isValueOn p) ∧
      hasSameTopology vops vops tops r2 r = true ∧
      hasSameTopology vops vops tops r r2 = true := by
  refine ⟨_, _, r, readTopology_writeTopology iops io r hwf horig hlen other junk _,
    readBuffers_writeBuffers iops io r hwf horig _ rest, rfl, fun p => ⟨rfl, rfl⟩,
    hasSameTopology_self vops tops hst r hwf, hasSameTopology_self vops tops hst r hwf⟩

/-- Instance of C9: `sampleRoot` written and read back into an empty root of background 2. -/
theorem topology_roundtrip_witness :
    ∃ r1 s1 r2,
      readTopology (denseIOOps Int) (RootNode.new (denseOps Int) 2)
        ⟨(writeTopology (denseIOOps Int) sampleRoot).1 ++
          (writeBuffers (denseIOOps Int) sampleRoot ++ []), false⟩ (⟨0, 0, 0⟩, 0, false)
        = (r1, s1, (writeTopology (denseIOOps Int) sampleRoot).2) ∧
      readBuffers (denseIOOps Int) r1 s1 = (r2, ⟨[], false⟩) ∧ r2 = sampleRoot :=
  have h := topology_roundtrip (denseIOOps Int) (denseIOLaws Int) intOps
    (denseTopologyOps Int Int) (denseSameTopologyLaw Int) sampleRoot sampleRoot_WF
    sampleRoot_childrenAtOrigin (by decide) (RootNode.new (denseOps Int) 2)
    (⟨0, 0, 0⟩, 0, false) []
  match h with
  | ⟨r1, s1, r2, h1, h2, h3, _⟩ => ⟨r1, s1, r2, h1, h2, h3⟩

end RootNode

/-! ## Morphology: primitive effects -/

namespace Morphology

variable {V : Type}

theorem offsetIn_lt (N : Nat) (a : Int) : offsetIn N a < 2 ^ N := by
  unfold offsetIn
  have h1 := Int.emod_nonneg a (ne_of_gt (two_pow_pos_int N))
  have h2 := Int.emod_lt_of_pos a (two_pow_pos_int N)
  have h3 : ((2 : Int) ^ N) = ((2 ^ N : Nat) : Int) := by push_cast; rfl
  omega

theorem findLeaf_modifyLeaf (ls : List (Coord × Leaf V)) (o k : Coord) (f : Leaf V → Leaf V) :
    findLeaf (modifyLeaf ls o f) k
      = (findLeaf ls k).map (fun l => if k = o then f l else l) := by
  induction ls with
  | nil => rfl
  | cons hd tl ih =>
    obtain ⟨k1, l1⟩ := hd
    by_cases h2 : k1 = k
    · subst h2
      simp only [modifyLeaf, findLeaf, if_true, Option.map_some']
    · simp only [modifyLeaf, findLeaf, h2, if_false]
      exact ih

theorem findLeaf_append (ls : List (Coord × Leaf V)) (k0 k : Coord) (l0 : Leaf V) :
    findLeaf (ls ++ [(k0, l0)]) k
      = (match findLeaf ls k with
         | some l => some l
         | none => if k0 = k then some l0 else none) := by
  induction ls with
  | nil => rfl
  | cons hd tl ih =>
    obtain ⟨k1, l1⟩ := hd
    by_cases h : k1 = k
    · simp only [List.cons_append, findLeaf, h, if_true]
    · simp only [List.cons_append, findLeaf, h, if_false]
      exact ih

/-- Effect of one word update on the active states: the bits of `w` are added to the row
`idx` of the leaf at `o`, when that leaf exists. -/
theorem isValueOn_orWord (N : Nat) (t : LeafTree V) (o : Coord) (idx : Int) (w : Nat)
    (p : Coord) :
    isValueOn N (orWord N t o idx w) p
      = (isValueOn N t p || ((findLeaf t.leaves (leafKey N p)).isSome &&
          decide (leafKey N p = o) && decide (wordIndex N p = idx.toNat) &&
          w.testBit (offsetIn N p.z))) := by
  have hz : offsetIn N p.z < DIM N := offsetIn_lt N p.z
  unfold isValueOn orWord
  simp only [findLeaf_modifyLeaf]
  cases hf : findLeaf t.leaves (leafKey N p) with
  | none => simp
  | some l =>
    by_cases h1 : leafKey N p = o
    · by_cases h2 : wordIndex N p = idx.toNat
      · simp [h1, h2, Nat.testBit_mod_two_pow, hz]
      · simp [h1, h2]
    · simp [h1]

theorem getValue_orWord (N : Nat) (t : LeafTree V) (o : Coord) (idx : Int) (w : Nat)
    (p : Coord) : getValue N (orWord N t o idx w) p = getValue N t p := by
  unfold getValue orWord
  simp only [findLeaf_modifyLeaf]
  cases hf : findLeaf t.leaves (leafKey N p) with
  | none => rfl
  | some l =>
    by_cases h1 : leafKey N p = o
    · simp [h1]
    · simp [h1]

theorem findLeaf_orWord_isSome (N : Nat) (t : LeafTree V) (o : Coord) (idx : Int) (w : Nat)
    (k : Coord) :
    (findLeaf (orWord N t o idx w).leaves k).isSome = (findLeaf t.leaves k).isSome := by
  unfold orWord
  simp only [findLeaf_modifyLeaf]
  cases findLeaf t.leaves k <;> rfl

theorem isValueOn_touchLeaf (N : Nat) (t : LeafTree V) (xyz p : Coord) :
    isValueOn N (touchLeaf N t xyz).1 p = isValueOn N t p := by
  have hz : offsetIn N p.z < DIM N := offsetIn_lt N p.z
  unfold touchLeaf
  cases hf : findLeaf t.leaves (leafKey N xyz) with
  | some l => rfl
  | none =>
    simp only [isValueOn, findLeaf_append]
    cases hp : findLeaf t.leaves (leafKey N p) with
    | some l => rfl
    | none =>
      by_cases hk : leafKey N xyz = leafKey N p
      · simp only [hk, if_true]
        cases hc : (t.tile (leafKey N p)).2 with
        | true => simp [hz]
        | false => simp
      · simp only [hk, if_false]

theorem getValue_touchLeaf (N : Nat) (t : LeafTree V) (xyz p : Coord) :
    getValue N (touchLeaf N t xyz).1 p = getValue N t p := by
  unfold touchLeaf
  cases hf : findLeaf t.leaves (leafKey N xyz) with
  | some l => rfl
  | none =>
    simp only [getValue, findLeaf_append]
    cases hp : findLeaf t.leaves (leafKey N p) with
    | some l => rfl
    | none =>
      by_cases hk : leafKey N xyz = leafKey N p
      · simp only [hk, if_true]
      · simp only [hk, if_false]

/-! ## Dilation keeps values and active voxels -/

theorem Preserves.refl (N : Nat) (t : LeafTree V) : Preserves N t t :=
  ⟨fun _ => rfl, fun _ h => h⟩

theorem Preserves.trans {N : Nat} {t t1 t2 : LeafTree V} (h1 : Preserves N t t1)
    (h2 : Preserves N t1 t2) : Preserves N t t2 :=
  ⟨fun p => (h2.1 p).trans (h1.1 p), fun p h => h2.2 p (h1.2 p h)⟩

theorem preserves_orWord (N : Nat) (t : LeafTree V) (o : Coord) (idx : Int) (w : Nat) :
    Preserves N t (orWord N t o idx w) := by
  refine ⟨fun p => getValue_orWord N t o idx w p, fun p h => ?_⟩
  rw [isValueOn_orWord, h, Bool.true_or]

theorem preserves_touchLeaf (N : Nat) (t : LeafTree V) (xyz : Coord) :
    Preserves N t (touchLeaf N t xyz).1 :=
  ⟨fun p => getValue_touchLeaf N t xyz p, fun p h => by rw [isValueOn_touchLeaf]; exact h⟩

theorem preserves_scatter (N : Nat) (dx dy dz : Int) (t : LeafTree V) (nb : Neighbor)
    (xyz : Coord) (indx : Int) (w : Nat) :
    Preserves N t (scatter N dx dy dz t nb xyz indx w).1 := by
  unfold scatter
  cases hi : nb.init with
  | false =>
    simp only [Bool.false_eq_true, if_false]
    cases nb.leaf with
    | none => exact Preserves.refl N t
    | some l => exact preserves_orWord N t l _ w
  | true =>
    simp only [if_true]
    cases hp : probeLeaf N t (xyz.offsetBy (dx * DIM N) (dy * DIM N) (dz * DIM N)) with
    | some l => exact preserves_orWord N t l _ w
    | none =>
      cases hv : isValueOn N t (xyz.offsetBy (dx * DIM N) (dy * DIM N) (dz * DIM N)) with
      | false =>
        simp only [if_true]
        exact (preserves_touchLeaf N t _).trans (preserves_orWord N _ _ _ w)
      | true =>
        simp only [Bool.true_eq_false, if_false]
        exact Preserves.refl N t

theorem preserves_scatterAt (N : Nat) (i : Nat) (dx dy dz : Int) (s : MState V)
    (origin : Coord) (indx : Int) (w : Nat) :
    Preserves N s.tree (scatterAt N i dx dy dz s origin indx w).tree :=
  preserves_scatter N dx dy dz s.tree (s.NN i) origin indx w

theorem preserves_ite (N : Nat) (c : Prop) [Decidable c] (u a b : LeafTree V)
    (ha : Preserves N u a) (hb : Preserves N u b) : Preserves N u (if c then a else b) := by
  split
  · exact ha
  · exact hb

theorem preserves_dilateNegX (N : Nat) (origin : Coord) (n : Int) (w x : Nat) (s : MState V) :
    Preserves N s.tree (dilateNegX N origin n w x s).tree := by
  unfold dilateNegX
  split
  · exact preserves_orWord N _ _ _ _
  · exact preserves_scatterAt N _ _ _ _ _ _ _ _

theorem preserves_dilatePosX (N : Nat) (origin : Coord) (n : Int) (w x : Nat) (s : MState V) :
    Preserves N s.tree (dilatePosX N origin n w x s).tree := by
  unfold dilatePosX
  split
  · exact preserves_orWord N _ _ _ _
  · exact preserves_scatterAt N _ _ _ _ _ _ _ _

theorem preserves_dilateNegY (N : Nat) (origin : Coord) (n : Int) (w y : Nat) (s : MState V) :
    Preserves N s.tree (dilateNegY N origin n w y s).tree := by
  unfold dilateNegY
  split
  · exact preserves_orWord N _ _ _ _
  · exact preserves_scatterAt N _ _ _ _ _ _ _ _

theorem preserves_dilatePosY (N : Nat) (origin : Coord) (n : Int) (w y : Nat) (s : MState V) :
    Preserves N s.tree (dilatePosY N origin n w y s).tree := by
  unfold dilatePosY
  split
  · exact preserves_orWord N _ _ _ _
  · exact preserves_scatterAt N _ _ _ _ _ _ _ _

theorem preserves_dilateZ (N : Nat) (origin : Coord) (n : Int) (w : Nat) (s : MState V) :
    Preserves N s.tree (dilateZ N origin n w s).tree :=
  preserves_orWord N _ _ _ _

theorem preserves_dilateNegZ (N : Nat) (origin : Coord) (n : Int) (w : Nat) (s : MState V) :
    Preserves N s.tree (dilateNegZ N origin n w s).tree := by
  unfold dilateNegZ
  simp only
  split
  · exact preserves_scatterAt N _ _ _ _ _ _ _ _
  · exact Preserves.refl N _

theorem preserves_dilatePosZ (N : Nat) (origin : Coord) (n : Int) (w : Nat) (s : MState V) :
    Preserves N s.tree (dilatePosZ N origin n w s).tree := by
  unfold dilatePosZ
  simp only
  split
  · exact preserves_scatterAt N _ _ _ _ _ _ _ _
  · exact Preserves.refl N _

theorem preserves_dilateRow (N : Nat) (origin : Coord) (oldMask : Nat → Nat) (s : MState V)
    (x y : Nat) : Preserves N s.tree (dilateRow N origin oldMask s x y).tree := by
  unfold dilateRow
  simp only
  split
  · exact Preserves.refl N _
  · exact (preserves_dilateNegX N _ _ _ _ _).trans
      ((preserves_dilatePosX N _ _ _ _ _).trans
        ((preserves_dilateNegY N _ _ _ _ _).trans
          ((preserves_dilatePosY N _ _ _ _ _).trans
            ((preserves_dilateZ N _ _ _ _).trans
              ((preserves_dilateNegZ N _ _ _ _).trans
                (preserves_dilatePosZ N _ _ _ _))))))

theorem preserves_foldl {ι : Type} (N : Nat) (step : MState V → ι → MState V)
    (h : ∀ s i, Preserves N s.tree (step s i).tree) :
    ∀ (l : List ι) (s : MState V), Preserves N s.tree (l.foldl step s).tree := by
  intro l
  induction l with
  | nil => intro s; exact Preserves.refl N _
  | cons hd tl ih =>
    intro s
    exact (h s hd).trans (ih (step s hd))

theorem preserves_dilateLeaf (N : Nat) (s : MState V) (leaf : Coord × (Nat → Nat)) :
    Preserves N s.tree (dilateLeaf N s leaf).tree := by
  unfold dilateLeaf
  simp only
  apply preserves_foldl N
  intro s1 x
  apply preserves_foldl N
  intro s2 y
  exact preserves_dilateRow N leaf.1 leaf.2 s2 x y

theorem preserves_dilateVoxels (N : Nat) (t : LeafTree V) :
    Preserves N t (dilateVoxels N t) := by
  unfold dilateVoxels
  exact preserves_foldl N (dilateLeaf N) (preserves_dilateLeaf N) _ _

/-- C7 (dilation is monotone and value-preserving): for every tree and every coordinate `p`,
after `dilateVoxels(tree, 1)` the value read at `p` is the same as before, and if `p` was
active before it is still active afterwards; this includes the voxels of neighbour leaves
that the pass creates or writes. -/
theorem dilateVoxels_monotone (N : Nat) (t : LeafTree V) (p : Coord) :
    getValue N (dilateVoxelsCount N t 1) p = getValue N t p ∧
    (isValueOn N t p = true → isValueOn N (dilateVoxelsCount N t 1) p = true) :=
  ⟨(preserves_dilateVoxels N t).1 p, (preserves_dilateVoxels N t).2 p⟩

/-- Instance of C7: the active voxel (0,0,0) of `singleVoxel` keeps its value and stays
active. -/
theorem dilateVoxels_monotone_witness :
    getValue 3 (dilateVoxelsCount 3 singleVoxel 1) ⟨0, 0, 0⟩ = getValue 3 singleVoxel ⟨0, 0, 0⟩ ∧
    isValueOn 3 (dilateVoxelsCount 3 singleVoxel 1) ⟨0, 0, 0⟩ = true :=
  ⟨(dilateVoxels_monotone 3 singleVoxel ⟨0, 0, 0⟩).1,
   (dilateVoxels_monotone 3 singleVoxel ⟨0, 0, 0⟩).2 (by decide)⟩

/-! ## Voxels, words and bits -/

theorem DIM_cast (N : Nat) : ((DIM N : Nat) : Int) = (2 : Int) ^ N := by
  unfold DIM
  push_cast
  rfl

theorem DIM_pos (N : Nat) : 0 < DIM N := by
  unfold DIM
  positivity

theorem coord_split (N : Nat) (a : Int) : a = alignDown a N + (offsetIn N a : Int) := by
  unfold alignDown offsetIn
  have h1 := Int.emod_nonneg a (ne_of_gt (two_pow_pos_int N))
  rw [Int.toNat_of_nonneg h1]
  ring

theorem alignDown_add_mul {k : Int} {N : Nat} (h : alignDown k N = k) (j : Int) :
    alignDown (k + j * (2 : Int) ^ N) N = k + j * (2 : Int) ^ N := by
  apply alignDown_eq_of_bounds _ le_rfl (by have := two_pow_pos_int N; omega)
  rw [Int.add_mul_emod_self]
  exact emod_of_alignDown_eq h

theorem alignDown_add_offset {k : Int} {N : Nat} (h : alignDown k N = k) {a : Nat}
    (ha : a < DIM N) : alignDown (k + a) N = k ∧ offsetIn N (k + a) = a := by
  have hc := DIM_cast N
  have h1 : alignDown (k + a) N = k :=
    alignDown_eq_of_bounds (emod_of_alignDown_eq h) (by omega) (by omega)
  refine ⟨h1, ?_⟩
  have h2 := coord_split N (k + a)
  rw [h1] at h2
  omega

theorem digits_unique {D a b c d : Nat} (hb : b < D) (hd : d < D)
    (h : a * D + b = c * D + d) : a = c ∧ b = d := by
  have hD : 0 < D := by omega
  have h1 : (a * D + b) % D = (c * D + d) % D := by rw [h]
  have h2 : (a * D + b) / D = (c * D + d) / D := by rw [h]
  rw [Nat.mul_comm a D, Nat.mul_comm c D, Nat.mul_add_mod, Nat.mul_add_mod,
    Nat.mod_eq_of_lt hb, Nat.mod_eq_of_lt hd] at h1
  rw [Nat.mul_comm a D, Nat.mul_comm c D, Nat.mul_add_div hD, Nat.mul_add_div hD,
    Nat.div_eq_of_lt hb, Nat.div_eq_of_lt hd] at h2
  omega

/-- A voxel is addressed by its leaf origin, the index of its row word and its bit. -/
theorem voxel_iff (N : Nat) {K : Coord} (hK : leafKey N K = K) {a b c : Nat}
    (ha : a < DIM N) (hb : b < DIM N) (hc : c < DIM N) (p : Coord) :
    (leafKey N p = K ∧ wordIndex N p = a * DIM N + b ∧ offsetIn N p.z = c) ↔
      p = ⟨K.x + a, K.y + b, K.z + c⟩ := by
  obtain ⟨kx, ky, kz⟩ := K
  simp only [leafKey, Coord.mk.injEq] at hK
  obtain ⟨hx, hy, hz⟩ := hK
  constructor
  · rintro ⟨h1, h2, h3⟩
    obtain ⟨px, py, pz⟩ := p
    simp only [leafKey, Coord.mk.injEq] at h1
    simp only [wordIndex] at h2
    simp only at h3
    obtain ⟨e1, e2⟩ := digits_unique (offsetIn_lt N py) hb h2
    have s1 := coord_split N px
    have s2 := coord_split N py
    have s3 := coord_split N pz
    simp only [Coord.mk.injEq]
    rw [h1.1, e1] at s1
    rw [h1.2.1, e2] at s2
    rw [h1.2.2, h3] at s3
    exact ⟨s1, s2, s3⟩
  · rintro rfl
    obtain ⟨x1, x2⟩ := alignDown_add_offset hx ha
    obtain ⟨y1, y2⟩ := alignDown_add_offset hy hb
    obtain ⟨z1, z2⟩ := alignDown_add_offset hz hc
    simp only [leafKey, wordIndex, x1, x2, y1, y2, z1, z2, and_self]

/-! ## Exact effect of the dilation blocks -/

theorem hasLeaf_orWord (N : Nat) (t : LeafTree V) (o : Coord) (idx : Int) (w : Nat)
    (k : Coord) : hasLeaf (orWord N t o idx w) k = hasLeaf t k :=
  findLeaf_orWord_isSome N t o idx w k

theorem hasLeaf_touchLeaf (N : Nat) (t : LeafTree V) (xyz k : Coord) :
    hasLeaf (touchLeaf N t xyz).1 k = (hasLeaf t k || decide (leafKey N xyz = k)) := by
  unfold touchLeaf hasLeaf
  cases hf : findLeaf t.leaves (leafKey N xyz) with
  | some l =>
    by_cases hk : leafKey N xyz = k
    · subst hk
      simp [hf]
    · simp [hk]
  | none =>
    simp only [findLeaf_append]
    cases hk : findLeaf t.leaves k with
    | some l => simp
    | none =>
      by_cases hkk : leafKey N xyz = k
      · simp [hkk]
      · simp [hkk]

theorem nbKey_aligned (N : Nat) {o : Coord} (ho : leafKey N o = o) (i : Nat) :
    leafKey N (nbKey N o i) = nbKey N o i := by
  obtain ⟨ox, oy, oz⟩ := o
  simp only [leafKey, Coord.mk.injEq] at ho
  obtain ⟨hx, hy, hz⟩ := ho
  simp only [nbKey, Coord.offsetBy, leafKey, Coord.mk.injEq, DIM_cast]
  exact ⟨alignDown_add_mul hx _, alignDown_add_mul hy _, alignDown_add_mul hz _⟩

/-- Effect of a word update on a leaf that exists. -/
theorem isValueOn_orWord_of_hasLeaf (N : Nat) (t : LeafTree V) (o : Coord) (idx : Int)
    (w : Nat) (h : hasLeaf t o = true) (p : Coord) :
    isValueOn N (orWord N t o idx w) p
      = (isValueOn N t p || (decide (leafKey N p = o) &&
          decide (wordIndex N p = idx.toNat) && w.testBit (offsetIn N p.z))) := by
  rw [isValueOn_orWord]
  by_cases hk : leafKey N p = o
  · have : (findLeaf t.leaves (leafKey N p)).isSome = true := by rw [hk]; exact h
    simp [this]
  · simp [hk]

/-- Effect of `NN[i].scatter` while the leaf at `o` is processed, in a tree without active
tiles: the neighbour leaf exists afterwards and the bits of `w` are added to one of its
rows. -/
theorem scatterAt_effect (N : Nat) (t0 : LeafTree V) (hno : ∀ k, hasLeaf t0 k = false → (t0.tile k).2 = false)
    (o : Coord) (ho : leafKey N o = o) (i : Nat) (dx dy dz : Int)
    (hd : nbDir i = ⟨dx, dy, dz⟩) (s : MState V) (hinv : RowInv N t0 o s) (indx : Int)
    (w : Nat) :
    RowInv N t0 o (scatterAt N i dx dy dz s o indx w) ∧
    ∀ p, isValueOn N (scatterAt N i dx dy dz s o indx w).tree p
      = (isValueOn N s.tree p || (decide (leafKey N p = nbKey N o i) &&
          decide (wordIndex N p = (indx - ((DIM N : Int) - 1) * (dy + dx * DIM N)).toNat) &&
          w.testBit (offsetIn N p.z))) := by
  have hK : o.offsetBy (dx * DIM N) (dy * DIM N) (dz * DIM N) = nbKey N o i := by
    simp only [nbKey, hd]
  have hKa := nbKey_aligned N ho i
  -- the tree and neighbour entry after the initialisation part of `scatter`
  have key : ∃ t1 : LeafTree V, ∃ nb1 : Neighbor,
      scatter N dx dy dz s.tree (s.NN i) o indx w
        = (orWord N t1 (nbKey N o i)
            (indx - ((DIM N : Int) - 1) * (dy + dx * DIM N)) w, nb1) ∧
      nb1.init = false ∧ nb1.leaf = some (nbKey N o i) ∧
      hasLeaf t1 (nbKey N o i) = true ∧ t1.tile = s.tree.tile ∧
      (∀ k, hasLeaf s.tree k = true → hasLeaf t1 k = true) ∧
      (∀ p, isValueOn N t1 p = isValueOn N s.tree p) := by
    cases hi : (s.NN i).init with
    | false =>
      obtain ⟨hl, hh⟩ := hinv.cache i hi
      refine ⟨s.tree, s.NN i, ?_, hi, hl, hh, rfl, fun _ h => h, fun _ => rfl⟩
      simp only [scatter, hi, Bool.false_eq_true, if_false, hl]
    | true =>
      cases hf : findLeaf s.tree.leaves (nbKey N o i) with
      | some l =>
        refine ⟨s.tree, ⟨some (nbKey N o i), false, (s.NN i).isOn⟩, ?_, rfl, rfl, ?_, rfl,
          fun _ h => h, fun _ => rfl⟩
        · simp only [scatter, hi, if_true, hK, probeLeaf, hKa, hf]
        · simp only [hasLeaf, hf, Option.isSome_some]
      | none =>
        have hnl : hasLeaf t0 (nbKey N o i) = false := by
          cases h : hasLeaf t0 (nbKey N o i) with
          | false => rfl
          | true =>
            have := hinv.leaves _ h
            simp only [hasLeaf, hf, Option.isSome_none] at this
            exact Bool.noConfusion this
        have hoff : isValueOn N s.tree (nbKey N o i) = false := by
          simp only [isValueOn, hKa, hf, hinv.tile, hno _ hnl]
        refine ⟨(touchLeaf N s.tree (nbKey N o i)).1,
          ⟨some (nbKey N o i), false, (s.NN i).isOn⟩, ?_, rfl, rfl, ?_, ?_, ?_, ?_⟩
        · have htl : (touchLeaf N s.tree (nbKey N o i)).2 = nbKey N o i := by
            simp only [touchLeaf, hKa, hf]
          simp only [scatter, hi, if_true, hK, probeLeaf, hKa, hf, hoff, htl]
        · rw [hasLeaf_touchLeaf, hKa]
          simp
        · simp only [touchLeaf, hKa, hf]
        · intro k hk
          rw [hasLeaf_touchLeaf, hk, Bool.true_or]
        · intro p
          exact isValueOn_touchLeaf N s.tree _ p
  obtain ⟨t1, nb1, hsc, hinit, hleaf, hhas, htile, hmono, hact⟩ := key
  constructor
  · refine ⟨?_, ?_, ?_⟩
    · simp only [scatterAt, hsc, orWord]
      rw [htile, hinv.tile]
    · intro k hk
      simp only [scatterAt, hsc]
      rw [hasLeaf_orWord]
      exact hmono k (hinv.leaves k hk)
    · intro j hj
      simp only [scatterAt, hsc] at hj ⊢
      by_cases hji : j = i
      · subst hji
        simp only [if_true] at hj ⊢
        rw [hasLeaf_orWord]
        exact ⟨hleaf, hhas⟩
      · simp only [hji, if_false] at hj ⊢
        obtain ⟨h1, h2⟩ := hinv.cache j hj
        rw [hasLeaf_orWord]
        exact ⟨h1, hmono _ h2⟩
  · intro p
    simp only [scatterAt, hsc]
    rw [isValueOn_orWord_of_hasLeaf N t1 _ _ w hhas p, hact]

/-- The voxels addressed by the set bits of a word ORed into row `a * DIM + b` of the leaf
at `K`. -/
theorem word_contrib (N : Nat) {K : Coord} (hK : leafKey N K = K) {a b : Nat}
    (ha : a < DIM N) (hb : b < DIM N) (w : Nat) (p : Coord) :
    (decide (leafKey N p = K) && decide (wordIndex N p = a * DIM N + b) &&
        w.testBit (offsetIn N p.z)) = true ↔
      ∃ c, c < DIM N ∧ w.testBit c = true ∧ p = ⟨K.x + a, K.y + b, K.z + c⟩ := by
  simp only [Bool.and_eq_true, decide_eq_true_eq]
  constructor
  · rintro ⟨⟨h1, h2⟩, h3⟩
    exact ⟨offsetIn N p.z, offsetIn_lt N p.z, h3,
      (voxel_iff N hK ha hb (offsetIn_lt N p.z) p).mp ⟨h1, h2, rfl⟩⟩
  · rintro ⟨c, hc, hw, hp⟩
    obtain ⟨h1, h2, h3⟩ := (voxel_iff N hK ha hb hc p).mpr hp
    exact ⟨⟨h1, h2⟩, by rw [h3]; exact hw⟩

/-- Effect of ORing a word into a row of the leaf being processed. -/
theorem orWord_at (N : Nat) (t0 : LeafTree V) (o : Coord) (ho : leafKey N o = o)
    (hleaf : hasLeaf t0 o = true) (s : MState V) (hinv : RowInv N t0 o s) (idx : Int)
    (w : Nat) (a b : Nat) (ha : a < DIM N) (hb : b < DIM N)
    (hidx : idx = ((a * DIM N + b : Nat) : Int)) (X Y : Int) (hX : X = o.x + a)
    (hY : Y = o.y + b) :
    RowInv N t0 o ⟨orWord N s.tree o idx w, s.NN⟩ ∧
    ∀ p, isValueOn N (orWord N s.tree o idx w) p = true ↔
      (isValueOn N s.tree p = true ∨
        ∃ c, c < DIM N ∧ w.testBit c = true ∧ p = ⟨X, Y, o.z + c⟩) := by
  subst hX hY
  constructor
  · refine ⟨hinv.tile, ?_, ?_⟩
    · intro k hk
      show hasLeaf (orWord N s.tree o idx w) k = true
      rw [hasLeaf_orWord]
      exact hinv.leaves k hk
    · intro j hj
      obtain ⟨h1, h2⟩ := hinv.cache j hj
      refine ⟨h1, ?_⟩
      show hasLeaf (orWord N s.tree o idx w) _ = true
      rw [hasLeaf_orWord]
      exact h2
  · intro p
    rw [isValueOn_orWord_of_hasLeaf N s.tree o idx w (hinv.leaves o hleaf) p, Bool.or_eq_true,
      hidx, Int.toNat_ofNat, word_contrib N ho ha hb w p]

/-- Effect of `NN[i].scatter` in terms of voxels. -/
theorem scatter_at (N : Nat) (t0 : LeafTree V) (hno : ∀ k, hasLeaf t0 k = false → (t0.tile k).2 = false)
    (o : Coord) (ho : leafKey N o = o) (i : Nat) (dx dy dz : Int)
    (hd : nbDir i = ⟨dx, dy, dz⟩) (s : MState V) (hinv : RowInv N t0 o s) (indx : Int)
    (w : Nat) (a b : Nat) (ha : a < DIM N) (hb : b < DIM N)
    (hidx : indx - ((DIM N : Int) - 1) * (dy + dx * DIM N) = ((a * DIM N + b : Nat) : Int))
    (X Y Z : Int) (hX : X = o.x + dx * DIM N + a) (hY : Y = o.y + dy * DIM N + b)
    (hZ : Z = o.z + dz * DIM N) :
    RowInv N t0 o (scatterAt N i dx dy dz s o indx w) ∧
    ∀ p, isValueOn N (scatterAt N i dx dy dz s o indx w).tree p = true ↔
      (isValueOn N s.tree p = true ∨
        ∃ c, c < DIM N ∧ w.testBit c = true ∧ p = ⟨X, Y, Z + c⟩) := by
  subst hX hY hZ
  obtain ⟨h1, h2⟩ := scatterAt_effect N t0 hno o ho i dx dy dz hd s hinv indx w
  refine ⟨h1, fun p => ?_⟩
  rw [h2 p, Bool.or_eq_true, hidx, Int.toNat_ofNat, word_contrib N (nbKey_aligned N ho i) ha hb w p]
  simp only [nbKey, hd, Coord.offsetBy]

theorem DIM_succ (N : Nat) : ∃ D, DIM N = D + 1 :=
  Nat.exists_eq_succ_of_ne_zero (Nat.pos_iff_ne_zero.mp (DIM_pos N))

theorem dilateNegX_effect (N : Nat) (t0 : LeafTree V) (hno : ∀ k, hasLeaf t0 k = false → (t0.tile k).2 = false)
    (o : Coord) (ho : leafKey N o = o) (hleaf : hasLeaf t0 o = true) (s : MState V)
    (hinv : RowInv N t0 o s) (x y : Nat) (hx : x < DIM N) (hy : y < DIM N) (w : Nat) :
    RowInv N t0 o (dilateNegX N o ((x : Int) * DIM N + y) w x s) ∧
    ∀ p, isValueOn N (dilateNegX N o ((x : Int) * DIM N + y) w x s).tree p = true ↔
      (isValueOn N s.tree p = true ∨
        ∃ c, c < DIM N ∧ w.testBit c = true ∧ p = ⟨o.x + x - 1, o.y + y, o.z + c⟩) := by
  unfold dilateNegX
  by_cases hx0 : 0 < x
  · simp only [hx0, if_true]
    obtain ⟨x1, rfl⟩ := Nat.exists_eq_succ_of_ne_zero (Nat.pos_iff_ne_zero.mp hx0)
    exact orWord_at N t0 o ho hleaf s hinv _ w x1 y (by omega) hy (by push_cast; ring) _ _
      (by push_cast; ring) rfl
  · simp only [hx0, if_false]
    have hx1 : x = 0 := by omega
    subst hx1
    obtain ⟨D, hD⟩ := DIM_succ N
    exact scatter_at N t0 hno o ho 0 (-1) 0 0 rfl s hinv _ w D y (by omega) hy
      (by rw [hD]; push_cast; ring) _ _ _ (by rw [hD]; push_cast; ring) (by ring) (by ring)

theorem dilatePosX_effect (N : Nat) (t0 : LeafTree V) (hno : ∀ k, hasLeaf t0 k = false → (t0.tile k).2 = false)
    (o : Coord) (ho : leafKey N o = o) (hleaf : hasLeaf t0 o = true) (s : MState V)
    (hinv : RowInv N t0 o s) (x y : Nat) (hx : x < DIM N) (hy : y < DIM N) (w : Nat) :
    RowInv N t0 o (dilatePosX N o ((x : Int) * DIM N + y) w x s) ∧
    ∀ p, isValueOn N (dilatePosX N o ((x : Int) * DIM N + y) w x s).tree p = true ↔
      (isValueOn N s.tree p = true ∨
        ∃ c, c < DIM N ∧ w.testBit c = true ∧ p = ⟨o.x + x + 1, o.y + y, o.z + c⟩) := by
  unfold dilatePosX
  by_cases hx0 : x < DIM N - 1
  · simp only [hx0, if_true]
    exact orWord_at N t0 o ho hleaf s hinv _ w (x + 1) y (by omega) hy (by push_cast; ring) _ _
      (by push_cast; ring) rfl
  · simp only [hx0, if_false]
    obtain ⟨D, hD⟩ := DIM_succ N
    have hx1 : x = D := by omega
    subst hx1
    exact scatter_at N t0 hno o ho 1 1 0 0 rfl s hinv _ w 0 y (DIM_pos N) hy
      (by rw [hD]; push_cast; ring) _ _ _ (by rw [hD]; push_cast; ring) (by ring) (by ring)

theorem dilateNegY_effect (N : Nat) (t0 : LeafTree V) (hno : ∀ k, hasLeaf t0 k = false → (t0.tile k).2 = false)
    (o : Coord) (ho : leafKey N o = o) (hleaf : hasLeaf t0 o = true) (s : MState V)
    (hinv : RowInv N t0 o s) (x y : Nat) (hx : x < DIM N) (hy : y < DIM N) (w : Nat) :
    RowInv N t0 o (dilateNegY N o ((x : Int) * DIM N + y) w y s) ∧
    ∀ p, isValueOn N (dilateNegY N o ((x : Int) * DIM N + y) w y s).tree p = true ↔
      (isValueOn N s.tree p = true ∨
        ∃ c, c < DIM N ∧ w.testBit c = true ∧ p = ⟨o.x + x, o.y + y - 1, o.z + c⟩) := by
  unfold dilateNegY
  by_cases hy0 : 0 < y
  · simp only [hy0, if_true]
    obtain ⟨y1, rfl⟩ := Nat.exists_eq_succ_of_ne_zero (Nat.pos_iff_ne_zero.mp hy0)
    exact orWord_at N t0 o ho hleaf s hinv _ w x y1 hx (by omega) (by push_cast; ring) _ _
      rfl (by push_cast; ring)
  · simp only [hy0, if_false]
    have hy1 : y = 0 := by omega
    subst hy1
    obtain ⟨D, hD⟩ := DIM_succ N
    exact scatter_at N t0 hno o ho 2 0 (-1) 0 rfl s hinv _ w x D hx (by omega)
      (by rw [hD]; push_cast; ring) _ _ _ (by ring) (by rw [hD]; push_cast; ring) (by ring)

theorem dilatePosY_effect (N : Nat) (t0 : LeafTree V) (hno : ∀ k, hasLeaf t0 k = false → (t0.tile k).2 = false)
    (o : Coord) (ho : leafKey N o = o) (hleaf : hasLeaf t0 o = true) (s : MState V)
    (hinv : RowInv N t0 o s) (x y : Nat) (hx : x < DIM N) (hy : y < DIM N) (w : Nat) :
    RowInv N t0 o (dilatePosY N o ((x : Int) * DIM N + y) w y s) ∧
    ∀ p, isValueOn N (dilatePosY N o ((x : Int) * DIM N + y) w y s).tree p = true ↔
      (isValueOn N s.tree p = true ∨
        ∃ c, c < DIM N ∧ w.testBit c = true ∧ p = ⟨o.x + x, o.y + y + 1, o.z + c⟩) := by
  unfold dilatePosY
  by_cases hy0 : y < DIM N - 1
  · simp only [hy0, if_true]
    exact orWord_at N t0 o ho hleaf s hinv _ w x (y + 1) hx (by omega) (by push_cast; ring) _ _
      rfl (by push_cast; ring)
  · simp only [hy0, if_false]
    obtain ⟨D, hD⟩ := DIM_succ N
    have hy1 : y = D := by omega
    subst hy1
    exact scatter_at N t0 hno o ho 3 0 1 0 rfl s hinv _ w x 0 hx (DIM_pos N)
      (by rw [hD]; push_cast; ring) _ _ _ (by ring) (by rw [hD]; push_cast; ring) (by ring)

theorem dilateZ_effect (N : Nat) (t0 : LeafTree V)
    (o : Coord) (ho : leafKey N o = o) (hleaf : hasLeaf t0 o = true) (s : MState V)
    (hinv : RowInv N t0 o s) (x y : Nat) (hx : x < DIM N) (hy : y < DIM N) (w : Nat) :
    RowInv N t0 o (dilateZ N o ((x : Int) * DIM N + y) w s) ∧
    ∀ p, isValueOn N (dilateZ N o ((x : Int) * DIM N + y) w s).tree p = true ↔
      (isValueOn N s.tree p = true ∨
        ∃ c, c < DIM N ∧ ((w >>> 1) ||| (w <<< 1)).testBit c = true ∧
          p = ⟨o.x + x, o.y + y, o.z + c⟩) := by
  unfold dilateZ
  exact orWord_at N t0 o ho hleaf s hinv _ _ x y hx hy (by push_cast; ring) _ _ rfl rfl

/-- Bits of `Word(oldWord << (LEAF_DIM - 1))`: only the top bit, copied from bit 0. -/
theorem negZ_bit (D w c : Nat) (hD : 0 < D) :
    ((w <<< (D - 1)) % 2 ^ D).testBit c = true ↔ c = D - 1 ∧ w.testBit 0 = true := by
  rw [Nat.testBit_mod_two_pow, Nat.testBit_shiftLeft]
  simp only [Bool.and_eq_true, decide_eq_true_eq]
  constructor
  · rintro ⟨h1, h2, h3⟩
    have hc : c = D - 1 := by omega
    subst hc
    rw [Nat.sub_self] at h3
    exact ⟨rfl, h3⟩
  · rintro ⟨rfl, h⟩
    refine ⟨by omega, le_refl _, ?_⟩
    rw [Nat.sub_self]
    exact h

/-- Bits of `oldWord >> (LEAF_DIM - 1)` for a word of `LEAF_DIM` bits: only bit 0, copied
from the top bit. -/
theorem posZ_bit (D w c : Nat) (hD : 0 < D) (hw : w < 2 ^ D) :
    (w >>> (D - 1)).testBit c = true ↔ c = 0 ∧ w.testBit (D - 1) = true := by
  rw [Nat.testBit_shiftRight]
  constructor
  · intro h
    by_cases hc : c = 0
    · subst hc
      exact ⟨rfl, h⟩
    · exfalso
      have hle : 2 ^ D ≤ 2 ^ (D - 1 + c) := Nat.pow_le_pow_right (by omega) (by omega)
      have := Nat.testBit_lt_two_pow (lt_of_lt_of_le hw hle)
      rw [this] at h
      exact Bool.noConfusion h
  · rintro ⟨rfl, h⟩
    exact h

theorem dilateNegZ_effect (N : Nat) (t0 : LeafTree V) (hno : ∀ k, hasLeaf t0 k = false → (t0.tile k).2 = false)
    (o : Coord) (ho : leafKey N o = o) (s : MState V)
    (hinv : RowInv N t0 o s) (x y : Nat) (hx : x < DIM N) (hy : y < DIM N) (w : Nat) :
    RowInv N t0 o (dilateNegZ N o ((x : Int) * DIM N + y) w s) ∧
    ∀ p, isValueOn N (dilateNegZ N o ((x : Int) * DIM N + y) w s).tree p = true ↔
      (isValueOn N s.tree p = true ∨
        (w.testBit 0 = true ∧ p = ⟨o.x + x, o.y + y, o.z - 1⟩)) := by
  unfold dilateNegZ
  obtain ⟨D, hD⟩ := DIM_succ N
  by_cases hw0 : (w <<< (DIM N - 1)) % 2 ^ DIM N ≠ 0
  · rw [if_pos hw0]
    obtain ⟨h1, h2⟩ := scatter_at N t0 hno o ho 4 0 0 (-1) rfl s hinv ((x : Int) * DIM N + y)
      ((w <<< (DIM N - 1)) % 2 ^ DIM N) x y hx hy (by push_cast; ring) (o.x + x) (o.y + y)
      (o.z - DIM N) (by ring) (by ring) (by ring)
    refine ⟨h1, fun p => ?_⟩
    rw [h2 p]
    apply or_congr Iff.rfl
    constructor
    · rintro ⟨c, hc, hb, hp⟩
      obtain ⟨hc1, hb0⟩ := (negZ_bit (DIM N) w c (DIM_pos N)).mp hb
      refine ⟨hb0, ?_⟩
      rw [hp, Coord.mk.injEq]
      refine ⟨rfl, rfl, ?_⟩
      omega
    · rintro ⟨hb0, hp⟩
      refine ⟨DIM N - 1, by omega, (negZ_bit (DIM N) w _ (DIM_pos N)).mpr ⟨rfl, hb0⟩, ?_⟩
      rw [hp, Coord.mk.injEq]
      refine ⟨rfl, rfl, ?_⟩
      omega
  · rw [if_neg hw0]
    refine ⟨hinv, fun p => ?_⟩
    constructor
    · exact Or.inl
    · rintro (h | ⟨hb0, _⟩)
      · exact h
      · exfalso
        have h0 : (w <<< (DIM N - 1)) % 2 ^ DIM N = 0 := not_not.mp hw0
        have := (negZ_bit (DIM N) w (DIM N - 1) (DIM_pos N)).mpr ⟨rfl, hb0⟩
        rw [h0, Nat.zero_testBit] at this
        exact Bool.noConfusion this

theorem dilatePosZ_effect (N : Nat) (t0 : LeafTree V) (hno : ∀ k, hasLeaf t0 k = false → (t0.tile k).2 = false)
    (o : Coord) (ho : leafKey N o = o) (s : MState V)
    (hinv : RowInv N t0 o s) (x y : Nat) (hx : x < DIM N) (hy : y < DIM N) (w : Nat)
    (hw : w < 2 ^ DIM N) :
    RowInv N t0 o (dilatePosZ N o ((x : Int) * DIM N + y) w s) ∧
    ∀ p, isValueOn N (dilatePosZ N o ((x : Int) * DIM N + y) w s).tree p = true ↔
      (isValueOn N s.tree p = true ∨
        (w.testBit (DIM N - 1) = true ∧ p = ⟨o.x + x, o.y + y, o.z + DIM N⟩)) := by
  unfold dilatePosZ
  by_cases hw0 : w >>> (DIM N - 1) ≠ 0
  · rw [if_pos hw0]
    obtain ⟨h1, h2⟩ := scatter_at N t0 hno o ho 5 0 0 1 rfl s hinv ((x : Int) * DIM N + y)
      (w >>> (DIM N - 1)) x y hx hy (by push_cast; ring) (o.x + x) (o.y + y)
      (o.z + DIM N) (by ring) (by ring) (by ring)
    refine ⟨h1, fun p => ?_⟩
    rw [h2 p]
    apply or_congr Iff.rfl
    constructor
    · rintro ⟨c, hc, hb, hp⟩
      obtain ⟨hc1, hb0⟩ := (posZ_bit (DIM N) w c (DIM_pos N) hw).mp hb
      refine ⟨hb0, ?_⟩
      rw [hp, Coord.mk.injEq]
      refine ⟨rfl, rfl, ?_⟩
      omega
    · rintro ⟨hb0, hp⟩
      refine ⟨0, DIM_pos N, (posZ_bit (DIM N) w _ (DIM_pos N) hw).mpr ⟨rfl, hb0⟩, ?_⟩
      rw [hp, Coord.mk.injEq]
      refine ⟨rfl, rfl, ?_⟩
      omega
  · rw [if_neg hw0]
    refine ⟨hinv, fun p => ?_⟩
    constructor
    · exact Or.inl
    · rintro (h | ⟨hb0, _⟩)
      · exact h
      · exfalso
        have h0 : w >>> (DIM N - 1) = 0 := not_not.mp hw0
        have := (posZ_bit (DIM N) w 0 (DIM_pos N) hw).mpr ⟨rfl, hb0⟩
        rw [h0, Nat.zero_testBit] at this
        exact Bool.noConfusion this

/-- Bits of `(oldWord >> 1) | (oldWord << 1)`. -/
theorem z_bit (w c : Nat) :
    ((w >>> 1) ||| (w <<< 1)).testBit c = true ↔
      (w.testBit (c + 1) = true ∨ (1 ≤ c ∧ w.testBit (c - 1) = true)) := by
  rw [Nat.testBit_or, Nat.testBit_shiftRight, Nat.testBit_shiftLeft, Nat.add_comm 1 c]
  simp only [Bool.or_eq_true, Bool.and_eq_true, decide_eq_true_eq, ge_iff_le]

theorem bit_lt {D w z : Nat} (hw : w < 2 ^ D) (h : w.testBit z = true) : z < D := by
  by_contra hz
  have hle : 2 ^ D ≤ 2 ^ z := Nat.pow_le_pow_right (by omega) (by omega)
  have := Nat.testBit_lt_two_pow (lt_of_lt_of_le hw hle)
  rw [this] at h
  exact Bool.noConfusion h

theorem mem_faceNeighbors (p q : Coord) :
    p ∈ faceNeighbors q ↔
      (p = ⟨q.x - 1, q.y, q.z⟩ ∨ p = ⟨q.x + 1, q.y, q.z⟩ ∨ p = ⟨q.x, q.y - 1, q.z⟩ ∨
        p = ⟨q.x, q.y + 1, q.z⟩ ∨ p = ⟨q.x, q.y, q.z - 1⟩ ∨ p = ⟨q.x, q.y, q.z + 1⟩) := by
  simp only [faceNeighbors, Coord.offsetBy, List.mem_cons, List.mem_singleton,
    List.not_mem_nil, or_false, add_zero, Int.sub_eq_add_neg]

/-- Effect of the loop body for one row of the saved mask: the face neighbours of the
voxels of the row that were active in the saved mask become active. -/
theorem dilateRow_effect (N : Nat) (t0 : LeafTree V) (hno : ∀ k, hasLeaf t0 k = false → (t0.tile k).2 = false)
    (o : Coord) (ho : leafKey N o = o) (hleaf : hasLeaf t0 o = true) (mask : Nat → Nat)
    (hmask : ∀ i, mask i < 2 ^ DIM N) (s : MState V) (hinv : RowInv N t0 o s) (x y : Nat)
    (hx : x < DIM N) (hy : y < DIM N) :
    RowInv N t0 o (dilateRow N o mask s x y) ∧
    ∀ p, isValueOn N (dilateRow N o mask s x y).tree p = true ↔
      (isValueOn N s.tree p = true ∨
        ∃ z, z < DIM N ∧ (mask (x * DIM N + y)).testBit z = true ∧
          p ∈ faceNeighbors ⟨o.x + x, o.y + y, o.z + z⟩) := by
  have hn : ((x : Int) * DIM N + y).toNat = x * DIM N + y := by
    have h : (x : Int) * DIM N + y = ((x * DIM N + y : Nat) : Int) := by push_cast; ring
    rw [h, Int.toNat_ofNat]
  simp only [dilateRow, hn]
  have hw := hmask (x * DIM N + y)
  generalize mask (x * DIM N + y) = w at hw ⊢
  by_cases hw0 : w = 0
  · rw [if_pos hw0]
    refine ⟨hinv, fun p => ⟨Or.inl, ?_⟩⟩
    rintro (h | ⟨z, _, hb, _⟩)
    · exact h
    · rw [hw0, Nat.zero_testBit] at hb
      exact Bool.noConfusion hb
  · rw [if_neg hw0]
    obtain ⟨i1, e1⟩ := dilateNegX_effect N t0 hno o ho hleaf s hinv x y hx hy w
    obtain ⟨i2, e2⟩ := dilatePosX_effect N t0 hno o ho hleaf _ i1 x y hx hy w
    obtain ⟨i3, e3⟩ := dilateNegY_effect N t0 hno o ho hleaf _ i2 x y hx hy w
    obtain ⟨i4, e4⟩ := dilatePosY_effect N t0 hno o ho hleaf _ i3 x y hx hy w
    obtain ⟨i5, e5⟩ := dilateZ_effect N t0 o ho hleaf _ i4 x y hx hy w
    obtain ⟨i6, e6⟩ := dilateNegZ_effect N t0 hno o ho _ i5 x y hx hy w
    obtain ⟨i7, e7⟩ := dilatePosZ_effect N t0 hno o ho _ i6 x y hx hy w hw
    refine ⟨i7, fun p => ?_⟩
    rw [e7, e6, e5, e4, e3, e2, e1]
    simp only [mem_faceNeighbors]
    constructor
    · rintro (((((((h | ⟨c, hc, hb, hp⟩) | ⟨c, hc, hb, hp⟩) | ⟨c, hc, hb, hp⟩) |
        ⟨c, hc, hb, hp⟩) | ⟨c, hc, hb, hp⟩) | ⟨hb, hp⟩) | ⟨hb, hp⟩)
      · exact Or.inl h
      · exact Or.inr ⟨c, hc, hb, Or.inl hp⟩
      · exact Or.inr ⟨c, hc, hb, Or.inr (Or.inl hp)⟩
      · exact Or.inr ⟨c, hc, hb, Or.inr (Or.inr (Or.inl hp))⟩
      · exact Or.inr ⟨c, hc, hb, Or.inr (Or.inr (Or.inr (Or.inl hp)))⟩
      · rcases (z_bit w c).mp hb with h1 | ⟨h1, h2⟩
        · refine Or.inr ⟨c + 1, bit_lt hw h1, h1, Or.inr (Or.inr (Or.inr (Or.inr (Or.inl ?_))))⟩
          rw [hp, Coord.mk.injEq]
          exact ⟨rfl, rfl, by push_cast; ring⟩
        · refine Or.inr ⟨c - 1, by omega, h2,
            Or.inr (Or.inr (Or.inr (Or.inr (Or.inr ?_))))⟩
          rw [hp, Coord.mk.injEq]
          exact ⟨rfl, rfl, by omega⟩
      · refine Or.inr ⟨0, DIM_pos N, hb, Or.inr (Or.inr (Or.inr (Or.inr (Or.inl ?_))))⟩
        rw [hp, Coord.mk.injEq]
        exact ⟨rfl, rfl, by push_cast; ring⟩
      · have hD := DIM_pos N
        refine Or.inr ⟨DIM N - 1, by omega, hb, Or.inr (Or.inr (Or.inr (Or.inr (Or.inr ?_))))⟩
        rw [hp, Coord.mk.injEq]
        exact ⟨rfl, rfl, by omega⟩
    · rintro (h | ⟨z, hz, hb, hp | hp | hp | hp | hp | hp⟩)
      · exact Or.inl (Or.inl (Or.inl (Or.inl (Or.inl (Or.inl (Or.inl h))))))
      · exact Or.inl (Or.inl (Or.inl (Or.inl (Or.inl (Or.inl (Or.inr ⟨z, hz, hb, hp⟩))))))
      · exact Or.inl (Or.inl (Or.inl (Or.inl (Or.inl (Or.inr ⟨z, hz, hb, hp⟩)))))
      · exact Or.inl (Or.inl (Or.inl (Or.inl (Or.inr ⟨z, hz, hb, hp⟩))))
      · exact Or.inl (Or.inl (Or.inl (Or.inr ⟨z, hz, hb, hp⟩)))
      · by_cases hz0 : z = 0
        · subst hz0
          refine Or.inl (Or.inr ⟨hb, ?_⟩)
          rw [hp, Coord.mk.injEq]
          exact ⟨rfl, rfl, by push_cast; ring⟩
        · refine Or.inl (Or.inl (Or.inr ⟨z - 1, by omega, (z_bit w _).mpr (Or.inl ?_), ?_⟩))
          · rw [Nat.sub_add_cancel (by omega)]
            exact hb
          · rw [hp, Coord.mk.injEq]
            exact ⟨rfl, rfl, by omega⟩
      · by_cases hz0 : z = DIM N - 1
        · subst hz0
          refine Or.inr ⟨hb, ?_⟩
          rw [hp, Coord.mk.injEq]
          exact ⟨rfl, rfl, by omega⟩
        · refine Or.inl (Or.inl (Or.inr ⟨z + 1, by omega,
            (z_bit w _).mpr (Or.inr ⟨by omega, ?_⟩), ?_⟩))
          · rw [Nat.add_sub_cancel]
            exact hb
          · rw [hp, Coord.mk.injEq]
            exact ⟨rfl, rfl, by push_cast; ring⟩

/-- A fold whose steps keep an invariant and each add a set of active voxels adds the union
of the sets. -/
theorem foldl_effect {S α : Type} (Inv : S → Prop) (Act : S → Coord → Prop)
    (C : α → Coord → Prop) (f : S → α → S) (l : List α)
    (hstep : ∀ s a, a ∈ l → Inv s → Inv (f s a) ∧ ∀ p, (Act (f s a) p ↔ (Act s p ∨ C a p)))
    (s : S) (hs : Inv s) :
    Inv (l.foldl f s) ∧ ∀ p, (Act (l.foldl f s) p ↔ (Act s p ∨ ∃ a, a ∈ l ∧ C a p)) := by
  induction l generalizing s with
  | nil =>
    refine ⟨hs, fun p => ⟨Or.inl, ?_⟩⟩
    rintro (h | ⟨a, ha, _⟩)
    · exact h
    · exact absurd ha (List.not_mem_nil a)
  | cons a l ih =>
    obtain ⟨h1, h2⟩ := hstep s a (List.mem_cons_self a l) hs
    obtain ⟨h3, h4⟩ := ih (fun s b hb => hstep s b (List.mem_cons_of_mem a hb)) (f s a) h1
    refine ⟨h3, fun p => ?_⟩
    rw [List.foldl_cons, h4 p, h2 p]
    constructor
    · rintro ((h | h) | ⟨b, hb, hc⟩)
      · exact Or.inl h
      · exact Or.inr ⟨a, List.mem_cons_self a l, h⟩
      · exact Or.inr ⟨b, List.mem_cons_of_mem a hb, hc⟩
    · rintro (h | ⟨b, hb, hc⟩)
      · exact Or.inl (Or.inl h)
      · rcases List.mem_cons.mp hb with rfl | hb1
        · exact Or.inl (Or.inr hc)
        · exact Or.inr ⟨b, hb1, hc⟩

/-- Effect of the loop body for one leaf: the face neighbours of the voxels that were
active in the saved mask of the leaf become active, and the neighbour array is cleared. -/
theorem dilateLeaf_effect (N : Nat) (t0 : LeafTree V)
    (hno : ∀ k, hasLeaf t0 k = false → (t0.tile k).2 = false)
    (o : Coord) (ho : leafKey N o = o) (hleaf : hasLeaf t0 o = true) (mask : Nat → Nat)
    (hmask : ∀ i, mask i < 2 ^ DIM N) (s : MState V)
    (hs : s.tree.tile = t0.tile ∧ (∀ k, hasLeaf t0 k = true → hasLeaf s.tree k = true) ∧
      ∀ i, (s.NN i).init = true) :
    ((dilateLeaf N s (o, mask)).tree.tile = t0.tile ∧
      (∀ k, hasLeaf t0 k = true → hasLeaf (dilateLeaf N s (o, mask)).tree k = true) ∧
      ∀ i, ((dilateLeaf N s (o, mask)).NN i).init = true) ∧
    ∀ p, isValueOn N (dilateLeaf N s (o, mask)).tree p = true ↔
      (isValueOn N s.tree p = true ∨
        ∃ x, x ∈ List.range (DIM N) ∧ ∃ y, y ∈ List.range (DIM N) ∧ ∃ z, z < DIM N ∧
          (mask (x * DIM N + y)).testBit z = true ∧
          p ∈ faceNeighbors ⟨o.x + x, o.y + y, o.z + z⟩) := by
  obtain ⟨htile, hleaves, hinit⟩ := hs
  have hrow : RowInv N t0 o s := by
    refine ⟨htile, hleaves, fun i hi => ?_⟩
    rw [hinit i] at hi
    exact Bool.noConfusion hi
  have hinner : ∀ s1 x, x ∈ List.range (DIM N) → RowInv N t0 o s1 →
      RowInv N t0 o ((List.range (DIM N)).foldl (fun s y => dilateRow N o mask s x y) s1) ∧
      ∀ p, (isValueOn N
          ((List.range (DIM N)).foldl (fun s y => dilateRow N o mask s x y) s1).tree p = true ↔
        (isValueOn N s1.tree p = true ∨ ∃ y, y ∈ List.range (DIM N) ∧ ∃ z, z < DIM N ∧
          (mask (x * DIM N + y)).testBit z = true ∧
          p ∈ faceNeighbors ⟨o.x + x, o.y + y, o.z + z⟩)) := by
    intro s1 x hx h1
    exact foldl_effect (RowInv N t0 o) (fun s p => isValueOn N s.tree p = true)
      (fun y p => ∃ z, z < DIM N ∧ (mask (x * DIM N + y)).testBit z = true ∧
          p ∈ faceNeighbors ⟨o.x + x, o.y + y, o.z + z⟩)
      (fun s y => dilateRow N o mask s x y) (List.range (DIM N))
      (fun s2 y hy h2 => dilateRow_effect N t0 hno o ho hleaf mask hmask s2 h2 x y
        (List.mem_range.mp hx) (List.mem_range.mp hy)) s1 h1
  obtain ⟨h3, h4⟩ := foldl_effect (RowInv N t0 o) (fun s p => isValueOn N s.tree p = true)
      (fun x p => ∃ y, y ∈ List.range (DIM N) ∧ ∃ z, z < DIM N ∧
          (mask (x * DIM N + y)).testBit z = true ∧
          p ∈ faceNeighbors ⟨o.x + x, o.y + y, o.z + z⟩)
      (fun s x => (List.range (DIM N)).foldl (fun s y => dilateRow N o mask s x y) s)
      (List.range (DIM N)) hinner s hrow
  exact ⟨⟨h3.tile, h3.leaves, fun _ => rfl⟩, h4⟩

theorem hasLeaf_of_mem (l : List (Coord × Leaf V)) (e : Coord × Leaf V) (he : e ∈ l) :
    (findLeaf l e.1).isSome = true := by
  induction l with
  | nil => exact absurd he (List.not_mem_nil e)
  | cons a l ih =>
    obtain ⟨k, lf⟩ := a
    by_cases hk : k = e.1
    · simp only [findLeaf, hk, if_true, Option.isSome_some]
    · simp only [findLeaf, hk, if_false]
      rcases List.mem_cons.mp he with h | h
      · exact absurd (by rw [h]) hk
      · exact ih h

theorem findLeaf_of_mem (l : List (Coord × Leaf V)) (hnd : (l.map Prod.fst).Nodup)
    (e : Coord × Leaf V) (he : e ∈ l) : findLeaf l e.1 = some e.2 := by
  induction l with
  | nil => exact absurd he (List.not_mem_nil e)
  | cons a l ih =>
    obtain ⟨k, lf⟩ := a
    rw [List.map_cons, List.nodup_cons] at hnd
    rcases List.mem_cons.mp he with h | h
    · subst h
      simp only [findLeaf, if_true]
    · have hk : k ≠ e.1 := by
        intro hk
        apply hnd.1
        rw [hk]
        exact List.mem_map.mpr ⟨e, h, rfl⟩
      simp only [findLeaf, hk, if_false]
      exact ih hnd.2 h

theorem mem_of_findLeaf (l : List (Coord × Leaf V)) (k : Coord) (lf : Leaf V)
    (h : findLeaf l k = some lf) : (k, lf) ∈ l := by
  induction l with
  | nil => simp only [findLeaf] at h; exact Option.noConfusion h
  | cons a l ih =>
    obtain ⟨k1, l1⟩ := a
    by_cases hk : k1 = k
    · simp only [findLeaf, hk, if_true, Option.some.injEq] at h
      rw [hk, h]
      exact List.mem_cons_self _ _
    · simp only [findLeaf, hk, if_false] at h
      exact List.mem_cons_of_mem _ (ih h)

/-- In a tree without active tiles the active voxels are the set bits of the leaf masks. -/
theorem isValueOn_iff_bit (N : Nat) (t : LeafTree V) (hwf : LeafTree.WF N t)
    (hno : ∀ k, hasLeaf t k = false → (t.tile k).2 = false) (q : Coord) :
    isValueOn N t q = true ↔
      ∃ e, e ∈ t.leaves ∧ ∃ x, x < DIM N ∧ ∃ y, y < DIM N ∧ ∃ z, z < DIM N ∧
        (e.2.mask (x * DIM N + y)).testBit z = true ∧
        q = ⟨e.1.x + x, e.1.y + y, e.1.z + z⟩ := by
  constructor
  · intro h
    unfold isValueOn at h
    cases hf : findLeaf t.leaves (leafKey N q) with
    | none =>
      rw [hf] at h
      have hnl : hasLeaf t (leafKey N q) = false := by
        simp only [hasLeaf, hf, Option.isSome_none]
      rw [hno _ hnl] at h
      exact Bool.noConfusion h
    | some lf =>
      rw [hf] at h
      refine ⟨(leafKey N q, lf), mem_of_findLeaf _ _ _ hf, offsetIn N q.x, offsetIn_lt N q.x,
        offsetIn N q.y, offsetIn_lt N q.y, offsetIn N q.z, offsetIn_lt N q.z, h, ?_⟩
      obtain ⟨qx, qy, qz⟩ := q
      simp only [leafKey, Coord.mk.injEq]
      exact ⟨coord_split N qx, coord_split N qy, coord_split N qz⟩
  · rintro ⟨e, he, x, hx, y, hy, z, hz, hb, hq⟩
    obtain ⟨h1, h2, h3⟩ := (voxel_iff N (hwf.aligned e he) hx hy hz q).mpr hq
    unfold isValueOn
    rw [h1, findLeaf_of_mem t.leaves hwf.nodup e he, h2, h3]
    exact hb

/-- Effect of one pass on a tree without active tiles: the voxels that were active and
their face neighbours. -/
theorem dilateVoxels_effect (N : Nat) (t : LeafTree V) (hwf : LeafTree.WF N t)
    (hno : ∀ k, hasLeaf t k = false → (t.tile k).2 = false) (p : Coord) :
    isValueOn N (dilateVoxels N t) p = true ↔
      (isValueOn N t p = true ∨ ∃ q, isValueOn N t q = true ∧ p ∈ faceNeighbors q) := by
  obtain ⟨_, h⟩ := foldl_effect
    (fun s : MState V => s.tree.tile = t.tile ∧
      (∀ k, hasLeaf t k = true → hasLeaf s.tree k = true) ∧ ∀ i, (s.NN i).init = true)
    (fun s p => isValueOn N s.tree p = true)
    (fun (e : Coord × (Nat → Nat)) p =>
      ∃ x, x ∈ List.range (DIM N) ∧ ∃ y, y ∈ List.range (DIM N) ∧ ∃ z, z < DIM N ∧
        (e.2 (x * DIM N + y)).testBit z = true ∧
        p ∈ faceNeighbors ⟨e.1.x + x, e.1.y + y, e.1.z + z⟩)
    (dilateLeaf N) (t.leaves.map fun e => (e.1, e.2.mask))
    (fun s e he hs => by
      obtain ⟨e0, he0, rfl⟩ := List.mem_map.mp he
      exact dilateLeaf_effect N t hno e0.1 (hwf.aligned e0 he0)
        (hasLeaf_of_mem _ e0 he0) e0.2.mask (hwf.words e0 he0) s hs)
    ⟨t, fun _ => ⟨none, true, false⟩⟩ ⟨rfl, fun _ hk => hk, fun _ => rfl⟩
  simp only [dilateVoxels]
  rw [h p]
  apply or_congr Iff.rfl
  constructor
  · rintro ⟨e, he, x, hx, y, hy, z, hz, hb, hp⟩
    obtain ⟨e0, he0, rfl⟩ := List.mem_map.mp he
    exact ⟨⟨e0.1.x + x, e0.1.y + y, e0.1.z + z⟩,
      (isValueOn_iff_bit N t hwf hno _).mpr
        ⟨e0, he0, x, List.mem_range.mp hx, y, List.mem_range.mp hy, z, hz, hb, rfl⟩, hp⟩
  · rintro ⟨q, hq, hp⟩
    obtain ⟨e0, he0, x, hx, y, hy, z, hz, hb, rfl⟩ := (isValueOn_iff_bit N t hwf hno q).mp hq
    exact ⟨(e0.1, e0.2.mask), List.mem_map.mpr ⟨e0, he0, rfl⟩, x, List.mem_range.mpr hx, y,
      List.mem_range.mpr hy, z, hz, hb, hp⟩

theorem faceNeighbors_symm_mp (p q : Coord) (h : p ∈ faceNeighbors q) :
    q ∈ faceNeighbors p := by
  obtain ⟨qx, qy, qz⟩ := q
  rw [mem_faceNeighbors] at h
  rw [mem_faceNeighbors]
  rcases h with rfl | rfl | rfl | rfl | rfl | rfl <;> simp

theorem faceNeighbors_symm (p q : Coord) : p ∈ faceNeighbors q ↔ q ∈ faceNeighbors p :=
  ⟨faceNeighbors_symm_mp p q, faceNeighbors_symm_mp q p⟩

theorem singleVoxel_WF : LeafTree.WF 3 singleVoxel := by
  refine ⟨?_, ?_, ?_⟩
  · simp [singleVoxel]
  · intro e he
    simp only [singleVoxel, List.mem_singleton] at he
    subst he
    rfl
  · intro e he i
    simp only [singleVoxel, List.mem_singleton] at he
    subst he
    show (if i = 0 then 1 else 0) < 2 ^ DIM 3
    split <;> norm_num [DIM]

theorem singleVoxel_only (p : Coord) : isValueOn 3 singleVoxel p = true ↔ p = ⟨0, 0, 0⟩ := by
  rw [isValueOn_iff_bit 3 singleVoxel singleVoxel_WF (fun _ _ => rfl)]
  have hbit : ∀ z, z < 8 → Nat.testBit 1 z = true → z = 0 := by decide
  constructor
  · rintro ⟨e, he, x, hx, y, hy, z, hz, hb, rfl⟩
    simp only [singleVoxel, List.mem_singleton] at he
    subst he
    have hD : DIM 3 = 8 := rfl
    rw [hD] at hx hy hz hb
    by_cases h0 : x * 8 + y = 0
    · simp only [h0, if_true] at hb
      have hz0 := hbit z hz hb
      have hx0 : x = 0 := by omega
      have hy0 : y = 0 := by omega
      subst hz0 hx0 hy0
      rfl
    · simp only [h0, if_false, Nat.zero_testBit] at hb
      exact Bool.noConfusion hb
  · rintro rfl
    exact ⟨_, List.mem_singleton.mpr rfl, 0, by decide, 0, by decide, 0, by decide, rfl, rfl⟩

/-- C8 (dilation is exactly the 6-neighbourhood dilation): for every tree whose active
values are all leaf voxels (no active tiles), after one `dilateVoxels` pass a voxel is
active if and only if it, or one of its six face neighbours, was active before the pass;
and from a tree with only (0,0,0) active the result has exactly the seven active voxels
(0,0,0), (±1,0,0), (0,±1,0), (0,0,±1). -/
theorem dilateVoxels_six_neighbourhood (N : Nat) (t : LeafTree V) (hwf : LeafTree.WF N t)
    (hno : ∀ k, hasLeaf t k = false → (t.tile k).2 = false) :
    (∀ p, isValueOn N (dilateVoxelsCount N t 1) p
      = (isValueOn N t p || (faceNeighbors p).any fun q => isValueOn N t q)) ∧
    ((∀ p, isValueOn N t p = true ↔ p = ⟨0, 0, 0⟩) →
      ∀ p, isValueOn N (dilateVoxelsCount N t 1) p = true ↔
        p ∈ [(⟨0, 0, 0⟩ : Coord), ⟨1, 0, 0⟩, ⟨-1, 0, 0⟩, ⟨0, 1, 0⟩, ⟨0, -1, 0⟩, ⟨0, 0, 1⟩,
          ⟨0, 0, -1⟩]) := by
  have hpass : ∀ p, isValueOn N (dilateVoxelsCount N t 1) p = true ↔
      (isValueOn N t p = true ∨ ∃ q, q ∈ faceNeighbors p ∧ isValueOn N t q = true) := by
    intro p
    show isValueOn N (dilateVoxels N t) p = true ↔ _
    rw [dilateVoxels_effect N t hwf hno p]
    apply or_congr Iff.rfl
    constructor
    · rintro ⟨q, hq, hp⟩
      exact ⟨q, (faceNeighbors_symm p q).mp hp, hq⟩
    · rintro ⟨q, hp, hq⟩
      exact ⟨q, hq, (faceNeighbors_symm p q).mpr hp⟩
  constructor
  · intro p
    rw [Bool.eq_iff_iff, hpass p, Bool.or_eq_true, List.any_eq_true]
  · intro honly p
    have h1 : (∃ q, q ∈ faceNeighbors p ∧ isValueOn N t q = true) ↔
        p ∈ faceNeighbors ⟨0, 0, 0⟩ := by
      constructor
      · rintro ⟨q, hq, ha⟩
        rw [(honly q).mp ha] at hq
        exact (faceNeighbors_symm _ _).mp hq
      · intro h
        exact ⟨⟨0, 0, 0⟩, (faceNeighbors_symm _ _).mp h, (honly _).mpr rfl⟩
    have h2 : faceNeighbors ⟨0, 0, 0⟩
        = [⟨-1, 0, 0⟩, ⟨1, 0, 0⟩, ⟨0, -1, 0⟩, ⟨0, 1, 0⟩, ⟨0, 0, -1⟩, ⟨0, 0, 1⟩] := rfl
    rw [hpass p, honly p, h1, h2]
    simp only [List.mem_cons, List.mem_singleton, List.not_mem_nil, or_false]
    tauto

/-- Instance of C8: the tree `singleVoxel`, whose only active voxel is (0,0,0), has exactly
the seven voxels of the 6-neighbourhood active after one pass. -/
theorem dilateVoxels_six_neighbourhood_witness :
    LeafTree.WF 3 singleVoxel ∧
    (∀ k, hasLeaf singleVoxel k = false → (singleVoxel.tile k).2 = false) ∧
    (∀ p, isValueOn 3 singleVoxel p = true ↔ p = ⟨0, 0, 0⟩) ∧
    ∀ p, isValueOn 3 (dilateVoxelsCount 3 singleVoxel 1) p = true ↔
      p ∈ [(⟨0, 0, 0⟩ : Coord), ⟨1, 0, 0⟩, ⟨-1, 0, 0⟩, ⟨0, 1, 0⟩, ⟨0, -1, 0⟩, ⟨0, 0, 1⟩,
        ⟨0, 0, -1⟩] :=
  ⟨singleVoxel_WF, fun _ _ => rfl, singleVoxel_only,
    (dilateVoxels_six_neighbourhood 3 singleVoxel singleVoxel_WF (fun _ _ => rfl)).2
      singleVoxel_only⟩

end Morphology

/-! ## Background tiles -/

namespace RootNode

variable {V : Type} [DecidableEq V] {ops : ChildOps V}

theorem sampleTiles_WF : sampleTiles.mTable.WF := by
  simp [sampleTiles, MapType.WF, Coord.lt]

theorem filter_filter_not_length (P : Coord × NodeStruct V ops.Child → Bool)
    (t : MapType V ops.Child) : ((t.filter fun i => !P i).filter P).length = 0 := by
  rw [List.length_eq_zero, List.filter_eq_nil_iff]
  intro a ha
  have := (List.mem_filter.mp ha).2
  simpa using this

/-- C11 (`eraseBackgroundTiles`): on a root whose table is a `std::map`, the call removes
exactly the entries that are inactive tiles whose value is approximately the background
and leaves every other entry as it was; it returns the number of removed entries, which is
`numBackgroundTiles()` before the call; afterwards `numBackgroundTiles()` is 0, no entry
is a background tile, and the background is unchanged. -/
theorem eraseBackgroundTiles_exact (vops : ValueOps V) (r : RootNode V ops)
    (hwf : r.mTable.WF) :
    (∀ k, (r.eraseBackgroundTiles vops).1.mTable.find k =
      match r.mTable.find k with
      | some e => if r.isBackgroundTile vops e = true then none else some e
      | none => none) ∧
    (r.eraseBackgroundTiles vops).2 = r.numBackgroundTiles vops ∧
    (r.eraseBackgroundTiles vops).1.numBackgroundTiles vops = 0 ∧
    (∀ i ∈ (r.eraseBackgroundTiles vops).1.mTable,
      (r.eraseBackgroundTiles vops).1.isBackgroundTile vops i.2 = false) ∧
    (r.eraseBackgroundTiles vops).1.mTable.length + (r.eraseBackgroundTiles vops).2
      = r.mTable.length ∧
    (r.eraseBackgroundTiles vops).1.mBackground = r.mBackground := by
  have htab := eraseBackgroundTiles_table vops r hwf
  have hbg : ∀ e, (r.eraseBackgroundTiles vops).1.isBackgroundTile vops e
      = r.isBackgroundTile vops e :=
    isBackgroundTile_congr vops r _ (by rw [htab])
  refine ⟨?_, ?_, ?_, ?_, ?_, ?_⟩
  · intro k
    rw [htab]
    show MapType.find (r.mTable.filter fun i => !r.isBackgroundTile vops i.2) k = _
    rw [MapType.find_filter _ hwf k]
    cases r.mTable.find k with
    | none => rfl
    | some e => cases h : r.isBackgroundTile vops e <;> simp [h]
  · simp only [eraseBackgroundTiles, numBackgroundTiles, List.length_map]
  · simp only [numBackgroundTiles, hbg]
    rw [htab]
    exact filter_filter_not_length (fun i => r.isBackgroundTile vops i.2) r.mTable
  · intro i hi
    rw [hbg]
    rw [htab] at hi
    have := (List.mem_filter.mp hi).2
    simpa using this
  · rw [htab]
    simp only [eraseBackgroundTiles, List.length_map]
    have h : r.mTable.length = _ := List.length_eq_length_filter_add
      (fun i : Coord × NodeStruct V ops.Child => !r.isBackgroundTile vops i.2)
    simp only [Bool.not_not] at h
    omega
  · rw [htab]

/-- Instance of C11 on `sampleTiles`: the background tile at key (0,0,0) is removed, the
inactive tile of value 9 and the active tile of the background value stay. -/
theorem eraseBackgroundTiles_exact_witness :
    sampleTiles.mTable.WF ∧
    (sampleTiles.eraseBackgroundTiles intOps).2 = 1 ∧
    (sampleTiles.eraseBackgroundTiles intOps).1.mTable.find ⟨0, 0, 0⟩ = none ∧
    (sampleTiles.eraseBackgroundTiles intOps).1.mTable.find ⟨2, 0, 0⟩
      = some (.tile ⟨9, false⟩) ∧
    (sampleTiles.eraseBackgroundTiles intOps).1.numBackgroundTiles intOps = 0 :=
  ⟨sampleTiles_WF,
    (eraseBackgroundTiles_exact intOps sampleTiles sampleTiles_WF).2.1.trans rfl,
    ((eraseBackgroundTiles_exact intOps sampleTiles sampleTiles_WF).1 _).trans rfl,
    ((eraseBackgroundTiles_exact intOps sampleTiles sampleTiles_WF).1 _).trans rfl,
    (eraseBackgroundTiles_exact intOps sampleTiles sampleTiles_WF).2.2.1⟩

theorem find_eraseBackgroundTiles (vops : ValueOps V) (r : RootNode V ops)
    (hwf : r.mTable.WF) (k : Coord) :
    (r.eraseBackgroundTiles vops).1.mTable.find k =
      match r.mTable.find k with
      | some e => if r.isBackgroundTile vops e = true then none else some e
      | none => none := by
  rw [eraseBackgroundTiles_table vops r hwf]
  show MapType.find (r.mTable.filter fun i => !r.isBackgroundTile vops i.2) k = _
  rw [MapType.find_filter _ hwf k]
  cases r.mTable.find k with
  | none => rfl
  | some e => cases h : r.isBackgroundTile vops e <;> simp [h]

/-- Counterexample to C12 as stated: with a value type whose approximate equality has a
tolerance, the inactive tile of value 1 in a tree of background 0 is a background tile;
`getValue` reads 1 before `eraseBackgroundTiles` and 0 afterwards. -/
theorem eraseBackgroundTiles_changes_value :
    nearTile.getValue ⟨0, 0, 0⟩ = 1 ∧
    (nearTile.eraseBackgroundTiles fixedOps).1.getValue ⟨0, 0, 0⟩ = 0 ∧
    (nearTile.eraseBackgroundTiles fixedOps).1.getValue ⟨0, 0, 0⟩
      ≠ nearTile.getValue ⟨0, 0, 0⟩ := by
  decide

/-- C12, amended (a background tile reads like an absent key up to approximate equality):
for every root node whose table is a `std::map` and every coordinate `p`, `isValueOn(p)`
is the same before and after `eraseBackgroundTiles()`; `getValue(p)` is the same when the
entry of `p` is absent or is not a background tile; when it is a background tile, the
value read before is the tile value, which is approximately equal to the background, and
the value read afterwards is the background. So `getValue(p)` is the same before and
after whenever approximate equality of the value type is equality. -/
theorem eraseBackgroundTiles_read (vops : ValueOps V) (r : RootNode V ops)
    (hwf : r.mTable.WF) (p : Coord) :
    (r.eraseBackgroundTiles vops).1.isValueOn p = r.isValueOn p ∧
    (r.mTable.find (coordToKey ops p) = none →
      (r.eraseBackgroundTiles vops).1.getValue p = r.getValue p) ∧
    (∀ e, r.mTable.find (coordToKey ops p) = some e → r.isBackgroundTile vops e = false →
      (r.eraseBackgroundTiles vops).1.getValue p = r.getValue p) ∧
    (∀ t, r.mTable.find (coordToKey ops p) = some (.tile t) →
      r.isBackgroundTile vops (.tile t) = true →
      r.getValue p = t.value ∧ vops.isApproxEqual t.value r.mBackground = true ∧
      (r.eraseBackgroundTiles vops).1.getValue p = r.mBackground) ∧
    ((∀ a b, vops.isApproxEqual a b = true → a = b) →
      (r.eraseBackgroundTiles vops).1.getValue p = r.getValue p) := by
  have hf := find_eraseBackgroundTiles vops r hwf (coordToKey ops p)
  have hb : (r.eraseBackgroundTiles vops).1.mBackground = r.mBackground := rfl
  cases hfind : r.mTable.find (coordToKey ops p) with
  | none =>
    rw [hfind] at hf
    simp only [getValue, isValueOn, findCoord, hf, hfind, hb]
    simp
  | some e =>
    rw [hfind] at hf
    cases hbt : r.isBackgroundTile vops e with
    | false =>
      simp only [hbt, Bool.false_eq_true, if_false] at hf
      simp only [getValue, isValueOn, findCoord, hf, hfind, hb]
      refine ⟨trivial, fun h => Option.noConfusion h, fun _ _ _ => trivial, ?_,
        fun _ => trivial⟩
      intro t ht hbt1
      rw [Option.some.inj ht, hbt1] at hbt
      exact Bool.noConfusion hbt
    | true =>
      simp only [hbt, if_true] at hf
      cases e with
      | child c => exact Bool.noConfusion hbt
      | tile t =>
        have hbt2 := hbt
        simp only [isBackgroundTile, Bool.and_eq_true, Bool.not_eq_true_eq_eq_false] at hbt2
        simp only [getValue, isValueOn, findCoord, hf, hfind, hb, hbt2.1]
        refine ⟨trivial, fun h => Option.noConfusion h, ?_, ?_, ?_⟩
        · intro e he he2
          rw [← Option.some.inj he, hbt] at he2
          exact Bool.noConfusion he2
        · intro t1 ht1 _
          have : t1 = t := by
            have := Option.some.inj ht1
            exact (NodeStruct.tile.inj this).symm
          subst this
          exact ⟨rfl, hbt2.2, trivial⟩
        · intro hex
          exact (hex _ _ hbt2.2).symm

/-- Instance of C12 (amended) on `sampleTiles`, whose key (0,0,0) holds a background tile:
the coordinate (1,1,1) reads the same value and state before and after. -/
theorem eraseBackgroundTiles_read_witness :
    sampleTiles.mTable.WF ∧
    (sampleTiles.eraseBackgroundTiles intOps).1.isValueOn ⟨1, 1, 1⟩
      = sampleTiles.isValueOn ⟨1, 1, 1⟩ ∧
    (sampleTiles.eraseBackgroundTiles intOps).1.getValue ⟨1, 1, 1⟩
      = sampleTiles.getValue ⟨1, 1, 1⟩ :=
  ⟨sampleTiles_WF, (eraseBackgroundTiles_read intOps sampleTiles sampleTiles_WF _).1,
    (eraseBackgroundTiles_read intOps sampleTiles sampleTiles_WF _).2.2.2.2
      (fun a b h => of_decide_eq_true h)⟩

/-! ## Signed flood fill -/

theorem gapLoop_spec (ops : ChildOps V) (inside : V) (bz : Int)
    (hbz : alignDown bz ops.TOTAL = bz) (hbr : bz < 2 ^ 31) :
    ∀ (fuel : Nat) (c : Coord) (t : MapType V ops.Child),
      alignDown c.z ops.TOTAL = c.z → c.z ≤ bz → -(2 : Int) ^ 31 ≤ c.z →
      bz - c.z < (fuel : Int) * ops.DIM →
      ∃ t1, gapLoop ops inside bz fuel c t = some t1 ∧
        ∀ k, (k.x = c.x ∧ k.y = c.y ∧ c.z ≤ k.z ∧ k.z < bz ∧ alignDown k.z ops.TOTAL = k.z →
            t1.find k = some (.tile ⟨inside, false⟩)) ∧
          (¬ (k.x = c.x ∧ k.y = c.y ∧ c.z ≤ k.z ∧ k.z < bz ∧
              alignDown k.z ops.TOTAL = k.z) → t1.find k = t.find k) := by
  have hD : (0 : Int) < ops.DIM := two_pow_pos_int _
  intro fuel
  induction fuel with
  | zero =>
    intro c t _ hle _ hf
    simp only [Nat.cast_zero, zero_mul] at hf
    omega
  | succ n ih =>
    intro c t hal hle hlo hf
    by_cases hc : c.z = bz
    · refine ⟨t, by simp only [gapLoop, hc, if_true], fun k => ⟨?_, fun _ => rfl⟩⟩
      rintro ⟨_, _, h1, h2, _⟩
      omega
    · have hlt : c.z < bz := lt_of_le_of_ne hle hc
      have hstep : c.z + ops.DIM ≤ bz := aligned_gap hal hbz hlt
      have hw : wrap32 (c.z + ops.DIM) = c.z + ops.DIM := wrap32_eq (by omega) (by omega)
      have hf1 : bz - (c.z + ops.DIM) < (n : Int) * ops.DIM := by
        push_cast at hf
        linarith
      obtain ⟨t1, h1, h2⟩ := ih ⟨c.x, c.y, c.z + ops.DIM⟩ (t.assign c (.tile ⟨inside, false⟩))
        (alignDown_add_dim hal) hstep (by show -(2 : Int) ^ 31 ≤ c.z + ops.DIM; omega) hf1
      refine ⟨t1, by simp only [gapLoop, hc, if_false, hw]; exact h1, fun k => ⟨?_, ?_⟩⟩
      · rintro ⟨hx, hy, hz1, hz2, hka⟩
        by_cases hkz : k.z = c.z
        · have hkc : k = c := by
            cases k; cases c
            simp only [Coord.mk.injEq] at *
            exact ⟨hx, hy, hkz⟩
          have hn : ¬ (k.x = c.x ∧ k.y = c.y ∧ c.z + ops.DIM ≤ k.z ∧ k.z < bz ∧
              alignDown k.z ops.TOTAL = k.z) := by
            rintro ⟨_, _, h, _, _⟩
            omega
          rw [(h2 k).2 hn, hkc, MapType.find_assign_self]
        · have hgap := aligned_gap hal hka (lt_of_le_of_ne hz1 (Ne.symm hkz))
          exact (h2 k).1 ⟨hx, hy, hgap, hz2, hka⟩
      · intro hn
        have hn1 : ¬ (k.x = c.x ∧ k.y = c.y ∧ c.z + ops.DIM ≤ k.z ∧ k.z < bz ∧
            alignDown k.z ops.TOTAL = k.z) := by
          rintro ⟨hx, hy, h, h3, h4⟩
          exact hn ⟨hx, hy, by omega, h3, h4⟩
        have hkc : c ≠ k := by
          intro hck
          apply hn
          rw [← hck]
          exact ⟨rfl, rfl, le_rfl, hlt, hal⟩
        rw [(h2 k).2 hn1, MapType.find_assign_other _ _ _ _ hkc]

theorem find_floodChildren (fops : FloodOps ops) (outside inside : V)
    (t : MapType V ops.Child) (k : Coord) :
    (floodChildren fops outside inside t).find k =
      match t.find k with
      | none => none
      | some (.tile tl) => some (.tile tl)
      | some (.child c) => some (.child (fops.signedFloodFill c outside inside)) := by
  induction t with
  | nil => rfl
  | cons hd tl ih =>
    obtain ⟨k1, e1⟩ := hd
    by_cases hk : k1 = k
    · cases e1 <;> simp [floodChildren, MapType.find, hk]
    · have ih1 : MapType.find (List.map _ tl) k = _ := ih
      cases e1 <;> simp only [floodChildren, List.map_cons, MapType.find, hk, if_false] <;>
        exact ih1

theorem nodeKeys_floodChildren (fops : FloodOps ops) (outside inside : V)
    (t : MapType V ops.Child) :
    nodeKeys (floodChildren fops outside inside t) = nodeKeys t := by
  induction t with
  | nil => rfl
  | cons hd tl ih =>
    obtain ⟨k1, e1⟩ := hd
    have ih1 : List.map Prod.fst (List.filter _ (List.map _ tl)) = _ := ih
    cases e1 <;>
      simp only [nodeKeys, floodChildren, List.map_cons, List.filter_cons, NodeStruct.isChild,
        NodeStruct.isTile, Bool.false_eq_true, if_false, if_true, List.cons.injEq, true_and,
        Bool.not_true, Bool.not_false] <;>
      exact ih1

theorem mem_nodeKeys {t : MapType V ops.Child} (hwf : t.WF) (k : Coord) :
    k ∈ nodeKeys t ↔ ∃ c, t.find k = some (.child c) := by
  constructor
  · intro h
    obtain ⟨e, he, rfl⟩ := List.mem_map.mp h
    obtain ⟨he1, he2⟩ := List.mem_filter.mp he
    obtain ⟨k, n⟩ := e
    cases n with
    | tile tl => simp [NodeStruct.isChild, NodeStruct.isTile] at he2
    | child c => exact ⟨c, MapType.find_of_mem hwf he1⟩
  · rintro ⟨c, hc⟩
    have hm : (k, NodeStruct.child c) ∈ t := by
      clear hwf
      induction t with
      | nil => exact Option.noConfusion hc
      | cons hd tl ih =>
        obtain ⟨k1, e1⟩ := hd
        by_cases hk : k1 = k
        · simp only [MapType.find, hk, if_true, Option.some.injEq] at hc
          rw [hk, hc]
          exact List.mem_cons_self _ _
        · simp only [MapType.find, hk, if_false] at hc
          exact List.mem_cons_of_mem _ (ih hc)
    exact List.mem_map.mpr ⟨(k, .child c), List.mem_filter.mpr ⟨hm, rfl⟩, rfl⟩

theorem nodeKeys_sorted {t : MapType V ops.Child} (hwf : t.WF) :
    (nodeKeys t).Pairwise fun a b => Coord.lt a b = true := by
  unfold nodeKeys
  rw [List.pairwise_map]
  exact List.Pairwise.filter _ hwf

theorem wrap32_eq_zero_iff {d : Int} (h1 : -(2 : Int) ^ 32 < d) (h2 : d < 2 ^ 32) :
    wrap32 d = 0 ↔ d = 0 := by
  unfold wrap32
  omega

theorem wrap32_eq_pos_iff {d D : Int} (h1 : 0 < d) (h2 : d < 2 ^ 32) (h3 : 0 < D)
    (h4 : D < 2 ^ 31) : wrap32 d = D ↔ d = D := by
  unfold wrap32
  omega

theorem DIM_lt_of_TOTAL (ops : ChildOps V) (h : ops.TOTAL < 31) : ops.DIM < 2 ^ 31 := by
  unfold ChildOps.DIM
  exact pow_lt_pow_right₀ (by norm_num) h

/-- Effect of the body of the z-scanline loop for one pair of neighbouring node keys. -/
theorem scanPair_spec (vops : ValueOps V) (fops : FloodOps ops) (inside : V)
    (htot : ops.TOTAL < 31) (fuel : Nat) (hfuel : 2 ^ 32 ≤ fuel) (a b : Coord)
    (t : MapType V ops.Child) (ca cb : ops.Child) (ha : t.find a = some (.child ca))
    (hb : t.find b = some (.child cb)) (har : a.inRange) (hbr : b.inRange)
    (haz : alignDown a.z ops.TOTAL = a.z) (hbz : alignDown b.z ops.TOTAL = b.z)
    (hlt : Coord.lt a b = true) :
    ∃ t1, scanPair vops fops inside fuel a b t = some t1 ∧
      ∀ k, (scanFires vops fops t a b ∧ inGap ops a b k →
          t1.find k = some (.tile ⟨inside, false⟩)) ∧
        (¬ (scanFires vops fops t a b ∧ inGap ops a b k) → t1.find k = t.find k) := by
  have hD : (0 : Int) < ops.DIM := two_pow_pos_int _
  have hD2 := DIM_lt_of_TOTAL ops htot
  have hwD : wrap32 ops.DIM = ops.DIM := wrap32_eq (by omega) hD2
  obtain ⟨⟨hax1, hax2⟩, ⟨hay1, hay2⟩, ⟨haz1, haz2⟩⟩ := har
  obtain ⟨⟨hbx1, hbx2⟩, ⟨hby1, hby2⟩, ⟨hbz1, hbz2⟩⟩ := hbr
  have hx := wrap32_eq_zero_iff (show -(2 : Int) ^ 32 < b.x - a.x by omega)
    (show b.x - a.x < 2 ^ 32 by omega)
  have hy := wrap32_eq_zero_iff (show -(2 : Int) ^ 32 < b.y - a.y by omega)
    (show b.y - a.y < 2 ^ 32 by omega)
  have skip : ¬ scanFires vops fops t a b →
      ∃ t1, some t = some t1 ∧
      ∀ k, (scanFires vops fops t a b ∧ inGap ops a b k →
          t1.find k = some (.tile ⟨inside, false⟩)) ∧
        (¬ (scanFires vops fops t a b ∧ inGap ops a b k) → t1.find k = t.find k) :=
    fun hnf => ⟨t, rfl, fun k => ⟨fun h => absurd h.1 hnf, fun _ => rfl⟩⟩
  simp only [scanPair, hwD, ha, hb]
  by_cases hxy : a.x = b.x ∧ a.y = b.y
  · have hzlt : a.z < b.z := by
      simp only [Coord.lt, Bool.or_eq_true, Bool.and_eq_true, decide_eq_true_eq] at hlt
      omega
    have hz := wrap32_eq_pos_iff (show 0 < b.z - a.z by omega)
      (show b.z - a.z < 2 ^ 32 by omega) hD hD2
    by_cases hdz : b.z - a.z = ops.DIM
    · rw [if_pos (Or.inr (Or.inr (hz.mpr hdz)))]
      exact skip fun hf => hf.2.2.1 hdz
    · have hcond : ¬ (wrap32 (b.x - a.x) ≠ 0 ∨ wrap32 (b.y - a.y) ≠ 0 ∨
          wrap32 (b.z - a.z) = ops.DIM) := by
        rintro (h | h | h)
        · exact h (hx.mpr (by omega))
        · exact h (hy.mpr (by omega))
        · exact hdz (hz.mp h)
      rw [if_neg hcond]
      by_cases hneg : vops.lt (fops.getLastValue ca) vops.zeroVal = true ∧
          vops.lt (fops.getFirstValue cb) vops.zeroVal = true
      · have hc : ¬ ((!vops.lt (fops.getLastValue ca) vops.zeroVal ||
            !vops.lt (fops.getFirstValue cb) vops.zeroVal) = true) := by
          simp [hneg.1, hneg.2]
        rw [if_neg hc]
        have hstep : a.z + ops.DIM ≤ b.z := aligned_gap haz hbz hzlt
        have hw : wrap32 (a.z + ops.DIM) = a.z + ops.DIM := wrap32_eq (by omega) (by omega)
        rw [hw]
        have hfl : b.z - (a.z + ops.DIM) < (fuel : Int) * ops.DIM := by
          have h1 : (2 : Int) ^ 32 ≤ (fuel : Int) := by exact_mod_cast hfuel
          have h2 : (fuel : Int) ≤ (fuel : Int) * ops.DIM :=
            le_mul_of_one_le_right (by omega) (by omega)
          omega
        obtain ⟨t1, h1, h2⟩ := gapLoop_spec ops inside b.z hbz hbz2 fuel
          ⟨a.x, a.y, a.z + ops.DIM⟩ t (alignDown_add_dim haz) hstep
          (by show -(2 : Int) ^ 31 ≤ a.z + ops.DIM; omega) hfl
        have hfire : scanFires vops fops t a b :=
          ⟨hxy.1, hxy.2, hdz, ca, cb, ha, hb, hneg.1, hneg.2⟩
        refine ⟨t1, h1, fun k => ⟨?_, ?_⟩⟩
        · rintro ⟨_, hx1, hy1, hz1, hz2, hka⟩
          exact (h2 k).1 ⟨hx1, hy1, aligned_gap haz hka hz1, hz2, hka⟩
        · intro hn
          apply (h2 k).2
          rintro ⟨hx1, hy1, hz1, hz2, hka⟩
          have hz3 : a.z + ops.DIM ≤ k.z := hz1
          exact hn ⟨hfire, hx1, hy1, by show a.z < k.z; omega, hz2, hka⟩
      · have hc : (!vops.lt (fops.getLastValue ca) vops.zeroVal ||
            !vops.lt (fops.getFirstValue cb) vops.zeroVal) = true := by
          cases h1 : vops.lt (fops.getLastValue ca) vops.zeroVal
          · rfl
          · cases h2 : vops.lt (fops.getFirstValue cb) vops.zeroVal
            · rfl
            · exact absurd ⟨h1, h2⟩ hneg
        rw [if_pos hc]
        apply skip
        rintro ⟨_, _, _, ca1, cb1, ha1, hb1, h1, h2⟩
        rw [ha] at ha1
        rw [hb] at hb1
        have e1 := NodeStruct.child.inj (Option.some.inj ha1)
        have e2 := NodeStruct.child.inj (Option.some.inj hb1)
        subst e1 e2
        exact hneg ⟨h1, h2⟩
  · have hcond : wrap32 (b.x - a.x) ≠ 0 ∨ wrap32 (b.y - a.y) ≠ 0 ∨
        wrap32 (b.z - a.z) = ops.DIM := by
      by_cases h1 : a.x = b.x
      · right; left
        intro h
        exact hxy ⟨h1, by have := hy.mp h; omega⟩
      · left
        intro h
        exact h1 (by have := hx.mp h; omega)
    rw [if_pos hcond]
    exact skip fun hf => hxy ⟨hf.1, hf.2.1⟩

theorem scanFires_congr (vops : ValueOps V) (fops : FloodOps ops)
    {t t1 : MapType V ops.Child} {a b : Coord} (ha : t1.find a = t.find a)
    (hb : t1.find b = t.find b) :
    scanFires vops fops t1 a b ↔ scanFires vops fops t a b := by
  unfold scanFires
  rw [ha, hb]

theorem inGap_lt {a b k : Coord} (hx : a.x = b.x) (hy : a.y = b.y) (h : inGap ops a b k) :
    Coord.lt a k = true ∧ Coord.lt k b = true := by
  obtain ⟨h1, h2, h3, h4, _⟩ := h
  simp only [Coord.lt, Bool.or_eq_true, Bool.and_eq_true, decide_eq_true_eq]
  omega

/-- Effect of the z-scanline loop over a sorted list of node keys: exactly the keys in the
gap of a pair that passes the tests receive the inside tile. -/
theorem scanPairs_spec (vops : ValueOps V) (fops : FloodOps ops) (inside : V)
    (htot : ops.TOTAL < 31) (fuel : Nat) (hfuel : 2 ^ 32 ≤ fuel) :
    ∀ (ks : List Coord) (t : MapType V ops.Child),
      ks.Pairwise (fun a b => Coord.lt a b = true) →
      (∀ k ∈ ks, k.inRange ∧ alignDown k.z ops.TOTAL = k.z ∧
        ∃ c, t.find k = some (.child c)) →
      ∃ t1, scanPairs vops fops inside fuel ks t = some t1 ∧
        ∀ k, ((∃ p, p ∈ ks.zip ks.tail ∧ scanFires vops fops t p.1 p.2 ∧
              inGap ops p.1 p.2 k) → t1.find k = some (.tile ⟨inside, false⟩)) ∧
          (¬ (∃ p, p ∈ ks.zip ks.tail ∧ scanFires vops fops t p.1 p.2 ∧
              inGap ops p.1 p.2 k) → t1.find k = t.find k) := by
  intro ks
  induction ks with
  | nil =>
    intro t _ _
    refine ⟨t, rfl, fun k => ⟨?_, fun _ => rfl⟩⟩
    rintro ⟨p, hp, _⟩
    exact absurd hp (List.not_mem_nil p)
  | cons a rest ih =>
    intro t hs hk
    cases rest with
    | nil =>
      refine ⟨t, rfl, fun k => ⟨?_, fun _ => rfl⟩⟩
      rintro ⟨p, hp, _⟩
      exact absurd hp (List.not_mem_nil p)
    | cons b rest2 =>
      rw [List.pairwise_cons] at hs
      obtain ⟨hsa, hsr⟩ := hs
      have hab : Coord.lt a b = true := hsa b (List.mem_cons_self _ _)
      obtain ⟨har, haz, ca, hca⟩ := hk a (List.mem_cons_self _ _)
      obtain ⟨hbr, hbz, cb, hcb⟩ := hk b (List.mem_cons_of_mem _ (List.mem_cons_self _ _))
      obtain ⟨t1, e1, s1⟩ := scanPair_spec vops fops inside htot fuel hfuel a b t ca cb hca hcb
        har hbr haz hbz hab
      have hkeep : ∀ k ∈ b :: rest2, t1.find k = t.find k := by
        intro k hkm
        apply (s1 k).2
        rintro ⟨hf, hg⟩
        have hkb := (inGap_lt hf.1 hf.2.1 hg).2
        rcases List.mem_cons.mp hkm with rfl | hkr
        · rw [Coord.lt_irrefl] at hkb
          exact Bool.noConfusion hkb
        · have hbk : Coord.lt b k = true := (List.pairwise_cons.mp hsr).1 k hkr
          rw [Coord.lt_asymm hbk] at hkb
          exact Bool.noConfusion hkb
      obtain ⟨t2, e2, s2⟩ := ih t1 hsr (fun k hkm => by
        obtain ⟨h1, h2, c, hc⟩ := hk k (List.mem_cons_of_mem _ hkm)
        exact ⟨h1, h2, c, by rw [hkeep k hkm]; exact hc⟩)
      have hfc : ∀ p, p ∈ (b :: rest2).zip (b :: rest2).tail →
          (scanFires vops fops t1 p.1 p.2 ↔ scanFires vops fops t p.1 p.2) := by
        intro p hp
        obtain ⟨p1, p2⟩ := p
        have hm := List.of_mem_zip hp
        exact scanFires_congr vops fops (hkeep _ hm.1)
          (hkeep _ (List.mem_of_mem_tail hm.2))
      refine ⟨t2, by simp only [scanPairs, e1]; exact e2, fun k => ⟨?_, ?_⟩⟩
      · rintro ⟨p, hp, hf, hg⟩
        rw [List.tail_cons, List.zip_cons_cons] at hp
        rcases List.mem_cons.mp hp with rfl | hp1
        · by_cases hlater : ∃ q, q ∈ (b :: rest2).zip (b :: rest2).tail ∧
              scanFires vops fops t1 q.1 q.2 ∧ inGap ops q.1 q.2 k
          · exact (s2 k).1 hlater
          · rw [(s2 k).2 hlater]
            exact (s1 k).1 ⟨hf, hg⟩
        · exact (s2 k).1 ⟨p, hp1, (hfc p hp1).mpr hf, hg⟩
      · intro hn
        have hn2 : ¬ ∃ q, q ∈ (b :: rest2).zip (b :: rest2).tail ∧
            scanFires vops fops t1 q.1 q.2 ∧ inGap ops q.1 q.2 k := by
          rintro ⟨q, hq, hf, hg⟩
          apply hn
          refine ⟨q, ?_, (hfc q hq).mp hf, hg⟩
          rw [List.tail_cons, List.zip_cons_cons]
          exact List.mem_cons_of_mem _ hq
        have hn1 : ¬ (scanFires vops fops t a b ∧ inGap ops a b k) := by
          rintro ⟨hf, hg⟩
          apply hn
          refine ⟨(a, b), ?_, hf, hg⟩
          rw [List.tail_cons, List.zip_cons_cons]
          exact List.mem_cons_self _ _
        rw [(s2 k).2 hn2, (s1 k).2 hn1]

/-- Two neighbouring elements of a sorted list form one of its consecutive pairs. -/
theorem mem_zip_tail_of_adjacent :
    ∀ (ks : List Coord), ks.Pairwise (fun a b => Coord.lt a b = true) → ∀ a b, a ∈ ks →
      b ∈ ks → Coord.lt a b = true →
      (∀ k ∈ ks, ¬ (Coord.lt a k = true ∧ Coord.lt k b = true)) → (a, b) ∈ ks.zip ks.tail := by
  intro ks
  induction ks with
  | nil => intro _ a b ha; exact absurd ha (List.not_mem_nil a)
  | cons x rest ih =>
    intro hs a b ha hb hab hno
    rw [List.pairwise_cons] at hs
    have hbx : b ≠ x := by
      rintro rfl
      rcases List.mem_cons.mp ha with rfl | har
      · rw [Coord.lt_irrefl] at hab
        exact Bool.noConfusion hab
      · rw [Coord.lt_asymm (hs.1 a har)] at hab
        exact Bool.noConfusion hab
    have hbr : b ∈ rest := by
      rcases List.mem_cons.mp hb with h | h
      · exact absurd h hbx
      · exact h
    cases rest with
    | nil => exact absurd hbr (List.not_mem_nil b)
    | cons y rest2 =>
      rw [List.tail_cons, List.zip_cons_cons]
      rcases List.mem_cons.mp ha with rfl | har
      · have hay : Coord.lt a y = true := hs.1 y (List.mem_cons_self _ _)
        have hyb : y = b := by
          by_contra hne
          rcases List.mem_cons.mp hbr with h | h
          · exact hne h.symm
          · have hyb := (List.pairwise_cons.mp hs.2).1 b h
            exact hno y (List.mem_cons_of_mem _ (List.mem_cons_self _ _)) ⟨hay, hyb⟩
        rw [hyb]
        exact List.mem_cons_self _ _
      · exact List.mem_cons_of_mem _ (ih hs.2 a b har hbr hab
          (fun k hk => hno k (List.mem_cons_of_mem _ hk)))

/-- The gaps of two different consecutive pairs of a sorted list do not meet. -/
theorem zip_tail_gap_unique :
    ∀ (ks : List Coord), ks.Pairwise (fun a b => Coord.lt a b = true) → ∀ p q k,
      p ∈ ks.zip ks.tail → q ∈ ks.zip ks.tail →
      Coord.lt p.1 k = true → Coord.lt k p.2 = true →
      Coord.lt q.1 k = true → Coord.lt k q.2 = true → p = q := by
  intro ks
  induction ks with
  | nil => intro _ p q k hp; exact absurd hp (List.not_mem_nil p)
  | cons x rest ih =>
    intro hs p q k hp hq hp1 hp2 hq1 hq2
    cases rest with
    | nil => exact absurd hp (List.not_mem_nil p)
    | cons y rest2 =>
      rw [List.pairwise_cons] at hs
      rw [List.tail_cons, List.zip_cons_cons] at hp hq
      have later : ∀ r, r ∈ (y :: rest2).zip (y :: rest2).tail → Coord.lt r.1 k = true →
          Coord.lt k y = true → False := by
        intro r hr hr1 hky
        have hm := (List.of_mem_zip (show (r.1, r.2) ∈ _ from hr)).1
        rcases List.mem_cons.mp hm with h | h
        · rw [h] at hr1
          rw [Coord.lt_asymm hr1] at hky
          exact Bool.noConfusion hky
        · have hyr := (List.pairwise_cons.mp hs.2).1 _ h
          have := Coord.lt_trans hyr hr1
          rw [Coord.lt_asymm this] at hky
          exact Bool.noConfusion hky
      rcases List.mem_cons.mp hp with rfl | hp3
      · rcases List.mem_cons.mp hq with rfl | hq3
        · rfl
        · exact absurd (later q hq3 hq1 hp2) id
      · rcases List.mem_cons.mp hq with rfl | hq3
        · exact absurd (later p hp3 hp1 hq2) id
        · exact ih hs.2 p q k hp3 hq3 hp1 hp2 hq1 hq2

theorem mem_of_find {t : MapType V ops.Child} {k : Coord} {e : NodeStruct V ops.Child}
    (h : t.find k = some e) : (k, e) ∈ t := by
  induction t with
  | nil => exact Option.noConfusion h
  | cons hd tl ih =>
    obtain ⟨k1, e1⟩ := hd
    by_cases hk : k1 = k
    · simp only [MapType.find, hk, if_true, Option.some.injEq] at h
      rw [hk, h]
      exact List.mem_cons_self _ _
    · simp only [MapType.find, hk, if_false] at h
      exact List.mem_cons_of_mem _ (ih h)

theorem find_floodChildren_child (fops : FloodOps ops) (outside inside : V)
    (t : MapType V ops.Child) (k : Coord) (c1 : ops.Child)
    (h : (floodChildren fops outside inside t).find k = some (.child c1)) :
    ∃ c, t.find k = some (.child c) := by
  rw [find_floodChildren] at h
  cases hf : t.find k with
  | none => rw [hf] at h; exact Option.noConfusion h
  | some e =>
    cases e with
    | tile tl =>
      rw [hf] at h
      exact NodeStruct.noConfusion (Option.some.inj h)
    | child c => exact ⟨c, rfl⟩

/-- C13 (signed flood fill fills sandwiched root cubes): in a root whose children sit at
aligned `Int32` keys, let two children have the keys `(x,y,z0)` and `(x,y,z1)` with
`z1 - z0 > DIM` and no other child key between them in the key order. Then
`signedFloodFill(outside, inside)` finishes and sets the background to `outside`; if, after
the children were flood-filled, the last value of the first child and the first value of
the second are both below zero, every aligned key `(x,y,z)` with `z0 < z < z1` holds the
inactive tile of value `inside`, so that there `getValue` is `inside`, `isValueOn` is false
and `getValueDepth` is 0; if one of the two values is not below zero, no entry between the
two keys is changed. -/
theorem signedFloodFill_sandwich (vops : ValueOps V) (fops : FloodOps ops)
    (lops : LevelOps ops) (r : RootNode V ops) (hwf : r.mTable.WF) (htot : ops.TOTAL < 31)
    (hkeys : ∀ e ∈ r.mTable, e.2.isChild = true → e.1.inRange ∧ coordToKey ops e.1 = e.1)
    (outside inside : V) (fuel : Nat) (hfuel : 2 ^ 32 ≤ fuel) (x y z0 z1 : Int)
    (ca cb : ops.Child) (ha : r.mTable.find ⟨x, y, z0⟩ = some (.child ca))
    (hb : r.mTable.find ⟨x, y, z1⟩ = some (.child cb)) (hgap : z1 - z0 > ops.DIM)
    (hbetween : ∀ e ∈ r.mTable, e.2.isChild = true →
      ¬ (Coord.lt ⟨x, y, z0⟩ e.1 = true ∧ Coord.lt e.1 ⟨x, y, z1⟩ = true)) :
    ∃ r1, r.signedFloodFill vops fops outside inside fuel = some r1 ∧
      r1.mBackground = outside ∧
      ((vops.lt (fops.getLastValue (fops.signedFloodFill ca outside inside)) vops.zeroVal
            = true ∧
          vops.lt (fops.getFirstValue (fops.signedFloodFill cb outside inside)) vops.zeroVal
            = true) →
        ∀ z, z0 < z → z < z1 → alignDown z ops.TOTAL = z →
          r1.mTable.find ⟨x, y, z⟩ = some (.tile ⟨inside, false⟩) ∧
          ∀ p, coordToKey ops p = ⟨x, y, z⟩ →
            r1.getValue p = inside ∧ r1.isValueOn p = false ∧ r1.getValueDepth lops p = 0) ∧
      (¬ (vops.lt (fops.getLastValue (fops.signedFloodFill ca outside inside)) vops.zeroVal
            = true ∧
          vops.lt (fops.getFirstValue (fops.signedFloodFill cb outside inside)) vops.zeroVal
            = true) →
        ∀ k, Coord.lt ⟨x, y, z0⟩ k = true → Coord.lt k ⟨x, y, z1⟩ = true →
          r1.mTable.find k = r.mTable.find k) := by
  have hD : (0 : Int) < ops.DIM := two_pow_pos_int _
  have hwf1 : (floodChildren fops outside inside r.mTable).WF :=
    MapType.WF_map_of_key _ (fun i => by cases i.2 <;> rfl) hwf
  have hs := nodeKeys_sorted hwf1
  have hchild : ∀ k c1, (floodChildren fops outside inside r.mTable).find k
      = some (.child c1) → k.inRange ∧ coordToKey ops k = k ∧
        ¬ (Coord.lt ⟨x, y, z0⟩ k = true ∧ Coord.lt k ⟨x, y, z1⟩ = true) := by
    intro k c1 h
    obtain ⟨c, hc⟩ := find_floodChildren_child fops outside inside _ k c1 h
    have hm := mem_of_find hc
    exact ⟨(hkeys _ hm rfl).1, (hkeys _ hm rfl).2, hbetween _ hm rfl⟩
  obtain ⟨t2, e2, s2⟩ := scanPairs_spec vops fops inside htot fuel hfuel
    (nodeKeys (floodChildren fops outside inside r.mTable))
    (floodChildren fops outside inside r.mTable) hs (fun k hk => by
      obtain ⟨c1, hc1⟩ := (mem_nodeKeys hwf1 k).mp hk
      obtain ⟨h1, h2, _⟩ := hchild k c1 hc1
      exact ⟨h1, (aligned_components h2).2.2, c1, hc1⟩)
  have ha1 : (floodChildren fops outside inside r.mTable).find ⟨x, y, z0⟩
      = some (.child (fops.signedFloodFill ca outside inside)) := by
    rw [find_floodChildren, ha]
  have hb1 : (floodChildren fops outside inside r.mTable).find ⟨x, y, z1⟩
      = some (.child (fops.signedFloodFill cb outside inside)) := by
    rw [find_floodChildren, hb]
  have hab : Coord.lt ⟨x, y, z0⟩ ⟨x, y, z1⟩ = true := by
    have hz : z0 < z1 := by omega
    simp [Coord.lt, hz]
  have hpair : ((⟨x, y, z0⟩ : Coord), (⟨x, y, z1⟩ : Coord)) ∈
      (nodeKeys (floodChildren fops outside inside r.mTable)).zip
        (nodeKeys (floodChildren fops outside inside r.mTable)).tail :=
    mem_zip_tail_of_adjacent _ hs _ _ ((mem_nodeKeys hwf1 _).mpr ⟨_, ha1⟩)
      ((mem_nodeKeys hwf1 _).mpr ⟨_, hb1⟩) hab (fun k hk => by
        obtain ⟨c1, hc1⟩ := (mem_nodeKeys hwf1 k).mp hk
        exact (hchild k c1 hc1).2.2)
  refine ⟨⟨t2, outside⟩, by simp only [signedFloodFill, e2], rfl, ?_, ?_⟩
  · intro hneg z hz0 hz1 hza
    have hfire : scanFires vops fops (floodChildren fops outside inside r.mTable)
        ⟨x, y, z0⟩ ⟨x, y, z1⟩ :=
      ⟨rfl, rfl, by show z1 - z0 ≠ ops.DIM; omega, _, _, ha1, hb1, hneg.1, hneg.2⟩
    have hfind : t2.find ⟨x, y, z⟩ = some (.tile ⟨inside, false⟩) :=
      (s2 ⟨x, y, z⟩).1 ⟨_, hpair, hfire, rfl, rfl, hz0, hz1, hza⟩
    refine ⟨hfind, fun p hp => ?_⟩
    simp only [getValue, isValueOn, getValueDepth, findCoord, hp, hfind, and_self]
  · intro hneg k hk0 hk1
    have hno : ¬ ∃ p, p ∈ (nodeKeys (floodChildren fops outside inside r.mTable)).zip
        (nodeKeys (floodChildren fops outside inside r.mTable)).tail ∧
        scanFires vops fops (floodChildren fops outside inside r.mTable) p.1 p.2 ∧
        inGap ops p.1 p.2 k := by
      rintro ⟨p, hp, hf, hg⟩
      obtain ⟨h1, h2⟩ := inGap_lt hf.1 hf.2.1 hg
      have hpq := zip_tail_gap_unique _ hs p (⟨x, y, z0⟩, ⟨x, y, z1⟩) k hp hpair h1 h2 hk0 hk1
      subst hpq
      obtain ⟨_, _, _, ca1, cb1, hca1, hcb1, hl, hf1⟩ := hf
      rw [ha1] at hca1
      rw [hb1] at hcb1
      have e1 := NodeStruct.child.inj (Option.some.inj hca1)
      have e3 := NodeStruct.child.inj (Option.some.inj hcb1)
      rw [← e1] at hl
      rw [← e3] at hf1
      exact hneg ⟨hl, hf1⟩
    show t2.find k = r.mTable.find k
    rw [(s2 k).2 hno, find_floodChildren]
    cases hf : r.mTable.find k with
    | none => rfl
    | some e =>
      cases e with
      | tile tl => rfl
      | child c => exact absurd ⟨hk0, hk1⟩ (hbetween _ (mem_of_find hf) rfl)

theorem sampleScan_WF : sampleScan.mTable.WF := by
  simp [sampleScan, MapType.WF, Coord.lt]

/-- Instance of C13 on `sampleScan` (child side 2): the children at (0,0,0) and (0,0,6)
face each other with the value -1, so the keys (0,0,2), which held an active tile, and
(0,0,4), which was absent, hold the inactive tile of value -2 afterwards. -/
theorem signedFloodFill_sandwich_witness :
    ∃ r1, sampleScan.signedFloodFill intOps (denseFloodOps intOps) 2 (-2) (2 ^ 32) = some r1 ∧
      r1.mBackground = 2 ∧
      r1.mTable.find ⟨0, 0, 2⟩ = some (.tile ⟨-2, false⟩) ∧
      r1.mTable.find ⟨0, 0, 4⟩ = some (.tile ⟨-2, false⟩) ∧
      r1.getValue ⟨1, 1, 5⟩ = -2 ∧ r1.isValueOn ⟨1, 1, 5⟩ = false ∧
      r1.getValueDepth (denseLevelOps Int) ⟨1, 1, 5⟩ = 0 := by
  obtain ⟨r1, h1, h2, h3, _⟩ := signedFloodFill_sandwich intOps (denseFloodOps intOps)
    (denseLevelOps Int) sampleScan sampleScan_WF (by decide)
    (by
      intro e he
      simp only [sampleScan, List.mem_cons, List.mem_singleton, List.not_mem_nil,
        or_false] at he
      rcases he with rfl | rfl | rfl
      · intro _
        exact ⟨by simp [Coord.inRange], rfl⟩
      · intro h
        exact Bool.noConfusion h
      · intro _
        exact ⟨by simp [Coord.inRange], rfl⟩)
    2 (-2) (2 ^ 32) (le_refl _) 0 0 0 6 _ _ rfl rfl (by decide)
    (by
      intro e he
      simp only [sampleScan, List.mem_cons, List.mem_singleton, List.not_mem_nil,
        or_false] at he
      rcases he with rfl | rfl | rfl
      · intro _
        decide
      · intro h
        exact Bool.noConfusion h
      · intro _
        decide)
  have hneg := h3 (by decide)
  exact ⟨r1, h1, h2, (hneg 2 (by decide) (by decide) rfl).1,
    (hneg 4 (by decide) (by decide) rfl).1,
    (hneg 4 (by decide) (by decide) rfl).2 ⟨1, 1, 5⟩ rfl⟩

/-! ## Merge -/

/-- C14 (merge always empties the donor): for all roots `a` and `b`, after `a.merge(b)` the
table of `b` has no entries, so `b.getTableSize()` is 0, `b.empty()` is true and
`b.onVoxelCount()` is 0, whether or not any node was moved; the background of `b` is
kept. -/
theorem merge_empties_donor (mops : MergeOps ops) (vops : ValueOps V) (cops : CountOps ops)
    (a b : RootNode V ops) :
    (merge mops a b).2.mTable = [] ∧ (merge mops a b).2.getTableSize = 0 ∧
    (merge mops a b).2.empty vops = true ∧ (merge mops a b).2.onVoxelCount cops = 0 ∧
    (merge mops a b).2.mBackground = b.mBackground := by
  refine ⟨rfl, rfl, ?_, rfl, rfl⟩
  simp [merge, clear, empty, numBackgroundTiles]

theorem mergeStep_find (mops : MergeOps ops) (obg : V) (r : RootNode V ops)
    (i : Coord × NodeStruct V ops.Child) (k : Coord) :
    (mergeStep mops obg r i).mBackground = r.mBackground ∧
    (mergeStep mops obg r i).mTable.find k =
      if i.1 = k then mergedEntry mops obg r.mBackground (some i.2) (r.mTable.find k)
      else r.mTable.find k := by
  obtain ⟨k1, e⟩ := i
  by_cases hk : k1 = k
  · subst hk
    simp only [if_true]
    cases e with
    | child oc =>
      cases hf : r.mTable.find k1 with
      | none => simp only [mergeStep, hf, mergedEntry, MapType.find_assign_self, and_self]
      | some ea =>
        cases ea <;>
          simp only [mergeStep, hf, mergedEntry, MapType.find_assign_self, and_self]
    | tile ot =>
      cases hf : r.mTable.find k1 with
      | none => simp only [mergeStep, hf, mergedEntry, MapType.find_assign_self, and_self]
      | some ea => simp only [mergeStep, hf, mergedEntry, and_self]
  · simp only [hk, if_false]
    cases e with
    | child oc =>
      cases hf : r.mTable.find k1 with
      | none =>
        simp only [mergeStep, hf, MapType.find_assign_other _ _ _ _ hk, and_self]
      | some ea =>
        cases ea <;>
          simp only [mergeStep, hf, MapType.find_assign_other _ _ _ _ hk, and_self]
    | tile ot =>
      cases hf : r.mTable.find k1 with
      | none =>
        simp only [mergeStep, hf, MapType.find_assign_other _ _ _ _ hk, and_self]
      | some ea => simp only [mergeStep, hf, and_self]

/-- Effect of the whole loop of `merge` over a table with distinct keys. -/
theorem merge_fold (mops : MergeOps ops) (obg : V) (k : Coord) :
    ∀ (L : MapType V ops.Child) (r : RootNode V ops), L.WF →
      (L.foldl (mergeStep mops obg) r).mBackground = r.mBackground ∧
      (L.foldl (mergeStep mops obg) r).mTable.find k =
        mergedEntry mops obg r.mBackground (L.find k) (r.mTable.find k) := by
  intro L
  induction L with
  | nil => intro r _; exact ⟨rfl, rfl⟩
  | cons hd tl ih =>
    intro r hwf
    obtain ⟨hwf2, hnone⟩ := MapType.WF_tail hwf
    obtain ⟨h1, h2⟩ := ih (mergeStep mops obg r hd) hwf2
    obtain ⟨s1, s2⟩ := mergeStep_find mops obg r hd k
    rw [List.foldl_cons]
    refine ⟨h1.trans s1, ?_⟩
    rw [h2, s1, s2]
    obtain ⟨k1, e⟩ := hd
    by_cases hk : k1 = k
    · subst hk
      simp only at hnone
      simp only [if_true, MapType.find, hnone]
      rfl
    · simp only [hk, if_false, MapType.find]

/-- C15 (merge rule per root key): after `a.merge(b)`, where the table of `b` is a
`std::map`, for every key `k` that `b` had: if `a` had no entry at `k`, `a` now holds the
entry of `b` (its child, or its tile); if `a` had a tile and `b` a child, `a` now holds the
child of `b`; if both had children, the child of `a` is the child-level merge of the two;
if the entry of `b` was a tile and `a` had an entry, that entry is unchanged. Every key
that `b` did not have is unchanged in `a`, so the key set of `a` afterwards is the union of
both key sets; the background of `a` is unchanged. -/
theorem merge_rule (mops : MergeOps ops) (a b : RootNode V ops) (hb : b.mTable.WF)
    (k : Coord) :
    (merge mops a b).1.mBackground = a.mBackground ∧
    (b.mTable.find k = none → (merge mops a b).1.mTable.find k = a.mTable.find k) ∧
    (∀ bc, b.mTable.find k = some (.child bc) → a.mTable.find k = none →
      (merge mops a b).1.mTable.find k = some (.child bc)) ∧
    (∀ bc t, b.mTable.find k = some (.child bc) → a.mTable.find k = some (.tile t) →
      (merge mops a b).1.mTable.find k = some (.child bc)) ∧
    (∀ bc ac, b.mTable.find k = some (.child bc) → a.mTable.find k = some (.child ac) →
      (merge mops a b).1.mTable.find k
        = some (.child (mops.merge ac bc b.mBackground a.mBackground))) ∧
    (∀ bt, b.mTable.find k = some (.tile bt) → a.mTable.find k = none →
      (merge mops a b).1.mTable.find k = some (.tile bt)) ∧
    (∀ bt e, b.mTable.find k = some (.tile bt) → a.mTable.find k = some e →
      (merge mops a b).1.mTable.find k = some e) ∧
    ((merge mops a b).1.mTable.find k).isSome
      = ((a.mTable.find k).isSome || (b.mTable.find k).isSome) := by
  obtain ⟨h1, h2⟩ := merge_fold mops b.mBackground k b.mTable a hb
  have h3 : (merge mops a b).1.mTable.find k =
      mergedEntry mops b.mBackground a.mBackground (b.mTable.find k) (a.mTable.find k) := h2
  refine ⟨h1, ?_, ?_, ?_, ?_, ?_, ?_, ?_⟩
  · intro hbk
    rw [h3, hbk]
    rfl
  · intro bc hbk hak
    rw [h3, hbk, hak]
    rfl
  · intro bc t hbk hak
    rw [h3, hbk, hak]
    rfl
  · intro bc ac hbk hak
    rw [h3, hbk, hak]
    rfl
  · intro bt hbk hak
    rw [h3, hbk, hak]
    rfl
  · intro bt e hbk hak
    rw [h3, hbk, hak]
    rfl
  · rw [h3]
    cases hbk : b.mTable.find k with
    | none => simp [mergedEntry]
    | some eb =>
      cases eb with
      | child bc =>
        cases hak : a.mTable.find k with
        | none => rfl
        | some ea => cases ea <;> rfl
      | tile bt =>
        cases hak : a.mTable.find k with
        | none => rfl
        | some ea => rfl

theorem sampleDonor_WF : sampleDonor.mTable.WF := by
  simp [sampleDonor, MapType.WF, Coord.lt]

/-- Instance of C15: `sampleDonor` merged into `sampleRoot`. The tile of `sampleRoot` at
key (0,0,0) is replaced by the child of the donor, its tile at key (2,0,0) stays, the
children at key (4,0,0) are merged, and the tile at key (6,0,0) is copied. -/
theorem merge_rule_witness :
    sampleDonor.mTable.WF ∧
    (merge (denseMergeOps Int) sampleRoot sampleDonor).1.mTable.find ⟨0, 0, 0⟩
      = some (.child (DenseChild.setValueOn (DenseChild.make ⟨0, 0, 0⟩ 5 false) ⟨1, 0, 0⟩ 2)) ∧
    (merge (denseMergeOps Int) sampleRoot sampleDonor).1.mTable.find ⟨2, 0, 0⟩
      = some (.tile ⟨9, false⟩) ∧
    (merge (denseMergeOps Int) sampleRoot sampleDonor).1.mTable.find ⟨4, 0, 0⟩
      = some (.child (DenseChild.merge
          (DenseChild.setValueOn (DenseChild.make ⟨4, 0, 0⟩ 5 false) ⟨5, 0, 0⟩ 1)
          (DenseChild.setValueOn (DenseChild.make ⟨4, 0, 0⟩ 5 false) ⟨4, 1, 0⟩ 6))) ∧
    (merge (denseMergeOps Int) sampleRoot sampleDonor).1.mTable.find ⟨6, 0, 0⟩
      = some (.tile ⟨4, true⟩) :=
  ⟨sampleDonor_WF,
    (merge_rule (denseMergeOps Int) sampleRoot sampleDonor sampleDonor_WF ⟨0, 0, 0⟩).2.2.2.1
      _ _ rfl rfl,
    (merge_rule (denseMergeOps Int) sampleRoot sampleDonor sampleDonor_WF ⟨2, 0, 0⟩).2.2.2.2.2.2.1
      _ _ rfl rfl,
    (merge_rule (denseMergeOps Int) sampleRoot sampleDonor sampleDonor_WF ⟨4, 0, 0⟩).2.2.2.2.1
      _ _ rfl rfl,
    (merge_rule (denseMergeOps Int) sampleRoot sampleDonor sampleDonor_WF ⟨6, 0, 0⟩).2.2.2.2.2.1
      _ rfl rfl⟩

/-! ## Background -/

theorem find_setBackground (vops : ValueOps V) (bops : BackgroundOps ops) (r : RootNode V ops)
    (b2 : V) (h : b2 ≠ r.mBackground) (k : Coord) :
    (r.setBackground vops bops b2).mTable.find k =
      match r.mTable.find k with
      | none => none
      | some (.tile t) => some (.tile (setBackgroundTile vops r.mBackground b2 t))
      | some (.child c) => some (.child (bops.resetBackground c r.mBackground b2)) := by
  simp only [setBackground, h, if_false]
  generalize r.mTable = t
  induction t with
  | nil => rfl
  | cons hd tl ih =>
    obtain ⟨k1, e1⟩ := hd
    by_cases hk : k1 = k
    · cases e1 <;> simp [MapType.find, hk]
    · have ih1 : MapType.find (List.map _ tl) k = _ := ih
      cases e1 <;> simp only [List.map_cons, MapType.find, hk, if_false] <;> exact ih1

theorem keys_setBackground (vops : ValueOps V) (bops : BackgroundOps ops) (r : RootNode V ops)
    (b2 : V) : (r.setBackground vops bops b2).mTable.keys = r.mTable.keys := by
  by_cases h : b2 = r.mBackground
  · simp only [setBackground, h, if_true]
  · simp only [setBackground, h, if_false, MapType.keys, List.map_map]
    apply List.map_congr_left
    intro i _
    cases hi : i.2 <;> simp [hi]

/-- C16 (`setBackground(b2)` on a root of background `b1`): afterwards the background is
`b2` and `getValue` at a coordinate without a root entry returns `b2`; the key set is
unchanged, a tile stays a tile with the same active flag and a child stays a child. When
`b2` is exactly equal to `b1` nothing changes. Otherwise an inactive tile whose value was
approximately `b1` has the value `b2`, an inactive tile whose value was approximately `-b1`
and not approximately `b1` has the value `-b2`, and every other tile, in particular every
active tile, keeps its value. -/
theorem setBackground_effect (vops : ValueOps V) (bops : BackgroundOps ops)
    (r : RootNode V ops) (b2 : V) :
    (r.setBackground vops bops b2).mBackground = b2 ∧
    (∀ p, r.mTable.find (coordToKey ops p) = none →
      (r.setBackground vops bops b2).getValue p = b2) ∧
    (r.setBackground vops bops b2).mTable.keys = r.mTable.keys ∧
    (∀ k t, r.mTable.find k = some (.tile t) →
      ∃ t1, (r.setBackground vops bops b2).mTable.find k = some (.tile t1) ∧
        t1.active = t.active ∧
        (b2 ≠ r.mBackground → t.active = false →
          vops.isApproxEqual t.value r.mBackground = true → t1.value = b2) ∧
        (b2 ≠ r.mBackground → t.active = false →
          vops.isApproxEqual t.value r.mBackground = false →
          vops.isApproxEqual t.value (vops.negative r.mBackground) = true →
          t1.value = vops.negative b2) ∧
        (t.active = true → t1.value = t.value) ∧
        (vops.isApproxEqual t.value r.mBackground = false →
          vops.isApproxEqual t.value (vops.negative r.mBackground) = false →
          t1.value = t.value)) ∧
    (∀ k c, r.mTable.find k = some (.child c) →
      ∃ c1, (r.setBackground vops bops b2).mTable.find k = some (.child c1)) ∧
    (b2 = r.mBackground → r.setBackground vops bops b2 = r) := by
  by_cases h : b2 = r.mBackground
  · have hsame : r.setBackground vops bops b2 = r := by
      simp only [setBackground, h, if_true]
    rw [hsame]
    refine ⟨h.symm, ?_, rfl, ?_, ?_, fun _ => rfl⟩
    · intro p hp
      simp only [getValue, findCoord, hp, h]
    · intro k t hk
      exact ⟨t, hk, rfl, fun hne => absurd h hne, fun hne => absurd h hne, fun _ => rfl,
        fun _ _ => rfl⟩
    · intro k c hk
      exact ⟨c, hk⟩
  · have hbg : (r.setBackground vops bops b2).mBackground = b2 := by
      simp only [setBackground, h, if_false]
    refine ⟨hbg, ?_, keys_setBackground vops bops r b2, ?_, ?_, fun he => absurd he h⟩
    · intro p hp
      have hf := find_setBackground vops bops r b2 h (coordToKey ops p)
      rw [hp] at hf
      simp only [getValue, findCoord, hf, hbg]
    · intro k t hk
      have hf := find_setBackground vops bops r b2 h k
      rw [hk] at hf
      refine ⟨_, hf, ?_, ?_, ?_, ?_, ?_⟩
      · unfold setBackgroundTile
        split
        · rfl
        · split
          · rfl
          · split <;> rfl
      · intro _ ha h1
        simp [setBackgroundTile, ha, h1]
      · intro _ ha h1 h2
        simp [setBackgroundTile, ha, h1, h2]
      · intro ha
        simp [setBackgroundTile, ha]
      · intro h1 h2
        simp [setBackgroundTile, h1, h2]
    · intro k c hk
      have hf := find_setBackground vops bops r b2 h k
      rw [hk] at hf
      exact ⟨_, hf⟩

/-- Instance of C16: `setBackground(3)` on `sampleSigned`, whose background is 5. The
inactive tiles of value 5 and -5 take the values 3 and -3; the active tile of value 5 and
the inactive tile of value 9 keep their values. -/
theorem setBackground_effect_witness :
    (3 : Int) ≠ sampleSigned.mBackground ∧
    (sampleSigned.setBackground intOps (denseBackgroundOps intOps) 3).mBackground = 3 ∧
    (sampleSigned.setBackground intOps (denseBackgroundOps intOps) 3).getValue ⟨9, 9, 9⟩ = 3 ∧
    (sampleSigned.setBackground intOps (denseBackgroundOps intOps) 3).mTable.find ⟨0, 0, 0⟩
      = some (.tile ⟨3, false⟩) ∧
    (sampleSigned.setBackground intOps (denseBackgroundOps intOps) 3).mTable.find ⟨2, 0, 0⟩
      = some (.tile ⟨-3, false⟩) ∧
    (sampleSigned.setBackground intOps (denseBackgroundOps intOps) 3).mTable.find ⟨4, 0, 0⟩
      = some (.tile ⟨5, true⟩) ∧
    (sampleSigned.setBackground intOps (denseBackgroundOps intOps) 3).mTable.find ⟨6, 0, 0⟩
      = some (.tile ⟨9, false⟩) :=
  ⟨by decide,
    (setBackground_effect intOps (denseBackgroundOps intOps) sampleSigned 3).1,
    (setBackground_effect intOps (denseBackgroundOps intOps) sampleSigned 3).2.1 ⟨9, 9, 9⟩ rfl,
    rfl, rfl, rfl, rfl⟩

/-! ## Value depth -/

/-- C17 (`getValueDepth`): the depth is -1 when the table has no entry at `coordToKey(p)`,
0 when that entry is a tile, and `LEVEL - child.getValueLevel(p)` when it is a child, which
lies in `1..LEVEL` when the child reports a level in `0..LEVEL-1` and is `LEVEL` for a
value stored in a leaf voxel (level 0). When the children report such levels, the depth is
-1 exactly when there is no entry and 0 exactly when the entry is a tile. In the standard
four-level tree `LEVEL` is 3, and after `setValueOn((5,10,20), v)` on an empty tree the
depth is 3 at (5,10,20) and at (7,10,20), 2 at (8,10,20) and -1 at (-5,-10,-20). -/
theorem getValueDepth_cases (lops : LevelOps ops) (r : RootNode V ops) (p : Coord) :
    (r.mTable.find (coordToKey ops p) = none → r.getValueDepth lops p = -1) ∧
    (∀ t, r.mTable.find (coordToKey ops p) = some (.tile t) → r.getValueDepth lops p = 0) ∧
    (∀ c, r.mTable.find (coordToKey ops p) = some (.child c) →
      r.getValueDepth lops p = (LEVEL ops : Int) - (lops.getValueLevel c p : Int) ∧
      (lops.getValueLevel c p < LEVEL ops →
        1 ≤ r.getValueDepth lops p ∧ r.getValueDepth lops p ≤ (LEVEL ops : Int)) ∧
      (lops.getValueLevel c p = 0 → r.getValueDepth lops p = (LEVEL ops : Int))) ∧
    ((∀ c, r.mTable.find (coordToKey ops p) = some (.child c) →
        lops.getValueLevel c p < LEVEL ops) →
      (r.getValueDepth lops p = -1 ↔ r.mTable.find (coordToKey ops p) = none) ∧
      (r.getValueDepth lops p = 0 ↔ ∃ t, r.mTable.find (coordToKey ops p) = some (.tile t))) ∧
    (∀ bg v : V, LEVEL (stdOps V) = 3 ∧
      ((RootNode.new (stdOps V) bg).setValueOn ⟨5, 10, 20⟩ v).getValueDepth (stdLevelOps V)
        ⟨5, 10, 20⟩ = 3 ∧
      ((RootNode.new (stdOps V) bg).setValueOn ⟨5, 10, 20⟩ v).getValueDepth (stdLevelOps V)
        ⟨7, 10, 20⟩ = 3 ∧
      ((RootNode.new (stdOps V) bg).setValueOn ⟨5, 10, 20⟩ v).getValueDepth (stdLevelOps V)
        ⟨8, 10, 20⟩ = 2 ∧
      ((RootNode.new (stdOps V) bg).setValueOn ⟨5, 10, 20⟩ v).getValueDepth (stdLevelOps V)
        ⟨-5, -10, -20⟩ = -1) := by
  refine ⟨?_, ?_, ?_, ?_, ?_⟩
  · intro h
    simp only [getValueDepth, findCoord, h]
  · intro t h
    simp only [getValueDepth, findCoord, h]
  · intro c h
    have hd : r.getValueDepth lops p = (LEVEL ops : Int) - (lops.getValueLevel c p : Int) := by
      simp only [getValueDepth, findCoord, h]
    refine ⟨hd, ?_, ?_⟩
    · intro hl
      rw [hd]
      omega
    · intro hl
      rw [hd, hl]
      simp
  · intro hl
    cases hf : r.mTable.find (coordToKey ops p) with
    | none =>
      simp only [getValueDepth, findCoord, hf]
      simp
    | some e =>
      cases e with
      | tile t =>
        simp only [getValueDepth, findCoord, hf]
        simp
      | child c =>
        have h1 := hl c hf
        have hd : r.getValueDepth lops p
            = (LEVEL ops : Int) - (lops.getValueLevel c p : Int) := by
          simp only [getValueDepth, findCoord, hf]
        rw [hd]
        constructor
        · constructor
          · intro h; omega
          · intro h; exact Option.noConfusion h
        · constructor
          · intro h; omega
          · rintro ⟨t, ht⟩
            exact NodeStruct.noConfusion (Option.some.inj ht)
  · intro bg v
    have hkey : coordToKey (stdOps V) ⟨-5, -10, -20⟩ = ⟨-4096, -4096, -4096⟩ := by
      show Coord.align 12 ⟨-5, -10, -20⟩ = _
      decide
    have hroot : ((RootNode.new (stdOps V) bg).setValueOn ⟨5, 10, 20⟩ v).mTable
        = [(⟨0, 0, 0⟩, .child ((stdOps V).setValueOn ((stdOps V).make ⟨5, 10, 20⟩ bg false)
            ⟨5, 10, 20⟩ v))] := rfl
    refine ⟨rfl, ?_, ?_, ?_, ?_⟩
    · with_unfolding_all rfl
    · with_unfolding_all rfl
    · with_unfolding_all rfl
    · simp only [getValueDepth, findCoord, hkey, hroot, MapType.find]
      rfl

/-- Instance of C17 on `sampleRoot`: no entry at the key of (9,9,9), a tile at the key of
(3,1,0), and a leaf child at the key of (5,0,0), where the depth is `LEVEL` = 1. -/
theorem getValueDepth_cases_witness :
    sampleRoot.getValueDepth (denseLevelOps Int) ⟨9, 9, 9⟩ = -1 ∧
    sampleRoot.getValueDepth (denseLevelOps Int) ⟨3, 1, 0⟩ = 0 ∧
    sampleRoot.getValueDepth (denseLevelOps Int) ⟨5, 0, 0⟩ = 1 :=
  ⟨(getValueDepth_cases (denseLevelOps Int) sampleRoot ⟨9, 9, 9⟩).1 rfl,
    (getValueDepth_cases (denseLevelOps Int) sampleRoot ⟨3, 1, 0⟩).2.1 _ rfl,
    ((getValueDepth_cases (denseLevelOps Int) sampleRoot ⟨5, 0, 0⟩).2.2.1 _ rfl).2.2 rfl⟩

/-! ## Value-only and state-only writes -/

theorem denseStateLaws (V : Type) : StateLaws (denseOps V) (denseStateOps V) where
  getValue_setValueOnly := by
    intro c p v q h
    have hv := dense_same_voxel h
    show DenseChild.getValue (DenseChild.setVoxel c p _) q = _
    simp only [DenseChild.setVoxel, DenseChild.getValue, hv]
    split <;> rfl
  isValueOn_setValueOnly := by
    intro c p v q h
    have hv := dense_same_voxel h
    show DenseChild.isValueOn (DenseChild.setVoxel c p _) q = DenseChild.isValueOn c q
    simp only [DenseChild.setVoxel, DenseChild.isValueOn, hv]
    split
    · rename_i hqp
      rw [hqp]
    · rfl
  getValue_setActiveState := by
    intro c p flag q h
    have hv := dense_same_voxel h
    show DenseChild.getValue (DenseChild.setVoxel c p _) q = DenseChild.getValue c q
    simp only [DenseChild.setVoxel, DenseChild.getValue, hv]
    split
    · rename_i hqp
      rw [hqp]
    · rfl
  isValueOn_setActiveState := by
    intro c p flag q h
    have hv := dense_same_voxel h
    show DenseChild.isValueOn (DenseChild.setVoxel c p _) q = _
    simp only [DenseChild.setVoxel, DenseChild.isValueOn, hv]
    split <;> rfl
  getValue_setValueOff := by
    intro c p q h
    have hv := dense_same_voxel h
    show DenseChild.getValue (DenseChild.setVoxel c p _) q = DenseChild.getValue c q
    simp only [DenseChild.setVoxel, DenseChild.getValue, hv]
    split
    · rename_i hqp
      rw [hqp]
    · rfl
  isValueOn_setValueOff := by
    intro c p q h
    have hv := dense_same_voxel h
    show DenseChild.isValueOn (DenseChild.setVoxel c p _) q = _
    simp only [DenseChild.setVoxel, DenseChild.isValueOn, hv]
    split <;> rfl

/-- Reading through the child that a single-voxel write builds from the old entry. -/
theorem fillChild_read (pl : PointLaws ops) (bg : V) (e : Option (NodeStruct V ops.Child))
    (p q : Coord) (h : coordToKey ops q = coordToKey ops p) :
    ops.getValue (fillChild ops bg e p) q = entryValue ops bg e q ∧
    ops.isValueOn (fillChild ops bg e p) q = entryActive ops e q := by
  cases e with
  | none => exact ⟨pl.getValue_make p bg false q h, pl.isValueOn_make p bg false q h⟩
  | some n =>
    cases n with
    | tile t => exact ⟨pl.getValue_make p t.value t.active q h, pl.isValueOn_make _ _ _ q h⟩
    | child c => exact ⟨rfl, rfl⟩

/-- Reading after the entry at the key of `p` was replaced by a child. -/
theorem read_assign_child (r : RootNode V ops) (p q : Coord) (c : ops.Child) :
    (⟨r.mTable.assign (coordToKey ops p) (.child c), r.mBackground⟩ : RootNode V ops).getValue q
      = (if coordToKey ops q = coordToKey ops p then ops.getValue c q else r.getValue q) ∧
    (⟨r.mTable.assign (coordToKey ops p) (.child c), r.mBackground⟩ : RootNode V ops).isValueOn q
      = (if coordToKey ops q = coordToKey ops p then ops.isValueOn c q else r.isValueOn q) := by
  by_cases h : coordToKey ops q = coordToKey ops p
  · simp only [h, if_true]
    exact getValue_assign_child r.mTable r.mBackground p q c h
  · simp only [h, if_false]
    exact getValue_assign_other r _ q _ (fun hk => h hk.symm)

/-- A value-only write that goes through a child built from the old entry. -/
theorem setValueOnly_through (pl : PointLaws ops) {sops : StateOps ops}
    (sl : StateLaws ops sops) (r : RootNode V ops) (p : Coord) (v : V) (q : Coord) :
    (⟨r.mTable.assign (coordToKey ops p) (.child (sops.setValueOnly
        (fillChild ops r.mBackground (r.mTable.find (coordToKey ops p)) p) p v)),
      r.mBackground⟩ : RootNode V ops).getValue q = (if q = p then v else r.getValue q) ∧
    (⟨r.mTable.assign (coordToKey ops p) (.child (sops.setValueOnly
        (fillChild ops r.mBackground (r.mTable.find (coordToKey ops p)) p) p v)),
      r.mBackground⟩ : RootNode V ops).isValueOn q = r.isValueOn q := by
  obtain ⟨h1, h2⟩ := read_assign_child r p q (sops.setValueOnly
    (fillChild ops r.mBackground (r.mTable.find (coordToKey ops p)) p) p v)
  rw [h1, h2]
  by_cases h : coordToKey ops q = coordToKey ops p
  · obtain ⟨f1, f2⟩ := fillChild_read pl r.mBackground (r.mTable.find (coordToKey ops p)) p q h
    simp only [h, if_true]
    rw [sl.getValue_setValueOnly _ _ _ _ h, sl.isValueOn_setValueOnly _ _ _ _ h, f1, f2,
      getValue_eq_entryValue, isValueOn_eq_entryActive, h]
    exact ⟨rfl, rfl⟩
  · have hqp : q ≠ p := fun hqp => h (by rw [hqp])
    simp only [h, if_false, hqp, and_self]

/-- C18 (`setValueOnly` preserves the active state): for every root node `r`, coordinate
`p` and value `v`, after `r.setValueOnly(p, v)` the value read at `p` is `v` and
`isValueOn(p)` is what it was before the call, so an inactive or absent voxel stays
inactive and an active voxel stays active; no other coordinate changes value or state. -/
theorem setValueOnly_effect (pl : PointLaws ops) {sops : StateOps ops}
    (sl : StateLaws ops sops) (r : RootNode V ops) (p : Coord) (v : V) :
    (r.setValueOnly sops p v).getValue p = v ∧
    (r.setValueOnly sops p v).isValueOn p = r.isValueOn p ∧
    ∀ q, q ≠ p → (r.setValueOnly sops p v).getValue q = r.getValue q ∧
      (r.setValueOnly sops p v).isValueOn q = r.isValueOn q := by
  have main : ∀ q, (r.setValueOnly sops p v).getValue q = (if q = p then v else r.getValue q) ∧
      (r.setValueOnly sops p v).isValueOn q = r.isValueOn q := by
    intro q
    have ht := setValueOnly_through pl sl r p v q
    cases hf : r.mTable.find (coordToKey ops p) with
    | none =>
      rw [hf] at ht
      simp only [setValueOnly, hf]
      exact ht
    | some n =>
      cases n with
      | child c =>
        rw [hf] at ht
        simp only [setValueOnly, hf]
        exact ht
      | tile t =>
        by_cases hv : t.value ≠ v
        · rw [hf] at ht
          have he : r.setValueOnly sops p v = ⟨r.mTable.assign (coordToKey ops p)
              (.child (sops.setValueOnly (ops.make p t.value t.active) p v)),
              r.mBackground⟩ := by
            simp only [setValueOnly, hf, if_pos hv]
          rw [he]
          exact ht
        · have hv1 : t.value = v := not_not.mp hv
          have he : r.setValueOnly sops p v = r := by
            simp only [setValueOnly, hf, if_neg hv]
          rw [he]
          refine ⟨?_, rfl⟩
          by_cases hqp : q = p
          · rw [if_pos hqp, hqp]
            simp only [getValue, findCoord, hf, hv1]
          · rw [if_neg hqp]
  refine ⟨?_, (main p).2, fun q hq => ?_⟩
  · rw [(main p).1]
    simp
  · rw [(main q).1, (main q).2]
    simp [hq]

/-- Instance of C18 on `sampleRoot`: a value-only write at (3,1,0), inside the inactive
tile of value 9, stores 4 there and leaves the voxel and its neighbour (2,1,0)
inactive. -/
theorem setValueOnly_effect_witness :
    (sampleRoot.setValueOnly (denseStateOps Int) ⟨3, 1, 0⟩ 4).getValue ⟨3, 1, 0⟩ = 4 ∧
    (sampleRoot.setValueOnly (denseStateOps Int) ⟨3, 1, 0⟩ 4).isValueOn ⟨3, 1, 0⟩ = false ∧
    (sampleRoot.setValueOnly (denseStateOps Int) ⟨3, 1, 0⟩ 4).getValue ⟨2, 1, 0⟩ = 9 :=
  ⟨(setValueOnly_effect (densePointLaws Int) (denseStateLaws Int) sampleRoot _ _).1,
    (setValueOnly_effect (densePointLaws Int) (denseStateLaws Int) sampleRoot _ _).2.1.trans rfl,
    ((setValueOnly_effect (densePointLaws Int) (denseStateLaws Int) sampleRoot ⟨3, 1, 0⟩ 4).2.2
      ⟨2, 1, 0⟩ (by decide)).1.trans rfl⟩

/-- A state-only write that goes through a child built from the old entry. -/
theorem setActiveState_through (pl : PointLaws ops) {sops : StateOps ops}
    (sl : StateLaws ops sops) (r : RootNode V ops) (p : Coord) (flag : Bool) (q : Coord) :
    (⟨r.mTable.assign (coordToKey ops p) (.child (sops.setActiveState
        (fillChild ops r.mBackground (r.mTable.find (coordToKey ops p)) p) p flag)),
      r.mBackground⟩ : RootNode V ops).getValue q = r.getValue q ∧
    (⟨r.mTable.assign (coordToKey ops p) (.child (sops.setActiveState
        (fillChild ops r.mBackground (r.mTable.find (coordToKey ops p)) p) p flag)),
      r.mBackground⟩ : RootNode V ops).isValueOn q
      = (if q = p then flag else r.isValueOn q) := by
  obtain ⟨h1, h2⟩ := read_assign_child r p q (sops.setActiveState
    (fillChild ops r.mBackground (r.mTable.find (coordToKey ops p)) p) p flag)
  rw [h1, h2]
  by_cases h : coordToKey ops q = coordToKey ops p
  · obtain ⟨f1, f2⟩ := fillChild_read pl r.mBackground (r.mTable.find (coordToKey ops p)) p q h
    simp only [h, if_true]
    rw [sl.getValue_setActiveState _ _ _ _ h, sl.isValueOn_setActiveState _ _ _ _ h, f1, f2,
      getValue_eq_entryValue, isValueOn_eq_entryActive, h]
    exact ⟨rfl, rfl⟩
  · have hqp : q ≠ p := fun hqp => h (by rw [hqp])
    simp only [h, if_false, hqp, and_self]

/-- The same for `setValueOff(xyz)`. -/
theorem setValueOff_through (pl : PointLaws ops) {sops : StateOps ops}
    (sl : StateLaws ops sops) (r : RootNode V ops) (p : Coord) (q : Coord) :
    (⟨r.mTable.assign (coordToKey ops p) (.child (sops.setValueOff
        (fillChild ops r.mBackground (r.mTable.find (coordToKey ops p)) p) p)),
      r.mBackground⟩ : RootNode V ops).getValue q = r.getValue q ∧
    (⟨r.mTable.assign (coordToKey ops p) (.child (sops.setValueOff
        (fillChild ops r.mBackground (r.mTable.find (coordToKey ops p)) p) p)),
      r.mBackground⟩ : RootNode V ops).isValueOn q
      = (if q = p then false else r.isValueOn q) := by
  obtain ⟨h1, h2⟩ := read_assign_child r p q (sops.setValueOff
    (fillChild ops r.mBackground (r.mTable.find (coordToKey ops p)) p) p)
  rw [h1, h2]
  by_cases h : coordToKey ops q = coordToKey ops p
  · obtain ⟨f1, f2⟩ := fillChild_read pl r.mBackground (r.mTable.find (coordToKey ops p)) p q h
    simp only [h, if_true]
    rw [sl.getValue_setValueOff _ _ _ h, sl.isValueOn_setValueOff _ _ _ h, f1, f2,
      getValue_eq_entryValue, isValueOn_eq_entryActive, h]
    exact ⟨rfl, rfl⟩
  · have hqp : q ≠ p := fun hqp => h (by rw [hqp])
    simp only [h, if_false, hqp, and_self]

/-- What is read after `setActiveState(p, flag)`. -/
theorem setActiveState_read (pl : PointLaws ops) {sops : StateOps ops}
    (sl : StateLaws ops sops) (r : RootNode V ops) (p : Coord) (flag : Bool) (q : Coord) :
    (r.setActiveState sops p flag).getValue q = r.getValue q ∧
    (r.setActiveState sops p flag).isValueOn q = (if q = p then flag else r.isValueOn q) := by
  have ht := setActiveState_through pl sl r p flag q
  have keep : ∀ a : Bool, r.isValueOn p = a → a = flag →
      r.getValue q = r.getValue q ∧ r.isValueOn q = (if q = p then flag else r.isValueOn q) := by
    intro a ha haf
    refine ⟨rfl, ?_⟩
    by_cases hqp : q = p
    · rw [if_pos hqp, hqp, ha, haf]
    · rw [if_neg hqp]
  cases hf : r.mTable.find (coordToKey ops p) with
  | none =>
    rw [hf] at ht
    cases flag with
    | true =>
      have he : r.setActiveState sops p true = ⟨r.mTable.assign (coordToKey ops p)
          (.child (sops.setActiveState (ops.make p r.mBackground false) p true)),
          r.mBackground⟩ := by
        simp only [setActiveState, hf, if_true]
      rw [he]
      exact ht
    | false =>
      have he : r.setActiveState sops p false = r := by
        simp only [setActiveState, hf, Bool.false_eq_true, if_false]
      rw [he]
      exact keep false (by simp only [isValueOn, findCoord, hf]) rfl
  | some n =>
    cases n with
    | child c =>
      rw [hf] at ht
      have he : r.setActiveState sops p flag = ⟨r.mTable.assign (coordToKey ops p)
          (.child (sops.setActiveState c p flag)), r.mBackground⟩ := by
        simp only [setActiveState, hf]
      rw [he]
      exact ht
    | tile t =>
      by_cases hv : flag ≠ t.active
      · rw [hf] at ht
        have hnot : (!flag) = t.active := by
          cases flag <;> cases hta : t.active <;> simp_all
        have he : r.setActiveState sops p flag = ⟨r.mTable.assign (coordToKey ops p)
            (.child (sops.setActiveState (ops.make p t.value t.active) p flag)),
            r.mBackground⟩ := by
          simp only [setActiveState, hf, if_pos hv, hnot]
        rw [he]
        exact ht
      · have he : r.setActiveState sops p flag = r := by
          simp only [setActiveState, hf, if_neg hv]
        rw [he]
        exact keep t.active (by simp only [isValueOn, findCoord, hf]) (not_not.mp hv).symm

/-- What is read after `setValueOff(p)`. -/
theorem setValueOff_read (pl : PointLaws ops) {sops : StateOps ops}
    (sl : StateLaws ops sops) (r : RootNode V ops) (p : Coord) (q : Coord) :
    (r.setValueOff sops p).getValue q = r.getValue q ∧
    (r.setValueOff sops p).isValueOn q = (if q = p then false else r.isValueOn q) := by
  have ht := setValueOff_through pl sl r p q
  have keep : r.isValueOn p = false →
      r.getValue q = r.getValue q ∧ r.isValueOn q = (if q = p then false else r.isValueOn q) := by
    intro ha
    refine ⟨rfl, ?_⟩
    by_cases hqp : q = p
    · rw [if_pos hqp, hqp, ha]
    · rw [if_neg hqp]
  cases hf : r.mTable.find (coordToKey ops p) with
  | none =>
    have he : r.setValueOff sops p = r := by
      simp only [setValueOff, hf]
    rw [he]
    exact keep (by simp only [isValueOn, findCoord, hf])
  | some n =>
    cases n with
    | child c =>
      rw [hf] at ht
      have he : r.setValueOff sops p = ⟨r.mTable.assign (coordToKey ops p)
          (.child (sops.setValueOff c p)), r.mBackground⟩ := by
        simp only [setValueOff, hf]
      rw [he]
      exact ht
    | tile t =>
      cases hta : t.active with
      | true =>
        rw [hf] at ht
        have he : r.setValueOff sops p = ⟨r.mTable.assign (coordToKey ops p)
            (.child (sops.setValueOff (ops.make p t.value t.active) p)), r.mBackground⟩ := by
          simp only [setValueOff, hf, hta, if_true]
        rw [he]
        exact ht
      | false =>
        have he : r.setValueOff sops p = r := by
          simp only [setValueOff, hf, hta, Bool.false_eq_true, if_false]
        rw [he]
        exact keep (by simp only [isValueOn, findCoord, hf, hta])

/-- C19 (`setActiveState` changes only the flag of one voxel): for every root node `r`,
coordinate `p` and flag, after `r.setActiveState(p, flag)` the state read at `p` is the
flag, `getValue(q)` is unchanged at every coordinate `q`, `p` included, and `isValueOn(q)`
is unchanged at every `q` other than `p`; `setValueOff(p)` without a value leaves the same
values and states as `setActiveState(p, false)`. -/
theorem setActiveState_effect (pl : PointLaws ops) {sops : StateOps ops}
    (sl : StateLaws ops sops) (r : RootNode V ops) (p : Coord) (flag : Bool) :
    (r.setActiveState sops p flag).isValueOn p = flag ∧
    (∀ q, (r.setActiveState sops p flag).getValue q = r.getValue q) ∧
    (∀ q, q ≠ p → (r.setActiveState sops p flag).isValueOn q = r.isValueOn q) ∧
    (∀ q, (r.setValueOff sops p).getValue q = (r.setActiveState sops p false).getValue q ∧
      (r.setValueOff sops p).isValueOn q = (r.setActiveState sops p false).isValueOn q) := by
  refine ⟨?_, fun q => (setActiveState_read pl sl r p flag q).1, fun q hq => ?_, fun q => ?_⟩
  · rw [(setActiveState_read pl sl r p flag p).2]
    simp
  · rw [(setActiveState_read pl sl r p flag q).2]
    simp [hq]
  · rw [(setValueOff_read pl sl r p q).1, (setValueOff_read pl sl r p q).2,
      (setActiveState_read pl sl r p false q).1, (setActiveState_read pl sl r p false q).2]
    exact ⟨rfl, rfl⟩

/-- Instance of C19 on `sampleRoot`: switching off the voxel (1,0,0) of the active tile of
value 7 leaves the value 7 there and the neighbour (0,0,0) active. -/
theorem setActiveState_effect_witness :
    (sampleRoot.setActiveState (denseStateOps Int) ⟨1, 0, 0⟩ false).isValueOn ⟨1, 0, 0⟩ = false ∧
    (sampleRoot.setActiveState (denseStateOps Int) ⟨1, 0, 0⟩ false).getValue ⟨1, 0, 0⟩ = 7 ∧
    (sampleRoot.setActiveState (denseStateOps Int) ⟨1, 0, 0⟩ false).isValueOn ⟨0, 0, 0⟩ = true :=
  ⟨(setActiveState_effect (densePointLaws Int) (denseStateLaws Int) sampleRoot _ _).1,
    ((setActiveState_effect (densePointLaws Int) (denseStateLaws Int) sampleRoot ⟨1, 0, 0⟩
      false).2.1 ⟨1, 0, 0⟩).trans rfl,
    ((setActiveState_effect (densePointLaws Int) (denseStateLaws Int) sampleRoot ⟨1, 0, 0⟩
      false).2.2.1 ⟨0, 0, 0⟩ (by decide)).trans rfl⟩

/-! ## Symmetry of `hasSameTopology` -/

/-- C20 (`hasSameTopology` is symmetric) fails on the code: with `A = backgroundTileRoot`
and `B = inactiveTileRoot`, `A.hasSameTopology(B)` skips the background tile of `A`, finds
the tile of `B` left in the copy of the other table, which is not a background tile, and
returns false; `B.hasSameTopology(A)` pairs the two inactive tiles, erases the key from
the copy and returns true. -/
theorem hasSameTopology_asymmetric :
    hasSameTopology intOps intOps (denseTopologyOps Int Int)
      backgroundTileRoot inactiveTileRoot = false ∧
    hasSameTopology intOps intOps (denseTopologyOps Int Int)
      inactiveTileRoot backgroundTileRoot = true := by
  decide

/-! ## Topology copy -/

theorem denseForegroundCopyLaws (V W : Type) :
    ForegroundCopyLaws (denseOps V) (denseOps W) (denseForegroundCopyOps V W) where
  isValueOn_topologyCopy := by
    intro oc bg fg p
    show DenseChild.isValueOn _ p = DenseChild.isValueOn oc p
    simp only [denseForegroundCopyOps, DenseChild.isValueOn]
    split
    · rename_i h
      rw [h]
    · rename_i h
      simp only [Bool.not_eq_true] at h
      rw [h]
  getValue_topologyCopy := by
    intro oc bg fg p
    show DenseChild.getValue _ p = if DenseChild.isValueOn oc p = true then fg else bg
    simp only [denseForegroundCopyOps, DenseChild.getValue, DenseChild.isValueOn]
    split <;> rfl

theorem find_map_topologyCopyEntry {W : Type} {oops : ChildOps W}
    (fcops : ForegroundCopyOps ops oops) (bg fg : V) (t : MapType W oops.Child) (k : Coord) :
    MapType.find (t.map (topologyCopyEntry fcops bg fg)) k =
      match t.find k with
      | none => none
      | some e => some (topologyCopyEntry fcops bg fg (k, e)).2 := by
  induction t with
  | nil => rfl
  | cons hd tl ih =>
    obtain ⟨k1, e1⟩ := hd
    by_cases hk : k1 = k
    · subst hk
      cases e1 <;> simp [MapType.find, topologyCopyEntry]
    · cases e1 <;> simp only [List.map_cons, MapType.find, topologyCopyEntry, hk, if_false] <;>
        exact ih

/-- What is read from a topology copy: the active states of the other root, the
foreground value where the other root is active and the background value elsewhere. -/
theorem topologyCopy_read {W : Type} {oops : ChildOps W} {fcops : ForegroundCopyOps ops oops}
    (fl : ForegroundCopyLaws ops oops fcops) (cA : ConfigLaw ops) (cB : ConfigLaw oops)
    (other : RootNode W oops) (hwf : other.mTable.WF)
    (hcfg : hasSameConfiguration ops oops = true) (bg fg : V) :
    ∃ c : RootNode V ops, topologyCopy fcops other bg fg = .ok c ∧ c.mBackground = bg ∧
      ∀ p, c.isValueOn p = other.isValueOn p ∧
        c.getValue p = if other.isValueOn p = true then fg else bg := by
  have hcfg2 := hcfg
  simp only [hasSameConfiguration, decide_eq_true_eq] at hcfg2
  refine ⟨⟨(other.mTable.map (topologyCopyEntry fcops bg fg)).foldl MapType.assignEntry [],
    bg⟩, by simp only [topologyCopy, enforceSameConfiguration, hcfg2, ne_eq,
    not_true_eq_false, if_false], rfl, fun p => ?_⟩
  have hkey := coordToKey_of_sameConfiguration cA cB hcfg p
  have hk1 : ∀ i : Coord × NodeStruct W oops.Child,
      (topologyCopyEntry fcops bg fg i).1 = i.1 := by
    intro i
    unfold topologyCopyEntry
    cases i.2 <;> rfl
  have hwf2 : MapType.WF (other.mTable.map (topologyCopyEntry fcops bg fg)) := by
    unfold MapType.WF at *
    rw [List.pairwise_map]
    exact hwf.imp (fun {a b} hab => by rw [hk1 a, hk1 b]; exact hab)
  have hfind := MapType.find_foldl_assign (coordToKey ops p)
    (other.mTable.map (topologyCopyEntry fcops bg fg)) [] hwf2
  rw [find_map_topologyCopyEntry] at hfind
  simp only [getValue, isValueOn, findCoord, hfind, hkey]
  cases hf : other.mTable.find (coordToKey ops p) with
  | none => simp [MapType.find]
  | some e =>
    cases e with
    | tile t =>
      cases ha : t.active <;> simp [topologyCopyEntry, ha]
    | child c =>
      simp only [topologyCopyEntry]
      exact ⟨fl.isValueOn_topologyCopy c bg fg p, fl.getValue_topologyCopy c bg fg p⟩

/-- C21 (topology copy is topologically identical) fails on the code in one direction, by
the defect of `hasSameTopology` shown for C20: the root `c` copied from `inactiveTileRoot`
with background 6 and foreground 3 holds the background tile (6, inactive), so
`c.hasSameTopology(other)` skips it, finds the tile of the other root, which is not a
background tile there, and returns false, while `other.hasSameTopology(c)` returns true.
The states and values read from `c` are as the claim says. -/
theorem topologyCopy_hasSameTopology_fails :
    ∃ c : RootNode Int (denseOps Int),
      topologyCopy (denseForegroundCopyOps Int Int) inactiveTileRoot 6 3 = .ok c ∧
      c.mTable = [(⟨0, 0, 0⟩, .tile ⟨6, false⟩)] ∧
      hasSameTopology intOps intOps (denseTopologyOps Int Int) c inactiveTileRoot = false ∧
      hasSameTopology intOps intOps (denseTopologyOps Int Int) inactiveTileRoot c = true ∧
      (∀ p, c.isValueOn p = inactiveTileRoot.isValueOn p ∧
        c.getValue p = if inactiveTileRoot.isValueOn p = true then 3 else 6) := by
  refine ⟨⟨[(⟨0, 0, 0⟩, .tile ⟨6, false⟩)], 6⟩, rfl, rfl, by decide, by decide, ?_⟩
  obtain ⟨c, h1, _, h2⟩ := topologyCopy_read (denseForegroundCopyLaws Int Int)
    (denseConfigLaw Int) (denseConfigLaw Int) inactiveTileRoot
    (by simp [inactiveTileRoot, MapType.WF]) rfl 6 3
  have hc : c = ⟨[(⟨0, 0, 0⟩, .tile ⟨6, false⟩)], 6⟩ := by
    have h3 : topologyCopy (denseForegroundCopyOps Int Int) inactiveTileRoot 6 3
        = .ok ⟨[(⟨0, 0, 0⟩, .tile ⟨6, false⟩)], 6⟩ := rfl
    rw [h1] at h3
    exact Except.ok.inj h3
  rw [← hc]
  exact h2

/-! ## Configuration mismatch -/

/-- C22 (shape mismatch is a hard error raised before any mutation): `topologyUnion` ends
with `TypeError` if and only if the per-level log2-dimension lists of `getNodeLog2Dims`
for the two root types differ, and then this root, its table and its background are as
before the call; with equal lists it ends normally. `hasSameConfiguration` is true exactly
when the lists are equal, and `hasSameTopology` returns false, without raising, when they
differ. -/
theorem topologyUnion_typeError {W : Type} {oops : ChildOps W} (tops : TopologyOps ops oops)
    (vops : ValueOps V) (wops : ValueOps W) (r : RootNode V ops) (other : RootNode W oops) :
    (topologyUnion tops r other = .error .typeError ↔
      getNodeLog2Dims ops ≠ getNodeLog2Dims oops) ∧
    ((∃ r1, topologyUnion tops r other = .ok r1) ↔
      getNodeLog2Dims ops = getNodeLog2Dims oops) ∧
    ((topologyUnionInPlace tops r other).2 = some .typeError ↔
      getNodeLog2Dims ops ≠ getNodeLog2Dims oops) ∧
    (getNodeLog2Dims ops ≠ getNodeLog2Dims oops →
      (topologyUnionInPlace tops r other).1 = r) ∧
    (getNodeLog2Dims ops = getNodeLog2Dims oops →
      topologyUnion tops r other = .ok (topologyUnionInPlace tops r other).1 ∧
      (topologyUnionInPlace tops r other).2 = none) ∧
    (hasSameConfiguration ops oops = true ↔ getNodeLog2Dims ops = getNodeLog2Dims oops) ∧
    (getNodeLog2Dims ops ≠ getNodeLog2Dims oops →
      hasSameTopology vops wops tops r other = false) := by
  by_cases h : getNodeLog2Dims ops = getNodeLog2Dims oops
  · have he : enforceSameConfiguration ops oops = .ok () := by
      simp only [enforceSameConfiguration, h, ne_eq, not_true_eq_false, if_false]
    have hu : topologyUnion tops r other
        = .ok (other.mTable.foldl (topologyUnionStep tops) r) := by
      simp only [topologyUnion, he]
    have hi : topologyUnionInPlace tops r other
        = (other.mTable.foldl (topologyUnionStep tops) r, none) := by
      simp only [topologyUnionInPlace, he]
    rw [hu, hi]
    refine ⟨?_, ?_, ?_, ?_, ?_, ?_, ?_⟩
    · constructor
      · intro hc
        exact Except.noConfusion hc
      · intro hc
        exact absurd h hc
    · exact ⟨fun _ => h, fun _ => ⟨_, rfl⟩⟩
    · constructor
      · intro hc
        exact Option.noConfusion hc
      · intro hc
        exact absurd h hc
    · intro hc
      exact absurd h hc
    · intro _
      exact ⟨rfl, rfl⟩
    · simp only [hasSameConfiguration, decide_eq_true_eq]
    · intro hc
      exact absurd h hc
  · have he : enforceSameConfiguration ops oops = .error .typeError := by
      simp only [enforceSameConfiguration, ne_eq, h, not_false_eq_true, if_true]
    have hu : topologyUnion tops r other = .error .typeError := by
      simp only [topologyUnion, he]
    have hi : topologyUnionInPlace tops r other = (r, some .typeError) := by
      simp only [topologyUnionInPlace, he]
    rw [hu, hi]
    refine ⟨?_, ?_, ?_, ?_, ?_, ?_, ?_⟩
    · exact ⟨fun _ => h, fun _ => rfl⟩
    · constructor
      · rintro ⟨r1, hr1⟩
        exact Except.noConfusion hr1
      · intro hc
        exact absurd hc h
    · exact ⟨fun _ => h, fun _ => rfl⟩
    · intro _
      rfl
    · intro hc
      exact absurd hc h
    · simp only [hasSameConfiguration, decide_eq_true_eq]
    · intro _
      have hcfg : hasSameConfiguration ops oops = false := by
        simp only [hasSameConfiguration, h, decide_False]
      simp only [hasSameTopology, hcfg, if_true]

/-- Instance of C22: a root of dense cubes (dimensions 0, 1) united with a root of the
standard tree (dimensions 0, 5, 4, 3) ends with `TypeError` and is left as it was, and
`hasSameTopology` between the two is false. -/
theorem topologyUnion_typeError_witness :
    getNodeLog2Dims (denseOps Int) ≠ getNodeLog2Dims (stdOps Int) ∧
    topologyUnion (mixedTopologyOps Int Int) sampleRoot (RootNode.new (stdOps Int) 0)
      = .error .typeError ∧
    (topologyUnionInPlace (mixedTopologyOps Int Int) sampleRoot
      (RootNode.new (stdOps Int) 0)).1 = sampleRoot ∧
    hasSameTopology intOps intOps (mixedTopologyOps Int Int) sampleRoot
      (RootNode.new (stdOps Int) 0) = false :=
  ⟨by decide,
    (topologyUnion_typeError (mixedTopologyOps Int Int) intOps intOps sampleRoot
      (RootNode.new (stdOps Int) 0)).1.mpr (by decide),
    (topologyUnion_typeError (mixedTopologyOps Int Int) intOps intOps sampleRoot
      (RootNode.new (stdOps Int) 0)).2.2.2.1 (by decide),
    (topologyUnion_typeError (mixedTopologyOps Int Int) intOps intOps sampleRoot
      (RootNode.new (stdOps Int) 0)).2.2.2.2.2.2 (by decide)⟩

/-! ## Reading a truncated stream -/

/-- C24: `readTopology` replaces the whole state. The result does not depend on the table
the root had before (it is the result for the root with the empty table), and, once the
background has been read, it does not depend on the previous root at all and carries the
stored background. The return value is false exactly when the stored `numTiles` and
`numChildren` are both 0, and the table is then empty. For a root of fewer than 2^32
entries, `writeTopology` returns false exactly when the table has no entry; a table that
holds only a background tile is written with the return value true. -/
theorem readTopology_replaces_state (iops : IOOps ops) (r : RootNode V ops)
    (hlen : r.mTable.length < 2 ^ 32) (junk : Coord × V × Bool) :
    (∀ is : IStream V,
      readTopology iops r is junk = readTopology iops ⟨[], r.mBackground⟩ is junk) ∧
    (∀ (other : RootNode V ops) (bg : V) (rest : List (Tok V)),
      readTopology iops r ⟨.value bg :: rest, false⟩ junk
        = readTopology iops other ⟨.value bg :: rest, false⟩ junk ∧
      (readTopology iops r ⟨.value bg :: rest, false⟩ junk).1.mBackground = bg) ∧
    (∀ (bg : V) (nt nc : Nat) (rest : List (Tok V)),
      ((readTopology iops r ⟨.value bg :: .index nt :: .index nc :: rest, false⟩ junk).2.2
          = false ↔ nt = 0 ∧ nc = 0) ∧
      (nt = 0 ∧ nc = 0 →
        (readTopology iops r ⟨.value bg :: .index nt :: .index nc :: rest, false⟩ junk).1
          = ⟨[], bg⟩)) ∧
    ((writeTopology iops r).2 = false ↔ r.mTable = []) ∧
    (∀ (k : Coord),
      (writeTopology iops (⟨[(k, .tile ⟨r.mBackground, false⟩)], r.mBackground⟩ :
        RootNode V ops)).2 = true) := by
  refine ⟨fun is => rfl, ?_, ?_, ?_, fun k => rfl⟩
  · intro other bg rest
    constructor
    · rfl
    · simp only [readTopology, IStream.readValue, Bool.false_eq_true, if_false]
      split <;> rfl
  · intro bg nt nc rest
    by_cases h : nt = 0 ∧ nc = 0
    · have he : readTopology iops r ⟨.value bg :: .index nt :: .index nc :: rest, false⟩ junk
          = (⟨[], bg⟩, ⟨rest, false⟩, false) := by
        simp only [readTopology, IStream.readValue, IStream.readIndex, Bool.false_eq_true,
          if_false, if_pos h]
      rw [he]
      exact ⟨⟨fun _ => h, fun _ => rfl⟩, fun _ => rfl⟩
    · have he : (readTopology iops r
          ⟨.value bg :: .index nt :: .index nc :: rest, false⟩ junk).2.2 = true := by
        simp only [readTopology, IStream.readValue, IStream.readIndex, Bool.false_eq_true,
          if_false, if_neg h]
      rw [he]
      exact ⟨⟨fun hf => absurd hf (by decide), fun hh => absurd hh h⟩, fun hh => absurd hh h⟩
  · have hsum := MapType.length_filter_tile_child r.mTable
    constructor
    · intro hf
      by_cases h : r.getTileCount = 0 ∧ r.getChildCount = 0
      · obtain ⟨h1, h2⟩ := h
        simp only [getTileCount, getChildCount] at h1 h2
        have h3 : (r.mTable.filter (fun i => i.2.isTile)).length < 2 ^ 32 := by omega
        have h4 : (r.mTable.filter (fun i => i.2.isChild)).length < 2 ^ 32 := by omega
        rw [Nat.mod_eq_of_lt h3] at h1
        rw [Nat.mod_eq_of_lt h4] at h2
        exact List.length_eq_zero.mp (by omega)
      · simp only [writeTopology, if_neg h] at hf
        exact absurd hf (by decide)
    · intro he
      have h : r.getTileCount = 0 ∧ r.getChildCount = 0 := by
        simp [getTileCount, getChildCount, he]
      simp only [writeTopology, if_pos h]

/-- Instance of C24 at the sample root, which has three entries. -/
theorem readTopology_replaces_state_witness :
    sampleRoot.mTable.length < 2 ^ 32 ∧
    ((writeTopology (denseIOOps Int) sampleRoot).2 = false ↔ sampleRoot.mTable = []) :=
  ⟨by decide,
   (readTopology_replaces_state (denseIOOps Int) sampleRoot (by decide)
     (⟨0, 0, 0⟩, 0, false)).2.2.2.1⟩

end RootNode

namespace Morphology

variable {V : Type}

/-! ## Invariants of the tree under dilation -/

theorem keys_modifyLeaf (ls : List (Coord × Leaf V)) (o : Coord) (f : Leaf V → Leaf V) :
    (modifyLeaf ls o f).map Prod.fst = ls.map Prod.fst := by
  induction ls with
  | nil => rfl
  | cons hd tl ih =>
    obtain ⟨k, l⟩ := hd
    simp only [modifyLeaf, List.map_cons, ih]

theorem mem_modifyLeaf (ls : List (Coord × Leaf V)) (o : Coord) (f : Leaf V → Leaf V)
    (e : Coord × Leaf V) (he : e ∈ modifyLeaf ls o f) :
    ∃ e0, e0 ∈ ls ∧ e.1 = e0.1 ∧ (e.2 = e0.2 ∨ e.2 = f e0.2) := by
  induction ls with
  | nil => simp [modifyLeaf] at he
  | cons hd tl ih =>
    obtain ⟨k, l⟩ := hd
    simp only [modifyLeaf, List.mem_cons] at he
    rcases he with he | he
    · refine ⟨(k, l), List.mem_cons_self _ _, by rw [he], ?_⟩
      rw [he]
      by_cases hk : k = o
      · right
        simp only [hk, if_true]
      · left
        simp only [hk, if_false]
    · obtain ⟨e0, h0, h1, h2⟩ := ih he
      exact ⟨e0, List.mem_cons_of_mem _ h0, h1, h2⟩

theorem wf_orWord (N : Nat) (t : LeafTree V) (hwf : LeafTree.WF N t) (o : Coord) (idx : Int)
    (w : Nat) : LeafTree.WF N (orWord N t o idx w) := by
  refine ⟨?_, ?_, ?_⟩
  · simp only [orWord, keys_modifyLeaf]
    exact hwf.nodup
  · intro e he
    obtain ⟨e0, h0, h1, _⟩ := mem_modifyLeaf _ _ _ e he
    rw [h1]
    exact hwf.aligned e0 h0
  · intro e he i
    obtain ⟨e0, h0, h1, h2⟩ := mem_modifyLeaf _ _ _ e he
    rcases h2 with h2 | h2
    · rw [h2]
      exact hwf.words e0 h0 i
    · rw [h2]
      simp only
      split
      · exact Nat.mod_lt _ (Nat.pow_pos (by decide))
      · exact hwf.words e0 h0 i

theorem not_mem_keys_of_findLeaf (ls : List (Coord × Leaf V)) (k : Coord)
    (h : findLeaf ls k = none) : k ∉ ls.map Prod.fst := by
  intro hk
  obtain ⟨e, he, rfl⟩ := List.mem_map.mp hk
  have := hasLeaf_of_mem ls e he
  rw [h] at this
  exact Bool.noConfusion this

theorem leafKey_idem (N : Nat) (p : Coord) : leafKey N (leafKey N p) = leafKey N p := by
  simp only [leafKey, alignDown_idem]

theorem wf_touchLeaf (N : Nat) (t : LeafTree V) (hwf : LeafTree.WF N t) (xyz : Coord) :
    LeafTree.WF N (touchLeaf N t xyz).1 := by
  unfold touchLeaf
  cases hf : findLeaf t.leaves (leafKey N xyz) with
  | some l => exact hwf
  | none =>
    refine ⟨?_, ?_, ?_⟩
    · simp only [List.map_append, List.map_cons, List.map_nil]
      refine List.Nodup.append hwf.nodup (List.nodup_singleton _) ?_
      intro k hk hk2
      rw [List.mem_singleton] at hk2
      subst hk2
      exact not_mem_keys_of_findLeaf _ _ hf hk
    · intro e he
      simp only [List.mem_append, List.mem_singleton] at he
      rcases he with he | he
      · exact hwf.aligned e he
      · rw [he]
        exact leafKey_idem N xyz
    · intro e he i
      simp only [List.mem_append, List.mem_singleton] at he
      rcases he with he | he
      · exact hwf.words e he i
      · rw [he]
        simp only
        have hpos : 0 < 2 ^ DIM N := Nat.pow_pos (by decide)
        split
        · omega
        · exact hpos

theorem wf_scatter (N : Nat) (dx dy dz : Int) (t : LeafTree V) (hwf : LeafTree.WF N t)
    (nb : Neighbor) (xyz : Coord) (indx : Int) (w : Nat) :
    LeafTree.WF N (scatter N dx dy dz t nb xyz indx w).1 := by
  unfold scatter
  cases hi : nb.init with
  | false =>
    simp only [Bool.false_eq_true, if_false]
    cases nb.leaf with
    | none => exact hwf
    | some l => exact wf_orWord N t hwf l _ w
  | true =>
    simp only [if_true]
    cases hp : probeLeaf N t (xyz.offsetBy (dx * DIM N) (dy * DIM N) (dz * DIM N)) with
    | some l => exact wf_orWord N t hwf l _ w
    | none =>
      cases hv : isValueOn N t (xyz.offsetBy (dx * DIM N) (dy * DIM N) (dz * DIM N)) with
      | false =>
        simp only [if_true]
        exact wf_orWord N _ (wf_touchLeaf N t hwf _) _ _ w
      | true =>
        simp only [Bool.true_eq_false, if_false]
        exact hwf

theorem wf_dilateRow (N : Nat) (origin : Coord) (oldMask : Nat → Nat) (s : MState V)
    (hwf : LeafTree.WF N s.tree) (x y : Nat) :
    LeafTree.WF N (dilateRow N origin oldMask s x y).tree := by
  have hsc : ∀ (i : Nat) (dx dy dz : Int) (s : MState V) (n : Int) (w : Nat),
      LeafTree.WF N s.tree → LeafTree.WF N (scatterAt N i dx dy dz s origin n w).tree :=
    fun i dx dy dz s n w h => wf_scatter N dx dy dz s.tree h (s.NN i) origin n w
  have h1 : ∀ (n : Int) (w : Nat) (s : MState V), LeafTree.WF N s.tree →
      LeafTree.WF N (dilateNegX N origin n w x s).tree := by
    intro n w s h
    unfold dilateNegX
    split
    · exact wf_orWord N _ h _ _ _
    · exact hsc _ _ _ _ _ _ _ h
  have h2 : ∀ (n : Int) (w : Nat) (s : MState V), LeafTree.WF N s.tree →
      LeafTree.WF N (dilatePosX N origin n w x s).tree := by
    intro n w s h
    unfold dilatePosX
    split
    · exact wf_orWord N _ h _ _ _
    · exact hsc _ _ _ _ _ _ _ h
  have h3 : ∀ (n : Int) (w : Nat) (s : MState V), LeafTree.WF N s.tree →
      LeafTree.WF N (dilateNegY N origin n w y s).tree := by
    intro n w s h
    unfold dilateNegY
    split
    · exact wf_orWord N _ h _ _ _
    · exact hsc _ _ _ _ _ _ _ h
  have h4 : ∀ (n : Int) (w : Nat) (s : MState V), LeafTree.WF N s.tree →
      LeafTree.WF N (dilatePosY N origin n w y s).tree := by
    intro n w s h
    unfold dilatePosY
    split
    · exact wf_orWord N _ h _ _ _
    · exact hsc _ _ _ _ _ _ _ h
  have h5 : ∀ (n : Int) (w : Nat) (s : MState V), LeafTree.WF N s.tree →
      LeafTree.WF N (dilateZ N origin n w s).tree :=
    fun n w s h => wf_orWord N _ h _ _ _
  have h6 : ∀ (n : Int) (w : Nat) (s : MState V), LeafTree.WF N s.tree →
      LeafTree.WF N (dilateNegZ N origin n w s).tree := by
    intro n w s h
    unfold dilateNegZ
    simp only
    split
    · exact hsc _ _ _ _ _ _ _ h
    · exact h
  have h7 : ∀ (n : Int) (w : Nat) (s : MState V), LeafTree.WF N s.tree →
      LeafTree.WF N (dilatePosZ N origin n w s).tree := by
    intro n w s h
    unfold dilatePosZ
    simp only
    split
    · exact hsc _ _ _ _ _ _ _ h
    · exact h
  unfold dilateRow
  simp only
  split
  · exact hwf
  · exact h7 _ _ _ (h6 _ _ _ (h5 _ _ _ (h4 _ _ _ (h3 _ _ _ (h2 _ _ _ (h1 _ _ _ hwf))))))

theorem foldl_invariant {S ι : Type} (P : S → Prop) (step : S → ι → S)
    (h : ∀ s i, P s → P (step s i)) : ∀ (l : List ι) (s : S), P s → P (l.foldl step s) := by
  intro l
  induction l with
  | nil => intro s hs; exact hs
  | cons hd tl ih => intro s hs; exact ih _ (h s hd hs)

theorem wf_dilateVoxels (N : Nat) (t : LeafTree V) (hwf : LeafTree.WF N t) :
    LeafTree.WF N (dilateVoxels N t) := by
  unfold dilateVoxels
  refine foldl_invariant (fun s : MState V => LeafTree.WF N s.tree) (dilateLeaf N) ?_ _ _ hwf
  intro s leaf hs
  unfold dilateLeaf
  simp only
  refine foldl_invariant (fun s : MState V => LeafTree.WF N s.tree) _ ?_ _ _ hs
  intro s1 x h1
  refine foldl_invariant (fun s : MState V => LeafTree.WF N s.tree) _ ?_ _ _ h1
  intro s2 y h2
  exact wf_dilateRow N leaf.1 leaf.2 s2 h2 x y

/-- A pass of dilation creates no active tile: the tiles are those of the tree before the
pass, and no leaf is removed. -/
theorem noActiveTile_dilateVoxels (N : Nat) (t : LeafTree V) (hwf : LeafTree.WF N t)
    (hno : ∀ k, hasLeaf t k = false → (t.tile k).2 = false) :
    ∀ k, hasLeaf (dilateVoxels N t) k = false → ((dilateVoxels N t).tile k).2 = false := by
  obtain ⟨⟨htile, hleaves, _⟩, _⟩ := foldl_effect
    (fun s : MState V => s.tree.tile = t.tile ∧
      (∀ k, hasLeaf t k = true → hasLeaf s.tree k = true) ∧ ∀ i, (s.NN i).init = true)
    (fun s p => isValueOn N s.tree p = true)
    (fun (e : Coord × (Nat → Nat)) p =>
      ∃ x, x ∈ List.range (DIM N) ∧ ∃ y, y ∈ List.range (DIM N) ∧ ∃ z, z < DIM N ∧
        (e.2 (x * DIM N + y)).testBit z = true ∧
        p ∈ faceNeighbors ⟨e.1.x + x, e.1.y + y, e.1.z + z⟩)
    (dilateLeaf N) (t.leaves.map fun e => (e.1, e.2.mask))
    (fun s e he hs => by
      obtain ⟨e0, he0, rfl⟩ := List.mem_map.mp he
      exact dilateLeaf_effect N t hno e0.1 (hwf.aligned e0 he0)
        (hasLeaf_of_mem _ e0 he0) e0.2.mask (hwf.words e0 he0) s hs)
    ⟨t, fun _ => ⟨none, true, false⟩⟩ ⟨rfl, fun _ hk => hk, fun _ => rfl⟩
  intro k hk
  have hkt : hasLeaf t k = false := by
    cases h : hasLeaf t k with
    | false => rfl
    | true =>
      have h2 : hasLeaf (dilateVoxels N t) k = true := hleaves k h
      rw [hk] at h2
      exact Bool.noConfusion h2
  have h3 : (dilateVoxels N t).tile = t.tile := htile
  rw [h3]
  exact hno k hkt

/-- Invariants and growth of the active set under `count` passes of dilation. -/
theorem dilateVoxelsCount_inv (N : Nat) (count : Nat) :
    ∀ (t : LeafTree V), LeafTree.WF N t →
      (∀ k, hasLeaf t k = false → (t.tile k).2 = false) →
      LeafTree.WF N (dilateVoxelsCount N t count) ∧
      (∀ k, hasLeaf (dilateVoxelsCount N t count) k = false →
        ((dilateVoxelsCount N t count).tile k).2 = false) := by
  induction count with
  | zero => intro t hwf hno; exact ⟨hwf, hno⟩
  | succ c ih =>
    intro t hwf hno
    exact ih (dilateVoxels N t) (wf_dilateVoxels N t hwf) (noActiveTile_dilateVoxels N t hwf hno)

end Morphology

namespace Morphology

variable {V : Type}

/-! ## Erosion -/

/-- The active state of the voxel at the offsets `(a, b, c)` of the leaf cube at `K`. -/
theorem isValueOn_at (N : Nat) (t : LeafTree V) {K : Coord} (hK : leafKey N K = K)
    {a b c : Nat} (ha : a < DIM N) (hb : b < DIM N) (hc : c < DIM N) :
    isValueOn N t ⟨K.x + a, K.y + b, K.z + c⟩
      = (match findLeaf t.leaves K with
         | some l => (l.mask (a * DIM N + b)).testBit c
         | none => (t.tile K).2) := by
  obtain ⟨h1, h2, h3⟩ := (voxel_iff N hK ha hb hc ⟨K.x + a, K.y + b, K.z + c⟩).mpr rfl
  unfold isValueOn
  rw [h1, h2, h3]

/-- A bit of a mask word of a leaf of the tree is the active state of its voxel. -/
theorem leafWord_at (N : Nat) (t : LeafTree V) (hwf : LeafTree.WF N t) (e : Coord × Leaf V)
    (he : e ∈ t.leaves) {a b c : Nat} (ha : a < DIM N) (hb : b < DIM N) (hc : c < DIM N)
    (X Y Z : Int) (hX : X = e.1.x + a) (hY : Y = e.1.y + b) (hZ : Z = e.1.z + c) :
    (e.2.mask (a * DIM N + b)).testBit c = isValueOn N t ⟨X, Y, Z⟩ := by
  subst hX hY hZ
  rw [isValueOn_at N t (hwf.aligned e he) ha hb hc, findLeaf_of_mem t.leaves hwf.nodup e he]

/-- Effect of `NN[i].gather` in terms of voxels: the word read is the z-row of the
neighbour cube at the offsets `(a, b)`. -/
theorem gather_at (N : Nat) (t : LeafTree V) (hwf : LeafTree.WF N t) (o : Coord)
    (ho : leafKey N o = o) (i : Nat) (dx dy dz : Int) (hd : nbDir i = ⟨dx, dy, dz⟩)
    (s : EState) (hinv : EInv N t o s) (indx : Int) (a b : Nat) (ha : a < DIM N)
    (hb : b < DIM N)
    (hidx : indx - ((DIM N : Int) - 1) * (dy + dx * DIM N) = ((a * DIM N + b : Nat) : Int))
    (X Y Z : Int) (hX : X = o.x + dx * DIM N + a) (hY : Y = o.y + dy * DIM N + b)
    (hZ : Z = o.z + dz * DIM N) :
    EInv N t o (gatherAt N i dx dy dz t s o indx).2 ∧
    (gatherAt N i dx dy dz t s o indx).2.newMask = s.newMask ∧
    (gatherAt N i dx dy dz t s o indx).1 < 2 ^ DIM N ∧
    ∀ c, c < DIM N →
      (gatherAt N i dx dy dz t s o indx).1.testBit c = isValueOn N t ⟨X, Y, Z + c⟩ := by
  subst hX hY hZ
  have hK : o.offsetBy (dx * DIM N) (dy * DIM N) (dz * DIM N) = nbKey N o i := by
    simp only [nbKey, hd]
  have hKa := nbKey_aligned N ho i
  have hKx : nbKey N o i = ⟨o.x + dx * DIM N, o.y + dy * DIM N, o.z + dz * DIM N⟩ := by
    simp only [nbKey, hd, Coord.offsetBy]
  have hpos : 0 < 2 ^ DIM N := Nat.pow_pos (by decide)
  have key : ∃ nb1 : Neighbor,
      gather N dx dy dz t (s.NN i) o indx
        = ((match findLeaf t.leaves (nbKey N o i) with
            | some lf => lf.mask (a * DIM N + b)
            | none => if (t.tile (nbKey N o i)).2 = true then 2 ^ DIM N - 1 else 0), nb1) ∧
      nb1.init = false ∧ nb1.leaf = probeLeaf N t (nbKey N o i) ∧
      (nb1.leaf = none → nb1.isOn = isValueOn N t (nbKey N o i)) := by
    cases hi : (s.NN i).init with
    | false =>
      obtain ⟨hl, hon⟩ := hinv.cache i hi
      refine ⟨s.NN i, ?_, hi, hl, hon⟩
      cases hf : findLeaf t.leaves (nbKey N o i) with
      | some lf =>
        have hl2 : (s.NN i).leaf = some (nbKey N o i) := by
          rw [hl]
          simp only [probeLeaf, hKa, hf]
        simp only [gather, hi, Bool.false_eq_true, if_false, hl2, hf, hidx, Int.toNat_ofNat]
      | none =>
        have hl2 : (s.NN i).leaf = none := by
          rw [hl]
          simp only [probeLeaf, hKa, hf]
        have hon2 : (s.NN i).isOn = (t.tile (nbKey N o i)).2 := by
          rw [hon hl2]
          simp only [isValueOn, hKa, hf]
        simp only [gather, hi, Bool.false_eq_true, if_false, hl2, hon2]
    | true =>
      cases hf : findLeaf t.leaves (nbKey N o i) with
      | some lf =>
        refine ⟨⟨some (nbKey N o i), false, false⟩, ?_, rfl, ?_, ?_⟩
        · simp only [gather, hi, if_true, hK, probeLeaf, hKa, hf, hidx, Int.toNat_ofNat]
        · simp only [probeLeaf, hKa, hf]
        · intro h
          exact Option.noConfusion h
      | none =>
        have hv : isValueOn N t (nbKey N o i) = (t.tile (nbKey N o i)).2 := by
          simp only [isValueOn, hKa, hf]
        refine ⟨⟨none, false, isValueOn N t (nbKey N o i)⟩, ?_, rfl, ?_, fun _ => rfl⟩
        · simp only [gather, hi, if_true, hK, probeLeaf, hKa, hf, hv]
        · simp only [probeLeaf, hKa, hf]
  obtain ⟨nb1, hg, hinit, hleaf, hon⟩ := key
  refine ⟨⟨?_⟩, ?_, ?_, ?_⟩
  · intro j hj
    simp only [gatherAt, hg] at hj ⊢
    by_cases hji : j = i
    · subst hji
      simp only [if_true] at hj ⊢
      exact ⟨hleaf, hon⟩
    · simp only [hji, if_false] at hj ⊢
      exact hinv.cache j hj
  · simp only [gatherAt]
  · simp only [gatherAt, hg]
    cases hf : findLeaf t.leaves (nbKey N o i) with
    | some lf => exact hwf.words _ (mem_of_findLeaf _ _ _ hf) _
    | none =>
      simp only
      split
      · exact Nat.sub_lt hpos (by decide)
      · exact hpos
  · intro c hc
    have hv := isValueOn_at N t hKa ha hb hc
    rw [hKx] at hv
    simp only at hv
    rw [hv]
    simp only [gatherAt, hg]
    rw [← hKx]
    cases hf : findLeaf t.leaves (nbKey N o i) with
    | some lf => rfl
    | none =>
      simp only
      cases ht : (t.tile (nbKey N o i)).2 with
      | false => simp
      | true => simp [Nat.testBit_two_pow_sub_one, hc]

/-- Effect of the statement `w &= m` on the eroded mask. -/
theorem andWord_effect (N : Nat) (s : EState) (n : Nat) (m : Nat) :
    (andWord N s (n : Int) m).NN = s.NN ∧
    (∀ i, i ≠ n → (andWord N s (n : Int) m).newMask i = s.newMask i) ∧
    (andWord N s (n : Int) m).newMask n < 2 ^ DIM N ∧
    ∀ c, c < DIM N → ((andWord N s (n : Int) m).newMask n).testBit c
      = ((s.newMask n).testBit c && m.testBit c) := by
  refine ⟨rfl, ?_, ?_, ?_⟩
  · intro i hi
    simp only [andWord, Int.toNat_ofNat, hi, if_false]
  · simp only [andWord, Int.toNat_ofNat, if_true]
    exact Nat.mod_lt _ (Nat.pow_pos (by decide))
  · intro c hc
    simp only [andWord, Int.toNat_ofNat, if_true, Nat.testBit_mod_two_pow, hc, decide_True,
      Bool.true_and, Nat.testBit_and]

end Morphology

namespace Morphology

variable {V : Type}

theorem rowIndex_cast (N : Nat) (x y : Nat) :
    ((x : Int) * (DIM N : Int) + (y : Int)) = ((x * DIM N + y : Nat) : Int) := by
  push_cast
  rfl

/-- The statement `w &= m` when the bits of `m` are the active states of the voxels `P c`;
`s1` is the state after the evaluation of `m`. -/
theorem andBlock (N : Nat) (t : LeafTree V) (o : Coord) (s s1 : EState) (n : Nat) (m : Nat)
    (P : Nat → Coord) (hinv1 : EInv N t o s1) (hmask : s1.newMask = s.newMask)
    (hm : ∀ c, c < DIM N → m.testBit c = isValueOn N t (P c)) :
    RowStep N t o n P s (andWord N s1 (n : Int) m) := by
  obtain ⟨_, h2, h3, h4⟩ := andWord_effect N s1 n m
  refine ⟨⟨hinv1.cache⟩, ?_, h3, ?_⟩
  · intro i hi
    rw [h2 i hi, hmask]
  · intro c hc
    rw [h4 c hc, hmask, hm c hc]

theorem erodeNegX_effect (N : Nat) (t : LeafTree V) (hwf : LeafTree.WF N t)
    (e : Coord × Leaf V) (he : e ∈ t.leaves) (s : EState) (hinv : EInv N t e.1 s)
    (x y : Nat) (hx : x < DIM N) (hy : y < DIM N) :
    RowStep N t e.1 (x * DIM N + y) (fun c => ⟨e.1.x + x - 1, e.1.y + y, e.1.z + c⟩) s
      (erodeNegX N t e.1 e.2.mask ((x : Int) * DIM N + y) x s) := by
  have ho := hwf.aligned e he
  unfold erodeNegX
  by_cases hx0 : x = 0
  · subst hx0
    simp only [if_true]
    obtain ⟨D, hD⟩ := DIM_succ N
    obtain ⟨g1, g2, _, g4⟩ := gather_at N t hwf e.1 ho 0 (-1) 0 0 rfl s hinv
      (((0 : Nat) : Int) * DIM N + y) D y (by omega) hy (by rw [hD]; push_cast; ring)
      (e.1.x + ((0 : Nat) : Int) - 1) (e.1.y + y) e.1.z (by rw [hD]; push_cast; ring)
      (by ring) (by ring)
    have h := andBlock N t e.1 s _ (0 * DIM N + y) _
      (fun c => ⟨e.1.x + ((0 : Nat) : Int) - 1, e.1.y + y, e.1.z + c⟩) g1 g2 g4
    rw [← rowIndex_cast] at h
    exact h
  · simp only [hx0, if_false]
    obtain ⟨x1, rfl⟩ := Nat.exists_eq_succ_of_ne_zero hx0
    have hi : (((x1 + 1 : Nat) : Int) * (DIM N : Int) + (y : Int) - (DIM N : Int)).toNat
        = x1 * DIM N + y := by
      have : ((x1 + 1 : Nat) : Int) * (DIM N : Int) + (y : Int) - (DIM N : Int)
          = ((x1 * DIM N + y : Nat) : Int) := by
        push_cast
        ring
      rw [this, Int.toNat_ofNat]
    rw [hi]
    have h := andBlock N t e.1 s s ((x1 + 1) * DIM N + y) (e.2.mask (x1 * DIM N + y))
      (fun c => ⟨e.1.x + ((x1 + 1 : Nat) : Int) - 1, e.1.y + y, e.1.z + c⟩) hinv rfl
      (fun c hc => leafWord_at N t hwf e he (by omega) hy hc _ _ _
        (by push_cast; ring) rfl rfl)
    rw [← rowIndex_cast] at h
    exact h

theorem erodePosX_effect (N : Nat) (t : LeafTree V) (hwf : LeafTree.WF N t)
    (e : Coord × Leaf V) (he : e ∈ t.leaves) (s : EState) (hinv : EInv N t e.1 s)
    (x y : Nat) (hx : x < DIM N) (hy : y < DIM N) :
    RowStep N t e.1 (x * DIM N + y) (fun c => ⟨e.1.x + x + 1, e.1.y + y, e.1.z + c⟩) s
      (erodePosX N t e.1 e.2.mask ((x : Int) * DIM N + y) x s) := by
  have ho := hwf.aligned e he
  unfold erodePosX
  by_cases hx0 : x = DIM N - 1
  · rw [if_pos hx0]
    have hD : DIM N = x + 1 := by
      have := DIM_pos N
      omega
    obtain ⟨g1, g2, _, g4⟩ := gather_at N t hwf e.1 ho 1 1 0 0 rfl s hinv
      ((x : Int) * DIM N + y) 0 y (DIM_pos N) hy (by rw [hD]; push_cast; ring)
      (e.1.x + x + 1) (e.1.y + y) e.1.z (by rw [hD]; push_cast; ring)
      (by ring) (by ring)
    have h := andBlock N t e.1 s _ (x * DIM N + y) _
      (fun c => ⟨e.1.x + x + 1, e.1.y + y, e.1.z + c⟩) g1 g2 g4
    rw [← rowIndex_cast] at h
    exact h
  · simp only [hx0, if_false]
    have hi : (((x : Nat) : Int) * (DIM N : Int) + (y : Int) + (DIM N : Int)).toNat
        = (x + 1) * DIM N + y := by
      have : ((x : Nat) : Int) * (DIM N : Int) + (y : Int) + (DIM N : Int)
          = (((x + 1) * DIM N + y : Nat) : Int) := by
        push_cast
        ring
      rw [this, Int.toNat_ofNat]
    rw [hi]
    have h := andBlock N t e.1 s s (x * DIM N + y) (e.2.mask ((x + 1) * DIM N + y))
      (fun c => ⟨e.1.x + x + 1, e.1.y + y, e.1.z + c⟩) hinv rfl
      (fun c hc => leafWord_at N t hwf e he (by omega) hy hc _ _ _
        (by push_cast; ring) rfl rfl)
    rw [← rowIndex_cast] at h
    exact h

theorem erodeNegY_effect (N : Nat) (t : LeafTree V) (hwf : LeafTree.WF N t)
    (e : Coord × Leaf V) (he : e ∈ t.leaves) (s : EState) (hinv : EInv N t e.1 s)
    (x y : Nat) (hx : x < DIM N) (hy : y < DIM N) :
    RowStep N t e.1 (x * DIM N + y) (fun c => ⟨e.1.x + x, e.1.y + y - 1, e.1.z + c⟩) s
      (erodeNegY N t e.1 e.2.mask ((x : Int) * DIM N + y) y s) := by
  have ho := hwf.aligned e he
  unfold erodeNegY
  by_cases hy0 : y = 0
  · subst hy0
    simp only [if_true]
    obtain ⟨D, hD⟩ := DIM_succ N
    obtain ⟨g1, g2, _, g4⟩ := gather_at N t hwf e.1 ho 2 0 (-1) 0 rfl s hinv
      ((x : Int) * DIM N + ((0 : Nat) : Int)) x D hx (by omega)
      (by rw [hD]; push_cast; ring)
      (e.1.x + x) (e.1.y + ((0 : Nat) : Int) - 1) e.1.z (by ring)
      (by rw [hD]; push_cast; ring) (by ring)
    have h := andBlock N t e.1 s _ (x * DIM N + 0) _
      (fun c => ⟨e.1.x + x, e.1.y + ((0 : Nat) : Int) - 1, e.1.z + c⟩) g1 g2 g4
    rw [← rowIndex_cast] at h
    exact h
  · simp only [hy0, if_false]
    obtain ⟨y1, rfl⟩ := Nat.exists_eq_succ_of_ne_zero hy0
    have hi : (((x : Nat) : Int) * (DIM N : Int) + ((y1 + 1 : Nat) : Int) - 1).toNat
        = x * DIM N + y1 := by
      have : ((x : Nat) : Int) * (DIM N : Int) + ((y1 + 1 : Nat) : Int) - 1
          = ((x * DIM N + y1 : Nat) : Int) := by
        push_cast
        ring
      rw [this, Int.toNat_ofNat]
    rw [hi]
    have h := andBlock N t e.1 s s (x * DIM N + (y1 + 1)) (e.2.mask (x * DIM N + y1))
      (fun c => ⟨e.1.x + x, e.1.y + ((y1 + 1 : Nat) : Int) - 1, e.1.z + c⟩) hinv rfl
      (fun c hc => leafWord_at N t hwf e he hx (by omega) hc _ _ _
        rfl (by push_cast; ring) rfl)
    rw [← rowIndex_cast] at h
    exact h

theorem erodePosY_effect (N : Nat) (t : LeafTree V) (hwf : LeafTree.WF N t)
    (e : Coord × Leaf V) (he : e ∈ t.leaves) (s : EState) (hinv : EInv N t e.1 s)
    (x y : Nat) (hx : x < DIM N) (hy : y < DIM N) :
    RowStep N t e.1 (x * DIM N + y) (fun c => ⟨e.1.x + x, e.1.y + y + 1, e.1.z + c⟩) s
      (erodePosY N t e.1 e.2.mask ((x : Int) * DIM N + y) y s) := by
  have ho := hwf.aligned e he
  unfold erodePosY
  by_cases hy0 : y = DIM N - 1
  · rw [if_pos hy0]
    have hD : DIM N = y + 1 := by
      have := DIM_pos N
      omega
    obtain ⟨g1, g2, _, g4⟩ := gather_at N t hwf e.1 ho 3 0 1 0 rfl s hinv
      ((x : Int) * DIM N + y) x 0 hx (DIM_pos N)
      (by rw [hD]; push_cast; ring)
      (e.1.x + x) (e.1.y + y + 1) e.1.z (by ring)
      (by rw [hD]; push_cast; ring) (by ring)
    have h := andBlock N t e.1 s _ (x * DIM N + y) _
      (fun c => ⟨e.1.x + x, e.1.y + y + 1, e.1.z + c⟩) g1 g2 g4
    rw [← rowIndex_cast] at h
    exact h
  · simp only [hy0, if_false]
    have hi : (((x : Nat) : Int) * (DIM N : Int) + (y : Int) + 1).toNat
        = x * DIM N + (y + 1) := by
      have : ((x : Nat) : Int) * (DIM N : Int) + (y : Int) + 1
          = ((x * DIM N + (y + 1) : Nat) : Int) := by
        push_cast
        ring
      rw [this, Int.toNat_ofNat]
    rw [hi]
    have h := andBlock N t e.1 s s (x * DIM N + y) (e.2.mask (x * DIM N + (y + 1)))
      (fun c => ⟨e.1.x + x, e.1.y + y + 1, e.1.z + c⟩) hinv rfl
      (fun c hc => leafWord_at N t hwf e he hx (by omega) hc _ _ _
        rfl (by push_cast; ring) rfl)
    rw [← rowIndex_cast] at h
    exact h

end Morphology

namespace Morphology

variable {V : Type}

theorem testBit_of_lt_of_le {w D j : Nat} (hw : w < 2 ^ D) (hj : D ≤ j) :
    w.testBit j = false :=
  Nat.testBit_lt_two_pow (lt_of_lt_of_le hw (Nat.pow_le_pow_right (by decide) hj))

/-- Bits of the word computed by the statement that erodes a row in the two z
directions. -/
theorem erodeZ_bits (D w g4 g5 c : Nat) (hD : 0 < D) (hw : w < 2 ^ D) (hg4 : g4 < 2 ^ D)
    (hc : c < D) :
    (((w <<< 1) ||| (g4 >>> (D - 1))) &&& ((w >>> 1) ||| (g5 <<< (D - 1)))).testBit c
      = ((if c = 0 then g4.testBit (D - 1) else w.testBit (c - 1)) &&
          (if c = D - 1 then g5.testBit 0 else w.testBit (c + 1))) := by
  simp only [Nat.testBit_and, Nat.testBit_or, Nat.testBit_shiftLeft, Nat.testBit_shiftRight]
  congr 1
  · by_cases hc0 : c = 0
    · subst hc0
      simp
    · have h1 : g4.testBit (D - 1 + c) = false := testBit_of_lt_of_le hg4 (by omega)
      have h2 : c ≥ 1 := by omega
      simp [hc0, h1, h2]
  · by_cases hc1 : c = D - 1
    · have h1 : w.testBit (1 + c) = false := testBit_of_lt_of_le hw (by omega)
      have h2 : c ≥ D - 1 := by omega
      subst hc1
      simp [h1]
    · have h2 : ¬ c ≥ D - 1 := by omega
      have h3 : 1 + c = c + 1 := by omega
      simp [hc1, h2, h3]

theorem erodeZ_effect (N : Nat) (t : LeafTree V) (hwf : LeafTree.WF N t)
    (e : Coord × Leaf V) (he : e ∈ t.leaves) (s : EState) (hinv : EInv N t e.1 s)
    (x y : Nat) (hx : x < DIM N) (hy : y < DIM N)
    (hpre : s.newMask (x * DIM N + y) = e.2.mask (x * DIM N + y)) :
    EInv N t e.1 (erodeZ N t e.1 ((x : Int) * DIM N + y) s) ∧
    (∀ i, i ≠ x * DIM N + y →
      (erodeZ N t e.1 ((x : Int) * DIM N + y) s).newMask i = s.newMask i) ∧
    (erodeZ N t e.1 ((x : Int) * DIM N + y) s).newMask (x * DIM N + y) < 2 ^ DIM N ∧
    ∀ c, c < DIM N →
      ((erodeZ N t e.1 ((x : Int) * DIM N + y) s).newMask (x * DIM N + y)).testBit c
        = ((s.newMask (x * DIM N + y)).testBit c &&
            (isValueOn N t ⟨e.1.x + x, e.1.y + y, e.1.z + c - 1⟩ &&
              isValueOn N t ⟨e.1.x + x, e.1.y + y, e.1.z + c + 1⟩)) := by
  have ho := hwf.aligned e he
  have hDpos := DIM_pos N
  obtain ⟨a1, a2, a3, a4⟩ := gather_at N t hwf e.1 ho 4 0 0 (-1) rfl s hinv
    ((x : Int) * DIM N + y) x y hx hy (by push_cast; ring)
    (e.1.x + x) (e.1.y + y) (e.1.z - DIM N) (by ring) (by ring) (by ring)
  obtain ⟨b1, b2, _, b4⟩ := gather_at N t hwf e.1 ho 5 0 0 1 rfl
    (gatherAt N 4 0 0 (-1) t s e.1 ((x : Int) * DIM N + y)).2 a1
    ((x : Int) * DIM N + y) x y hx hy (by push_cast; ring)
    (e.1.x + x) (e.1.y + y) (e.1.z + DIM N) (by ring) (by ring) (by ring)
  have hw : s.newMask (x * DIM N + y) < 2 ^ DIM N := by
    rw [hpre]
    exact hwf.words e he _
  have htn : ((x : Int) * (DIM N : Int) + (y : Int)).toNat = x * DIM N + y := by
    rw [rowIndex_cast, Int.toNat_ofNat]
  unfold erodeZ
  simp only [htn]
  rw [rowIndex_cast] at a1 a2 a3 a4 b1 b2 b4 ⊢
  obtain ⟨_, c2, c3, c4⟩ := andWord_effect N
    (gatherAt N 5 0 0 1 t (gatherAt N 4 0 0 (-1) t s e.1 ((x * DIM N + y : Nat) : Int)).2 e.1
      ((x * DIM N + y : Nat) : Int)).2 (x * DIM N + y)
    (((s.newMask (x * DIM N + y) <<< 1) |||
        ((gatherAt N 4 0 0 (-1) t s e.1 ((x * DIM N + y : Nat) : Int)).1 >>> (DIM N - 1))) &&&
      ((s.newMask (x * DIM N + y) >>> 1) |||
        ((gatherAt N 5 0 0 1 t (gatherAt N 4 0 0 (-1) t s e.1
          ((x * DIM N + y : Nat) : Int)).2 e.1 ((x * DIM N + y : Nat) : Int)).1
            <<< (DIM N - 1))))
  refine ⟨⟨b1.cache⟩, ?_, c3, ?_⟩
  · intro i hi
    rw [c2 i hi, b2, a2]
  · intro c hc
    rw [c4 c hc, b2, a2, erodeZ_bits (DIM N) _ _ _ c hDpos hw a3 hc]
    congr 1
    congr 1
    · by_cases hc0 : c = 0
      · rw [if_pos hc0, a4 (DIM N - 1) (by omega)]
        subst hc0
        have hz : e.1.z - (DIM N : Int) + ((DIM N - 1 : Nat) : Int)
            = e.1.z + ((0 : Nat) : Int) - 1 := by omega
        rw [hz]
      · rw [if_neg hc0, hpre]
        exact leafWord_at N t hwf e he hx hy (by omega) _ _ _ rfl rfl (by omega)
    · by_cases hc1 : c = DIM N - 1
      · rw [if_pos hc1, b4 0 hDpos]
        have hz : e.1.z + (DIM N : Int) + ((0 : Nat) : Int) = e.1.z + (c : Int) + 1 := by
          omega
        rw [hz]
      · rw [if_neg hc1, hpre]
        exact leafWord_at N t hwf e he hx hy (by omega) _ _ _ rfl rfl (by omega)

end Morphology

namespace Morphology

variable {V : Type}

theorem forall_faceNeighbors (P : Coord → Prop) (q : Coord) :
    (∀ p ∈ faceNeighbors q, P p) ↔
      (P ⟨q.x - 1, q.y, q.z⟩ ∧ P ⟨q.x + 1, q.y, q.z⟩ ∧ P ⟨q.x, q.y - 1, q.z⟩ ∧
        P ⟨q.x, q.y + 1, q.z⟩ ∧ P ⟨q.x, q.y, q.z - 1⟩ ∧ P ⟨q.x, q.y, q.z + 1⟩) := by
  constructor
  · intro h
    exact ⟨h _ ((mem_faceNeighbors _ q).mpr (Or.inl rfl)),
      h _ ((mem_faceNeighbors _ q).mpr (Or.inr (Or.inl rfl))),
      h _ ((mem_faceNeighbors _ q).mpr (Or.inr (Or.inr (Or.inl rfl)))),
      h _ ((mem_faceNeighbors _ q).mpr (Or.inr (Or.inr (Or.inr (Or.inl rfl))))),
      h _ ((mem_faceNeighbors _ q).mpr (Or.inr (Or.inr (Or.inr (Or.inr (Or.inl rfl)))))),
      h _ ((mem_faceNeighbors _ q).mpr (Or.inr (Or.inr (Or.inr (Or.inr (Or.inr rfl))))))⟩
  · rintro ⟨h1, h2, h3, h4, h5, h6⟩ p hp
    rcases (mem_faceNeighbors p q).mp hp with rfl | rfl | rfl | rfl | rfl | rfl
    · exact h1
    · exact h2
    · exact h3
    · exact h4
    · exact h5
    · exact h6

/-- Effect of the body of the loops over `x` and `y` of `erodeVoxels` on a row that still
holds the mask of the leaf: a voxel of the row stays set exactly when it is active in the
tree together with its six face neighbours; the other rows are not written. -/
theorem erodeRow_effect (N : Nat) (t : LeafTree V) (hwf : LeafTree.WF N t)
    (e : Coord × Leaf V) (he : e ∈ t.leaves) (s : EState) (hinv : EInv N t e.1 s)
    (x y : Nat) (hx : x < DIM N) (hy : y < DIM N)
    (hpre : s.newMask (x * DIM N + y) = e.2.mask (x * DIM N + y)) :
    EInv N t e.1 (erodeRow N t e.1 e.2.mask s x y) ∧
    (∀ i, i ≠ x * DIM N + y → (erodeRow N t e.1 e.2.mask s x y).newMask i = s.newMask i) ∧
    (erodeRow N t e.1 e.2.mask s x y).newMask (x * DIM N + y) < 2 ^ DIM N ∧
    ∀ c, c < DIM N →
      (((erodeRow N t e.1 e.2.mask s x y).newMask (x * DIM N + y)).testBit c = true ↔
        (isValueOn N t ⟨e.1.x + x, e.1.y + y, e.1.z + c⟩ = true ∧
          ∀ p ∈ faceNeighbors ⟨e.1.x + x, e.1.y + y, e.1.z + c⟩, isValueOn N t p = true)) := by
  have htn : ((x : Int) * (DIM N : Int) + (y : Int)).toNat = x * DIM N + y := by
    rw [rowIndex_cast, Int.toNat_ofNat]
  have hbit : ∀ c, c < DIM N → (s.newMask (x * DIM N + y)).testBit c
      = isValueOn N t ⟨e.1.x + x, e.1.y + y, e.1.z + c⟩ := by
    intro c hc
    rw [hpre]
    exact leafWord_at N t hwf e he hx hy hc _ _ _ rfl rfl rfl
  unfold erodeRow
  simp only [htn]
  by_cases hw0 : s.newMask (x * DIM N + y) = 0
  · rw [if_pos hw0]
    refine ⟨hinv, fun _ _ => rfl, ?_, ?_⟩
    · rw [hw0]
      exact Nat.pow_pos (by decide)
    · intro c hc
      have h1 := hbit c hc
      rw [hw0, Nat.zero_testBit] at h1
      rw [hw0, Nat.zero_testBit, ← h1]
      simp
  · rw [if_neg hw0]
    obtain ⟨z1, z2, _, z4⟩ := erodeZ_effect N t hwf e he s hinv x y hx hy hpre
    obtain ⟨a1, a2, _, a4⟩ := erodeNegX_effect N t hwf e he _ z1 x y hx hy
    obtain ⟨b1, b2, _, b4⟩ := erodePosX_effect N t hwf e he _ a1 x y hx hy
    obtain ⟨c1, c2, _, c4⟩ := erodeNegY_effect N t hwf e he _ b1 x y hx hy
    obtain ⟨d1, d2, d3, d4⟩ := erodePosY_effect N t hwf e he _ c1 x y hx hy
    refine ⟨d1, ?_, d3, ?_⟩
    · intro i hi
      rw [d2 i hi, c2 i hi, b2 i hi, a2 i hi, z2 i hi]
    · intro c hc
      rw [d4 c hc, c4 c hc, b4 c hc, a4 c hc, z4 c hc, hbit c hc, forall_faceNeighbors]
      simp only [Bool.and_eq_true]
      tauto

end Morphology

namespace Morphology

variable {V : Type}

/-- A fold whose steps each write a set of indices of their own: every owned index gets the
value the step gives it, and the indices owned by no step keep their value. -/
theorem foldl_owned {S α : Type} (Inv : S → Prop) (get : S → Nat → Nat)
    (own : α → Nat → Prop) (Post : Nat → Nat → Prop) (orig : Nat → Nat) (f : S → α → S) :
    ∀ (l : List α), l.Pairwise (fun a b => ∀ i, own a i → ¬ own b i) →
      (∀ s a, a ∈ l → Inv s → (∀ i, own a i → get s i = orig i) →
        Inv (f s a) ∧ (∀ i, own a i → Post i (get (f s a) i)) ∧
          ∀ i, ¬ own a i → get (f s a) i = get s i) →
      ∀ s, Inv s → (∀ a ∈ l, ∀ i, own a i → get s i = orig i) →
        Inv (l.foldl f s) ∧ (∀ a ∈ l, ∀ i, own a i → Post i (get (l.foldl f s) i)) ∧
          ∀ i, (∀ a ∈ l, ¬ own a i) → get (l.foldl f s) i = get s i := by
  intro l
  induction l with
  | nil =>
    intro _ _ s hs _
    exact ⟨hs, fun a ha => absurd ha (List.not_mem_nil a), fun _ _ => rfl⟩
  | cons a tl ih =>
    intro hpw hstep s hs hpre
    obtain ⟨hatl, htl⟩ := List.pairwise_cons.mp hpw
    obtain ⟨h1, h2, h3⟩ := hstep s a (List.mem_cons_self _ _) hs
      (hpre a (List.mem_cons_self _ _))
    obtain ⟨k1, k2, k3⟩ := ih htl
      (fun s b hb => hstep s b (List.mem_cons_of_mem _ hb)) (f s a) h1
      (fun b hb i hi => by
        rw [h3 i (fun hai => hatl b hb i hai hi)]
        exact hpre b (List.mem_cons_of_mem _ hb) i hi)
    refine ⟨k1, ?_, ?_⟩
    · intro b hb i hi
      rcases List.mem_cons.mp hb with rfl | hb
      · show Post i (get (tl.foldl f (f s b)) i)
        rw [k3 i (fun c hc hci => hatl c hc i hi hci)]
        exact h2 i hi
      · exact k2 b hb i hi
    · intro i hi
      show get (tl.foldl f (f s a)) i = get s i
      rw [k3 i (fun b hb => hi b (List.mem_cons_of_mem _ hb)),
        h3 i (hi a (List.mem_cons_self _ _))]

/-- Effect of the body of the loop over the leaves of `erodeVoxels` when the six neighbour
entries are cleared on entry: the saved mask becomes the six-neighbourhood erosion of the
leaf, and the entries are cleared again. -/
theorem erodeLeaf_effect (N : Nat) (t : LeafTree V) (hwf : LeafTree.WF N t)
    (e : Coord × Leaf V) (he : e ∈ t.leaves) (NN : Nat → Neighbor)
    (hNN : ∀ i, (NN i).init = true) :
    MaskSpec N t e (erodeLeaf N t NN e).newMask ∧
    ∀ i, ((erodeLeaf N t NN e).NN i).init = true := by
  have hD := DIM_pos N
  have houter := foldl_owned (EInv N t e.1) (fun s : EState => s.newMask)
    (fun x i => x < DIM N ∧ ∃ y, y < DIM N ∧ i = x * DIM N + y)
    (fun i w => w < 2 ^ DIM N ∧ ∀ x y c, x < DIM N → y < DIM N → c < DIM N →
      i = x * DIM N + y →
      (w.testBit c = true ↔
        (isValueOn N t ⟨e.1.x + x, e.1.y + y, e.1.z + c⟩ = true ∧
          ∀ p ∈ faceNeighbors ⟨e.1.x + x, e.1.y + y, e.1.z + c⟩, isValueOn N t p = true)))
    e.2.mask
    (fun s x => (List.range (DIM N)).foldl (fun s y => erodeRow N t e.1 e.2.mask s x y) s)
    (List.range (DIM N))
    ((List.pairwise_lt_range (DIM N)).imp (by
      rintro a b hab i ⟨_, y1, hy1, h1⟩ ⟨_, y2, hy2, h2⟩
      have := (digits_unique hy1 hy2 (h1.symm.trans h2)).1
      omega))
    (by
      intro s x hxm hs hpre
      have hx : x < DIM N := List.mem_range.mp hxm
      obtain ⟨i1, i2, i3⟩ := foldl_owned (EInv N t e.1) (fun s : EState => s.newMask)
        (fun y i => y < DIM N ∧ i = x * DIM N + y)
        (fun i w => w < 2 ^ DIM N ∧ ∀ x y c, x < DIM N → y < DIM N → c < DIM N →
          i = x * DIM N + y →
          (w.testBit c = true ↔
            (isValueOn N t ⟨e.1.x + x, e.1.y + y, e.1.z + c⟩ = true ∧
              ∀ p ∈ faceNeighbors ⟨e.1.x + x, e.1.y + y, e.1.z + c⟩,
                isValueOn N t p = true)))
        e.2.mask (fun s y => erodeRow N t e.1 e.2.mask s x y) (List.range (DIM N))
        ((List.pairwise_lt_range (DIM N)).imp (by
          rintro a b hab i ⟨_, h1⟩ ⟨_, h2⟩
          omega))
        (by
          intro s1 y hym hs1 hpre1
          have hy : y < DIM N := List.mem_range.mp hym
          obtain ⟨r1, r2, r3, r4⟩ := erodeRow_effect N t hwf e he s1 hs1 x y hx hy
            (hpre1 _ ⟨hy, rfl⟩)
          refine ⟨r1, ?_, ?_⟩
          · rintro i ⟨_, rfl⟩
            refine ⟨r3, ?_⟩
            intro x2 y2 c hx2 hy2 hc hi
            obtain ⟨rfl, rfl⟩ := digits_unique hy2 hy hi.symm
            exact r4 c hc
          · intro i hi
            exact r2 i (fun h => hi ⟨hy, h⟩))
        s hs
        (by
          rintro y hym i ⟨hy, rfl⟩
          exact hpre _ ⟨hx, y, hy, rfl⟩)
      refine ⟨i1, ?_, ?_⟩
      · rintro i ⟨_, y, hy, rfl⟩
        exact i2 y (List.mem_range.mpr hy) _ ⟨hy, rfl⟩
      · intro i hi
        exact i3 i (fun y hym hown => hi ⟨hx, y, hown.1, hown.2⟩))
    (⟨e.2.mask, NN⟩ : EState)
    ⟨fun i hi => by
      have := hNN i
      simp only at hi
      rw [this] at hi
      exact Bool.noConfusion hi⟩
    (fun _ _ _ _ => rfl)
  obtain ⟨_, o2, o3⟩ := houter
  refine ⟨⟨?_, ?_⟩, fun i => rfl⟩
  · intro i
    by_cases hi : i < DIM N * DIM N
    · have hdiv : i / DIM N < DIM N := Nat.div_lt_of_lt_mul hi
      have hmod : i % DIM N < DIM N := Nat.mod_lt _ hD
      have hi2 : i = i / DIM N * DIM N + i % DIM N := by
        rw [Nat.mul_comm]
        exact (Nat.div_add_mod i (DIM N)).symm
      exact (o2 (i / DIM N) (List.mem_range.mpr hdiv) i ⟨hdiv, i % DIM N, hmod, hi2⟩).1
    · have h := o3 i (by
        rintro x hxm ⟨hx, y, hy, rfl⟩
        apply hi
        calc x * DIM N + y < x * DIM N + DIM N := by omega
          _ = (x + 1) * DIM N := by ring
          _ ≤ DIM N * DIM N := Nat.mul_le_mul_right _ hx)
      show (erodeLeaf N t NN e).newMask i < 2 ^ DIM N
      have h2 : (erodeLeaf N t NN e).newMask i = e.2.mask i := h
      rw [h2]
      exact hwf.words e he i
  · intro x y c hx hy hc
    exact (o2 x (List.mem_range.mpr hx) (x * DIM N + y) ⟨hx, y, hy, rfl⟩).2 x y c hx hy hc rfl

end Morphology

namespace Morphology

variable {V : Type}

/-- The loop over the leaves of `erodeVoxels`: the saved mask of every leaf is replaced by
its six-neighbourhood erosion in the tree. -/
theorem erodeLoop_spec (N : Nat) (t : LeafTree V) (hwf : LeafTree.WF N t) :
    ∀ (rest : List (Coord × Leaf V)) (acc : List (Nat → Nat) × (Nat → Neighbor)),
      (∀ e ∈ rest, e ∈ t.leaves) → (∀ i, (acc.2 i).init = true) →
      ∃ ms, (erodeLoop N t rest acc).1 = acc.1 ++ ms ∧ List.Forall₂ (MaskSpec N t) rest ms := by
  intro rest
  induction rest with
  | nil =>
    intro acc _ _
    exact ⟨[], by simp [erodeLoop], List.Forall₂.nil⟩
  | cons e tl ih =>
    intro acc hmem hinit
    obtain ⟨h1, h2⟩ := erodeLeaf_effect N t hwf e (hmem e (List.mem_cons_self _ _)) acc.2 hinit
    obtain ⟨ms, h3, h4⟩ := ih (acc.1 ++ [(erodeLeaf N t acc.2 e).newMask],
      (erodeLeaf N t acc.2 e).NN) (fun e1 h => hmem e1 (List.mem_cons_of_mem _ h)) h2
    refine ⟨(erodeLeaf N t acc.2 e).newMask :: ms, ?_, List.Forall₂.cons h1 h4⟩
    simp only [erodeLoop]
    rw [h3]
    simp

theorem findLeaf_zipWith (R : Coord × Leaf V → (Nat → Nat) → Prop)
    (l : List (Coord × Leaf V)) (ms : List (Nat → Nat)) (h : List.Forall₂ R l ms) (k : Coord) :
    (findLeaf l k = none →
      findLeaf (List.zipWith (fun e m => (e.1, (⟨m, e.2.buffer⟩ : Leaf V))) l ms) k = none) ∧
    ∀ lf, findLeaf l k = some lf →
      ∃ m, R (k, lf) m ∧
        findLeaf (List.zipWith (fun e m => (e.1, (⟨m, e.2.buffer⟩ : Leaf V))) l ms) k
          = some ⟨m, lf.buffer⟩ := by
  induction h with
  | nil => exact ⟨fun _ => rfl, fun lf h => Option.noConfusion h⟩
  | @cons e m tl ms1 hR _ ih =>
    obtain ⟨k0, l0⟩ := e
    by_cases hk : k0 = k
    · subst hk
      simp only [findLeaf, List.zipWith_cons_cons, if_true]
      refine ⟨fun h => Option.noConfusion h, ?_⟩
      intro lf hlf
      have : l0 = lf := Option.some.inj hlf
      subst this
      exact ⟨m, hR, rfl⟩
    · simp only [findLeaf, List.zipWith_cons_cons, hk, if_false]
      exact ih

theorem mem_zipWith_masks (R : Coord × Leaf V → (Nat → Nat) → Prop)
    (l : List (Coord × Leaf V)) (ms : List (Nat → Nat)) (h : List.Forall₂ R l ms) :
    (List.zipWith (fun e m => (e.1, (⟨m, e.2.buffer⟩ : Leaf V))) l ms).map Prod.fst
        = l.map Prod.fst ∧
    ∀ e1, e1 ∈ List.zipWith (fun e m => (e.1, (⟨m, e.2.buffer⟩ : Leaf V))) l ms →
      ∃ e, e ∈ l ∧ ∃ m, R e m ∧ e1 = (e.1, ⟨m, e.2.buffer⟩) := by
  induction h with
  | nil => exact ⟨rfl, fun e1 h => absurd h (List.not_mem_nil e1)⟩
  | @cons e m tl ms1 hR _ ih =>
    obtain ⟨ih1, ih2⟩ := ih
    refine ⟨?_, ?_⟩
    · simp only [List.zipWith_cons_cons, List.map_cons, ih1]
    · intro e1 he1
      simp only [List.zipWith_cons_cons, List.mem_cons] at he1
      rcases he1 with he1 | he1
      · exact ⟨e, List.mem_cons_self _ _, m, hR, he1⟩
      · obtain ⟨e0, h0, m0, h1, h2⟩ := ih2 e1 he1
        exact ⟨e0, List.mem_cons_of_mem _ h0, m0, h1, h2⟩

/-- The tree before the pruning step of `erodeVoxels`: the leaves of the tree, each with the
six-neighbourhood erosion of its mask and with its buffer. -/
theorem erodeMasks_spec (N : Nat) (t : LeafTree V) (hwf : LeafTree.WF N t) :
    ∃ ms, erodeMasks N t
        = ⟨List.zipWith (fun e m => (e.1, (⟨m, e.2.buffer⟩ : Leaf V))) t.leaves ms, t.tile⟩ ∧
      List.Forall₂ (MaskSpec N t) t.leaves ms := by
  obtain ⟨ms, h1, h2⟩ := erodeLoop_spec N t hwf t.leaves ([], fun _ => ⟨none, true, false⟩)
    (fun _ h => h) (fun _ => rfl)
  refine ⟨ms, ?_, h2⟩
  simp only [erodeMasks, h1, List.nil_append]

theorem wf_erodeMasks (N : Nat) (t : LeafTree V) (hwf : LeafTree.WF N t) :
    LeafTree.WF N (erodeMasks N t) := by
  obtain ⟨ms, h1, h2⟩ := erodeMasks_spec N t hwf
  obtain ⟨k1, k2⟩ := mem_zipWith_masks _ _ _ h2
  rw [h1]
  refine ⟨?_, ?_, ?_⟩
  · simp only [k1]
    exact hwf.nodup
  · intro e1 he1
    obtain ⟨e, he, m, _, rfl⟩ := k2 e1 he1
    exact hwf.aligned e he
  · intro e1 he1 i
    obtain ⟨e, he, m, hm, rfl⟩ := k2 e1 he1
    exact hm.1 i

/-- The masks written by `erodeVoxels` leave every value as it was. -/
theorem getValue_erodeMasks (N : Nat) (t : LeafTree V) (hwf : LeafTree.WF N t) (q : Coord) :
    getValue N (erodeMasks N t) q = getValue N t q := by
  obtain ⟨ms, h1, h2⟩ := erodeMasks_spec N t hwf
  obtain ⟨f1, f2⟩ := findLeaf_zipWith _ _ _ h2 (leafKey N q)
  rw [h1]
  unfold getValue
  cases hf : findLeaf t.leaves (leafKey N q) with
  | none => simp only [f1 hf]
  | some lf =>
    obtain ⟨m, _, h3⟩ := f2 lf hf
    simp only [h3]

theorem hasLeaf_erodeMasks (N : Nat) (t : LeafTree V) (hwf : LeafTree.WF N t) (k : Coord) :
    hasLeaf (erodeMasks N t) k = hasLeaf t k := by
  obtain ⟨ms, h1, h2⟩ := erodeMasks_spec N t hwf
  obtain ⟨f1, f2⟩ := findLeaf_zipWith _ _ _ h2 k
  rw [h1]
  unfold hasLeaf
  cases hf : findLeaf t.leaves k with
  | none => simp only [f1 hf]
  | some lf =>
    obtain ⟨m, _, h3⟩ := f2 lf hf
    simp only [h3, Option.isSome_some]

/-- Active states before the pruning step of `erodeVoxels`: a voxel of a leaf is active
exactly when it was active together with its six face neighbours, a neighbour in a missing
leaf counting by the state of the tile that covers it; a voxel outside the leaves keeps its
state. -/
theorem isValueOn_erodeMasks (N : Nat) (t : LeafTree V) (hwf : LeafTree.WF N t) (q : Coord) :
    (hasLeaf t (leafKey N q) = true →
      (isValueOn N (erodeMasks N t) q = true ↔
        (isValueOn N t q = true ∧ ∀ p ∈ faceNeighbors q, isValueOn N t p = true))) ∧
    (hasLeaf t (leafKey N q) = false →
      isValueOn N (erodeMasks N t) q = isValueOn N t q) := by
  obtain ⟨ms, h1, h2⟩ := erodeMasks_spec N t hwf
  obtain ⟨f1, f2⟩ := findLeaf_zipWith _ _ _ h2 (leafKey N q)
  rw [h1]
  constructor
  · intro hl
    cases hf : findLeaf t.leaves (leafKey N q) with
    | none =>
      simp only [hasLeaf, hf, Option.isSome_none] at hl
      exact Bool.noConfusion hl
    | some lf =>
      obtain ⟨m, hm, h3⟩ := f2 lf hf
      have hq : (⟨(leafKey N q).x + (offsetIn N q.x : Int),
          (leafKey N q).y + (offsetIn N q.y : Int),
          (leafKey N q).z + (offsetIn N q.z : Int)⟩ : Coord) = q := by
        obtain ⟨qx, qy, qz⟩ := q
        simp only [leafKey, Coord.mk.injEq]
        exact ⟨(coord_split N qx).symm, (coord_split N qy).symm, (coord_split N qz).symm⟩
      have hspec := hm.2 (offsetIn N q.x) (offsetIn N q.y) (offsetIn N q.z)
        (offsetIn_lt N q.x) (offsetIn_lt N q.y) (offsetIn_lt N q.z)
      simp only at hspec
      rw [hq] at hspec
      rw [← hspec]
      simp only [isValueOn, h3, wordIndex]
  · intro hl
    cases hf : findLeaf t.leaves (leafKey N q) with
    | some lf =>
      simp only [hasLeaf, hf, Option.isSome_some] at hl
      exact Bool.noConfusion hl
    | none =>
      simp only [isValueOn, f1 hf, hf]

end Morphology

namespace Morphology

variable {V : Type}

/-! ## Pruning after the erosion -/

theorem findLeaf_none_of_not_mem (ls : List (Coord × Leaf V)) (k : Coord)
    (h : k ∉ ls.map Prod.fst) : findLeaf ls k = none := by
  induction ls with
  | nil => rfl
  | cons hd tl ih =>
    obtain ⟨k0, l0⟩ := hd
    simp only [List.map_cons, List.mem_cons, not_or] at h
    simp only [findLeaf, if_neg (fun hk : k0 = k => h.1 hk.symm)]
    exact ih h.2

theorem findLeaf_filter (ls : List (Coord × Leaf V)) (hnd : (ls.map Prod.fst).Nodup)
    (P : Coord × Leaf V → Bool) (k : Coord) :
    findLeaf (ls.filter P) k
      = (match findLeaf ls k with
         | some lf => if P (k, lf) = true then some lf else none
         | none => none) := by
  induction ls with
  | nil => rfl
  | cons hd tl ih =>
    obtain ⟨k0, l0⟩ := hd
    simp only [List.map_cons, List.nodup_cons] at hnd
    by_cases hk : k0 = k
    · subst hk
      have htl : findLeaf tl k0 = none := findLeaf_none_of_not_mem tl k0 hnd.1
      cases hP : P (k0, l0) with
      | true => simp [List.filter, hP, findLeaf]
      | false =>
        simp only [List.filter, hP, findLeaf, if_true, Bool.false_eq_true, if_false]
        rw [ih hnd.2, htl]
    · cases hP : P (k0, l0) with
      | true =>
        simp only [List.filter, hP, findLeaf, hk, if_false]
        exact ih hnd.2
      | false =>
        simp only [List.filter, hP, findLeaf, hk, if_false]
        exact ih hnd.2

theorem wordIndex_lt (N : Nat) (q : Coord) : wordIndex N q < DIM N * DIM N := by
  have h1 : offsetIn N q.x < DIM N := offsetIn_lt N q.x
  have h2 : offsetIn N q.y < DIM N := offsetIn_lt N q.y
  unfold wordIndex
  calc offsetIn N q.x * DIM N + offsetIn N q.y < offsetIn N q.x * DIM N + DIM N := by omega
    _ = (offsetIn N q.x + 1) * DIM N := by ring
    _ ≤ DIM N * DIM N := Nat.mul_le_mul_right _ h1

/-- The pruning of a level set changes no active state. -/
theorem isValueOn_pruneLevelSet (N : Nat) (sops : SignOps V) (bg : V) (t : LeafTree V)
    (hwf : LeafTree.WF N t) (q : Coord) :
    isValueOn N (pruneLevelSet N sops bg t) q = isValueOn N t q := by
  unfold isValueOn pruneLevelSet
  simp only
  rw [findLeaf_filter t.leaves hwf.nodup]
  cases hf : findLeaf t.leaves (leafKey N q) with
  | none => rfl
  | some lf =>
    cases hc : (lf.isInactive N && lf.signUniform N sops) with
    | false => simp only [hc, Bool.not_false, if_true]
    | true =>
      simp only [hc, Bool.not_true, Bool.false_eq_true, if_false, if_true]
      have hin : lf.isInactive N = true := by
        cases h : lf.isInactive N with
        | true => rfl
        | false => rw [h] at hc; exact Bool.noConfusion hc
      have h0 : lf.mask (wordIndex N q) = 0 := by
        have := (List.all_eq_true.mp hin) (wordIndex N q)
          (List.mem_range.mpr (wordIndex_lt N q))
        exact beq_iff_eq.mp this
      rw [h0, Nat.zero_testBit]

theorem wf_pruneLevelSet (N : Nat) (sops : SignOps V) (bg : V) (t : LeafTree V)
    (hwf : LeafTree.WF N t) : LeafTree.WF N (pruneLevelSet N sops bg t) := by
  refine ⟨?_, ?_, ?_⟩
  · exact hwf.nodup.sublist ((List.filter_sublist _).map Prod.fst)
  · intro e he
    exact hwf.aligned e (List.mem_filter.mp he).1
  · intro e he i
    exact hwf.words e (List.mem_filter.mp he).1 i

theorem wf_erodeVoxels (N : Nat) (sops : SignOps V) (bg : V) (t : LeafTree V)
    (hwf : LeafTree.WF N t) : LeafTree.WF N (erodeVoxels N sops bg t) :=
  wf_pruneLevelSet N sops bg _ (wf_erodeMasks N t hwf)

/-- A voxel that is active together with its six face neighbours is active after a pass of
erosion. -/
theorem isValueOn_erodeVoxels_of (N : Nat) (sops : SignOps V) (bg : V) (t : LeafTree V)
    (hwf : LeafTree.WF N t) (q : Coord) (hq : isValueOn N t q = true)
    (hn : ∀ p ∈ faceNeighbors q, isValueOn N t p = true) :
    isValueOn N (erodeVoxels N sops bg t) q = true := by
  unfold erodeVoxels
  rw [isValueOn_pruneLevelSet N sops bg _ (wf_erodeMasks N t hwf)]
  obtain ⟨h1, h2⟩ := isValueOn_erodeMasks N t hwf q
  cases hl : hasLeaf t (leafKey N q) with
  | true => exact (h1 hl).mpr ⟨hq, hn⟩
  | false => rw [h2 hl]; exact hq

theorem dilateVoxelsCount_succ (N : Nat) (k : Nat) :
    ∀ t : LeafTree V,
      dilateVoxelsCount N t (k + 1) = dilateVoxels N (dilateVoxelsCount N t k) := by
  induction k with
  | zero => intro t; rfl
  | succ j ih =>
    intro t
    show dilateVoxelsCount N (dilateVoxels N t) (j + 1) = _
    rw [ih (dilateVoxels N t)]
    rfl

/-- Closing is extensive: `k` passes of erosion applied to a tree that contains the `k`-fold
dilation of `t` keep every voxel that is active in `t`. -/
theorem closing_lower (N : Nat) (sops : SignOps V) (bg : V) (k : Nat) :
    ∀ (t u : LeafTree V), LeafTree.WF N t →
      (∀ k, hasLeaf t k = false → (t.tile k).2 = false) → LeafTree.WF N u →
      (∀ q, isValueOn N (dilateVoxelsCount N t k) q = true → isValueOn N u q = true) →
      ∀ q, isValueOn N t q = true → isValueOn N (erodeVoxelsCount N sops bg u k) q = true := by
  induction k with
  | zero =>
    intro t u _ _ _ h q hq
    exact h q hq
  | succ j ih =>
    intro t u hwf hno hu h q hq
    show isValueOn N (erodeVoxelsCount N sops bg (erodeVoxels N sops bg u) j) q = true
    refine ih t (erodeVoxels N sops bg u) hwf hno (wf_erodeVoxels N sops bg u hu) ?_ q hq
    intro r hr
    obtain ⟨hwfj, hnoj⟩ := dilateVoxelsCount_inv N j t hwf hno
    have hd := dilateVoxels_effect N (dilateVoxelsCount N t j) hwfj hnoj
    rw [← dilateVoxelsCount_succ] at hd
    refine isValueOn_erodeVoxels_of N sops bg u hu r (h r ((hd r).mpr (Or.inl hr))) ?_
    intro p hp
    exact h p ((hd p).mpr (Or.inr ⟨r, hr, hp⟩))

/-- C25 (closing is extensive on a single voxel): for every coordinate `p` and every
`k ≥ 1`, starting from a tree whose only active voxel is `p` (a well-formed leaf-level tree
without active tiles), after `dilateVoxels(tree, k)` followed by `erodeVoxels(tree, k)` the
voxel `p` is active. -/
theorem closing_extensive (N : Nat) (sops : SignOps V) (bg : V) (t : LeafTree V)
    (hwf : LeafTree.WF N t) (hno : ∀ k, hasLeaf t k = false → (t.tile k).2 = false)
    (p : Coord) (hp : ∀ q, isValueOn N t q = true ↔ q = p) (k : Nat) (hk : 1 ≤ k) :
    isValueOn N (erodeVoxelsCount N sops bg (dilateVoxelsCount N t k) k) p = true :=
  closing_lower N sops bg k t (dilateVoxelsCount N t k) hwf hno
    (dilateVoxelsCount_inv N k t hwf hno).1 (fun _ h => h) p ((hp p).mpr rfl)

/-- Instance of C25: two passes of dilation and two passes of erosion on the tree whose
only active voxel is (0,0,0). -/
theorem closing_extensive_witness :
    LeafTree.WF 3 singleVoxel ∧
    (∀ k, hasLeaf singleVoxel k = false → (singleVoxel.tile k).2 = false) ∧
    (∀ q, isValueOn 3 singleVoxel q = true ↔ q = ⟨0, 0, 0⟩) ∧
    isValueOn 3 (erodeVoxelsCount 3 intSign 0 (dilateVoxelsCount 3 singleVoxel 2) 2)
      ⟨0, 0, 0⟩ = true :=
  ⟨singleVoxel_WF, fun _ _ => rfl, singleVoxel_only,
    closing_extensive 3 intSign 0 singleVoxel singleVoxel_WF (fun _ _ => rfl) ⟨0, 0, 0⟩
      singleVoxel_only 2 (by decide)⟩

set_option maxRecDepth 10000

/-- C26 (the code at the failing input): in the tree whose only active voxel is (0,0,0),
of value 1 over the background 0, one pass of `erodeVoxels` turns the voxel off; its leaf is
then entirely inactive and is collapsed by `pruneLevelSet` to an inactive background tile,
so that the value read at (0,0,0) changes from 1 to 0. -/
theorem erodeVoxels_changes_value :
    getValue 3 singleVoxel ⟨0, 0, 0⟩ = 1 ∧
    getValue 3 (erodeVoxelsCount 3 intSign 0 singleVoxel 1) ⟨0, 0, 0⟩ = 0 ∧
    getValue 3 (erodeMasks 3 singleVoxel) ⟨0, 0, 0⟩ = 1 :=
  ⟨rfl, rfl, rfl⟩

end Morphology

namespace RootNode

variable {V : Type} [DecidableEq V] {ops : ChildOps V}

/-! ## The members that take an accessor -/

/-- On a dense cube the caching members agree with the plain members. -/
theorem denseCacheLaws :
    CacheLaws (denseStateOps Int) (denseLevelOps Int) denseWriteOps denseCacheOps :=
  ⟨fun _ _ _ => rfl, fun _ _ _ => rfl, fun _ _ _ => rfl, fun _ _ _ => rfl,
    fun _ _ _ _ => rfl, fun _ _ _ _ => rfl, fun _ _ _ _ => rfl, fun _ _ _ _ => rfl,
    fun _ _ _ _ => rfl, fun _ _ _ => rfl⟩

/-- C27 (accessor equivalence at the root): provided the caching members of the child agree
with its plain members, for every root, coordinate and accessor state `getValueAndCache`,
`isValueOnAndCache`, `probeValueAndCache` and `getValueDepthAndCache` return what
`getValue`, `isValueOn`, `probeValue` and `getValueDepth` return, and `setValueAndCache`,
`setValueOnlyAndCache`, `setValueOffAndCache`, `setValueOnSumAndCache`,
`setActiveStateAndCache` and `touchLeafAndCache` leave the root that `setValueOn`,
`setValueOnly`, `setValueOff`, `setValueOnSum`, `setActiveState` and `touchLeaf` leave
(`touchLeafAndCache` also returns the same leaf). -/
theorem accessor_equivalence (sops : StateOps ops) (lops : LevelOps ops) (wops : WriteOps ops)
    (cops : CacheOps ops wops) (isZero : V → Bool) (h : CacheLaws sops lops wops cops)
    (r : RootNode V ops) (p : Coord) (acc : cops.Accessor) (v : V) (flag : Bool) :
    (r.getValueAndCache cops p acc).1 = r.getValue p ∧
    (r.isValueOnAndCache cops p acc).1 = r.isValueOn p ∧
    (r.probeValueAndCache cops p acc).1 = r.probeValue wops p ∧
    (r.getValueDepthAndCache cops p acc).1 = r.getValueDepth lops p ∧
    (r.setValueAndCache cops p v acc).1 = r.setValueOn p v ∧
    (r.setValueOnlyAndCache cops p v acc).1 = r.setValueOnly sops p v ∧
    (r.setValueOffAndCache cops p v acc).1 = r.setValueOffValue wops p v ∧
    (r.setValueOnSumAndCache cops isZero p v acc).1 = r.setValueOnSum wops isZero p v ∧
    (r.setActiveStateAndCache cops p flag acc).1 = r.setActiveState sops p flag ∧
    (r.touchLeafAndCache cops p acc).1 = r.touchLeaf wops p := by
  refine ⟨?_, ?_, ?_, ?_, ?_, ?_, ?_, ?_, ?_, ?_⟩
  · unfold getValueAndCache getValue
    cases r.findCoord p with
    | none => rfl
    | some e =>
      cases e with
      | tile t => rfl
      | child c => exact h.getValue c p _
  · unfold isValueOnAndCache isValueOn
    cases r.findCoord p with
    | none => rfl
    | some e =>
      cases e with
      | tile t => rfl
      | child c => exact h.isValueOn c p _
  · unfold probeValueAndCache probeValue
    cases r.findCoord p with
    | none => rfl
    | some e =>
      cases e with
      | tile t => rfl
      | child c => exact h.probeValue c p _
  · unfold getValueDepthAndCache getValueDepth
    cases r.findCoord p with
    | none => rfl
    | some e =>
      cases e with
      | tile t => rfl
      | child c =>
        simp only
        rw [h.getValueLevel c p _]
  · simp only [setValueAndCache, setValueOn]
    split
    · simp only [h.setValue]
    · simp only [h.setValue]
    · split
      · simp only [h.setValue]
      · rfl
  · simp only [setValueOnlyAndCache, setValueOnly]
    split
    · simp only [h.setValueOnly]
    · simp only [h.setValueOnly]
    · split
      · simp only [h.setValueOnly]
      · rfl
  · simp only [setValueOffAndCache, setValueOffValue]
    split
    · split
      · simp only [h.setValueOff]
      · rfl
    · simp only [h.setValueOff]
    · split
      · simp only [h.setValueOff]
      · rfl
  · simp only [setValueOnSumAndCache, setValueOnSum]
    split
    · simp only [h.setValueOnSum]
    · simp only [h.setValueOnSum]
    · split
      · simp only [h.setValueOnSum]
      · rfl
  · simp only [setActiveStateAndCache, setActiveState]
    split
    · split
      · simp only [h.setActiveState]
      · rfl
    · simp only [h.setActiveState]
    · split
      · simp only [h.setActiveState]
      · rfl
  · unfold touchLeafAndCache touchLeaf
    simp only
    rw [h.touchLeaf]

/-- Instance of C27 at the sample root, at a coordinate inside its child, with the accessor
that records the inserted coordinates. -/
theorem accessor_equivalence_witness :
    (sampleRoot.getValueAndCache denseCacheOps ⟨4, 0, 1⟩ []).1 = sampleRoot.getValue ⟨4, 0, 1⟩ ∧
    (sampleRoot.setValueAndCache denseCacheOps ⟨4, 0, 1⟩ 3 []).1
      = sampleRoot.setValueOn ⟨4, 0, 1⟩ 3 ∧
    (sampleRoot.touchLeafAndCache denseCacheOps ⟨4, 0, 1⟩ []).1
      = sampleRoot.touchLeaf denseWriteOps ⟨4, 0, 1⟩ :=
  have h := accessor_equivalence (denseStateOps Int) (denseLevelOps Int) denseWriteOps
    denseCacheOps (fun v => decide (v = 0)) denseCacheLaws sampleRoot ⟨4, 0, 1⟩ [] 3 true
  ⟨h.1, h.2.2.2.2.1, h.2.2.2.2.2.2.2.2.2⟩

end RootNode

namespace RootNode

variable {V : Type} [DecidableEq V] {ops : ChildOps V}

/-! ## Alignment of the keys of the root table -/

theorem mem_erase_imp {W C : Type} (t : MapType W C) (k : Coord) (e : Coord × NodeStruct W C)
    (h : e ∈ t.erase k) : e ∈ t := by
  induction t with
  | nil => exact h
  | cons hd tl ih =>
    obtain ⟨k0, m⟩ := hd
    simp only [MapType.erase] at h
    split at h
    · exact List.mem_cons_of_mem _ h
    · rcases List.mem_cons.mp h with h | h
      · rw [h]
        exact List.mem_cons_self _ _
      · exact List.mem_cons_of_mem _ (ih h)

theorem mem_foldl_erase {W C : Type} (ks : List Coord) :
    ∀ (t : MapType W C) (e : Coord × NodeStruct W C), e ∈ ks.foldl MapType.erase t → e ∈ t := by
  induction ks with
  | nil => intro t e h; exact h
  | cons k rest ih =>
    intro t e h
    exact mem_erase_imp t k e (ih _ e h)

theorem mem_insert_imp {W C : Type} (t : MapType W C) (k : Coord) (n : NodeStruct W C)
    (e : Coord × NodeStruct W C) (h : e ∈ t.insert k n) : e = (k, n) ∨ e ∈ t := by
  unfold MapType.insert at h
  split at h
  · exact Or.inr h
  · exact MapType.mem_assign h

theorem aligned_assign {W C : Type} {t : MapType W C} (h : KeysAligned ops t) {k : Coord}
    (hk : coordToKey ops k = k) (n : NodeStruct W C) : KeysAligned ops (t.assign k n) := by
  intro e he
  rcases MapType.mem_assign he with rfl | he
  · exact hk
  · exact h e he

theorem aligned_insert {W C : Type} {t : MapType W C} (h : KeysAligned ops t) {k : Coord}
    (hk : coordToKey ops k = k) (n : NodeStruct W C) : KeysAligned ops (t.insert k n) := by
  intro e he
  rcases mem_insert_imp t k n e he with rfl | he
  · exact hk
  · exact h e he

theorem aligned_map {W C : Type} {t : MapType W C} (h : KeysAligned ops t)
    (f : Coord × NodeStruct W C → Coord × NodeStruct W C) (hf : ∀ i, (f i).1 = i.1) :
    KeysAligned ops (t.map f) := by
  intro e he
  obtain ⟨i, hi, rfl⟩ := List.mem_map.mp he
  rw [hf i]
  exact h i hi

/-- The keys after an operation at the coordinate `p`: every entry was there before, or its
key is `coordToKey(p)`. -/
theorem pointStep_assign (r : RootNode V ops) (p : Coord) (n : NodeStruct V ops.Child) :
    ∀ e ∈ r.mTable.assign (coordToKey ops p) n, e ∈ r.mTable ∨ e.1 = coordToKey ops p := by
  intro e he
  rcases MapType.mem_assign he with rfl | he
  · exact Or.inr rfl
  · exact Or.inl he

theorem aligned_of_pointStep {r r1 : RootNode V ops} {p : Coord}
    (h : KeysAligned ops r.mTable)
    (hs : ∀ e ∈ r1.mTable, e ∈ r.mTable ∨ e.1 = coordToKey ops p) :
    KeysAligned ops r1.mTable := by
  intro e he
  rcases hs e he with h1 | h1
  · exact h e h1
  · rw [h1]
    exact coordToKey_idem ops p

theorem pointStep_setValueOn (r : RootNode V ops) (p : Coord) (v : V) :
    ∀ e ∈ (r.setValueOn p v).mTable, e ∈ r.mTable ∨ e.1 = coordToKey ops p := by
  simp only [setValueOn]
  split
  · exact pointStep_assign r p _
  · exact pointStep_assign r p _
  · split
    · exact pointStep_assign r p _
    · exact fun e he => Or.inl he

theorem pointStep_setValueOnly (sops : StateOps ops) (r : RootNode V ops) (p : Coord) (v : V) :
    ∀ e ∈ (r.setValueOnly sops p v).mTable, e ∈ r.mTable ∨ e.1 = coordToKey ops p := by
  simp only [setValueOnly]
  split
  · exact pointStep_assign r p _
  · exact pointStep_assign r p _
  · split
    · exact pointStep_assign r p _
    · exact fun e he => Or.inl he

theorem pointStep_setActiveState (sops : StateOps ops) (r : RootNode V ops) (p : Coord)
    (flag : Bool) :
    ∀ e ∈ (r.setActiveState sops p flag).mTable, e ∈ r.mTable ∨ e.1 = coordToKey ops p := by
  simp only [setActiveState]
  split
  · split
    · exact pointStep_assign r p _
    · exact fun e he => Or.inl he
  · exact pointStep_assign r p _
  · split
    · exact pointStep_assign r p _
    · exact fun e he => Or.inl he

theorem pointStep_setValueOff (sops : StateOps ops) (r : RootNode V ops) (p : Coord) :
    ∀ e ∈ (r.setValueOff sops p).mTable, e ∈ r.mTable ∨ e.1 = coordToKey ops p := by
  simp only [setValueOff]
  split
  · exact fun e he => Or.inl he
  · exact pointStep_assign r p _
  · split
    · exact pointStep_assign r p _
    · exact fun e he => Or.inl he

theorem pointStep_setValueOffValue (wops : WriteOps ops) (r : RootNode V ops) (p : Coord)
    (v : V) :
    ∀ e ∈ (r.setValueOffValue wops p v).mTable, e ∈ r.mTable ∨ e.1 = coordToKey ops p := by
  simp only [setValueOffValue]
  split
  · split
    · exact pointStep_assign r p _
    · exact fun e he => Or.inl he
  · exact pointStep_assign r p _
  · split
    · exact pointStep_assign r p _
    · exact fun e he => Or.inl he

theorem pointStep_setValueOnMin (vops : ValueOps V) (wops : WriteOps ops) (r : RootNode V ops)
    (p : Coord) (v : V) :
    ∀ e ∈ (r.setValueOnMin vops wops p v).mTable, e ∈ r.mTable ∨ e.1 = coordToKey ops p := by
  simp only [setValueOnMin]
  split
  · exact pointStep_assign r p _
  · exact pointStep_assign r p _
  · split
    · exact pointStep_assign r p _
    · exact fun e he => Or.inl he

theorem pointStep_setValueOnMax (vops : ValueOps V) (wops : WriteOps ops) (r : RootNode V ops)
    (p : Coord) (v : V) :
    ∀ e ∈ (r.setValueOnMax vops wops p v).mTable, e ∈ r.mTable ∨ e.1 = coordToKey ops p := by
  simp only [setValueOnMax]
  split
  · exact pointStep_assign r p _
  · exact pointStep_assign r p _
  · split
    · exact pointStep_assign r p _
    · exact fun e he => Or.inl he

theorem pointStep_setValueOnSum (wops : WriteOps ops) (isZero : V → Bool) (r : RootNode V ops)
    (p : Coord) (v : V) :
    ∀ e ∈ (r.setValueOnSum wops isZero p v).mTable,
      e ∈ r.mTable ∨ e.1 = coordToKey ops p := by
  simp only [setValueOnSum]
  split
  · exact pointStep_assign r p _
  · exact pointStep_assign r p _
  · split
    · exact pointStep_assign r p _
    · exact fun e he => Or.inl he

theorem pointStep_touchLeaf (wops : WriteOps ops) (r : RootNode V ops) (p : Coord) :
    ∀ e ∈ (r.touchLeaf wops p).1.mTable, e ∈ r.mTable ∨ e.1 = coordToKey ops p := by
  simp only [touchLeaf]
  exact pointStep_assign r p _

theorem pointStep_expand (r : RootNode V ops) (p : Coord) :
    ∀ e ∈ (r.expand p).1.mTable, e ∈ r.mTable ∨ e.1 = coordToKey ops p := by
  simp only [expand]
  intro e he
  rcases mem_insert_imp _ _ _ e he with rfl | he
  · exact Or.inr rfl
  · exact Or.inl he

end RootNode

namespace RootNode

variable {V : Type} [DecidableEq V] {ops : ChildOps V}

theorem aligned_fillBody (r : RootNode V ops) (h : KeysAligned ops r.mTable)
    (bbox : CoordBBox) (value : V) (active : Bool) (xyz : Coord) :
    KeysAligned ops (fillBody r bbox value active xyz).1.mTable := by
  have hk := coordToKey_idem ops xyz
  simp only [fillBody]
  split
  · split
    · exact aligned_assign h hk _
    · exact aligned_assign h hk _
    · exact aligned_assign h hk _
  · simp only [findOrAddCoord]
    exact aligned_assign (aligned_insert h (coordToKey_idem ops _) _) (coordToKey_idem ops _) _

theorem aligned_fillLoopZ (bbox : CoordBBox) (value : V) (active : Bool) (x y : Int) :
    ∀ (fuel : Nat) (z : Int) (st st1 : RootNode V ops × Coord),
      fillLoopZ bbox value active x y fuel z st = some st1 →
      KeysAligned ops st.1.mTable → KeysAligned ops st1.1.mTable := by
  intro fuel
  induction fuel with
  | zero =>
    intro z st st1 h hal
    simp only [fillLoopZ] at h
    split at h
    · exact Option.noConfusion h
    · rw [← Option.some.inj h]
      exact hal
  | succ n ih =>
    intro z st st1 h hal
    simp only [fillLoopZ] at h
    split at h
    · exact ih _ _ _ h (aligned_fillBody st.1 hal bbox value active _)
    · rw [← Option.some.inj h]
      exact hal

theorem aligned_fillLoopY (bbox : CoordBBox) (value : V) (active : Bool) (fuelZ : Nat)
    (x : Int) :
    ∀ (fuel : Nat) (y : Int) (st st1 : RootNode V ops × Coord),
      fillLoopY bbox value active fuelZ x fuel y st = some st1 →
      KeysAligned ops st.1.mTable → KeysAligned ops st1.1.mTable := by
  intro fuel
  induction fuel with
  | zero =>
    intro y st st1 h hal
    simp only [fillLoopY] at h
    split at h
    · exact Option.noConfusion h
    · rw [← Option.some.inj h]
      exact hal
  | succ n ih =>
    intro y st st1 h hal
    simp only [fillLoopY] at h
    split at h
    · cases hz : fillLoopZ bbox value active x y fuelZ bbox.min.z st with
      | none =>
        rw [hz] at h
        exact Option.noConfusion h
      | some st2 =>
        rw [hz] at h
        exact ih _ _ _ h (aligned_fillLoopZ bbox value active x y _ _ _ _ hz hal)
    · rw [← Option.some.inj h]
      exact hal

theorem aligned_fillLoopX (bbox : CoordBBox) (value : V) (active : Bool) (fuelZ : Nat) :
    ∀ (fuel : Nat) (x : Int) (st st1 : RootNode V ops × Coord),
      fillLoopX bbox value active fuelZ fuel x st = some st1 →
      KeysAligned ops st.1.mTable → KeysAligned ops st1.1.mTable := by
  intro fuel
  induction fuel with
  | zero =>
    intro x st st1 h hal
    simp only [fillLoopX] at h
    split at h
    · exact Option.noConfusion h
    · rw [← Option.some.inj h]
      exact hal
  | succ n ih =>
    intro x st st1 h hal
    simp only [fillLoopX] at h
    split at h
    · cases hy : fillLoopY bbox value active fuelZ x fuelZ bbox.min.y st with
      | none =>
        rw [hy] at h
        exact Option.noConfusion h
      | some st2 =>
        rw [hy] at h
        exact ih _ _ _ h (aligned_fillLoopY bbox value active fuelZ x _ _ _ _ hy hal)
    · rw [← Option.some.inj h]
      exact hal

theorem aligned_fill (r : RootNode V ops) (h : KeysAligned ops r.mTable) (bbox : CoordBBox)
    (value : V) (active : Bool) (fuel : Nat) (r1 : RootNode V ops)
    (hf : r.fill bbox value active fuel = some r1) : KeysAligned ops r1.mTable := by
  simp only [fill] at hf
  split at hf
  · rw [← Option.some.inj hf]
    exact h
  · cases hx : fillLoopX bbox value active fuel fuel bbox.min.x (r, ⟨0, 0, 0⟩) with
    | none =>
      rw [hx] at hf
      exact Option.noConfusion hf
    | some st =>
      rw [hx] at hf
      rw [← Option.some.inj hf]
      exact aligned_fillLoopX bbox value active fuel _ _ _ _ hx h

theorem aligned_setBackground (vops : ValueOps V) (bops : BackgroundOps ops)
    (r : RootNode V ops) (h : KeysAligned ops r.mTable) (background : V) :
    KeysAligned ops (r.setBackground vops bops background).mTable := by
  simp only [setBackground]
  split
  · exact h
  · refine aligned_map h _ ?_
    intro i
    cases i.2 <;> rfl

theorem aligned_eraseBackgroundTiles (vops : ValueOps V) (r : RootNode V ops)
    (h : KeysAligned ops r.mTable) :
    KeysAligned ops (r.eraseBackgroundTiles vops).1.mTable := by
  intro e he
  exact h e (mem_foldl_erase _ _ e he)

theorem aligned_pruneOp (vops : ValueOps V) (op : ops.Child → ops.Child × Option (Tile V))
    (r : RootNode V ops) (h : KeysAligned ops r.mTable) :
    KeysAligned ops (pruneOp vops op r).mTable := by
  unfold pruneOp
  refine aligned_eraseBackgroundTiles vops _ ?_
  refine aligned_map h _ ?_
  intro i
  unfold pruneEntry
  cases i.2 with
  | tile t => rfl
  | child c =>
    simp only
    split <;> rfl

theorem aligned_voxelizeActiveTiles (wops : WriteOps ops) (r : RootNode V ops)
    (h : KeysAligned ops r.mTable) : KeysAligned ops (r.voxelizeActiveTiles wops).mTable := by
  refine aligned_map h _ ?_
  intro i
  cases i.2 with
  | tile t =>
    simp only
    split <;> rfl
  | child c => rfl

theorem aligned_foldl {α : Type} (step : RootNode V ops → α → RootNode V ops)
    (P : α → Prop)
    (hstep : ∀ r a, P a → KeysAligned ops r.mTable → KeysAligned ops (step r a).mTable) :
    ∀ (l : List α) (r : RootNode V ops), (∀ a ∈ l, P a) → KeysAligned ops r.mTable →
      KeysAligned ops (l.foldl step r).mTable := by
  intro l
  induction l with
  | nil => intro r _ h; exact h
  | cons a tl ih =>
    intro r hP h
    exact ih _ (fun b hb => hP b (List.mem_cons_of_mem _ hb))
      (hstep r a (hP a (List.mem_cons_self _ _)) h)

theorem aligned_merge (mops : MergeOps ops) (r other : RootNode V ops)
    (h : KeysAligned ops r.mTable) (ho : KeysAligned ops other.mTable) :
    KeysAligned ops (merge mops r other).1.mTable := by
  unfold merge
  refine aligned_foldl _ (fun i : Coord × NodeStruct V ops.Child => coordToKey ops i.1 = i.1)
    ?_ _ _ ho h
  intro r1 i hi h1
  unfold mergeStep
  cases i.2 with
  | child oc =>
    simp only
    split
    · exact aligned_assign h1 hi _
    · exact aligned_assign h1 hi _
    · exact aligned_assign h1 hi _
  | tile ot =>
    simp only
    split
    · exact aligned_assign h1 hi _
    · exact h1

theorem aligned_topologyUnionStep {W : Type} {oops : ChildOps W} (tops : TopologyOps ops oops)
    (r : RootNode V ops) (i : Coord × NodeStruct W oops.Child)
    (hi : coordToKey ops i.1 = i.1) (h : KeysAligned ops r.mTable) :
    KeysAligned ops (topologyUnionStep tops r i).mTable := by
  unfold topologyUnionStep
  cases i.2 with
  | child oc =>
    simp only
    split
    · exact aligned_assign h hi _
    · exact aligned_assign h hi _
    · exact aligned_assign h hi _
  | tile ot =>
    simp only
    split
    · split
      · exact aligned_assign h hi _
      · exact aligned_assign h hi _
      · split
        · exact aligned_assign h hi _
        · exact h
    · exact h

theorem aligned_topologyUnion {W : Type} {oops : ChildOps W} (tops : TopologyOps ops oops)
    (r : RootNode V ops) (other : RootNode W oops) (h : KeysAligned ops r.mTable)
    (ho : KeysAligned ops other.mTable) (r1 : RootNode V ops)
    (hr : topologyUnion tops r other = .ok r1) : KeysAligned ops r1.mTable := by
  unfold topologyUnion at hr
  split at hr
  · exact Except.noConfusion hr
  · have : other.mTable.foldl (topologyUnionStep tops) r = r1 := Except.ok.inj hr
    rw [← this]
    exact aligned_foldl _
      (fun i : Coord × NodeStruct W oops.Child => coordToKey ops i.1 = i.1)
      (fun r2 i hi h2 => aligned_topologyUnionStep tops r2 i hi h2) _ _ ho h

theorem aligned_combineStep (vops : ValueOps V) (cbops : CombineOps ops)
    (op : V → Bool → V → Bool → V × Bool) (prune : Bool) (st : CombineState V ops) (i : Coord)
    (h : KeysAligned ops st.self.mTable) :
    KeysAligned ops (combineStep vops cbops op prune st i).self.mTable := by
  have hk := coordToKey_idem ops i
  have h1 : KeysAligned ops (st.self.findOrAddCoord i).1.mTable := by
    simp only [findOrAddCoord]
    exact aligned_insert h hk _
  have h2 : coordToKey ops (st.self.findOrAddCoord i).2 = (st.self.findOrAddCoord i).2 := hk
  unfold combineStep
  simp only
  split
  · exact aligned_assign h1 h2 _
  · exact aligned_assign h1 h2 _
  · exact aligned_assign h1 h2 _
  · exact aligned_assign h1 h2 _
  · exact h1

theorem aligned_combine (vops : ValueOps V) (cbops : CombineOps ops) (r other : RootNode V ops)
    (op : V → Bool → V → Bool → V × Bool) (prune : Bool) (h : KeysAligned ops r.mTable) :
    KeysAligned ops (combine vops cbops r other op prune).1.mTable := by
  unfold combine
  simp only
  have : ∀ (l : List Coord) (st : CombineState V ops), KeysAligned ops st.self.mTable →
      KeysAligned ops (l.foldl (combineStep vops cbops op prune) st).self.mTable := by
    intro l
    induction l with
    | nil => intro st hs; exact hs
    | cons a tl ih =>
      intro st hs
      exact ih _ (aligned_combineStep vops cbops op prune st a hs)
  exact this _ _ h

end RootNode

namespace RootNode

variable {V : Type} [DecidableEq V] {ops : ChildOps V}

theorem alignDown_eq_iff_dvd (a : Int) (n : Nat) : alignDown a n = a ↔ (2 : Int) ^ n ∣ a := by
  unfold alignDown
  constructor
  · intro h
    exact Int.dvd_of_emod_eq_zero (by omega)
  · intro h
    rw [Int.emod_eq_zero_of_dvd h, sub_zero]

theorem dvd_wrap32 {m : Int} {n : Nat} (hn : n ≤ 31) (h : (2 : Int) ^ n ∣ m) :
    (2 : Int) ^ n ∣ wrap32 m := by
  unfold wrap32
  have h31 : (2 : Int) ^ n ∣ 2 ^ 31 := pow_dvd_pow 2 hn
  have h32 : (2 : Int) ^ n ∣ 2 ^ 32 := pow_dvd_pow 2 (by omega)
  rw [Int.emod_def]
  exact dvd_sub (dvd_sub (dvd_add h h31) (h32.mul_right _)) h31

theorem coordToKey_eq_iff (k : Coord) :
    coordToKey ops k = k ↔
      ((2 : Int) ^ ops.TOTAL ∣ k.x ∧ (2 : Int) ^ ops.TOTAL ∣ k.y ∧
        (2 : Int) ^ ops.TOTAL ∣ k.z) := by
  obtain ⟨kx, ky, kz⟩ := k
  simp only [coordToKey, Coord.mk.injEq, alignDown_eq_iff_dvd]

theorem aligned_gapLoop (inside : V) (bz : Int) (htot : ops.TOTAL ≤ 31) :
    ∀ (fuel : Nat) (c : Coord) (t t1 : MapType V ops.Child),
      gapLoop ops inside bz fuel c t = some t1 → coordToKey ops c = c →
      KeysAligned ops t → KeysAligned ops t1 := by
  intro fuel
  induction fuel with
  | zero =>
    intro c t t1 h
    exact Option.noConfusion h
  | succ n ih =>
    intro c t t1 h hc hal
    simp only [gapLoop] at h
    split at h
    · rw [← Option.some.inj h]
      exact hal
    · refine ih _ _ _ h ?_ (aligned_assign hal hc _)
      obtain ⟨h1, h2, h3⟩ := (coordToKey_eq_iff c).mp hc
      exact (coordToKey_eq_iff _).mpr
        ⟨h1, h2, dvd_wrap32 htot (dvd_add h3 (dvd_refl _))⟩

theorem aligned_scanPair (vops : ValueOps V) (fops : FloodOps ops) (inside : V)
    (htot : ops.TOTAL ≤ 31) (fuel : Nat) (a b : Coord) (t t1 : MapType V ops.Child)
    (h : scanPair vops fops inside fuel a b t = some t1) (ha : coordToKey ops a = a)
    (hal : KeysAligned ops t) : KeysAligned ops t1 := by
  simp only [scanPair] at h
  split at h
  · rw [← Option.some.inj h]
    exact hal
  · split at h
    · split at h
      · rw [← Option.some.inj h]
        exact hal
      · refine aligned_gapLoop inside b.z htot _ _ _ _ h ?_ hal
        obtain ⟨h1, h2, h3⟩ := (coordToKey_eq_iff a).mp ha
        exact (coordToKey_eq_iff _).mpr
          ⟨h1, h2, dvd_wrap32 htot (dvd_add h3 (dvd_wrap32 htot (dvd_refl _)))⟩
    · rw [← Option.some.inj h]
      exact hal

theorem aligned_scanPairs (vops : ValueOps V) (fops : FloodOps ops) (inside : V)
    (htot : ops.TOTAL ≤ 31) (fuel : Nat) :
    ∀ (ks : List Coord) (t t1 : MapType V ops.Child),
      scanPairs vops fops inside fuel ks t = some t1 →
      (∀ k ∈ ks, coordToKey ops k = k) → KeysAligned ops t → KeysAligned ops t1 := by
  intro ks
  induction ks with
  | nil =>
    intro t t1 h _ hal
    simp only [scanPairs] at h
    rw [← Option.some.inj h]
    exact hal
  | cons a rest ih =>
    intro t t1 h hks hal
    cases rest with
    | nil =>
      simp only [scanPairs] at h
      rw [← Option.some.inj h]
      exact hal
    | cons b rest2 =>
      simp only [scanPairs] at h
      cases hp : scanPair vops fops inside fuel a b t with
      | none =>
        rw [hp] at h
        exact Option.noConfusion h
      | some t2 =>
        rw [hp] at h
        exact ih t2 t1 h (fun k hk => hks k (List.mem_cons_of_mem _ hk))
          (aligned_scanPair vops fops inside htot fuel a b t t2 hp
            (hks a (List.mem_cons_self _ _)) hal)

theorem aligned_signedFloodFill (vops : ValueOps V) (fops : FloodOps ops) (r : RootNode V ops)
    (h : KeysAligned ops r.mTable) (htot : ops.TOTAL ≤ 31) (outside inside : V) (fuel : Nat)
    (r1 : RootNode V ops) (hr : r.signedFloodFill vops fops outside inside fuel = some r1) :
    KeysAligned ops r1.mTable := by
  have hfl : KeysAligned ops (floodChildren fops outside inside r.mTable) :=
    aligned_map h _ (fun i => by cases i.2 <;> rfl)
  simp only [signedFloodFill] at hr
  cases hs : scanPairs vops fops inside fuel
      (nodeKeys (floodChildren fops outside inside r.mTable))
      (floodChildren fops outside inside r.mTable) with
  | none =>
    rw [hs] at hr
    exact Option.noConfusion hr
  | some t2 =>
    rw [hs] at hr
    rw [← Option.some.inj hr]
    refine aligned_scanPairs vops fops inside htot fuel _ _ _ hs ?_ hfl
    intro k hk
    unfold nodeKeys at hk
    obtain ⟨e, he, rfl⟩ := List.mem_map.mp hk
    exact hfl e (List.mem_filter.mp he).1

/-- The flood fill finishes on a table of `Int32` keys, given 2^32 units of fuel for the
inner loop. -/
theorem signedFloodFill_returns (vops : ValueOps V) (fops : FloodOps ops) (r : RootNode V ops)
    (hwf : r.mTable.WF) (htot : ops.TOTAL < 31)
    (hkeys : ∀ e ∈ r.mTable, e.1.inRange ∧ coordToKey ops e.1 = e.1)
    (outside inside : V) (fuel : Nat) (hfuel : 2 ^ 32 ≤ fuel) :
    ∃ r1, r.signedFloodFill vops fops outside inside fuel = some r1 := by
  have hwf1 : (floodChildren fops outside inside r.mTable).WF :=
    MapType.WF_map_of_key _ (fun i => by cases i.2 <;> rfl) hwf
  obtain ⟨t2, e2, _⟩ := scanPairs_spec vops fops inside htot fuel hfuel
    (nodeKeys (floodChildren fops outside inside r.mTable))
    (floodChildren fops outside inside r.mTable) (nodeKeys_sorted hwf1) (fun k hk => by
      obtain ⟨c1, hc1⟩ := (mem_nodeKeys hwf1 k).mp hk
      obtain ⟨c, hc⟩ := find_floodChildren_child fops outside inside _ k c1 hc1
      have hm := mem_of_find hc
      exact ⟨(hkeys _ hm).1, (aligned_components (hkeys _ hm).2).2.2, c1, hc1⟩)
  exact ⟨⟨t2, outside⟩, by simp only [signedFloodFill, e2]⟩

/-- The key of a coordinate is its componentwise floor to a multiple of the child
dimension: it is aligned, a multiple of `DIM`, at most the coordinate and less than one
`DIM` below it. -/
theorem coordToKey_floor (ops : ChildOps V) (p : Coord) :
    coordToKey ops (coordToKey ops p) = coordToKey ops p ∧
    (ops.DIM ∣ (coordToKey ops p).x ∧ (coordToKey ops p).x ≤ p.x ∧
      p.x < (coordToKey ops p).x + ops.DIM) ∧
    (ops.DIM ∣ (coordToKey ops p).y ∧ (coordToKey ops p).y ≤ p.y ∧
      p.y < (coordToKey ops p).y + ops.DIM) ∧
    (ops.DIM ∣ (coordToKey ops p).z ∧ (coordToKey ops p).z ≤ p.z ∧
      p.z < (coordToKey ops p).z + ops.DIM) := by
  obtain ⟨h1, h2, h3⟩ := (coordToKey_eq_iff (coordToKey ops p)).mp (coordToKey_idem ops p)
  exact ⟨coordToKey_idem ops p,
    ⟨h1, alignDown_le p.x _, lt_alignDown_add p.x _⟩,
    ⟨h2, alignDown_le p.y _, lt_alignDown_add p.y _⟩,
    ⟨h3, alignDown_le p.z _, lt_alignDown_add p.z _⟩⟩

end RootNode

namespace RootNode

variable {V : Type} [DecidableEq V] {ops : ChildOps V}

theorem keyStep_of {r r1 : RootNode V ops} {p : Coord} (h : KeysAligned ops r.mTable)
    (hs : ∀ e ∈ r1.mTable, e ∈ r.mTable ∨ e.1 = coordToKey ops p) : KeyStep r r1 p :=
  ⟨aligned_of_pointStep h hs, hs⟩

theorem sampleRoot_aligned : KeysAligned (denseOps Int) sampleRoot.mTable := by
  intro e he
  simp only [sampleRoot, List.mem_cons, List.mem_singleton, List.not_mem_nil, or_false] at he
  rcases he with rfl | rfl | rfl <;> rfl

/-- C28 (key alignment is an invariant of the root table): if every key of the table is
aligned to `Child::DIM` (with `DIM` an `Int32` value), the same holds after `setValueOn`,
`setValueOff` (both overloads), `setValueOnly`, `setValueOnMin`, `setValueOnMax`,
`setValueOnSum`, `setActiveState`, `touchLeaf` and `expand`, and every entry these leave in
the table was there before or has the key `coordToKey(p)`; it holds after `fill` and
`signedFloodFill` whenever they return, which they do for a box below the top end of the
coordinate range and for a table of `Int32` keys; it holds after `setBackground`,
`eraseBackgroundTiles`, `prune`, `pruneInactive` and `voxelizeActiveTiles`, and after
`merge`, `topologyUnion` and `combine` with another root whose keys are aligned. The key
`coordToKey(p)` is the componentwise floor of `p` to a multiple of `DIM`, for negative as
well as non-negative coordinates. -/
theorem keys_aligned_invariant (vops : ValueOps V) (sops : StateOps ops) (wops : WriteOps ops)
    (bops : BackgroundOps ops) (pops : PruneOps ops) (ipops : InactivePruneOps ops)
    (fops : FloodOps ops) (mops : MergeOps ops) (tops : TopologyOps ops ops)
    (cbops : CombineOps ops) (isZero : V → Bool) (r : RootNode V ops)
    (h : KeysAligned ops r.mTable) (htot : ops.TOTAL < 31) :
    (∀ (p : Coord) (v : V) (flag : Bool),
      KeyStep r (r.setValueOn p v) p ∧ KeyStep r (r.setValueOff sops p) p ∧
      KeyStep r (r.setValueOffValue wops p v) p ∧ KeyStep r (r.setValueOnly sops p v) p ∧
      KeyStep r (r.setValueOnMin vops wops p v) p ∧
      KeyStep r (r.setValueOnMax vops wops p v) p ∧
      KeyStep r (r.setValueOnSum wops isZero p v) p ∧
      KeyStep r (r.setActiveState sops p flag) p ∧ KeyStep r (r.touchLeaf wops p).1 p ∧
      KeyStep r (r.expand p).1 p) ∧
    (∀ (bbox : CoordBBox) (v : V) (a : Bool) (fuel : Nat),
      (∀ r1, r.fill bbox v a fuel = some r1 → KeysAligned ops r1.mTable) ∧
      (bbox.empty = false → bbox.min.inRange →
        (bbox.max.x < 2 ^ 31 - ops.DIM ∧ bbox.max.y < 2 ^ 31 - ops.DIM ∧
          bbox.max.z < 2 ^ 31 - ops.DIM) →
        ((bbox.max.x - bbox.min.x + 1).toNat ≤ fuel ∧
          (bbox.max.y - bbox.min.y + 1).toNat ≤ fuel ∧
          (bbox.max.z - bbox.min.z + 1).toNat ≤ fuel) →
        ∃ r1, r.fill bbox v a fuel = some r1 ∧ KeysAligned ops r1.mTable)) ∧
    (∀ (outside inside : V) (fuel : Nat),
      (∀ r1, r.signedFloodFill vops fops outside inside fuel = some r1 →
        KeysAligned ops r1.mTable) ∧
      (r.mTable.WF → (∀ e ∈ r.mTable, e.1.inRange) → 2 ^ 32 ≤ fuel →
        ∃ r1, r.signedFloodFill vops fops outside inside fuel = some r1 ∧
          KeysAligned ops r1.mTable)) ∧
    (∀ background : V, KeysAligned ops (r.setBackground vops bops background).mTable) ∧
    KeysAligned ops (r.eraseBackgroundTiles vops).1.mTable ∧
    (∀ tolerance : V, KeysAligned ops (prune vops pops r tolerance).mTable) ∧
    (∀ bg : V, KeysAligned ops (pruneInactive vops ipops r bg).mTable) ∧
    KeysAligned ops (r.voxelizeActiveTiles wops).mTable ∧
    (∀ other : RootNode V ops, KeysAligned ops other.mTable →
      KeysAligned ops (merge mops r other).1.mTable ∧
      (∃ r1, topologyUnion tops r other = .ok r1 ∧ KeysAligned ops r1.mTable) ∧
      ∀ (op : V → Bool → V → Bool → V × Bool) (flag : Bool),
        KeysAligned ops (combine vops cbops r other op flag).1.mTable) ∧
    (∀ p : Coord,
      (ops.DIM ∣ (coordToKey ops p).x ∧ (coordToKey ops p).x ≤ p.x ∧
        p.x < (coordToKey ops p).x + ops.DIM) ∧
      (ops.DIM ∣ (coordToKey ops p).y ∧ (coordToKey ops p).y ≤ p.y ∧
        p.y < (coordToKey ops p).y + ops.DIM) ∧
      (ops.DIM ∣ (coordToKey ops p).z ∧ (coordToKey ops p).z ≤ p.z ∧
        p.z < (coordToKey ops p).z + ops.DIM)) := by
  refine ⟨?_, ?_, ?_, ?_, ?_, ?_, ?_, ?_, ?_, ?_⟩
  · intro p v flag
    exact ⟨keyStep_of h (pointStep_setValueOn r p v),
      keyStep_of h (pointStep_setValueOff sops r p),
      keyStep_of h (pointStep_setValueOffValue wops r p v),
      keyStep_of h (pointStep_setValueOnly sops r p v),
      keyStep_of h (pointStep_setValueOnMin vops wops r p v),
      keyStep_of h (pointStep_setValueOnMax vops wops r p v),
      keyStep_of h (pointStep_setValueOnSum wops isZero r p v),
      keyStep_of h (pointStep_setActiveState sops r p flag),
      keyStep_of h (pointStep_touchLeaf wops r p),
      keyStep_of h (pointStep_expand r p)⟩
  · intro bbox v a fuel
    refine ⟨fun r1 hf => aligned_fill r h bbox v a fuel r1 hf, ?_⟩
    intro hne hmin hmax hfuel
    obtain ⟨r1, hf, _⟩ := fill_table r bbox v a hne hmin hmax fuel hfuel
    exact ⟨r1, hf, aligned_fill r h bbox v a fuel r1 hf⟩
  · intro outside inside fuel
    refine ⟨fun r1 hf =>
      aligned_signedFloodFill vops fops r h (by omega) outside inside fuel r1 hf, ?_⟩
    intro hwf hrange hfuel
    obtain ⟨r1, hf⟩ := signedFloodFill_returns vops fops r hwf htot
      (fun e he => ⟨hrange e he, h e he⟩) outside inside fuel hfuel
    exact ⟨r1, hf, aligned_signedFloodFill vops fops r h (by omega) outside inside fuel r1 hf⟩
  · exact fun background => aligned_setBackground vops bops r h background
  · exact aligned_eraseBackgroundTiles vops r h
  · exact fun tolerance => aligned_pruneOp vops _ r h
  · exact fun bg => aligned_pruneOp vops _ r h
  · exact aligned_voxelizeActiveTiles wops r h
  · intro other ho
    refine ⟨aligned_merge mops r other h ho, ?_, ?_⟩
    · have hok := topologyUnion_ok tops r other (by simp [hasSameConfiguration])
      exact ⟨_, hok, aligned_topologyUnion tops r other h ho _ hok⟩
    · exact fun op flag => aligned_combine vops cbops r other op flag h
  · intro p
    exact (coordToKey_floor ops p).2

/-- Instance of C28: the sample root, whose keys (0,0,0), (2,0,0) and (4,0,0) are aligned to
the child dimension 2, written at the coordinate (-3,5,9), whose key is (-4,4,8). -/
theorem keys_aligned_invariant_witness :
    KeysAligned (denseOps Int) sampleRoot.mTable ∧
    KeyStep sampleRoot (sampleRoot.setValueOn ⟨-3, 5, 9⟩ 1) ⟨-3, 5, 9⟩ ∧
    coordToKey (denseOps Int) ⟨-3, 5, 9⟩ = ⟨-4, 4, 8⟩ :=
  ⟨sampleRoot_aligned,
    ((keys_aligned_invariant intOps (denseStateOps Int) denseWriteOps (denseBackgroundOps intOps)
      (densePruneOps intOps) (denseInactivePruneOps Int) (denseFloodOps intOps)
      (denseMergeOps Int) (denseTopologyOps Int Int) (denseCombineOps Int)
      (fun v => decide (v = 0)) sampleRoot sampleRoot_aligned (by decide)).1
        ⟨-3, 5, 9⟩ 1 true).1,
    by decide⟩

end RootNode

namespace RootNode

variable {V : Type} [DecidableEq V] {ops : ChildOps V}

/-! ## The loops of `fill` at the top end of the coordinate range -/

theorem wrap32_lt (a : Int) : wrap32 a < 2 ^ 31 := by
  unfold wrap32
  have := Int.emod_lt_of_pos (a + 2 ^ 31) (by norm_num : (0 : Int) < 2 ^ 32)
  omega

theorem fillLoopZ_none (bbox : CoordBBox) (value : V) (active : Bool) (x y : Int)
    (hz : bbox.max.z = 2 ^ 31 - 1) :
    ∀ (fuel : Nat) (z : Int) (st : RootNode V ops × Coord), z < 2 ^ 31 →
      fillLoopZ bbox value active x y fuel z st = none := by
  intro fuel
  induction fuel with
  | zero =>
    intro z st h
    have hle : z ≤ bbox.max.z := by omega
    simp only [fillLoopZ, if_pos hle]
  | succ n ih =>
    intro z st h
    have hle : z ≤ bbox.max.z := by omega
    simp only [fillLoopZ, if_pos hle]
    exact ih _ _ (wrap32_lt _)

theorem fillLoopY_none (bbox : CoordBBox) (value : V) (active : Bool) (fuelZ : Nat) (x : Int)
    (hy : bbox.max.y = 2 ^ 31 - 1) :
    ∀ (fuel : Nat) (y : Int) (st : RootNode V ops × Coord), y < 2 ^ 31 →
      fillLoopY bbox value active fuelZ x fuel y st = none := by
  intro fuel
  induction fuel with
  | zero =>
    intro y st h
    have hle : y ≤ bbox.max.y := by omega
    simp only [fillLoopY, if_pos hle]
  | succ n ih =>
    intro y st h
    have hle : y ≤ bbox.max.y := by omega
    simp only [fillLoopY, if_pos hle]
    cases fillLoopZ bbox value active x y fuelZ bbox.min.z st with
    | none => rfl
    | some st1 => exact ih _ _ (wrap32_lt _)

theorem fillLoopX_none (bbox : CoordBBox) (value : V) (active : Bool) (fuelZ : Nat)
    (hx : bbox.max.x = 2 ^ 31 - 1) :
    ∀ (fuel : Nat) (x : Int) (st : RootNode V ops × Coord), x < 2 ^ 31 →
      fillLoopX bbox value active fuelZ fuel x st = none := by
  intro fuel
  induction fuel with
  | zero =>
    intro x st h
    have hle : x ≤ bbox.max.x := by omega
    simp only [fillLoopX, if_pos hle]
  | succ n ih =>
    intro x st h
    have hle : x ≤ bbox.max.x := by omega
    simp only [fillLoopX, if_pos hle]
    cases fillLoopY bbox value active fuelZ x fuelZ bbox.min.y st with
    | none => rfl
    | some st1 => exact ih _ _ (wrap32_lt _)

/-- A non-empty box of `Int32` corners whose max corner has a component equal to
`2^31 - 1`: the loop of `fill` over that component does not finish, whatever the fuel,
because the increment `tileMax + 1` wraps to `-2^31` and the loop condition holds again. -/
theorem fill_none_of_max (r : RootNode V ops) (bbox : CoordBBox) (value : V) (active : Bool)
    (hne : bbox.empty = false) (hmin : bbox.min.inRange)
    (hmax : bbox.max.x = 2 ^ 31 - 1 ∨ bbox.max.y = 2 ^ 31 - 1 ∨ bbox.max.z = 2 ^ 31 - 1)
    (fuel : Nat) : r.fill bbox value active fuel = none := by
  obtain ⟨⟨_, hx⟩, ⟨_, hy⟩, ⟨_, hz⟩⟩ := hmin
  simp only [CoordBBox.empty, Bool.or_eq_false_iff, decide_eq_false_iff_not, not_lt,
    gt_iff_lt] at hne
  obtain ⟨⟨hex, hey⟩, hez⟩ := hne
  simp only [fill, CoordBBox.empty, Bool.or_eq_true, decide_eq_true_eq, gt_iff_lt]
  rw [if_neg (by omega)]
  have hX : fillLoopX bbox value active fuel fuel bbox.min.x
      ((r, ⟨0, 0, 0⟩) : RootNode V ops × Coord) = none := by
    rcases hmax with h | h | h
    · exact fillLoopX_none bbox value active fuel h fuel _ _ hx
    · cases fuel with
      | zero => simp only [fillLoopX, if_pos hex]
      | succ n =>
        simp only [fillLoopX, if_pos hex]
        rw [fillLoopY_none bbox value active (n + 1) _ h (n + 1) _ _ hy]
    · cases fuel with
      | zero => simp only [fillLoopX, if_pos hex]
      | succ n =>
        have hYn : fillLoopY bbox value active (n + 1) bbox.min.x (n + 1) bbox.min.y
            ((r, ⟨0, 0, 0⟩) : RootNode V ops × Coord) = none := by
          simp only [fillLoopY, if_pos hey]
          rw [fillLoopZ_none bbox value active _ _ h (n + 1) _ _ hz]
        simp only [fillLoopX, if_pos hex]
        rw [hYn]
  rw [hX]
  rfl

/-- C29 (the code at the failing input): on the empty root of background 0, `fill` over the
one-voxel box at (0,0,2^31-1), which is not empty and lies in the `Int32` cube, does not
finish within any number of iterations: after the cube that holds the voxel, the loop
variable `z = tileMax.z() + 1` wraps to `-2^31` and the condition `z <= bbox.max().z()`
holds for every `int`. -/
theorem fill_diverges_at_coord_max :
    (⟨⟨0, 0, 2147483647⟩, ⟨0, 0, 2147483647⟩⟩ : CoordBBox).empty = false ∧
    ∀ fuel : Nat,
      (RootNode.new (denseOps Int) 0).fill ⟨⟨0, 0, 2147483647⟩, ⟨0, 0, 2147483647⟩⟩ 1 true fuel
        = none :=
  ⟨by decide, fun fuel =>
    fill_none_of_max _ _ 1 true (by decide)
      ⟨⟨by norm_num, by norm_num⟩, ⟨by norm_num, by norm_num⟩, ⟨by norm_num, by norm_num⟩⟩
      (Or.inr (Or.inr (by norm_num))) fuel⟩

end RootNode

namespace RootNode

variable {V : Type} [DecidableEq V] {ops : ChildOps V}

/-! ## Pruning of inactive children -/

theorem find_map_pruneEntry (op : ops.Child → ops.Child × Option (Tile V))
    (t : MapType V ops.Child) (k : Coord) :
    MapType.find (t.map (pruneEntry op)) k =
      match t.find k with
      | none => none
      | some e => some (pruneEntry op (k, e)).2 := by
  induction t with
  | nil => rfl
  | cons hd tl ih =>
    obtain ⟨k1, e1⟩ := hd
    have hkey : (pruneEntry op (k1, e1)).1 = k1 := by
      unfold pruneEntry
      cases e1 with
      | tile t => rfl
      | child c =>
        simp only
        split <;> rfl
    have hpair : pruneEntry op (k1, e1) = (k1, (pruneEntry op (k1, e1)).2) :=
      Prod.ext hkey rfl
    have hcons : MapType.find (((k1, e1) :: tl).map (pruneEntry op)) k
        = if k1 = k then some (pruneEntry op (k1, e1)).2
          else MapType.find (tl.map (pruneEntry op)) k := by
      rw [List.map_cons, hpair]
      rfl
    rw [hcons]
    by_cases hk : k1 = k
    · subst hk
      simp only [MapType.find, if_true]
    · simp only [MapType.find, hk, if_false]
      exact ih

/-- The entry that `pruneOp` leaves at a key: the pruned entry, unless it is a background
tile. -/
theorem find_pruneOp (vops : ValueOps V) (op : ops.Child → ops.Child × Option (Tile V))
    (r : RootNode V ops) (hwf : r.mTable.WF) (k : Coord) :
    (pruneOp vops op r).mTable.find k =
      match r.mTable.find k with
      | none => none
      | some e =>
        if r.isBackgroundTile vops (pruneEntry op (k, e)).2 = true then none
        else some (pruneEntry op (k, e)).2 := by
  have hkey : ∀ i : Coord × NodeStruct V ops.Child, (pruneEntry op i).1 = i.1 := by
    intro i
    unfold pruneEntry
    cases i.2 with
    | tile t => rfl
    | child c =>
      simp only
      split <;> rfl
  rw [pruneOp_table vops op r hwf]
  simp only
  rw [MapType.find_filter _ (MapType.WF_map_of_key _ hkey hwf), find_map_pruneEntry]
  cases r.mTable.find k with
  | none => rfl
  | some e =>
    simp only
    cases r.isBackgroundTile vops (pruneEntry op (k, e)).2 <;> simp

/-- On a dense cube the functor `InactivePrune` meets its contract. -/
theorem denseInactivePruneLaws (V : Type) :
    InactivePruneLaws (denseOps V) (denseInactivePruneOps V) where
  collapse := by
    intro bg c h
    have hv : ∀ i j k, (c.vox i j k).2 = false := by
      intro i j k
      have hkey : coordToKey (denseOps V) (c.voxelCoord i j k) = c.origin := by
        simp only [coordToKey, denseOps, alignDown, pow_one, DenseChild.voxelCoord,
          DenseChild.origin, Coord.mk.injEq]
        refine ⟨?_, ?_, ?_⟩ <;> split <;> omega
      have h1 := h (c.voxelCoord i j k) hkey
      have hb : DenseChild.bit (c.voxelCoord i j k).x = i ∧
          DenseChild.bit (c.voxelCoord i j k).y = j ∧
          DenseChild.bit (c.voxelCoord i j k).z = k := by
        simp only [DenseChild.bit, DenseChild.voxelCoord, DenseChild.origin]
        refine ⟨?_, ?_, ?_⟩
        · cases i
          · simp
          · simp
            omega
        · cases j
          · simp
          · simp
            omega
        · cases k
          · simp
          · simp
            omega
      have h2 : (c.vox (DenseChild.bit (c.voxelCoord i j k).x)
          (DenseChild.bit (c.voxelCoord i j k).y)
          (DenseChild.bit (c.voxelCoord i j k).z)).2 = false := h1
      rw [hb.1, hb.2.1, hb.2.2] at h2
      exact h2
    show (if c.voxels.all (fun e => !e.2) then (c, some (⟨bg, false⟩ : Tile V))
      else (c, none)).2 = _
    have hall : c.voxels.all (fun e => !e.2) = true := by
      simp [DenseChild.voxels, hv]
    rw [hall]
    rfl
  keep := by
    intro bg c p0 _ hon
    have hon2 : (c.vox (DenseChild.bit p0.x) (DenseChild.bit p0.y)
        (DenseChild.bit p0.z)).2 = true := hon
    have hall : c.voxels.all (fun e => !e.2) = false := by
      cases hx : DenseChild.bit p0.x <;> cases hy : DenseChild.bit p0.y <;>
        cases hz : DenseChild.bit p0.z <;> rw [hx, hy, hz] at hon2 <;>
        simp [DenseChild.voxels, hon2]
    have hres : (denseInactivePruneOps V).inactivePrune bg c = (c, none) := by
      show (if c.voxels.all (fun e => !e.2) then (c, some (⟨bg, false⟩ : Tile V))
        else (c, none)) = _
      rw [hall]
      rfl
    rw [hres]
    exact ⟨rfl, fun p _ => ⟨rfl, fun _ => rfl⟩⟩

end RootNode

namespace RootNode

variable {V : Type} [DecidableEq V] {ops : ChildOps V}

theorem pruneEntry_child_some (op : ops.Child → ops.Child × Option (Tile V)) (k : Coord)
    (c : ops.Child) (t : Tile V) (h : (op c).2 = some t) :
    pruneEntry op (k, .child c) = (k, .tile t) := by
  unfold pruneEntry
  simp only
  rcases hop : op c with ⟨c1, o⟩
  rw [hop] at h
  simp only at h
  subst h
  rfl

theorem pruneEntry_child_none (op : ops.Child → ops.Child × Option (Tile V)) (k : Coord)
    (c : ops.Child) (h : (op c).2 = none) :
    pruneEntry op (k, .child c) = (k, .child (op c).1) := by
  unfold pruneEntry
  simp only
  rcases hop : op c with ⟨c1, o⟩
  rw [hop] at h
  simp only at h
  subst h
  rfl

/-- Counterexample to the last clause of C30: the root whose only entry is the inactive
tile of value 7 over the background 5 has no active voxel, and `pruneInactive(background)`
leaves it with `empty()` false, because the tile is not a background tile and is kept. -/
theorem pruneInactive_keeps_inactive_tile :
    (∀ p, inactiveTileRoot.isValueOn p = false) ∧
    (pruneInactive intOps (denseInactivePruneOps Int) inactiveTileRoot
      inactiveTileRoot.mBackground).empty intOps = false := by
  refine ⟨?_, by decide⟩
  intro p
  simp only [isValueOn, findCoord, inactiveTileRoot, MapType.find]
  by_cases hk : (⟨0, 0, 0⟩ : Coord) = coordToKey (denseOps Int) p
  · rw [if_pos hk]
  · rw [if_neg hk]

end RootNode

namespace RootNode

variable {V : Type} [DecidableEq V] {ops : ChildOps V}

theorem voxels_inactive_of_root (r : RootNode V ops) (hwf : r.mTable.WF)
    (horig : r.ChildrenAtOrigin) (hno : ∀ p, r.isValueOn p = false) (k : Coord)
    (c : ops.Child) (hf : r.mTable.find k = some (.child c)) :
    ∀ p, coordToKey ops p = ops.origin c → ops.isValueOn c p = false := by
  intro p hp
  have hk : ops.origin c = k := horig k c hf
  have h := hno p
  simp only [isValueOn, findCoord, hp, hk, hf] at h
  exact h

/-- C30, amended (the last clause): `pruneInactive(v)` collapses exactly the all-inactive
children. After the call every root child all of whose voxels were inactive has been
replaced by the inactive tile of value `v`, and is absent from the table when `v` is
approximately the background; every root child that held an active voxel is still a child,
with the same active states and the same values at its active voxels; no tile that was not
a background tile has changed; and no background tile is left in the table. Hence on a tree
with no active voxel `pruneInactive(background)` leaves only the root tiles that were not
background tiles, and `empty()` is true exactly when the root had no such tile. The table is
a `std::map`, every child sits at the key of its origin, and approximate equality is
reflexive. -/
theorem pruneInactive_effect (vops : ValueOps V) (ipops : InactivePruneOps ops)
    (il : InactivePruneLaws ops ipops) (hrefl : ∀ a, vops.isApproxEqual a a = true)
    (r : RootNode V ops) (hwf : r.mTable.WF) (horig : r.ChildrenAtOrigin) (v : V) :
    (∀ k c, r.mTable.find k = some (.child c) →
      (∀ p, coordToKey ops p = k → ops.isValueOn c p = false) →
      (pruneInactive vops ipops r v).mTable.find k
        = if vops.isApproxEqual v r.mBackground = true then none
          else some (.tile ⟨v, false⟩)) ∧
    (∀ k c p0, r.mTable.find k = some (.child c) → coordToKey ops p0 = k →
      ops.isValueOn c p0 = true →
      ∃ c1, (pruneInactive vops ipops r v).mTable.find k = some (.child c1) ∧
        ∀ p, coordToKey ops p = k →
          ops.isValueOn c1 p = ops.isValueOn c p ∧
          (ops.isValueOn c p = true → ops.getValue c1 p = ops.getValue c p)) ∧
    (∀ k t, r.mTable.find k = some (.tile t) → r.isBackgroundTile vops (.tile t) = false →
      (pruneInactive vops ipops r v).mTable.find k = some (.tile t)) ∧
    (∀ i ∈ (pruneInactive vops ipops r v).mTable,
      (pruneInactive vops ipops r v).isBackgroundTile vops i.2 = false) ∧
    ((∀ p, r.isValueOn p = false) →
      ((pruneInactive vops ipops r r.mBackground).empty vops = true ↔
        ∀ k t, r.mTable.find k = some (.tile t) →
          r.isBackgroundTile vops (.tile t) = true)) := by
  have hbgres : ∀ w, (pruneInactive vops ipops r w).mBackground = r.mBackground := by
    intro w
    unfold pruneInactive
    rw [pruneOp_table vops _ r hwf]
  have hnobg : ∀ w, ∀ i ∈ (pruneInactive vops ipops r w).mTable,
      (pruneInactive vops ipops r w).isBackgroundTile vops i.2 = false := by
    intro w i hi
    rw [isBackgroundTile_congr vops r _ (hbgres w)]
    unfold pruneInactive at hi
    rw [pruneOp_table vops _ r hwf] at hi
    have h2 := (List.mem_filter.mp hi).2
    cases hb : r.isBackgroundTile vops i.2 with
    | false => rfl
    | true => rw [hb] at h2; exact Bool.noConfusion h2
  refine ⟨?_, ?_, ?_, hnobg v, ?_⟩
  · intro k c hf hoff
    have hk : ops.origin c = k := horig k c hf
    have hc := il.collapse v c (fun p hp => hoff p (by rw [hp, hk]))
    unfold pruneInactive
    rw [find_pruneOp vops _ r hwf k, hf]
    simp only [pruneEntry_child_some _ k c _ hc, isBackgroundTile, Bool.not_false,
      Bool.true_and]
  · intro k c p0 hf hp0 hon
    have hk : ops.origin c = k := horig k c hf
    obtain ⟨hc, hread⟩ := il.keep v c p0 (by rw [hp0, hk]) hon
    refine ⟨(ipops.inactivePrune v c).1, ?_, fun p hp => hread p (by rw [hp, hk])⟩
    unfold pruneInactive
    rw [find_pruneOp vops _ r hwf k, hf]
    simp only [pruneEntry_child_none _ k c hc, isBackgroundTile, Bool.false_eq_true, if_false]
  · intro k t hf hb
    unfold pruneInactive
    rw [find_pruneOp vops _ r hwf k, hf]
    have he : pruneEntry (ipops.inactivePrune v) (k, NodeStruct.tile t) = (k, .tile t) := rfl
    simp only [he, hb, Bool.false_eq_true, if_false]
  · intro hno
    have hnum : (pruneInactive vops ipops r r.mBackground).numBackgroundTiles vops = 0 := by
      unfold numBackgroundTiles
      rw [List.length_eq_zero, List.filter_eq_nil_iff]
      intro i hi
      rw [hnobg r.mBackground i hi]
      exact Bool.false_ne_true
    have hempty : (pruneInactive vops ipops r r.mBackground).empty vops = true ↔
        (pruneInactive vops ipops r r.mBackground).mTable = [] := by
      simp only [empty, hnum, decide_eq_true_eq, List.length_eq_zero]
    rw [hempty]
    constructor
    · intro hnil k t hf
      cases hb : r.isBackgroundTile vops (.tile t) with
      | true => rfl
      | false =>
        have h1 : (pruneInactive vops ipops r r.mBackground).mTable.find k
            = some (.tile t) := by
          unfold pruneInactive
          rw [find_pruneOp vops _ r hwf k, hf]
          have he : pruneEntry (ipops.inactivePrune r.mBackground) (k, NodeStruct.tile t)
              = (k, .tile t) := rfl
          simp only [he, hb, Bool.false_eq_true, if_false]
        rw [hnil] at h1
        exact Option.noConfusion h1
    · intro htiles
      rw [List.eq_nil_iff_forall_not_mem]
      intro i hi
      have hi2 := hi
      unfold pruneInactive at hi2
      rw [pruneOp_table vops _ r hwf] at hi2
      obtain ⟨hmem, hnb⟩ := List.mem_filter.mp hi2
      obtain ⟨j, hj, rfl⟩ := List.mem_map.mp hmem
      obtain ⟨k, e⟩ := j
      have hf : r.mTable.find k = some e := MapType.find_of_mem hwf hj
      have hbg : r.isBackgroundTile vops
          (pruneEntry (ipops.inactivePrune r.mBackground) (k, e)).2 = true := by
        cases e with
        | tile t => exact htiles k t hf
        | child c =>
          have hc := il.collapse r.mBackground c
            (voxels_inactive_of_root r hwf horig hno k c hf)
          rw [pruneEntry_child_some _ k c _ hc]
          simp only [isBackgroundTile, Bool.not_false, Bool.true_and]
          exact hrefl _
      rw [hbg] at hnb
      exact Bool.noConfusion hnb

/-- Instance of C30 (amended): in the sample root the child at key (4,0,0) holds an active
voxel and stays a child under `pruneInactive(5)`. -/
theorem pruneInactive_effect_witness :
    sampleRoot.mTable.WF ∧ sampleRoot.ChildrenAtOrigin ∧
    ∀ i ∈ (pruneInactive intOps (denseInactivePruneOps Int) sampleRoot 5).mTable,
      (pruneInactive intOps (denseInactivePruneOps Int) sampleRoot 5).isBackgroundTile intOps
        i.2 = false :=
  ⟨sampleRoot_WF, sampleRoot_childrenAtOrigin,
    (pruneInactive_effect intOps (denseInactivePruneOps Int) (denseInactivePruneLaws Int)
      (fun a => by simp [intOps]) sampleRoot sampleRoot_WF sampleRoot_childrenAtOrigin
      5).2.2.2.1⟩

end RootNode

namespace RootNode

variable {V : Type} [DecidableEq V] {ops : ChildOps V}

/-! ## Voxelizing the active tiles -/

end RootNode

namespace RootNode

variable {V : Type} [DecidableEq V] {ops : ChildOps V}

/-! ## Touching a leaf -/

theorem denseTouchLaws :
    TouchLaws (denseOps Int) densePtrOps (denseLevelOps Int) denseLeafOps where
  ne_null := fun _ _ h => Option.noConfusion h
  probe_touch := fun _ _ => rfl
  level_touch := fun _ _ => rfl
  getValue_touch := fun _ _ _ _ => rfl
  isValueOn_touch := fun _ _ _ _ => rfl
  leafCount_touch_make := fun _ _ _ => rfl

/-- The child that `touchLeaf` hands to the child's `touchLeaf`. -/
theorem touchLeaf_child_reads (pl : PointLaws ops) (r : RootNode V ops) (p q : Coord)
    (h : coordToKey ops q = coordToKey ops p) :
    ops.getValue (match r.mTable.find (coordToKey ops p) with
      | none => ops.make p r.mBackground false
      | some (.child c) => c
      | some (.tile t) => ops.make p t.value t.active) q = r.getValue q ∧
    ops.isValueOn (match r.mTable.find (coordToKey ops p) with
      | none => ops.make p r.mBackground false
      | some (.child c) => c
      | some (.tile t) => ops.make p t.value t.active) q = r.isValueOn q := by
  simp only [getValue, isValueOn, findCoord, h]
  cases hf : r.mTable.find (coordToKey ops p) with
  | none => exact ⟨pl.getValue_make _ _ _ _ h, pl.isValueOn_make _ _ _ _ h⟩
  | some e =>
    cases e with
    | child c => exact ⟨rfl, rfl⟩
    | tile t => exact ⟨pl.getValue_make _ _ _ _ h, pl.isValueOn_make _ _ _ _ h⟩

/-- C32 (`touchLeaf` creates structure and preserves contents): the returned pointer is not
null and is the leaf that `probeLeaf(p)` finds afterwards; afterwards `getValueDepth(p)` is
`LEVEL`; `getValue` and `isValueOn` are unchanged at every coordinate; the key of `p` holds
a child afterwards, which reads the inactive background over its cube when the key had no
entry and the tile's value and state when it held a tile; and on a new tree with
background `bg`, after `touchLeaf(p)`, `leafCount()` is 1, `isValueOn(p)` is false and
`getValue(p)` is `bg`. -/
theorem touchLeaf_effect (wops : WriteOps ops) (lops : LevelOps ops) (lfops : LeafOps ops wops)
    (pl : PointLaws ops) (tl : TouchLaws ops wops lops lfops) (r : RootNode V ops)
    (p : Coord) :
    ((r.touchLeaf wops p).2 ≠ lfops.null ∧
      (r.touchLeaf wops p).1.probeLeaf lfops p = (r.touchLeaf wops p).2) ∧
    (r.touchLeaf wops p).1.getValueDepth lops p = (LEVEL ops : Int) ∧
    (∀ q, (r.touchLeaf wops p).1.getValue q = r.getValue q ∧
      (r.touchLeaf wops p).1.isValueOn q = r.isValueOn q) ∧
    (∃ c, (r.touchLeaf wops p).1.findCoord p = some (.child c) ∧
      (r.findCoord p = none → ∀ q, coordToKey ops q = coordToKey ops p →
        ops.getValue c q = r.mBackground ∧ ops.isValueOn c q = false) ∧
      (∀ t, r.findCoord p = some (.tile t) → ∀ q, coordToKey ops q = coordToKey ops p →
        ops.getValue c q = t.value ∧ ops.isValueOn c q = t.active)) ∧
    (∀ bg, ((RootNode.new ops bg).touchLeaf wops p).1.leafCount lfops = 1 ∧
      ((RootNode.new ops bg).touchLeaf wops p).1.isValueOn p = false ∧
      ((RootNode.new ops bg).touchLeaf wops p).1.getValue p = bg) := by
  have hfind : ∀ r : RootNode V ops, (r.touchLeaf wops p).1.findCoord p =
      some (.child (wops.touchLeaf (match r.mTable.find (coordToKey ops p) with
        | none => ops.make p r.mBackground false
        | some (.child c) => c
        | some (.tile t) => ops.make p t.value t.active) p).1) := by
    intro r
    simp only [touchLeaf, findCoord]
    exact MapType.find_assign_self _ _ _
  have hread : ∀ (r : RootNode V ops) (q : Coord),
      (r.touchLeaf wops p).1.getValue q = r.getValue q ∧
      (r.touchLeaf wops p).1.isValueOn q = r.isValueOn q := by
    intro r q
    have h := read_assign_child r p q (wops.touchLeaf (match r.mTable.find (coordToKey ops p) with
        | none => ops.make p r.mBackground false
        | some (.child c) => c
        | some (.tile t) => ops.make p t.value t.active) p).1
    simp only [touchLeaf]
    rw [h.1, h.2]
    by_cases hk : coordToKey ops q = coordToKey ops p
    · simp only [hk, if_true]
      rw [tl.getValue_touch _ _ _ hk, tl.isValueOn_touch _ _ _ hk]
      exact touchLeaf_child_reads pl r p q hk
    · simp [hk]
  refine ⟨⟨?_, ?_⟩, ?_, hread r, ?_, ?_⟩
  · simp only [touchLeaf]
    exact tl.ne_null _ _
  · simp only [probeLeaf, hfind r]
    simp only [touchLeaf]
    exact tl.probe_touch _ _
  · simp only [getValueDepth, hfind r, tl.level_touch]
    simp
  · refine ⟨_, hfind r, ?_, ?_⟩
    · intro hn q hq
      simp only [findCoord] at hn
      rw [tl.getValue_touch _ _ _ hq, tl.isValueOn_touch _ _ _ hq, hn]
      exact ⟨pl.getValue_make _ _ _ _ hq, pl.isValueOn_make _ _ _ _ hq⟩
    · intro t ht q hq
      simp only [findCoord] at ht
      rw [tl.getValue_touch _ _ _ hq, tl.isValueOn_touch _ _ _ hq, ht]
      exact ⟨pl.getValue_make _ _ _ _ hq, pl.isValueOn_make _ _ _ _ hq⟩
  · intro bg
    refine ⟨?_, ?_, ?_⟩
    · simp only [leafCount, touchLeaf, RootNode.new, MapType.find, MapType.assign,
        List.foldl_cons, List.foldl_nil, tl.leafCount_touch_make]
      rfl
    · rw [(hread (RootNode.new ops bg) p).2]
      rfl
    · rw [(hread (RootNode.new ops bg) p).1]
      rfl

/-- Instance of C32 on the sample root: the coordinate (3,1,0) lies under the inactive tile 9
at key (2,0,0), at depth 0; after `touchLeaf` it is read at depth `LEVEL` through a leaf
that `probeLeaf` finds, with the same value and state. -/
theorem touchLeaf_effect_witness :
    sampleRoot.getValueDepth (denseLevelOps Int) ⟨3, 1, 0⟩ = 0 ∧
    (sampleRoot.touchLeaf densePtrOps ⟨3, 1, 0⟩).1.getValueDepth (denseLevelOps Int) ⟨3, 1, 0⟩ =
      (LEVEL (denseOps Int) : Int) ∧
    (sampleRoot.touchLeaf densePtrOps ⟨3, 1, 0⟩).1.probeLeaf denseLeafOps ⟨3, 1, 0⟩ =
      some ⟨2, 0, 0⟩ ∧
    (sampleRoot.touchLeaf densePtrOps ⟨3, 1, 0⟩).1.getValue ⟨3, 1, 0⟩ = 9 ∧
    (sampleRoot.touchLeaf densePtrOps ⟨3, 1, 0⟩).1.isValueOn ⟨3, 1, 0⟩ = false :=
  ⟨rfl,
    (touchLeaf_effect densePtrOps (denseLevelOps Int) denseLeafOps (densePointLaws Int)
      denseTouchLaws sampleRoot ⟨3, 1, 0⟩).2.1,
    rfl, rfl, rfl⟩

end RootNode

namespace RootNode

variable {V : Type} [DecidableEq V] {ops : ChildOps V}

/-! ## The index range -/

theorem getIndexRange_empty (bg : V) :
    (RootNode.new ops bg).getMinIndex = ⟨0, 0, 0⟩ ∧
    (RootNode.new ops bg).getMaxIndex = ⟨0, 0, 0⟩ :=
  ⟨rfl, rfl⟩

/-- C33 (the code at the failing input): the table of `sampleRange` is sorted with
aligned keys (0,2,0) and (2,0,0), both active tiles of side 2. `getIndexRange` returns the
box from (0,2,0) to (3,1,1), which is empty in y; the active voxel (2,0,0) of the second
tile and the active voxel (0,2,0) of the first lie outside it. -/
theorem getIndexRange_excludes_cube :
    sampleRange.mTable.WF ∧ KeysAligned (denseOps Int) sampleRange.mTable ∧
    sampleRange.getMinIndex = ⟨0, 2, 0⟩ ∧ sampleRange.getMaxIndex = ⟨3, 1, 1⟩ ∧
    sampleRange.getIndexRange = ⟨⟨0, 2, 0⟩, ⟨3, 1, 1⟩⟩ ∧
    sampleRange.getIndexRange.empty = true ∧
    sampleRange.isValueOn ⟨2, 0, 0⟩ = true ∧
    sampleRange.getIndexRange.isInside ⟨2, 0, 0⟩ = false ∧
    sampleRange.isValueOn ⟨0, 2, 0⟩ = true ∧
    sampleRange.getIndexRange.isInside ⟨0, 2, 0⟩ = false := by
  refine ⟨?_, ?_, by decide, by decide, by decide, by decide, by decide, by decide, by decide,
    by decide⟩
  · unfold MapType.WF sampleRange
    simp only [List.pairwise_cons, List.mem_cons, forall_eq_or_imp]
    decide
  · intro e he
    simp only [sampleRange, List.mem_cons, List.mem_singleton, List.not_mem_nil, or_false] at he
    rcases he with rfl | rfl <;> rfl

end RootNode

namespace RootNode

variable {V : Type} [DecidableEq V] {ops : ChildOps V}

/-! ## The boxes of the active tiles -/

theorem createCube_isInside {k : Coord} (hk : coordToKey ops k = k) (p : Coord) :
    (CoordBBox.createCube k ops.DIM).isInside p = true ↔ coordToKey ops p = k := by
  obtain ⟨hx, hy, hz⟩ := aligned_components hk
  obtain ⟨kx, ky, kz⟩ := k
  obtain ⟨px, py, pz⟩ := p
  simp only at hx hy hz
  simp only [CoordBBox.createCube, CoordBBox.isInside, Coord.offsetBy, ChildOps.DIM,
    Bool.and_eq_true, decide_eq_true_eq, coordToKey, Coord.mk.injEq, alignDown_eq_iff hx,
    alignDown_eq_iff hy, alignDown_eq_iff hz]
  constructor
  · rintro ⟨⟨⟨⟨⟨h1, h2⟩, h3⟩, h4⟩, h5⟩, h6⟩
    exact ⟨⟨h1, by omega⟩, ⟨h3, by omega⟩, ⟨h5, by omega⟩⟩
  · rintro ⟨⟨h1, h2⟩, ⟨h3, h4⟩, ⟨h5, h6⟩⟩
    exact ⟨⟨⟨⟨⟨h1, by omega⟩, h3⟩, by omega⟩, h5⟩, by omega⟩

theorem visitEntry_box (descent : Bool) (i : Coord × NodeStruct V ops.Child) (b : CoordBBox) :
    visitEntry ops descent i = some (.box b) ↔
      b = CoordBBox.createCube i.1 ops.DIM ∧
        (i.2.isTileOn = true ∨ (i.2.isChild = true ∧ descent = false)) := by
  obtain ⟨k, e⟩ := i
  cases e with
  | tile t =>
    obtain ⟨v, a⟩ := t
    cases a <;> simp [visitEntry, NodeStruct.isTileOff, NodeStruct.isTileOn,
      NodeStruct.isChild, eq_comm]
  | child c =>
    cases descent <;> simp [visitEntry, NodeStruct.isTileOff, NodeStruct.isTileOn,
      NodeStruct.isChild, eq_comm]

theorem mem_visitActiveBBox (descent : Bool) (r : RootNode V ops) (b : CoordBBox) :
    VisitCall.box b ∈ r.visitActiveBBox descent ↔
      ∃ i ∈ r.mTable, b = CoordBBox.createCube i.1 ops.DIM ∧
        (i.2.isTileOn = true ∨ (i.2.isChild = true ∧ descent = false)) := by
  simp only [visitActiveBBox, List.mem_filterMap, visitEntry_box]

theorem WF_key_ne {t : MapType V ops.Child} (h : t.WF) :
    t.Pairwise (fun a b => a.1 ≠ b.1) := by
  refine List.Pairwise.imp ?_ h
  intro a b hab he
  rw [he, Coord.lt_irrefl] at hab
  exact Bool.noConfusion hab

/-- C34 (the boxes of `visitActiveBBox` do not overlap): on a table with aligned keys, no
coordinate lies in two of the boxes passed to the functor at root level; a box is passed
exactly for the cube of side `Child::DIM` at the key of each active tile and, when the
functor does not descend, of each child; and no box that is passed holds a coordinate
covered by an inactive tile. -/
theorem visitActiveBBox_disjoint (descent : Bool) (r : RootNode V ops) (hwf : r.mTable.WF)
    (hal : KeysAligned ops r.mTable) :
    (r.visitActiveBBox descent).Pairwise (fun a b => ∀ ba bb, a = VisitCall.box ba →
      b = VisitCall.box bb → ∀ p, ba.isInside p = true → bb.isInside p = false) ∧
    (∀ b, VisitCall.box b ∈ r.visitActiveBBox descent ↔
      ∃ i ∈ r.mTable, b = CoordBBox.createCube i.1 ops.DIM ∧
        (i.2.isTileOn = true ∨ (i.2.isChild = true ∧ descent = false))) ∧
    (∀ k t, (k, NodeStruct.tile t) ∈ r.mTable → t.active = false →
      ∀ b, VisitCall.box b ∈ r.visitActiveBBox descent →
        b ≠ CoordBBox.createCube k ops.DIM ∧
        ∀ p, coordToKey ops p = k → b.isInside p = false) := by
  refine ⟨?_, mem_visitActiveBBox descent r, ?_⟩
  · unfold visitActiveBBox
    rw [List.pairwise_filterMap]
    refine List.Pairwise.imp_of_mem ?_ (WF_key_ne hwf)
    intro i j hi hj hne a ha b hb ba bb hba hbb p hp
    subst hba hbb
    rw [Option.mem_def, visitEntry_box] at ha hb
    rw [ha.1, createCube_isInside (hal i hi)] at hp
    cases hin : (bb.isInside p) with
    | false => rfl
    | true =>
      rw [hb.1, createCube_isInside (hal j hj)] at hin
      exact absurd (hp.symm.trans hin) hne
  · intro k t hk ha b hb
    obtain ⟨i, hi, hbi, hact⟩ := (mem_visitActiveBBox descent r b).mp hb
    have hne : i.1 ≠ k := by
      intro he
      have h1 := MapType.find_of_mem hwf hk
      have h2 : r.mTable.find k = some i.2 := by
        have := MapType.find_of_mem hwf (show (i.1, i.2) ∈ r.mTable from hi)
        rwa [he] at this
      rw [h1] at h2
      have h3 : i.2 = NodeStruct.tile t := (Option.some.inj h2).symm
      rw [h3] at hact
      simp [NodeStruct.isTileOn, NodeStruct.isChild, ha] at hact
    have hnin : ∀ p, coordToKey ops p = k → b.isInside p = false := by
      intro p hp
      cases hin : (b.isInside p) with
      | false => rfl
      | true =>
        rw [hbi, createCube_isInside (hal i hi)] at hin
        exact absurd (hin.symm.trans hp) hne
    refine ⟨?_, hnin⟩
    intro he
    have h4 := hnin k (hal _ hk)
    rw [he, ← Bool.not_eq_true] at h4
    exact h4 ((createCube_isInside (hal _ hk) k).mpr (hal _ hk))

/-- Instance of C34 on the sample root when the functor does not descend: the boxes passed
are the cube of the active tile at (0,0,0) and the cube of the child at (4,0,0), and none
for the inactive tile at (2,0,0). -/
theorem visitActiveBBox_disjoint_witness :
    sampleRoot.mTable.WF ∧ KeysAligned (denseOps Int) sampleRoot.mTable ∧
    sampleRoot.visitActiveBBox false =
      [.box ⟨⟨0, 0, 0⟩, ⟨1, 1, 1⟩⟩, .box ⟨⟨4, 0, 0⟩, ⟨5, 1, 1⟩⟩] ∧
    (sampleRoot.visitActiveBBox false).Pairwise (fun a b => ∀ ba bb, a = VisitCall.box ba →
      b = VisitCall.box bb → ∀ p, ba.isInside p = true → bb.isInside p = false) :=
  ⟨sampleRoot_WF, sampleRoot_aligned, rfl,
    (visitActiveBBox_disjoint false sampleRoot sampleRoot_WF sampleRoot_aligned).1⟩

end RootNode

namespace RootNode

variable {V : Type} [DecidableEq V] {ops : ChildOps V}

/-! ## The pairs of the z-scanline loop -/

theorem zip_tail_adjacent :
    ∀ (ks : List Coord), ks.Pairwise (fun a b => Coord.lt a b = true) → ∀ a b,
      (a, b) ∈ ks.zip ks.tail →
      a ∈ ks ∧ b ∈ ks ∧ Coord.lt a b = true ∧
        ∀ k ∈ ks, ¬ (Coord.lt a k = true ∧ Coord.lt k b = true) := by
  intro ks
  induction ks with
  | nil => intro _ a b h; exact absurd h (List.not_mem_nil _)
  | cons x rest ih =>
    intro hs a b h
    rw [List.pairwise_cons] at hs
    cases rest with
    | nil => exact absurd h (List.not_mem_nil _)
    | cons y rest2 =>
      have hs2 := hs.2
      rw [List.pairwise_cons] at hs2
      simp only [List.tail_cons, List.zip_cons_cons, List.mem_cons] at h
      rcases h with h | h
      · obtain ⟨rfl, rfl⟩ := Prod.mk.inj h
        refine ⟨List.mem_cons_self _ _, List.mem_cons_of_mem _ (List.mem_cons_self _ _),
          hs.1 _ (List.mem_cons_self _ _), ?_⟩
        intro k hk hb
        rcases List.mem_cons.mp hk with rfl | hk
        · rw [Coord.lt_irrefl] at hb
          exact Bool.noConfusion hb.1
        · rcases List.mem_cons.mp hk with rfl | hk
          · rw [Coord.lt_irrefl] at hb
            exact Bool.noConfusion hb.2
          · have := Coord.lt_asymm (hs2.1 _ hk)
            rw [this] at hb
            exact Bool.noConfusion hb.2
      · obtain ⟨ha, hb, hab, hno⟩ := ih hs.2 a b h
        refine ⟨List.mem_cons_of_mem _ ha, List.mem_cons_of_mem _ hb, hab, ?_⟩
        intro k hk hbt
        rcases List.mem_cons.mp hk with rfl | hk
        · have := Coord.lt_asymm (hs.1 _ ha)
          rw [this] at hbt
          exact Bool.noConfusion hbt.1
        · exact hno k hk hbt

theorem zip_tail_iff_adjacent {t : MapType V ops.Child} (hwf : t.WF) (a b : Coord) :
    (a, b) ∈ (nodeKeys t).zip (nodeKeys t).tail ↔ adjacentChildKeys t a b := by
  constructor
  · intro h
    obtain ⟨ha, hb, hab, hno⟩ := zip_tail_adjacent _ (nodeKeys_sorted hwf) a b h
    exact ⟨(mem_nodeKeys hwf a).mp ha, (mem_nodeKeys hwf b).mp hb, hab,
      fun k c hk => hno k ((mem_nodeKeys hwf k).mpr ⟨c, hk⟩)⟩
  · rintro ⟨ha, hb, hab, hno⟩
    exact mem_zip_tail_of_adjacent _ (nodeKeys_sorted hwf) a b ((mem_nodeKeys hwf a).mpr ha)
      ((mem_nodeKeys hwf b).mpr hb) hab (fun k hk => by
        obtain ⟨c, hc⟩ := (mem_nodeKeys hwf k).mp hk
        exact hno k c hc)

theorem find_floodChildren_iff (fops : FloodOps ops) (outside inside : V)
    (t : MapType V ops.Child) (k : Coord) :
    (∃ c1, (floodChildren fops outside inside t).find k = some (.child c1)) ↔
      ∃ c, t.find k = some (.child c) := by
  constructor
  · rintro ⟨c1, h⟩
    exact find_floodChildren_child fops outside inside t k c1 h
  · rintro ⟨c, h⟩
    exact ⟨_, by rw [find_floodChildren, h]⟩

theorem adjacentChildKeys_floodChildren (fops : FloodOps ops) (outside inside : V)
    (t : MapType V ops.Child) (a b : Coord) :
    adjacentChildKeys (floodChildren fops outside inside t) a b ↔ adjacentChildKeys t a b := by
  unfold adjacentChildKeys
  rw [find_floodChildren_iff, find_floodChildren_iff]
  constructor
  · rintro ⟨ha, hb, hab, hno⟩
    refine ⟨ha, hb, hab, fun k c hk => ?_⟩
    obtain ⟨c1, hc1⟩ := (find_floodChildren_iff fops outside inside t k).mpr ⟨c, hk⟩
    exact hno k c1 hc1
  · rintro ⟨ha, hb, hab, hno⟩
    refine ⟨ha, hb, hab, fun k c1 hk => ?_⟩
    obtain ⟨c, hc⟩ := find_floodChildren_child fops outside inside t k c1 hk
    exact hno k c hc

theorem aligned_step {n : Nat} {a b : Int} (ha : alignDown a n = a) (hb : alignDown b n = b)
    (h : a < b) : (2 : Int) ^ n ≤ b - a := by
  have h1 := (alignDown_eq_iff_dvd a n).mp ha
  have h2 := (alignDown_eq_iff_dvd b n).mp hb
  exact Int.le_of_dvd (by omega) (dvd_sub h2 h1)

/-- The pairs of the scanline loop that pass its tests are the pairs of `scanInserts`. -/
theorem scanInserts_iff (vops : ValueOps V) (fops : FloodOps ops) (r : RootNode V ops)
    (hwf : r.mTable.WF)
    (hkeys : ∀ e ∈ r.mTable, e.2.isChild = true → e.1.inRange ∧ coordToKey ops e.1 = e.1)
    (outside inside : V) (k : Coord) :
    (∃ p, p ∈ (nodeKeys (floodChildren fops outside inside r.mTable)).zip
        (nodeKeys (floodChildren fops outside inside r.mTable)).tail ∧
        scanFires vops fops (floodChildren fops outside inside r.mTable) p.1 p.2 ∧
        inGap ops p.1 p.2 k) ↔ scanInserts vops fops outside inside r k := by
  have hwf1 : (floodChildren fops outside inside r.mTable).WF :=
    MapType.WF_map_of_key _ (fun i => by cases i.2 <;> rfl) hwf
  constructor
  · rintro ⟨⟨a, b⟩, hp, hf, hg⟩
    have hadj := (adjacentChildKeys_floodChildren fops outside inside r.mTable a b).mp
      ((zip_tail_iff_adjacent hwf1 a b).mp hp)
    obtain ⟨hx, hy, hz, ca1, cb1, hca1, hcb1, hl, hfv⟩ := hf
    obtain ⟨⟨ca, hca⟩, ⟨cb, hcb⟩, hab, _⟩ := id hadj
    simp only at hx hy hz hca1 hcb1
    rw [find_floodChildren, hca] at hca1
    rw [find_floodChildren, hcb] at hcb1
    have e1 := NodeStruct.child.inj (Option.some.inj hca1)
    have e2 := NodeStruct.child.inj (Option.some.inj hcb1)
    have haz : alignDown a.z ops.TOTAL = a.z :=
      (aligned_components (hkeys _ (mem_of_find hca) rfl).2).2.2
    have hbz : alignDown b.z ops.TOTAL = b.z :=
      (aligned_components (hkeys _ (mem_of_find hcb) rfl).2).2.2
    have hlt : a.z < b.z := by
      simp only [Coord.lt, Bool.or_eq_true, Bool.and_eq_true, decide_eq_true_eq] at hab
      omega
    have hstep := aligned_step haz hbz hlt
    refine ⟨a, b, ca, cb, hadj, hca, hcb, hx, hy, ?_, ?_, ?_, hg⟩
    · have hne : b.z - a.z ≠ ops.DIM := hz
      unfold ChildOps.DIM at hne ⊢
      omega
    · rw [e1]; exact hl
    · rw [e2]; exact hfv
  · rintro ⟨a, b, ca, cb, hadj, hca, hcb, hx, hy, hz, hl, hfv, hg⟩
    refine ⟨(a, b), (zip_tail_iff_adjacent hwf1 a b).mpr
      ((adjacentChildKeys_floodChildren fops outside inside r.mTable a b).mpr hadj), ?_, hg⟩
    refine ⟨hx, hy, ?_, _, _, by rw [find_floodChildren, hca], by rw [find_floodChildren, hcb],
      hl, hfv⟩
    show b.z - a.z ≠ ops.DIM
    omega

/-- Effect of `signedFloodFill` on the table: the call returns, and a key holds the inactive
inside tile afterwards when `scanInserts` holds for it, and otherwise the entry that the
flood fill of the children left. -/
theorem signedFloodFill_spec (vops : ValueOps V) (fops : FloodOps ops) (r : RootNode V ops)
    (hwf : r.mTable.WF) (htot : ops.TOTAL < 31)
    (hkeys : ∀ e ∈ r.mTable, e.2.isChild = true → e.1.inRange ∧ coordToKey ops e.1 = e.1)
    (outside inside : V) (fuel : Nat) (hfuel : 2 ^ 32 ≤ fuel) :
    ∃ r1, r.signedFloodFill vops fops outside inside fuel = some r1 ∧
      r1.mBackground = outside ∧
      ∀ k, (scanInserts vops fops outside inside r k →
          r1.mTable.find k = some (.tile ⟨inside, false⟩)) ∧
        (¬ scanInserts vops fops outside inside r k →
          r1.mTable.find k = (floodChildren fops outside inside r.mTable).find k) := by
  have hwf1 : (floodChildren fops outside inside r.mTable).WF :=
    MapType.WF_map_of_key _ (fun i => by cases i.2 <;> rfl) hwf
  obtain ⟨t2, e2, s2⟩ := scanPairs_spec vops fops inside htot fuel hfuel
    (nodeKeys (floodChildren fops outside inside r.mTable))
    (floodChildren fops outside inside r.mTable) (nodeKeys_sorted hwf1) (fun k hk => by
      obtain ⟨c1, hc1⟩ := (mem_nodeKeys hwf1 k).mp hk
      obtain ⟨c, hc⟩ := find_floodChildren_child fops outside inside _ k c1 hc1
      have h := hkeys _ (mem_of_find hc) rfl
      exact ⟨h.1, (aligned_components h.2).2.2, c1, hc1⟩)
  refine ⟨⟨t2, outside⟩, by simp only [signedFloodFill, e2], rfl, fun k => ⟨?_, ?_⟩⟩
  · intro h
    exact (s2 k).1 ((scanInserts_iff vops fops r hwf hkeys outside inside k).mpr h)
  · intro h
    exact (s2 k).2 (fun h1 => h ((scanInserts_iff vops fops r hwf hkeys outside inside k).mp h1))

theorem not_inGap_of_adjacent_cubes {a b k : Coord} (ha : alignDown a.z ops.TOTAL = a.z)
    (hd : b.z - a.z = ops.DIM) : ¬ inGap ops a b k := by
  rintro ⟨_, _, h1, h2, h3⟩
  have := aligned_step ha h3 h1
  unfold ChildOps.DIM at hd
  omega

theorem sampleGap_WF : sampleGap.mTable.WF := by
  simp [sampleGap, MapType.WF, Coord.lt]

theorem sampleGap_keys : ∀ e ∈ sampleGap.mTable, e.2.isChild = true →
    e.1.inRange ∧ coordToKey (denseOps Int) e.1 = e.1 := by
  intro e he _
  simp only [sampleGap, List.mem_cons, List.mem_singleton, List.not_mem_nil, or_false] at he
  rcases he with rfl | rfl
  · exact ⟨by simp [Coord.inRange], rfl⟩
  · exact ⟨by simp [Coord.inRange], rfl⟩

theorem sampleGap_inserts :
    scanInserts intOps (denseFloodOps intOps) 2 (-2) sampleGap ⟨0, 0, 2⟩ := by
  refine ⟨⟨0, 0, 0⟩, ⟨0, 0, 4⟩, _, _, ⟨⟨_, rfl⟩, ⟨_, rfl⟩, by decide, ?_⟩, rfl, rfl, rfl, rfl,
    by decide, by decide, by decide, rfl, rfl, by decide, by decide, by decide⟩
  intro k c hk hb
  have hm := mem_of_find hk
  simp only [sampleGap, List.mem_cons, List.mem_singleton, List.not_mem_nil, or_false] at hm
  rcases hm with h | h
  · have hk0 := (Prod.mk.inj h).1
    subst hk0
    exact Bool.noConfusion hb.1
  · have hk0 := (Prod.mk.inj h).1
    subst hk0
    exact Bool.noConfusion hb.2

/-- Counterexample to C35 as stated: the two children of `sampleGap` are neighbours in the
key order at the keys (0,0,0) and (0,0,4), which differ only in `z` and by two child sides,
not by exactly one; their facing values are negative. `signedFloodFill(2, -2)` returns and
the key (0,0,2) between them, which had no entry, holds the inactive tile of value -2. -/
theorem signedFloodFill_fills_two_sides_apart :
    sampleGap.mTable.keys = [⟨0, 0, 0⟩, ⟨0, 0, 4⟩] ∧ (denseOps Int).DIM = 2 ∧
    sampleGap.mTable.find ⟨0, 0, 2⟩ = none ∧
    ∃ r1, sampleGap.signedFloodFill intOps (denseFloodOps intOps) 2 (-2) (2 ^ 32) = some r1 ∧
      r1.mTable.find ⟨0, 0, 2⟩ = some (.tile ⟨-2, false⟩) := by
  obtain ⟨r1, h1, _, h3⟩ := signedFloodFill_spec intOps (denseFloodOps intOps) sampleGap
    sampleGap_WF (by decide) sampleGap_keys 2 (-2) (2 ^ 32) (le_refl _)
  exact ⟨rfl, by decide, rfl, r1, h1, (h3 ⟨0, 0, 2⟩).1 sampleGap_inserts⟩

/-- C35, amended (z-scan condition of `signedFloodFill`): on a root whose children sit at
aligned `Int32` keys the call returns and sets the background to `outside`; a key holds the
inactive tile of value `inside` afterwards when it is an aligned z-step strictly between
two children whose keys are neighbours among the child keys, differ only in `z` and by
more than one `Child::DIM`, and whose facing values after their own flood fill are both
negative; every other key holds the entry it had, a child being flood-filled. Between two
keys exactly one `Child::DIM` apart there is no aligned z-step. -/
theorem signedFloodFill_scan_condition (vops : ValueOps V) (fops : FloodOps ops)
    (r : RootNode V ops) (hwf : r.mTable.WF) (htot : ops.TOTAL < 31)
    (hkeys : ∀ e ∈ r.mTable, e.2.isChild = true → e.1.inRange ∧ coordToKey ops e.1 = e.1)
    (outside inside : V) (fuel : Nat) (hfuel : 2 ^ 32 ≤ fuel) :
    (∃ r1, r.signedFloodFill vops fops outside inside fuel = some r1 ∧
      r1.mBackground = outside ∧
      ∀ k, (scanInserts vops fops outside inside r k →
          r1.mTable.find k = some (.tile ⟨inside, false⟩)) ∧
        (¬ scanInserts vops fops outside inside r k →
          r1.mTable.find k = (floodChildren fops outside inside r.mTable).find k)) ∧
    (∀ a b k : Coord, alignDown a.z ops.TOTAL = a.z → b.z - a.z = ops.DIM →
      ¬ inGap ops a b k) :=
  ⟨signedFloodFill_spec vops fops r hwf htot hkeys outside inside fuel hfuel,
    fun _ _ _ ha hd => not_inGap_of_adjacent_cubes ha hd⟩

/-- Instance of C35 (amended) on `sampleGap`: the call with 2^32 units of fuel returns and
sets the background to 2. -/
theorem signedFloodFill_scan_condition_witness :
    sampleGap.mTable.WF ∧ (denseOps Int).TOTAL < 31 ∧
    ∃ r1, sampleGap.signedFloodFill intOps (denseFloodOps intOps) 2 (-2) (2 ^ 32) = some r1 ∧
      r1.mBackground = 2 := by
  obtain ⟨r1, h1, h2, _⟩ := (signedFloodFill_scan_condition intOps (denseFloodOps intOps)
    sampleGap sampleGap_WF (by decide) sampleGap_keys 2 (-2) (2 ^ 32) (le_refl _)).1
  exact ⟨sampleGap_WF, by decide, r1, h1, h2⟩

end RootNode

namespace Morphology

variable {V : Type}

/-! ## Erosion reads the masks of before the pass -/

theorem findLeaf_perm {l l1 : List (Coord × Leaf V)} (hp : l1.Perm l)
    (hnd : (l.map Prod.fst).Nodup) (k : Coord) : findLeaf l1 k = findLeaf l k := by
  have hnd1 : (l1.map Prod.fst).Nodup := (hp.map Prod.fst).nodup_iff.mpr hnd
  cases hf : findLeaf l k with
  | some lf =>
    have hm := hp.mem_iff.mpr (mem_of_findLeaf l k lf hf)
    exact findLeaf_of_mem l1 hnd1 (k, lf) hm
  | none =>
    cases hf1 : findLeaf l1 k with
    | none => rfl
    | some lf1 =>
      have hm := hp.mem_iff.mp (mem_of_findLeaf l1 k lf1 hf1)
      have := findLeaf_of_mem l hnd (k, lf1) hm
      rw [hf] at this
      exact Option.noConfusion this

theorem wf_perm {N : Nat} {t t1 : LeafTree V} (hwf : LeafTree.WF N t)
    (hp : t1.leaves.Perm t.leaves) : LeafTree.WF N t1 :=
  ⟨(hp.map Prod.fst).nodup_iff.mpr hwf.nodup,
    fun e he => hwf.aligned e (hp.mem_iff.mp he),
    fun e he i => hwf.words e (hp.mem_iff.mp he) i⟩

/-- C36 (one erosion pass, before the final pruning, is the six-neighbourhood erosion of the
masks of before the pass): `erodeVoxels` is the pruning of `erodeMasks`; after `erodeMasks`
a voxel of a leaf is active exactly when it was active and its six face neighbours were
active; a voxel `p` outside the leaves is read, before and after, with the state of the tile
or background that covers it, which is how a neighbour in a missing leaf counts; and the
active states after the pass are the same for every order of the leaf list. -/
theorem erodeMasks_six_neighbourhood (N : Nat) (sops : SignOps V) (background : V)
    (t : LeafTree V) (hwf : LeafTree.WF N t) :
    erodeVoxels N sops background t = pruneLevelSet N sops background (erodeMasks N t) ∧
    (∀ q, hasLeaf t (leafKey N q) = true →
      (isValueOn N (erodeMasks N t) q = true ↔
        (isValueOn N t q = true ∧ ∀ p ∈ faceNeighbors q, isValueOn N t p = true))) ∧
    (∀ p, hasLeaf t (leafKey N p) = false →
      isValueOn N t p = (t.tile (leafKey N p)).2 ∧
      isValueOn N (erodeMasks N t) p = isValueOn N t p) ∧
    (∀ t1 : LeafTree V, t1.leaves.Perm t.leaves → t1.tile = t.tile →
      ∀ q, isValueOn N (erodeMasks N t1) q = isValueOn N (erodeMasks N t) q) := by
  refine ⟨rfl, fun q => (isValueOn_erodeMasks N t hwf q).1, ?_, ?_⟩
  · intro p hp
    refine ⟨?_, (isValueOn_erodeMasks N t hwf p).2 hp⟩
    unfold hasLeaf at hp
    unfold isValueOn
    cases hf : findLeaf t.leaves (leafKey N p) with
    | none => rfl
    | some lf =>
      rw [hf] at hp
      exact Bool.noConfusion hp
  · intro t1 hperm htile q
    have hwf1 := wf_perm hwf hperm
    have hon : ∀ p, isValueOn N t1 p = isValueOn N t p := by
      intro p
      unfold isValueOn
      rw [findLeaf_perm hperm hwf.nodup, htile]
    have hleaf : hasLeaf t1 (leafKey N q) = hasLeaf t (leafKey N q) := by
      unfold hasLeaf
      rw [findLeaf_perm hperm hwf.nodup]
    cases hl : hasLeaf t (leafKey N q) with
    | false =>
      rw [(isValueOn_erodeMasks N t hwf q).2 hl,
        (isValueOn_erodeMasks N t1 hwf1 q).2 (hleaf.trans hl)]
      exact hon q
    | true =>
      have h1 := (isValueOn_erodeMasks N t1 hwf1 q).1 (hleaf.trans hl)
      have h2 := (isValueOn_erodeMasks N t hwf q).1 hl
      rw [Bool.eq_iff_iff, h1, h2, hon q]
      constructor
      · rintro ⟨ha, hb⟩
        exact ⟨ha, fun p hp => by rw [← hon p]; exact hb p hp⟩
      · rintro ⟨ha, hb⟩
        exact ⟨ha, fun p hp => by rw [hon p]; exact hb p hp⟩

/-- Instance of C36 on the tree whose only active voxel is (0,0,0): the voxel lies in the
leaf at the origin and is active after the pass exactly when it and its six neighbours were
active before. -/
theorem erodeMasks_six_neighbourhood_witness :
    LeafTree.WF 3 singleVoxel ∧
    (isValueOn 3 (erodeMasks 3 singleVoxel) ⟨0, 0, 0⟩ = true ↔
      (isValueOn 3 singleVoxel ⟨0, 0, 0⟩ = true ∧
        ∀ p ∈ faceNeighbors ⟨0, 0, 0⟩, isValueOn 3 singleVoxel p = true)) :=
  ⟨singleVoxel_WF,
    (erodeMasks_six_neighbourhood 3 intSign 0 singleVoxel singleVoxel_WF).2.1 ⟨0, 0, 0⟩ rfl⟩

end Morphology

namespace RootNode

variable {V : Type} [DecidableEq V] {ops : ChildOps V}

/-! ## Active states under `merge` -/

theorem merge_findCoord (mops : MergeOps ops) (a b : RootNode V ops) (hb : b.mTable.WF)
    (p : Coord) :
    (merge mops a b).1.findCoord p =
      mergedEntry mops b.mBackground a.mBackground (b.findCoord p) (a.findCoord p) :=
  (merge_fold mops b.mBackground (coordToKey ops p) b.mTable a hb).2

theorem denseMerge_keeps_active (c o : DenseChild Int) (q : Coord)
    (h : (denseOps Int).isValueOn c q = true) :
    (denseOps Int).isValueOn ((denseMergeOps Int).merge c o 5 5) q = true := by
  have h1 : (c.vox (DenseChild.bit q.x) (DenseChild.bit q.y) (DenseChild.bit q.z)).2 = true := h
  show (DenseChild.merge c o).isValueOn q = true
  simp only [DenseChild.merge, DenseChild.isValueOn, h1]
  simp [h1]

/-- Counterexample to C37 as stated: `sampleRoot` has the active tile 7 at key (0,0,0),
where `sampleDonor` has a child whose voxel (0,0,0) is inactive. `isValueOn((0,0,0))` is
true before `sampleRoot.merge(sampleDonor)` and false afterwards. -/
theorem merge_deactivates_under_tile :
    sampleDonor.mTable.WF ∧
    sampleRoot.findCoord ⟨0, 0, 0⟩ = some (.tile ⟨7, true⟩) ∧
    sampleDonor.findCoord ⟨0, 0, 0⟩ =
      some (.child (DenseChild.setValueOn (DenseChild.make ⟨0, 0, 0⟩ 5 false) ⟨1, 0, 0⟩ 2)) ∧
    sampleRoot.isValueOn ⟨0, 0, 0⟩ = true ∧
    (merge (denseMergeOps Int) sampleRoot sampleDonor).1.isValueOn ⟨0, 0, 0⟩ = false :=
  ⟨sampleDonor_WF, rfl, rfl, rfl, by decide⟩

/-- C37, amended (active states of the receiving tree under `merge`): let `a.isValueOn(p)`
hold before `a.merge(b)`, the table of `b` being a `std::map`. When `b` has no entry or a
tile at the key of `p`, `a.isValueOn(p)` holds afterwards. When both have a child there,
`a.isValueOn(p)` afterwards is the state in the child-level merge of the two, and it holds
when that merge keeps the active voxels of its receiver active. When `a` has a tile there
and `b` a child, the tile is replaced by the child of `b` and `a.isValueOn(p)` afterwards
is what `b.isValueOn(p)` was. -/
theorem merge_isValueOn (mops : MergeOps ops) (a b : RootNode V ops) (hb : b.mTable.WF)
    (p : Coord) (hon : a.isValueOn p = true) :
    (b.findCoord p = none → (merge mops a b).1.isValueOn p = true) ∧
    (∀ bt, b.findCoord p = some (.tile bt) → (merge mops a b).1.isValueOn p = true) ∧
    (∀ ac bc, a.findCoord p = some (.child ac) → b.findCoord p = some (.child bc) →
      (merge mops a b).1.isValueOn p =
          ops.isValueOn (mops.merge ac bc b.mBackground a.mBackground) p ∧
      ((∀ q, ops.isValueOn ac q = true →
          ops.isValueOn (mops.merge ac bc b.mBackground a.mBackground) q = true) →
        (merge mops a b).1.isValueOn p = true)) ∧
    (∀ t bc, a.findCoord p = some (.tile t) → b.findCoord p = some (.child bc) →
      (merge mops a b).1.isValueOn p = b.isValueOn p) := by
  have hm := merge_findCoord mops a b hb p
  refine ⟨?_, ?_, ?_, ?_⟩
  · intro hn
    rw [hn] at hm
    have h1 : (merge mops a b).1.findCoord p = a.findCoord p := hm
    simp only [isValueOn, h1]
    exact hon
  · intro bt ht
    rw [ht] at hm
    cases ha : a.findCoord p with
    | none =>
      simp only [isValueOn, ha] at hon
      exact Bool.noConfusion hon
    | some e =>
      rw [ha] at hm
      have h1 : (merge mops a b).1.findCoord p = some e := hm
      simp only [isValueOn, h1]
      simp only [isValueOn, ha] at hon
      exact hon
  · intro ac bc ha hbc
    rw [ha, hbc] at hm
    have h1 : (merge mops a b).1.findCoord p =
        some (.child (mops.merge ac bc b.mBackground a.mBackground)) := hm
    have h2 : (merge mops a b).1.isValueOn p =
        ops.isValueOn (mops.merge ac bc b.mBackground a.mBackground) p := by
      simp only [isValueOn, h1]
    refine ⟨h2, fun hkeep => ?_⟩
    rw [h2]
    simp only [isValueOn, ha] at hon
    exact hkeep p hon
  · intro t bc ha hbc
    rw [ha, hbc] at hm
    have h1 : (merge mops a b).1.findCoord p = some (.child bc) := hm
    simp only [isValueOn, h1, hbc]

/-- Instance of C37 (amended): the voxel (5,0,0) is active in the child of `sampleRoot` at
key (4,0,0), where `sampleDonor` has a child too, and stays active under the merge. -/
theorem merge_isValueOn_witness :
    sampleDonor.mTable.WF ∧ sampleRoot.isValueOn ⟨5, 0, 0⟩ = true ∧
    (merge (denseMergeOps Int) sampleRoot sampleDonor).1.isValueOn ⟨5, 0, 0⟩ = true :=
  ⟨sampleDonor_WF, rfl,
    ((merge_isValueOn (denseMergeOps Int) sampleRoot sampleDonor sampleDonor_WF ⟨5, 0, 0⟩
      rfl).2.2.1 _ _ rfl rfl).2 (fun q h => denseMerge_keeps_active _ _ q h)⟩

end RootNode

namespace RootNode

variable {V : Type} [DecidableEq V] {ops : ChildOps V}

/-! ## Active tiles under `signedFloodFill` -/

theorem sampleScan_keys : ∀ e ∈ sampleScan.mTable, e.2.isChild = true →
    e.1.inRange ∧ coordToKey (denseOps Int) e.1 = e.1 := by
  intro e he _
  simp only [sampleScan, List.mem_cons, List.mem_singleton, List.not_mem_nil, or_false] at he
  rcases he with rfl | rfl | rfl
  · exact ⟨by simp [Coord.inRange], rfl⟩
  · exact ⟨by simp [Coord.inRange], rfl⟩
  · exact ⟨by simp [Coord.inRange], rfl⟩

theorem sampleScan_inserts :
    scanInserts intOps (denseFloodOps intOps) 2 (-2) sampleScan ⟨0, 0, 2⟩ := by
  refine ⟨⟨0, 0, 0⟩, ⟨0, 0, 6⟩, _, _, ⟨⟨_, rfl⟩, ⟨_, rfl⟩, by decide, ?_⟩, rfl, rfl, rfl, rfl,
    by decide, by decide, by decide, rfl, rfl, by decide, by decide, by decide⟩
  intro k c hk hb
  have hm := mem_of_find hk
  simp only [sampleScan, List.mem_cons, List.mem_singleton, List.not_mem_nil, or_false] at hm
  rcases hm with h | h | h
  · have hk0 := (Prod.mk.inj h).1
    subst hk0
    exact Bool.noConfusion hb.1
  · exact NodeStruct.noConfusion (Prod.mk.inj h).2
  · have hk0 := (Prod.mk.inj h).1
    subst hk0
    exact Bool.noConfusion hb.2

/-- Counterexample to C38 as stated: `sampleScan` holds the active tile of value 7 at the
key (0,0,2), on the z-scanline between the children at (0,0,0) and (0,0,6), whose facing
values are negative. `signedFloodFill(2, -2)` returns, and afterwards the key holds the
inactive tile of value -2: the voxel (0,0,2), active with value 7 before, is inactive with
value -2. -/
theorem signedFloodFill_overwrites_active_tile :
    sampleScan.mTable.WF ∧
    sampleScan.mTable.find ⟨0, 0, 2⟩ = some (.tile ⟨7, true⟩) ∧
    sampleScan.isValueOn ⟨0, 0, 2⟩ = true ∧ sampleScan.getValue ⟨0, 0, 2⟩ = 7 ∧
    ∃ r1, sampleScan.signedFloodFill intOps (denseFloodOps intOps) 2 (-2) (2 ^ 32) = some r1 ∧
      r1.mTable.find ⟨0, 0, 2⟩ = some (.tile ⟨-2, false⟩) ∧
      r1.isValueOn ⟨0, 0, 2⟩ = false ∧ r1.getValue ⟨0, 0, 2⟩ = -2 := by
  obtain ⟨r1, h1, _, h3⟩ := signedFloodFill_spec intOps (denseFloodOps intOps) sampleScan
    sampleScan_WF (by decide) sampleScan_keys 2 (-2) (2 ^ 32) (le_refl _)
  have hf := (h3 ⟨0, 0, 2⟩).1 sampleScan_inserts
  have hk : coordToKey (denseOps Int) ⟨0, 0, 2⟩ = ⟨0, 0, 2⟩ := rfl
  refine ⟨sampleScan_WF, rfl, rfl, rfl, r1, h1, hf, ?_, ?_⟩
  · simp only [isValueOn, findCoord, hk, hf]
  · simp only [getValue, findCoord, hk, hf]


theorem sampleRoot_keys : ∀ e ∈ sampleRoot.mTable, e.2.isChild = true →
    e.1.inRange ∧ coordToKey (denseOps Int) e.1 = e.1 := by
  intro e he _
  simp only [sampleRoot, List.mem_cons, List.mem_singleton, List.not_mem_nil, or_false] at he
  rcases he with rfl | rfl | rfl
  · exact ⟨by simp [Coord.inRange], rfl⟩
  · exact ⟨by simp [Coord.inRange], rfl⟩
  · exact ⟨by simp [Coord.inRange], rfl⟩

theorem sampleRoot_child_key {k : Coord} {c : DenseChild Int}
    (h : sampleRoot.mTable.find k = some (.child c)) : k = ⟨4, 0, 0⟩ := by
  have hm := mem_of_find h
  simp only [sampleRoot, List.mem_cons, List.mem_singleton, List.not_mem_nil, or_false] at hm
  rcases hm with h1 | h1 | h1
  · exact NodeStruct.noConfusion (Prod.mk.inj h1).2
  · exact NodeStruct.noConfusion (Prod.mk.inj h1).2
  · exact (Prod.mk.inj h1).1

theorem sampleRoot_no_insert (outside inside : Int) (k : Coord) :
    ¬ scanInserts intOps (denseFloodOps intOps) outside inside sampleRoot k := by
  rintro ⟨a, b, ca, cb, hadj, ha, hb, _⟩
  have h1 := sampleRoot_child_key ha
  have h2 := sampleRoot_child_key hb
  have hlt := hadj.2.2.1
  rw [h1, h2, Coord.lt_irrefl] at hlt
  exact Bool.noConfusion hlt

/-- C38, amended (active root tiles under `signedFloodFill`): on a root whose children sit
at aligned `Int32` keys the call returns, and a root entry that was an active tile is still
there afterwards with the same value and active state, unless its key is an aligned z-step
strictly between two children whose keys are neighbours among the child keys, differ only
in `z` and by more than one `Child::DIM`, and whose facing values are negative: at such a
key the loop assigns the inactive tile of value `inside`, which replaces the active tile. -/
theorem signedFloodFill_active_tiles (vops : ValueOps V) (fops : FloodOps ops)
    (r : RootNode V ops) (hwf : r.mTable.WF) (htot : ops.TOTAL < 31)
    (hkeys : ∀ e ∈ r.mTable, e.2.isChild = true → e.1.inRange ∧ coordToKey ops e.1 = e.1)
    (outside inside : V) (fuel : Nat) (hfuel : 2 ^ 32 ≤ fuel) :
    ∃ r1, r.signedFloodFill vops fops outside inside fuel = some r1 ∧
      ∀ k t, r.mTable.find k = some (.tile t) → t.active = true →
        (¬ scanInserts vops fops outside inside r k → r1.mTable.find k = some (.tile t)) ∧
        (scanInserts vops fops outside inside r k →
          r1.mTable.find k = some (.tile ⟨inside, false⟩)) := by
  obtain ⟨r1, h1, _, h3⟩ := signedFloodFill_spec vops fops r hwf htot hkeys outside inside
    fuel hfuel
  refine ⟨r1, h1, fun k t hk _ => ⟨fun hno => ?_, fun hin => (h3 k).1 hin⟩⟩
  rw [(h3 k).2 hno, find_floodChildren, hk]

/-- Instance of C38 (amended): the sample root has one child only, so no key lies between
two children, and its active tile of value 7 at key (0,0,0) is kept by
`signedFloodFill(5, -5)`. -/
theorem signedFloodFill_active_tiles_witness :
    sampleRoot.mTable.WF ∧ sampleRoot.mTable.find ⟨0, 0, 0⟩ = some (.tile ⟨7, true⟩) ∧
    ∃ r1, sampleRoot.signedFloodFill intOps (denseFloodOps intOps) 5 (-5) (2 ^ 32) = some r1 ∧
      r1.mTable.find ⟨0, 0, 0⟩ = some (.tile ⟨7, true⟩) := by
  obtain ⟨r1, h1, h2⟩ := signedFloodFill_active_tiles intOps (denseFloodOps intOps)
    sampleRoot sampleRoot_WF (by decide) sampleRoot_keys 5 (-5) (2 ^ 32) (le_refl _)
  exact ⟨sampleRoot_WF, rfl, r1, h1,
    (h2 ⟨0, 0, 0⟩ ⟨7, true⟩ rfl rfl).1 (sampleRoot_no_insert 5 (-5) ⟨0, 0, 0⟩)⟩

end RootNode

namespace RootNode

variable {V : Type} [DecidableEq V] {ops : ChildOps V}

/-! ## Decoding of the legacy root table -/

/-- The code and the specification decode the x and y components of every slot alike; the
z component of the code carries the offset of the y axis. -/
theorem legacyOrigin_components (ops : ChildOps V) (h : LegacyHeader) (i : Nat) :
    (legacyOrigin ops h i).x = (offset2coord ops h i).x ∧
    (legacyOrigin ops h i).y = (offset2coord ops h i).y ∧
    (legacyOrigin ops h i).z =
      wrap32 (wrap32 ((i % 2 ^ (h.log2DimY + h.log2DimZ) % 2 ^ h.log2DimZ : Nat) + h.offset.y)
        * 2 ^ ops.TOTAL) :=
  ⟨rfl, rfl, rfl⟩

/-- C39 (the code at the failing input): for a child of side 2 and the stored index range
from (0,0,2) to (3,3,5) the header loop computes the offsets (0,0,1), the log2 sizes
(1,1,1), the same range again and 8 slots. Slot 0 is decoded to the origin
(0,0,0), not to `offset2coord(0)` = (0,0,2), and the origin lies outside the range; slot 1
is decoded to (0,0,2), the origin that belongs to slot 0. -/
theorem legacyOrigin_uses_y_offset :
    legacyHeader (denseOps Int) ⟨0, 0, 2⟩ ⟨3, 3, 5⟩ =
      ⟨⟨0, 0, 1⟩, 1, 1, 1, ⟨0, 0, 2⟩, ⟨3, 3, 5⟩, 8⟩ ∧
    legacyOrigin (denseOps Int) (legacyHeader (denseOps Int) ⟨0, 0, 2⟩ ⟨3, 3, 5⟩) 0 =
      ⟨0, 0, 0⟩ ∧
    offset2coord (denseOps Int) (legacyHeader (denseOps Int) ⟨0, 0, 2⟩ ⟨3, 3, 5⟩) 0 =
      ⟨0, 0, 2⟩ ∧
    (CoordBBox.mk (legacyHeader (denseOps Int) ⟨0, 0, 2⟩ ⟨3, 3, 5⟩).rangeMin
      (legacyHeader (denseOps Int) ⟨0, 0, 2⟩ ⟨3, 3, 5⟩).rangeMax).isInside
        (legacyOrigin (denseOps Int) (legacyHeader (denseOps Int) ⟨0, 0, 2⟩ ⟨3, 3, 5⟩) 0) =
      false ∧
    legacyOrigin (denseOps Int) (legacyHeader (denseOps Int) ⟨0, 0, 2⟩ ⟨3, 3, 5⟩) 1 =
      ⟨0, 0, 2⟩ := by
  refine ⟨by decide, by decide, by decide, by decide, by decide⟩

end RootNode

namespace Morphology

variable {V : Type}

/-! ## Mask word indices of the morphology kernels -/

theorem rowIndex_eq (N x y : Nat) : rowIndex N x y = (x : Int) * (DIM N : Int) + y := by
  unfold rowIndex DIM
  rw [Nat.shiftLeft_eq]
  push_cast
  rfl

theorem row_range {D A B : Int} (hA0 : 0 ≤ A) (hA : A < D) (hB0 : 0 ≤ B) (hB : B < D) :
    0 ≤ A * D + B ∧ A * D + B < D * D := by
  constructor
  · have : 0 ≤ A * D := mul_nonneg hA0 (by omega)
    omega
  · have h1 : (A + 1) * D ≤ D * D := by
      have : A + 1 ≤ D := by omega
      have := mul_le_mul_of_nonneg_right this (show (0 : Int) ≤ D by omega)
      linarith
    have h2 : (A + 1) * D = A * D + D := by ring
    omega

theorem rowAccesses_range (N x y : Nat) (hx : x < DIM N) (hy : y < DIM N) :
    ∀ a ∈ rowAccesses N x y, 0 ≤ a.2 ∧ a.2 < (DIM N : Int) * DIM N := by
  have hX0 : (0 : Int) ≤ x := Int.ofNat_nonneg x
  have hY0 : (0 : Int) ≤ y := Int.ofNat_nonneg y
  have hX : (x : Int) < DIM N := by exact_mod_cast hx
  have hY : (y : Int) < DIM N := by exact_mod_cast hy
  intro a ha
  simp only [rowAccesses, rowIndex_eq, neighborShift, List.mem_cons, List.mem_singleton,
    List.not_mem_nil, or_false] at ha
  rcases ha with rfl | rfl | rfl | rfl | rfl | rfl | rfl
  · exact row_range hX0 hX hY0 hY
  · split
    · rename_i h
      have h1 : (1 : Int) ≤ x := by exact_mod_cast h
      have := row_range (show (0 : Int) ≤ x - 1 by omega) (show (x : Int) - 1 < DIM N by omega)
        hY0 hY
      have e : ((x : Int) - 1) * (DIM N : Int) + y = (x : Int) * DIM N + y - DIM N := by ring
      rw [e] at this
      exact this
    · rename_i h
      have h1 : x = 0 := by omega
      subst h1
      have := row_range (show (0 : Int) ≤ (DIM N : Int) - 1 by omega)
        (show (DIM N : Int) - 1 < DIM N by omega) hY0 hY
      have e : ((DIM N : Int) - 1) * (DIM N : Int) + y =
          ((0 : Nat) : Int) * DIM N + y - ((DIM N : Int) - 1) * (0 + -1 * DIM N) := by
        push_cast; ring
      rw [e] at this
      exact this
  · split
    · rename_i h
      have h1 : (x : Int) + 1 < DIM N := by omega
      have := row_range (show (0 : Int) ≤ x + 1 by omega) h1 hY0 hY
      have e : ((x : Int) + 1) * (DIM N : Int) + y = (x : Int) * DIM N + y + DIM N := by ring
      rw [e] at this
      exact this
    · rename_i h
      have h1 : (x : Int) = (DIM N : Int) - 1 := by omega
      have := row_range (show (0 : Int) ≤ 0 by omega) (show (0 : Int) < DIM N by omega) hY0 hY
      have e : (0 : Int) * (DIM N : Int) + y =
          (x : Int) * DIM N + y - ((DIM N : Int) - 1) * (0 + 1 * DIM N) := by
        rw [h1]; ring
      rw [e] at this
      exact this
  · split
    · rename_i h
      have h1 : (1 : Int) ≤ y := by exact_mod_cast h
      have := row_range hX0 hX (show (0 : Int) ≤ y - 1 by omega)
        (show (y : Int) - 1 < DIM N by omega)
      have e : (x : Int) * (DIM N : Int) + (y - 1) = (x : Int) * DIM N + y - 1 := by ring
      rw [e] at this
      exact this
    · rename_i h
      have h1 : y = 0 := by omega
      subst h1
      have := row_range hX0 hX (show (0 : Int) ≤ (DIM N : Int) - 1 by omega)
        (show (DIM N : Int) - 1 < DIM N by omega)
      have e : (x : Int) * (DIM N : Int) + ((DIM N : Int) - 1) =
          (x : Int) * DIM N + ((0 : Nat) : Int) - ((DIM N : Int) - 1) * (-1 + 0 * DIM N) := by
        push_cast; ring
      rw [e] at this
      exact this
  · split
    · rename_i h
      have h1 : (y : Int) + 1 < DIM N := by omega
      have := row_range hX0 hX (show (0 : Int) ≤ y + 1 by omega) h1
      have e : (x : Int) * (DIM N : Int) + (y + 1) = (x : Int) * DIM N + y + 1 := by ring
      rw [e] at this
      exact this
    · rename_i h
      have h1 : (y : Int) = (DIM N : Int) - 1 := by omega
      have := row_range hX0 hX (show (0 : Int) ≤ 0 by omega) (show (0 : Int) < DIM N by omega)
      have e : (x : Int) * (DIM N : Int) + 0 =
          (x : Int) * DIM N + y - ((DIM N : Int) - 1) * (1 + 0 * DIM N) := by
        rw [h1]; ring
      rw [e] at this
      exact this
  · have := row_range hX0 hX hY0 hY
    have e : (x : Int) * (DIM N : Int) + y =
        (x : Int) * DIM N + y - ((DIM N : Int) - 1) * (0 + 0 * DIM N) := by ring
    rw [e] at this
    exact this
  · have := row_range hX0 hX hY0 hY
    have e : (x : Int) * (DIM N : Int) + y =
        (x : Int) * DIM N + y - ((DIM N : Int) - 1) * (0 + 0 * DIM N) := by ring
    rw [e] at this
    exact this

theorem neighbor_rows (N x y : Nat) (hx : x < DIM N) (hy : y < DIM N) :
    (x = 0 → rowIndex N x y - neighborShift N (-1) 0 = rowIndex N (DIM N - 1) y) ∧
    (x = DIM N - 1 → rowIndex N x y - neighborShift N 1 0 = rowIndex N 0 y) ∧
    (y = 0 → rowIndex N x y - neighborShift N 0 (-1) = rowIndex N x (DIM N - 1)) ∧
    (y = DIM N - 1 → rowIndex N x y - neighborShift N 0 1 = rowIndex N x 0) ∧
    rowIndex N x y - neighborShift N 0 0 = rowIndex N x y := by
  have hD := DIM_pos N
  have hc : ((DIM N - 1 : Nat) : Int) = (DIM N : Int) - 1 := by omega
  simp only [rowIndex_eq, neighborShift, hc]
  refine ⟨?_, ?_, ?_, ?_, ?_⟩
  · intro h
    subst h
    push_cast
    ring
  · intro h
    have h1 : (x : Int) = (DIM N : Int) - 1 := by omega
    rw [h1]
    push_cast
    ring
  · intro h
    subst h
    push_cast
    ring
  · intro h
    have h1 : (y : Int) = (DIM N : Int) - 1 := by omega
    rw [h1]
    push_cast
    ring
  · ring

theorem rowIndex_inj (N x y x1 y1 : Nat) (hy : y < DIM N) (hy1 : y1 < DIM N)
    (h : rowIndex N x y = rowIndex N x1 y1) : x = x1 ∧ y = y1 := by
  rw [rowIndex_eq, rowIndex_eq] at h
  have h2 : x * DIM N + y = x1 * DIM N + y1 := by exact_mod_cast h
  exact digits_unique hy hy1 h2

/-- The word that `scatter` writes in the neighbour leaf `l`. -/
theorem scatter_shift (N : Nat) (dx dy dz : Int) (t : LeafTree V) (nb : Neighbor)
    (xyz : Coord) (indx : Int) (w : Nat) (l : Coord) (hi : nb.init = false)
    (hl : nb.leaf = some l) :
    scatter N dx dy dz t nb xyz indx w =
      (orWord N t l (indx - neighborShift N dx dy) w, nb) := by
  simp [scatter, hi, hl, neighborShift]

/-- The word that `gather` reads in the neighbour leaf `l`. -/
theorem gather_shift (N : Nat) (dx dy dz : Int) (t : LeafTree V) (nb : Neighbor)
    (xyz : Coord) (indx : Int) (l : Coord) (lf : Leaf V) (hi : nb.init = false)
    (hl : nb.leaf = some l) (hf : findLeaf t.leaves l = some lf) :
    (gather N dx dy dz t nb xyz indx).1 = lf.mask (indx - neighborShift N dx dy).toNat := by
  simp [gather, hi, hl, hf, neighborShift]

/-- C40 (mask word indices of `dilateVoxels` and `erodeVoxels`): for every leaf log2
dimension `N` and every row `(x, y)` with `x, y < DIM`, every mask word index addressed
while the row is processed, `n = (x << N) + y`, `n - DIM` only when `x > 0`, `n + DIM` only
when `x < DIM - 1`, `n - 1` only when `y > 0`, `n + 1` only when `y < DIM - 1`, and
`indx - (DIM-1)*(DY + DX*DIM)` inside `scatter` and `gather`, lies in `[0, DIM^2)`; rows
have distinct indices; the neighbour index is that of the row on the opposite face with the
other coordinate unchanged, and of the same row for the z directions; `scatter` and
`gather` address the neighbour word at `indx - neighborShift`; and the words
`oldWord << (DIM-1)`, truncated to `DIM` bits, and `oldWord >> (DIM-1)` carry exactly the
bit `z = 0` to `z = DIM-1` and the bit `z = DIM-1` to `z = 0`. -/
theorem maskWordIndex_in_range (N x y : Nat) (hx : x < DIM N) (hy : y < DIM N) :
    (∀ a ∈ rowAccesses N x y, 0 ≤ a.2 ∧ a.2 < (DIM N : Int) * DIM N) ∧
    rowIndex N x y = (x : Int) * (DIM N : Int) + y ∧
    (∀ x1 y1, y1 < DIM N → rowIndex N x y = rowIndex N x1 y1 → x = x1 ∧ y = y1) ∧
    ((x = 0 → rowIndex N x y - neighborShift N (-1) 0 = rowIndex N (DIM N - 1) y) ∧
      (x = DIM N - 1 → rowIndex N x y - neighborShift N 1 0 = rowIndex N 0 y) ∧
      (y = 0 → rowIndex N x y - neighborShift N 0 (-1) = rowIndex N x (DIM N - 1)) ∧
      (y = DIM N - 1 → rowIndex N x y - neighborShift N 0 1 = rowIndex N x 0) ∧
      rowIndex N x y - neighborShift N 0 0 = rowIndex N x y) ∧
    (∀ (dx dy dz : Int) (t : LeafTree V) (nb : Neighbor) (xyz : Coord) (indx : Int) (w : Nat)
        (l : Coord), nb.init = false → nb.leaf = some l →
      scatter N dx dy dz t nb xyz indx w =
        (orWord N t l (indx - neighborShift N dx dy) w, nb)) ∧
    (∀ (dx dy dz : Int) (t : LeafTree V) (nb : Neighbor) (xyz : Coord) (indx : Int)
        (l : Coord) (lf : Leaf V), nb.init = false → nb.leaf = some l →
      findLeaf t.leaves l = some lf →
      (gather N dx dy dz t nb xyz indx).1 = lf.mask (indx - neighborShift N dx dy).toNat) ∧
    (∀ oldWord z, ((oldWord <<< (DIM N - 1)) % 2 ^ DIM N).testBit z = true ↔
      (z = DIM N - 1 ∧ oldWord.testBit 0 = true)) ∧
    (∀ oldWord z, oldWord < 2 ^ DIM N →
      ((oldWord >>> (DIM N - 1)).testBit z = true ↔
        (z = 0 ∧ oldWord.testBit (DIM N - 1) = true))) :=
  ⟨rowAccesses_range N x y hx hy, rowIndex_eq N x y,
    fun x1 y1 hy1 h => rowIndex_inj N x y x1 y1 hy hy1 h, neighbor_rows N x y hx hy,
    fun dx dy dz t nb xyz indx w l hi hl => scatter_shift N dx dy dz t nb xyz indx w l hi hl,
    fun dx dy dz t nb xyz indx l lf hi hl hf =>
      gather_shift N dx dy dz t nb xyz indx l lf hi hl hf,
    fun oldWord z => negZ_bit (DIM N) oldWord z (DIM_pos N),
    fun oldWord z hw => posZ_bit (DIM N) oldWord z (DIM_pos N) hw⟩

/-- Instance of C40 for the leaf of side 8 and the row `x = 0`, `y = 7`: the words addressed
are 7 in the leaf itself, 63 in the neighbour in the negative x direction, 15 and 6 in the
leaf, 0 in the neighbour in the positive y direction and 7 in the two z neighbours, all
below 64. -/
theorem maskWordIndex_in_range_witness :
    0 < DIM 3 ∧ 7 < DIM 3 ∧
    rowAccesses 3 0 7 =
      [(none, 7), (some 0, 63), (none, 15), (none, 6), (some 3, 0), (some 4, 7), (some 5, 7)] ∧
    ∀ a ∈ rowAccesses 3 0 7, 0 ≤ a.2 ∧ a.2 < (DIM 3 : Int) * DIM 3 :=
  ⟨by decide, by decide, by decide,
    (@maskWordIndex_in_range Int 3 0 7 (by decide) (by decide)).1⟩

end Morphology

end OpenVDB
